import Mathlib

/-!
# STRUMPACK hierarchical kernels: HBS apply, HSS Schur complement, HSS inertia

A shallow embedding of

* `src/HBS/HBSMatrix.apply.hpp`  (`WorkApply::split`, `apply_fwd`, `apply_bwd`, `apply`),
* `src/HSS/HSSMatrix.Schur.hpp`  (`Schur_update`, `Schur_product_direct`,
  `Schur_product_indirect`, `apply_UtVt_big`, `apply_UV_big`),
* `src/HSS/HSSMatrix.inertia.hpp` (`inertia`, `readInertiaOffBlockDiag`, `inertia_recursive`),

in exact arithmetic over a commutative ring with a conjugation (`StarRing`).
Dense storage is a pair of dimensions and an entry function; only the entries
inside the dimensions are meaningful.  Every operation that the C++ guards with
a dimension assertion returns `Option` and yields `none` on a mismatch.
The sign reader `readInertiaOffBlockDiag` is given a second time with a rounding
function applied after every operation, and IEEE 754 binary64 as an instance of it.
-/

set_option linter.unusedSectionVars false
set_option linter.unusedVariables false
set_option linter.unnecessarySeqFocus false

namespace Strumpack

/-! ## Dense matrices -/

/-- Dense matrix storage: `rows`, `cols` and the entries `val i j` (0-based). -/
structure DenseM (R : Type) where
  rows : Nat
  cols : Nat
  val : Nat → Nat → R

/-- BLAS transposition flag as used by `gemm` (`Trans::N`, `Trans::C`). -/
inductive Trans where
  | N
  | C
  deriving DecidableEq

/-- Inner product loop of `gemm`: `sum_{k < n} f k`. -/
def dot {R : Type} [CommRing R] : Nat → (Nat → R) → R
  | 0, _ => 0
  | n + 1, f => dot n f + f n

namespace DenseM

variable {R : Type} [CommRing R] [StarRing R]

/-- Default-constructed `DenseMatrix`: the 0 x 0 matrix. -/
def empty : DenseM R := ⟨0, 0, fun _ _ => 0⟩

/-- `DenseM_t(m, n)`: storage of the given size whose contents are whatever the
allocator left there, represented by `mem`. -/
def uninit (mem : Nat → Nat → R) (m n : Nat) : DenseM R := ⟨m, n, mem⟩

/-- Matrix with the given dimensions and all entries zero (`zero()` on a block). -/
def zeros (m n : Nat) : DenseM R := ⟨m, n, fun _ _ => 0⟩

/-- Conjugate transpose `A^C`. -/
def ctrans (A : DenseM R) : DenseM R := ⟨A.cols, A.rows, fun i j => star (A.val j i)⟩

/-- The operand `op(A)` of `gemm`. -/
def op : Trans → DenseM R → DenseM R
  | Trans.N, A => A
  | Trans.C, A => A.ctrans

/-- Modelled from the spec: `DenseMatrix::transpose()` is not among the sources; the
spec and the doc comment of `Schur_update` state the result with `^C`
(`Phi = expand(child1, DUB01^C)`), so it is the conjugate transpose. -/
def transpose (A : DenseM R) : DenseM R := A.ctrans

/-- Exact product `A * B`; the inner loop runs over the columns of `A`. -/
def mul (A B : DenseM R) : DenseM R :=
  ⟨A.rows, B.cols, fun i j => dot A.cols (fun k => A.val i k * B.val k j)⟩

/-- Entrywise sum, with the dimensions of the left operand. -/
def add (A B : DenseM R) : DenseM R :=
  ⟨A.rows, A.cols, fun i j => A.val i j + B.val i j⟩

/-- Entrywise difference, with the dimensions of the left operand. -/
def sub (A B : DenseM R) : DenseM R :=
  ⟨A.rows, A.cols, fun i j => A.val i j - B.val i j⟩

/-- Scalar multiple. -/
def smul (a : R) (A : DenseM R) : DenseM R :=
  ⟨A.rows, A.cols, fun i j => a * A.val i j⟩

/-- Block diagonal matrix `blockdiag(A, B)`. -/
def blockdiag (A B : DenseM R) : DenseM R :=
  ⟨A.rows + B.rows, A.cols + B.cols, fun i j =>
    if i < A.rows then (if j < A.cols then A.val i j else 0)
    else (if j < A.cols then 0 else B.val (i - A.rows) (j - A.cols))⟩

/-- The 2 x 2 block matrix `[[A, B], [C, D]]`. -/
def fromBlocks (A B C D : DenseM R) : DenseM R :=
  ⟨A.rows + D.rows, A.cols + D.cols, fun i j =>
    if i < A.rows then (if j < A.cols then A.val i j else B.val i (j - A.cols))
    else (if j < A.cols then C.val (i - A.rows) j else D.val (i - A.rows) (j - A.cols))⟩

/-- Rows `[i, i + m)` of `A`, all columns: the slice a row window refers to. -/
def rowSlice (A : DenseM R) (i m : Nat) : DenseM R :=
  ⟨m, A.cols, fun a b => A.val (i + a) b⟩

/-- Two matrices agree: same dimensions and same entries inside them. -/
def Same (A B : DenseM R) : Prop :=
  A.rows = B.rows ∧ A.cols = B.cols ∧
    ∀ i j, i < A.rows → j < A.cols → A.val i j = B.val i j

/-- `DenseMatrixWrapper(m, n, M, i, j)` / `DenseM_t(m, n, M, i, j)`: the `m x n`
block of `M` with top-left corner `(i, j)`; the block must lie inside `M`. -/
def wrapper (m n : Nat) (M : DenseM R) (i j : Nat) : Option (DenseM R) :=
  if i + m ≤ M.rows ∧ j + n ≤ M.cols then
    some ⟨m, n, fun a b => M.val (i + a) (j + b)⟩
  else none

/-- Write-back of a wrapper: `M` with the block at `(i, j)` replaced by `blk`. -/
def store (M : DenseM R) (i j : Nat) (blk : DenseM R) : DenseM R :=
  ⟨M.rows, M.cols, fun a b =>
    if i ≤ a ∧ a < i + blk.rows ∧ j ≤ b ∧ b < j + blk.cols then blk.val (a - i) (b - j)
    else M.val a b⟩

/-- `copy(A, B, i, j)`: copy all of `A` into `B` at `(i, j)`; `A` must fit. -/
def copy (A B : DenseM R) (i j : Nat) : Option (DenseM R) :=
  if i + A.rows ≤ B.rows ∧ j + A.cols ≤ B.cols then some (B.store i j A) else none

/-- `B.copy(A, i, j)`: fill `B` from the block of `A` with corner `(i, j)`. -/
def copyFrom (B A : DenseM R) (i j : Nat) : Option (DenseM R) :=
  wrapper B.rows B.cols A i j

/-- The stacked matrix `[A; B]` with the column count of `A`. -/
def vstack (A B : DenseM R) : DenseM R :=
  ⟨A.rows + B.rows, A.cols, fun i j =>
    if i < A.rows then A.val i j else B.val (i - A.rows) j⟩

/-- `vconcat(A, B)`: vertical concatenation; the column counts must agree. -/
def vconcat (A B : DenseM R) : Option (DenseM R) :=
  if A.cols = B.cols then some (vstack A B) else none

/-- In-place `gemm(ta, tb, alpha, A, B, beta, C)`: `C <- alpha op(A) op(B) + beta C`. -/
def gemm (ta tb : Trans) (alpha : R) (A B : DenseM R) (beta : R) (C : DenseM R) :
    Option (DenseM R) :=
  if (op ta A).cols = (op tb B).rows ∧ C.rows = (op ta A).rows ∧ C.cols = (op tb B).cols then
    some (add (smul alpha (mul (op ta A) (op tb B))) (smul beta C))
  else none

/-- Value-returning `gemm(ta, tb, alpha, A, B)`: `alpha op(A) op(B)`. -/
def gemmR (ta tb : Trans) (alpha : R) (A B : DenseM R) : Option (DenseM R) :=
  if (op ta A).cols = (op tb B).rows then
    some (smul alpha (mul (op ta A) (op tb B)))
  else none

/-- `A.add(B)`: in-place entrywise sum; the dimensions must agree. -/
def addInPlace (A B : DenseM R) : Option (DenseM R) :=
  if A.rows = B.rows ∧ A.cols = B.cols then some (A.add B) else none

/-- Identity matrix of order `n` (`eye()`). -/
def eye (n : Nat) : DenseM R := ⟨n, n, fun i j => if i = j then 1 else 0⟩

/-- Matrix given by a list of rows (for concrete inputs). -/
def ofRows (m n : Nat) (l : List (List R)) : DenseM R :=
  ⟨m, n, fun i j => (l.getD i []).getD j 0⟩

end DenseM

/-! ## HBS matrices and the apply work context -/

/-- HBS tree node (`HBSMatrix`): dimensions, bases `U_`, `V_`, block `D_`
(leaf: diagonal block; internal: coupling block) and the two children. -/
inductive HBSMatrix (R : Type) where
  | leaf (rows cols : Nat) (U V D : DenseM R)
  | node (rows cols : Nat) (U V D : DenseM R) (c0 c1 : HBSMatrix R)

namespace HBSMatrix

variable {R : Type}

def rows : HBSMatrix R → Nat
  | leaf r _ _ _ _ => r
  | node r _ _ _ _ _ _ => r

def cols : HBSMatrix R → Nat
  | leaf _ c _ _ _ => c
  | node _ c _ _ _ _ _ => c

def dims (t : HBSMatrix R) : Nat × Nat := (t.rows, t.cols)

def U_ : HBSMatrix R → DenseM R
  | leaf _ _ U _ _ => U
  | node _ _ U _ _ _ _ => U

def V_ : HBSMatrix R → DenseM R
  | leaf _ _ _ V _ => V
  | node _ _ _ V _ _ _ => V

def D_ : HBSMatrix R → DenseM R
  | leaf _ _ _ _ D => D
  | node _ _ _ _ D _ _ => D

end HBSMatrix

/-- `WorkApply` of the HBS apply: `offset`, `lvl`, `q`, `u` and the vector `c`
of children, which is either empty (`bare`) or of size two (`forked`). -/
inductive WorkApply (R : Type) where
  | bare (offset : Nat × Nat) (lvl : Nat) (q u : DenseM R)
  | forked (offset : Nat × Nat) (lvl : Nat) (q u : DenseM R) (c0 c1 : WorkApply R)

namespace WorkApply

variable {R : Type} [CommRing R] [StarRing R]

def offset : WorkApply R → Nat × Nat
  | bare o _ _ _ => o
  | forked o _ _ _ _ _ => o

def lvl : WorkApply R → Nat
  | bare _ l _ _ => l
  | forked _ l _ _ _ _ => l

def q : WorkApply R → DenseM R
  | bare _ _ q _ => q
  | forked _ _ q _ _ _ => q

def u : WorkApply R → DenseM R
  | bare _ _ _ u => u
  | forked _ _ _ u _ _ => u

/-- Assignment `w.q = q`. -/
def setQ : WorkApply R → DenseM R → WorkApply R
  | bare o l _ u, q => bare o l q u
  | forked o l _ u a b, q => forked o l q u a b

/-- Assignment `w.u = u`. -/
def setU : WorkApply R → DenseM R → WorkApply R
  | bare o l q _, u => bare o l q u
  | forked o l q _ a b, u => forked o l q u a b

/-- A default-constructed `WorkApply`: zero offset, `lvl = 0`, no children. -/
def fresh : WorkApply R := bare (0, 0) 0 DenseM.empty DenseM.empty

/-- `WorkApply::split(dim)`. -/
def split (w : WorkApply R) (dim : Nat × Nat) : WorkApply R :=
  match w with
  | bare o l q u =>
      forked o l q u
        (bare o (l + 1) DenseM.empty DenseM.empty)
        (bare (o.1 + dim.1, o.2 + dim.2) (l + 1) DenseM.empty DenseM.empty)
  | forked o l q u a b => forked o l q u a b

end WorkApply

namespace HBSMatrix

variable {R : Type} [CommRing R] [StarRing R]

open DenseM

/-- `HBSMatrix::apply_fwd(b, w)`; returns the updated work context. -/
def apply_fwd : HBSMatrix R → DenseM R → WorkApply R → Option (WorkApply R)
  | leaf _ _ _ V _, b, w => do
      let bloc ← wrapper V.rows b.cols b w.offset.2 0
      let q ← gemmR Trans.C Trans.N 1 V bloc
      pure (w.setQ q)
  | node _ _ _ V _ c0 c1, b, w =>
      match w.split c0.dims with
      | WorkApply.bare _ _ _ _ => none
      | WorkApply.forked o l q u w0 w1 => do
          let w0 ← apply_fwd c0 b w0
          let w1 ← apply_fwd c1 b w1
          if l ≠ 0 then do
            let qq ← vconcat w0.q w1.q
            let q ← gemmR Trans.C Trans.N 1 V qq
            pure (WorkApply.forked o l q u w0 w1)
          else
            pure (WorkApply.forked o l q u w0 w1)

/-- `HBSMatrix::apply_bwd(b, beta, c, w)`; returns the updated `c` and work context.
Reading `w.c[0]` of a context without children is a fault. -/
def apply_bwd : HBSMatrix R → DenseM R → R → DenseM R → WorkApply R →
    Option (DenseM R × WorkApply R)
  | leaf _ _ U _ D, b, beta, c, w => do
      let cloc ← wrapper U.rows c.cols c w.offset.1 0
      let cloc ← if w.lvl ≠ 0 then gemm Trans.N Trans.N 1 U w.u beta cloc else pure cloc
      let bloc ← wrapper D.cols b.cols b w.offset.1 0
      let cloc ← gemm Trans.N Trans.N 1 D bloc 1 cloc
      pure (c.store w.offset.1 0 cloc, w)
  | node _ _ U _ D c0 c1, b, beta, c, w =>
      match w with
      | WorkApply.bare _ _ _ _ => none
      | WorkApply.forked o l q u w0 w1 => do
          let qq ← vconcat w0.q w1.q
          let uu ← gemmR Trans.N Trans.N 1 D qq
          let uu ← if l ≠ 0 then gemm Trans.N Trans.N 1 U u 1 uu else pure uu
          let u0 ← wrapper c0.U_.cols uu.cols uu 0 0
          let u1 ← wrapper c1.U_.cols uu.cols uu c0.U_.cols 0
          let (c, w0) ← apply_bwd c0 b beta c (w0.setU u0)
          let (c, w1) ← apply_bwd c1 b beta c (w1.setU u1)
          pure (c, WorkApply.forked o l q u w0 w1)

end HBSMatrix

/-! ## HSS matrices -/

/-- Modelled from the spec: `HSSBasisID` is not among the sources.  A basis operator
exposes `apply`, `applyC` (conjugate-transpose application), `rows` and `cols` (= rank);
it is represented by its dense matrix `mat`.  `P` (row permutation, 1-based LAPACK
pivots) and `E` (low-rank correction) are the data the inertia engine reads. -/
structure HSSBasisID (R : Type) where
  mat : DenseM R
  P : List Int
  E : DenseM R

namespace HSSBasisID

variable {R : Type} [CommRing R] [StarRing R]

def rows (U : HSSBasisID R) : Nat := U.mat.rows

def cols (U : HSSBasisID R) : Nat := U.mat.cols

/-- `U.apply(X)`: the product `U * X`. -/
def apply (U : HSSBasisID R) (X : DenseM R) : Option (DenseM R) :=
  DenseM.gemmR Trans.N Trans.N 1 U.mat X

/-- `U.applyC(X)`: the product `U^C * X`. -/
def applyC (U : HSSBasisID R) (X : DenseM R) : Option (DenseM R) :=
  DenseM.gemmR Trans.C Trans.N 1 U.mat X

/-- `U.apply(X, C)`: the product `U * X` written into the block `C`. -/
def applyInto (U : HSSBasisID R) (X C : DenseM R) : Option (DenseM R) :=
  DenseM.gemm Trans.N Trans.N 1 U.mat X 0 C

end HSSBasisID

/-- HSS tree node (`HSSMatrix`): dimensions, bases `_U`, `_V`, and either the dense
diagonal block `_D` (leaf) or the coupling blocks `_B01`, `_B10` and two children. -/
inductive HSSMatrix (R : Type) where
  | leaf (rows cols : Nat) (U V : HSSBasisID R) (D : DenseM R)
  | node (rows cols : Nat) (U V : HSSBasisID R) (B01 B10 : DenseM R) (c0 c1 : HSSMatrix R)

/-- `HSSFactors`: the factored diagonal block `_D` with its pivots `_piv` and the
stored basis `_Vt0`, returned by `Vhat()`. -/
structure HSSFactors (R : Type) where
  D : DenseM R
  piv : List Int
  Vt0 : DenseM R

/-- `f.Vhat()`. -/
def HSSFactors.Vhat {R : Type} (f : HSSFactors R) : DenseM R := f.Vt0

namespace HSSMatrix

variable {R : Type} [CommRing R] [StarRing R]

open DenseM

def rows : HSSMatrix R → Nat
  | leaf r _ _ _ _ => r
  | node r _ _ _ _ _ _ _ => r

def cols : HSSMatrix R → Nat
  | leaf _ c _ _ _ => c
  | node _ c _ _ _ _ _ _ => c

def dims (t : HSSMatrix R) : Nat × Nat := (t.rows, t.cols)

def U_ : HSSMatrix R → HSSBasisID R
  | leaf _ _ U _ _ => U
  | node _ _ U _ _ _ _ _ => U

def V_ : HSSMatrix R → HSSBasisID R
  | leaf _ _ _ V _ => V
  | node _ _ _ V _ _ _ _ => V

def U_rank (t : HSSMatrix R) : Nat := t.U_.cols

def V_rank (t : HSSMatrix R) : Nat := t.V_.cols

/-- `leaf()`. -/
def isLeaf : HSSMatrix R → Bool
  | leaf _ _ _ _ _ => true
  | node _ _ _ _ _ _ _ _ => false

/-- `apply_UtVt_big(A, UtA, VtA, offset)`; returns the outputs `(UtA, VtA)`. -/
def apply_UtVt_big : HSSMatrix R → DenseM R → Nat × Nat → Option (DenseM R × DenseM R)
  | leaf r _ U V _, A, offset => do
      let Al ← wrapper r A.cols A offset.1 0
      let UtA ← U.applyC Al
      let VtA ← V.applyC Al
      pure (UtA, VtA)
  | node _ _ U V _ _ c0 c1, A, offset => do
      let (UtA0, VtA0) ← apply_UtVt_big c0 A offset
      let (UtA1, VtA1) ← apply_UtVt_big c1 A (offset.1 + c0.dims.1, offset.2 + c0.dims.2)
      let UtA ← U.applyC (← vconcat UtA0 UtA1)
      let VtA ← V.applyC (← vconcat VtA0 VtA1)
      pure (UtA, VtA)

/-- Leaf step of `apply_UV_big` for one basis (lines 257-260 and 264-267):
`if (_U.cols() && Uop.cols()) _U.apply(Uop, ltheta) else ltheta.zero()`. -/
def expandLeaf (U : HSSBasisID R) (Uop ltheta : DenseM R) : Option (DenseM R) :=
  if U.cols ≠ 0 ∧ Uop.cols ≠ 0 then U.applyInto Uop ltheta
  else some (zeros ltheta.rows ltheta.cols)

/-- Internal step of `apply_UV_big` for one basis (lines 271-288 and 273-302):
allocate `Uop0`, `Uop1` with `r0` and `r1` rows and fill them from `tmp = _U.apply(Uop)`
(`Uop0.copy(tmp, 0, 0)`, `Uop1.copy(tmp, r0, 0)`), or zero them when the rank or the
operand width is zero. -/
def splitOp (mem : Nat → Nat → R) (U : HSSBasisID R) (Uop : DenseM R) (r0 r1 : Nat) :
    Option (DenseM R × DenseM R) :=
  let Uop0 := uninit mem r0 Uop.cols
  let Uop1 := uninit mem r1 Uop.cols
  if U.cols ≠ 0 ∧ Uop.cols ≠ 0 then do
    let tmp ← U.apply Uop
    let Uop0 ← Uop0.copyFrom tmp 0 0
    let Uop1 ← Uop1.copyFrom tmp r0 0
    pure (Uop0, Uop1)
  else some (zeros Uop0.rows Uop0.cols, zeros Uop1.rows Uop1.cols)

/-- `apply_UV_big(Theta, Uop, Phi, Vop, offset)`; returns the updated `(Theta, Phi)`.
`mem` stands for the contents of freshly allocated storage. -/
def apply_UV_big (mem : Nat → Nat → R) :
    HSSMatrix R → DenseM R → DenseM R → DenseM R → DenseM R → Nat × Nat →
      Option (DenseM R × DenseM R)
  | leaf _ _ U V _, Theta, Uop, Phi, Vop, offset => do
      let ltheta ← wrapper U.rows Theta.cols Theta offset.1 0
      let lphi ← wrapper V.rows Phi.cols Phi offset.2 0
      let ltheta ← expandLeaf U Uop ltheta
      let lphi ← expandLeaf V Vop lphi
      pure (Theta.store offset.1 0 ltheta, Phi.store offset.2 0 lphi)
  | node _ _ U V _ _ c0 c1, Theta, Uop, Phi, Vop, offset => do
      let (Uop0, Uop1) ← splitOp mem U Uop c0.U_rank c1.U_rank
      let (Vop0, Vop1) ← splitOp mem V Vop c0.V_rank c1.V_rank
      let (Theta, Phi) ← apply_UV_big mem c0 Theta Uop0 Phi Vop0 offset
      apply_UV_big mem c1 Theta Uop1 Phi Vop1 (offset.1 + c0.dims.1, offset.2 + c0.dims.2)

/-- Recursively expanded row basis: `Ubig(leaf) = U`,
`Ubig(internal) = blockdiag(Ubig(c0), Ubig(c1)) * U`. -/
def Ubig : HSSMatrix R → DenseM R
  | leaf _ _ U _ _ => U.mat
  | node _ _ U _ _ _ c0 c1 => mul (blockdiag (Ubig c0) (Ubig c1)) U.mat

/-- Recursively expanded column basis: `Vbig(leaf) = V`,
`Vbig(internal) = blockdiag(Vbig(c0), Vbig(c1)) * V`. -/
def Vbig : HSSMatrix R → DenseM R
  | leaf _ _ _ V _ => V.mat
  | node _ _ _ V _ _ c0 c1 => mul (blockdiag (Vbig c0) (Vbig c1)) V.mat

/-- Modelled from the spec: the dense matrix an HSS node stands for (the `A` of the
apply contract `y = op(A) b`): a leaf is its diagonal block; an internal node has its
children on the diagonal and the coupling blocks, expanded through the children's
bases, off the diagonal: `[[A0, U0big B01 V1big^C], [U1big B10 V0big^C, A1]]`. -/
def dense : HSSMatrix R → DenseM R
  | leaf _ _ _ _ D => D
  | node _ _ _ _ B01 B10 c0 c1 =>
      fromBlocks (dense c0) (mul (mul (Ubig c0) B01) (ctrans (Vbig c1)))
        (mul (mul (Ubig c1) B10) (ctrans (Vbig c0))) (dense c1)

/-- Modelled from the spec: `HSSMatrix::apply_fwd(b, w, false, ...)` is not among the
sources.  The forward pass of the apply engine leaves in `w.tmp1` the compressed
operand `Vbig^C * b` (doc comment of `Schur_product_direct`: the forward step of
`H.child(1) R` is the application of `V1big^* R`). -/
def apply_fwd (t : HSSMatrix R) (b : DenseM R) : Option (DenseM R) :=
  gemmR Trans.C Trans.N 1 (Vbig t) b

/-- Modelled from the spec: `HSSMatrix::applyT_fwd(b, w, false, ...)` is not among the
sources; the forward step of `H.child(1)^* R` is the application of `U1big^* R`. -/
def applyT_fwd (t : HSSMatrix R) (b : DenseM R) : Option (DenseM R) :=
  gemmR Trans.C Trans.N 1 (Ubig t) b

/-- Modelled from the spec: `HSSMatrix::apply_bwd(b, beta, c, w, true, ...)` is not
among the sources.  Contract of the apply engine: `c <- beta * c + A * b` with `A` the
matrix of the node. -/
def apply_bwd (t : HSSMatrix R) (b : DenseM R) (beta : R) (c : DenseM R) :
    Option (DenseM R) :=
  gemm Trans.N Trans.N 1 (dense t) b beta c

/-- Modelled from the spec: `HSSMatrix::applyT_bwd(b, beta, c, w, true, ...)` is not
among the sources.  Contract of the apply engine with `op` the conjugate transpose:
`c <- beta * c + A^C * b`. -/
def applyT_bwd (t : HSSMatrix R) (b : DenseM R) (beta : R) (c : DenseM R) :
    Option (DenseM R) :=
  gemm Trans.C Trans.N 1 (dense t) b beta c

end HSSMatrix

namespace HSSMatrix

variable {R : Type} [CommRing R] [StarRing R]

/-- Well-formed HSS subtree, as far as the bases are concerned: a leaf has `U.rows =
rows`, `V.rows = cols`; an internal node has the sizes of its children adding up and
`U`, `V` with `Urank(c0)+Urank(c1)` resp. `Vrank(c0)+Vrank(c1)` rows. -/
def WFB : HSSMatrix R → Prop
  | leaf r c U V _ => U.rows = r ∧ V.rows = c
  | node r c U V _ _ c0 c1 =>
      r = c0.rows + c1.rows ∧ c = c0.cols + c1.cols ∧
      U.rows = c0.U_rank + c1.U_rank ∧ V.rows = c0.V_rank + c1.V_rank ∧
      WFB c0 ∧ WFB c1

end HSSMatrix

/-! ## Schur complement kernels -/

namespace HSSMatrix

variable {R : Type} [CommRing R] [StarRing R]

open DenseM

/-- `Schur_update(f, Theta, DUB01, Phi)`; returns the outputs `(Theta, DUB01, Phi)`.
`solve D piv X` gives the entries of `f._D.solve(X, f._piv)` (LAPACK `getrs`, an
external kernel), whose result has the size of `X`. -/
def Schur_update (solve : DenseM R → List Int → DenseM R → Nat → Nat → R)
    (mem : Nat → Nat → R) (t : HSSMatrix R) (f : HSSFactors R)
    (Theta DUB01 Phi : DenseM R) : Option (DenseM R × DenseM R × DenseM R) :=
  match t with
  | leaf _ _ _ _ _ => some (Theta, DUB01, Phi)
  | node _ _ _ _ B01 B10 c0 c1 => do
      let _theta := B10
      let UB ← c0.U_.apply B01
      let DUB01 : DenseM R := ⟨UB.rows, UB.cols, solve f.D f.piv UB⟩
      let _phi := DUB01.transpose
      let Theta := uninit mem c1.rows _theta.cols
      let Phi := uninit mem c1.cols _phi.cols
      let (Theta, Phi) ← c1.apply_UV_big mem Theta _theta Phi _phi (0, 0)
      pure (Theta, DUB01, Phi)

/-- The branch of `Schur_product_direct` taken when `Theta.cols() < Phi.cols()`;
the combined term is used as `(.)^C * tmpc`. -/
def Schur_product_direct_lt (mem : Nat → Nat → R) (f : HSSFactors R)
    (B10 : DenseM R) (c0 c1 : HSSMatrix R)
    (Theta DUB01 VhatCPhiC R' Sr Sc : DenseM R) : Option (DenseM R × DenseM R) := do
  let wr ← c1.apply_fwd R'
  let wc ← c1.applyT_fwd R'
  let VtDUB01 ← gemm Trans.C Trans.N 1 f.Vhat DUB01 0 (uninit mem f.Vhat.cols DUB01.cols)
  let tmpr ← gemm Trans.N Trans.N 1 VtDUB01 wr 0 (uninit mem c0.V_rank R'.cols)
  let tmpc ← gemm Trans.C Trans.N 1 B10 wc 0 (uninit mem B10.cols R'.cols)
  let Sr ← c1.apply_bwd R' 0 Sr
  let Sc ← c1.applyT_bwd R' 0 Sc
  let Sr ← gemm Trans.N Trans.N (-1) Theta tmpr 1 Sr
  let Sc ← gemm Trans.C Trans.N (-1) VhatCPhiC tmpc 1 Sc
  pure (Sr, Sc)

/-- The other branch of `Schur_product_direct`; the combined term is used as
`(.) * tmpr`. -/
def Schur_product_direct_ge (mem : Nat → Nat → R) (f : HSSFactors R)
    (B10 : DenseM R) (c1 : HSSMatrix R)
    (DUB01 Phi ThetaVhatC R' Sr Sc : DenseM R) : Option (DenseM R × DenseM R) := do
  let wr ← c1.apply_fwd R'
  let wc ← c1.applyT_fwd R'
  let tmpr ← gemm Trans.N Trans.N 1 DUB01 wr 0 (uninit mem DUB01.rows R'.cols)
  let VB10t ← gemm Trans.N Trans.C 1 f.Vhat B10 0 (uninit mem f.Vhat.rows B10.rows)
  let tmpc ← gemm Trans.N Trans.N 1 VB10t wc 0 (uninit mem f.Vhat.rows R'.cols)
  let Sr ← c1.apply_bwd R' 0 Sr
  let Sc ← c1.applyT_bwd R' 0 Sc
  let Sr ← gemm Trans.N Trans.N (-1) ThetaVhatC tmpr 1 Sr
  let Sc ← gemm Trans.N Trans.N (-1) Phi tmpc 1 Sc
  pure (Sr, Sc)

/-- `Schur_product_direct(f, Theta, DUB01, Phi, ThetaVhatC_or_VhatCPhiC, R, Sr, Sc)`;
returns the updated `(Sr, Sc)`.  Calling `child(.)` on a leaf is a fault. -/
def Schur_product_direct (mem : Nat → Nat → R) (t : HSSMatrix R) (f : HSSFactors R)
    (Theta DUB01 Phi ThetaVhatC_or_VhatCPhiC R' Sr Sc : DenseM R) :
    Option (DenseM R × DenseM R) :=
  match t with
  | leaf _ _ _ _ _ => none
  | node _ _ _ _ _ B10 c0 c1 =>
      if Theta.cols < Phi.cols then
        Schur_product_direct_lt mem f B10 c0 c1 Theta DUB01 ThetaVhatC_or_VhatCPhiC R' Sr Sc
      else
        Schur_product_direct_ge mem f B10 c1 DUB01 Phi ThetaVhatC_or_VhatCPhiC R' Sr Sc

/-- The combined basis term `ThetaVhatC_or_VhatCPhiC` the caller of
`Schur_product_direct` has to supply: `Vhat^C * Phi^C` when `Theta.cols() < Phi.cols()`,
`Theta * Vhat^C` otherwise. -/
def combinedTerm (f : HSSFactors R) (Theta Phi : DenseM R) : DenseM R :=
  if Theta.cols < Phi.cols then mul (ctrans f.Vhat) (ctrans Phi)
  else mul Theta (ctrans f.Vhat)

/-- The Schur complement that `Schur_product_direct` applies:
`F22 - Theta * Vhat^C * Phi^C`, with `F22` the matrix of child 1. -/
def SchurS (c1 : HSSMatrix R) (f : HSSFactors R) (Theta Phi : DenseM R) : DenseM R :=
  sub (dense c1) (mul (mul Theta (ctrans f.Vhat)) (ctrans Phi))

/-- The Schur complement as the doc comment of `Schur_update` writes it:
`F22 - Theta * Vhat * Phi^C`. -/
def SchurS_doc (c1 : HSSMatrix R) (f : HSSFactors R) (Theta Phi : DenseM R) : DenseM R :=
  sub (dense c1) (mul (mul Theta f.Vhat) (ctrans Phi))

/-- The row sample the doc comment of `Schur_product_indirect` specifies:
`Sr = Sr1 - U1big (B10 V0big^* R0 + (B10 Vhat^* DUB01) (V1big^* R1))`. -/
def indirect_doc_Sr (f : HSSFactors R) (B10 : DenseM R) (c0 c1 : HSSMatrix R)
    (DUB01 R0 R1 Sr1 : DenseM R) : DenseM R :=
  sub Sr1 (mul (Ubig c1)
    (add (mul B10 (mul (ctrans (Vbig c0)) R0))
      (mul (mul (mul B10 (ctrans f.Vhat)) DUB01) (mul (ctrans (Vbig c1)) R1))))

/-- The column sample the doc comment of `Schur_product_indirect` specifies:
`Sc = Sc1 - V1big (B01^* (U0big^* R0) + (B10 Vhat^* DUB01)^* (U1big^* R1))`. -/
def indirect_doc_Sc (f : HSSFactors R) (B01 B10 : DenseM R) (c0 c1 : HSSMatrix R)
    (DUB01 R0 R1 Sc1 : DenseM R) : DenseM R :=
  sub Sc1 (mul (Vbig c1)
    (add (mul (ctrans B01) (mul (ctrans (Ubig c0)) R0))
      (mul (ctrans (mul (mul B10 (ctrans f.Vhat)) DUB01)) (mul (ctrans (Ubig c1)) R1))))

/-- `Schur_product_indirect(f, DUB01, R0, R1, Sr1, Sc1, Sr, Sc)`; returns the updated
`(Sr, Sc)`. -/
def Schur_product_indirect (mem : Nat → Nat → R) (t : HSSMatrix R) (f : HSSFactors R)
    (DUB01 R0 R1 Sr1 Sc1 Sr Sc : DenseM R) : Option (DenseM R × DenseM R) :=
  match t with
  | leaf _ _ _ _ _ => some (Sr, Sc)
  | node _ _ _ _ B01 B10 c0 c1 =>
      let c := R1.cols
      if R0.cols = R1.cols ∧ Sr1.cols = Sc1.cols then do
        let (U0tR0, V0tR0) ← c0.apply_UtVt_big R0 (0, 0)
        let (U1tR1, V1tR1) ← c1.apply_UtVt_big R1 (0, 0)
        let VtDUB01 ← gemm Trans.C Trans.N 1 f.Vhat DUB01 0 (uninit mem f.Vhat.cols DUB01.cols)
        let B10VtDUB01 ← gemm Trans.N Trans.N 1 B10 VtDUB01 0 (uninit mem B10.rows VtDUB01.cols)
        let B10V0tR0 ← gemm Trans.N Trans.N (-1) B10 V0tR0 0 (uninit mem B10.rows c)
        let B01tU0tR0 ← gemm Trans.C Trans.N (-1) B01 U0tR0 0 (uninit mem B01.cols c)
        let B10V0tR0 ← gemm Trans.N Trans.N 1 B10VtDUB01 V1tR1 1 B10V0tR0
        let B01tU0tR0 ← gemm Trans.C Trans.N 1 B10VtDUB01 U1tR1 1 B01tU0tR0
        let Sr := uninit mem R1.rows R1.cols
        let Sc := uninit mem R1.rows R1.cols
        let (Sr, Sc) ← c1.apply_UV_big mem Sr B10V0tR0 Sc B01tU0tR0 (0, 0)
        let Sr ← Sr.addInPlace Sr1
        let Sc ← Sc.addInPlace Sc1
        pure (Sr, Sc)
      else none

end HSSMatrix

namespace HSSMatrix

open DenseM

/-- A basis operator over the integers given by its dense matrix only. -/
def basisOf (m n : Nat) (l : List (List ℤ)) : HSSBasisID ℤ :=
  ⟨ofRows m n l, [], DenseM.empty⟩

/-- Leaf `D = [[2]]`, `U = V = [[1]]` over the integers. -/
def exLeaf0 : HSSMatrix ℤ :=
  leaf 1 1 (basisOf 1 1 [[1]]) (basisOf 1 1 [[1]]) (ofRows 1 1 [[2]])

/-- Leaf `D = [[5]]`, `U = V = [[1]]` over the integers. -/
def exLeaf1 : HSSMatrix ℤ :=
  leaf 1 1 (basisOf 1 1 [[1]]) (basisOf 1 1 [[1]]) (ofRows 1 1 [[5]])

/-- A concrete internal HSS node over the integers: the leaves `exLeaf0`, `exLeaf1`
with `B01 = [[3]]`, `B10 = [[4]]`. -/
def exampleS : HSSMatrix ℤ :=
  node 2 2 (basisOf 0 0 []) (basisOf 0 0 []) (ofRows 1 1 [[3]]) (ofRows 1 1 [[4]])
    exLeaf0 exLeaf1

/-- Factors of child 0 of `exampleS` for a unit diagonal block, with `Vhat = [[1]]`. -/
def exampleF : HSSFactors ℤ := ⟨ofRows 1 1 [[1]], [1], ofRows 1 1 [[1]]⟩

/-- Leaf of size 2 with `U = V = I` (rank 2) over the integers. -/
def exLeaf2 : HSSMatrix ℤ :=
  leaf 2 2 (basisOf 2 2 [[1, 0], [0, 1]]) (basisOf 2 2 [[1, 0], [0, 1]])
    (ofRows 2 2 [[1, 0], [0, 1]])

/-- An internal node whose child 0 has size and rank 2: `B01 = [[0], [1]]`,
`B10 = [[1, 0]]`, children `exLeaf2` and `exLeaf1`. -/
def exampleT : HSSMatrix ℤ :=
  node 3 3 (basisOf 0 0 []) (basisOf 0 0 []) (ofRows 2 1 [[0], [1]]) (ofRows 1 2 [[1, 0]])
    exLeaf2 exLeaf1

/-- Factors of child 0 of `exampleT` with the non-symmetric `Vhat = [[0, 1], [0, 0]]`. -/
def exampleG : HSSFactors ℤ := ⟨ofRows 2 2 [[1, 0], [0, 1]], [1, 2], ofRows 2 2 [[0, 1], [0, 0]]⟩

/-- The solve against a unit diagonal block: the right-hand side is returned. -/
def solveId (_D : DenseM ℤ) (_piv : List Int) (X : DenseM ℤ) : Nat → Nat → ℤ := X.val

end HSSMatrix

/-! ## Inertia -/

/-- `Inertia`: the numbers of positive, negative and zero eigenvalues. -/
structure Inertia where
  np : Nat
  nn : Nat
  nz : Nat
  deriving DecidableEq

/-- External numerical kernels used by the inertia engine, none of them among the
sources: `std::sqrt`, LAPACK `sytrf_rook` (in place on a block, returning the pivots) and
`sytrs_rook` (in place on the right-hand side).  The in-place routines are given by the
new contents of the storage they overwrite; its dimensions cannot change. -/
structure Lapack (K : Type) where
  sqrt : K → K
  sytrf_rook : DenseM K → (Nat → Nat → K) × List Int
  sytrs_rook : DenseM K → List Int → DenseM K → Nat → Nat → K

/-- `WorkInertia`: the Schur remainder `S` and the vector `c` of children, which is
either empty (`bare`) or of size two (`forked`). -/
inductive WorkInertia (K : Type) where
  | bare (S : DenseM K)
  | forked (S : DenseM K) (c0 c1 : WorkInertia K)

namespace WorkInertia

variable {K : Type}

def S : WorkInertia K → DenseM K
  | bare S => S
  | forked S _ _ => S

/-- Assignment `w.S = S`. -/
def setS : WorkInertia K → DenseM K → WorkInertia K
  | bare _, S => bare S
  | forked _ a b, S => forked S a b

/-- `w.c.resize(2)`: a context without children gets two default-constructed ones. -/
def resize2 [CommRing K] : WorkInertia K → WorkInertia K
  | bare S => forked S (bare DenseM.empty) (bare DenseM.empty)
  | forked S a b => forked S a b

end WorkInertia

namespace HSSMatrix

variable {K : Type} [LinearOrderedField K] [StarRing K]

open DenseM

/-- The three-way sign test `if (real(x) > 0) np += 1 else if (real(x) < 0) nn += 1
else nz += 1` for a real scalar. -/
def classify (x : K) (acc : Inertia) : Inertia :=
  if x > 0 then { acc with np := acc.np + 1 }
  else if x < 0 then { acc with nn := acc.nn + 1 }
  else { acc with nz := acc.nz + 1 }

/-- The `while (k < nD-1)` loop of `readInertiaOffBlockDiag`, with `fuel` bounding the
number of iterations; returns the final `k` and the counts.  Reading `IPIV` past its
end is a fault; `IPIV[k]` is read only when `IPIV[k+1] < 0` (short-circuit `&&`).
The counter `k` (an `unsigned int`) is a natural number: it never exceeds `nD`. -/
def readLoop (sqrt : K → K) (D : DenseM K) (IPIV : List Int) (nD : Nat) :
    Nat → Nat → Inertia → Option (Nat × Inertia)
  | 0, k, acc => if k < nD - 1 then none else some (k, acc)
  | fuel + 1, k, acc =>
      if k < nD - 1 then do
        let p1 ← IPIV[k + 1]?
        let two ← if p1 < 0 then (do let p0 ← IPIV[k]?; pure (decide (p0 < 0))) else pure false
        if two then
          let a := D.val k k
          let b := D.val (k + 1) k
          let c := D.val (k + 1) (k + 1)
          let lam1 := (1 / 2) * ((a + c) + sqrt ((a - c) * (a - c) + 4 * b * b))
          let lam2 := (1 / 2) * ((a + c) - sqrt ((a - c) * (a - c) + 4 * b * b))
          readLoop sqrt D IPIV nD fuel (k + 2) (classify lam2 (classify lam1 acc))
        else
          readLoop sqrt D IPIV nD fuel (k + 1) (classify (D.val k k) acc)
      else some (k, acc)

/-- `readInertiaOffBlockDiag(D, IPIV)` for a real scalar type. -/
def readInertiaOffBlockDiag (sqrt : K → K) (D : DenseM K) (IPIV : List Int) :
    Option Inertia :=
  let nD := D.rows
  if nD = 0 then some ⟨0, 0, 0⟩
  else do
    let (k, acc) ← readLoop sqrt D IPIV nD nD 0 ⟨0, 0, 0⟩
    if k < nD then pure (classify (D.val k k) acc) else pure acc

/-- Row interchange of `laswp`: rows `i` and `p` of `M` swapped. -/
def swapRows (M : DenseM K) (i p : Nat) : DenseM K :=
  ⟨M.rows, M.cols, fun a b =>
    if a = i then M.val p b else if a = p then M.val i b else M.val a b⟩

/-- The interchanges of `laswp` for the pivots `P`, starting at row `i`; a pivot
outside `1 .. rows` is a fault. -/
def laswpLoop : List Int → Nat → DenseM K → Option (DenseM K)
  | [], _, M => some M
  | p :: ps, i, M =>
      if 1 ≤ p ∧ p ≤ M.rows then laswpLoop ps (i + 1) (swapRows M i (p.toNat - 1))
      else none

/-- Modelled from the spec: `DenseMatrix::laswp(P, true)` is not among the sources.  It
permutes the rows by the stored row permutation, applied as LAPACK's sequence of
interchanges (row `i` with row `P[i] - 1`, for `i = 0, ..., rows - 1`). -/
def laswp (M : DenseM K) (P : List Int) : Option (DenseM K) :=
  if M.rows ≤ P.length then laswpLoop (P.take M.rows) 0 M else none

/-- Sum of two count triples (`in.np += ...` etc.). -/
def addCounts (a b : Inertia) : Inertia := ⟨a.np + b.np, a.nn + b.nn, a.nz + b.nz⟩

/-- The root branch of `inertia_recursive` (lines 129-134): factor `Dt` in place and
read the signs off the factored block. -/
def rootStep (L : Lapack K) (Dt : DenseM K) (acc : Inertia) (w : WorkInertia K) :
    Option (Inertia × WorkInertia K) := do
  let f := L.sytrf_rook Dt
  let Dt : DenseM K := ⟨Dt.rows, Dt.cols, f.1⟩
  let inroot ← readInertiaOffBlockDiag L.sqrt Dt f.2
  pure (addCounts acc inroot, w)

/-- `Dt <- P' * Dt * P` (lines 141-147): row interchanges, transpose, row
interchanges, transpose. -/
def permuteDt (U : HSSBasisID K) (Dt : DenseM K) : Option (DenseM K) := do
  let Dt ← laswp Dt U.P
  let Dt := Dt.transpose
  let Dt ← laswp Dt U.P
  pure Dt.transpose

/-- The block update `Dt <- Omega * Dt * Omega'` (lines 139-140 and 157-169); returns
`(D11, D12, D21, D22)`.  The blocks `C12`, `C21` / `D12` and `D11` are disjoint views of
`Dt` and `D22` is a copy, so each is carried as a value.  `U.rows() - E_cols` is a
natural subtraction (there is no wrap-around when `U.cols() <= U.rows()`). -/
def schurBlocks (U : HSSBasisID K) (Dt : DenseM K) :
    Option (DenseM K × DenseM K × DenseM K × DenseM K) := do
  let E_cols := U.cols
  let E_rows := U.rows - E_cols
  let C12 ← wrapper E_cols E_rows Dt 0 E_cols
  let C21 ← wrapper E_rows E_cols Dt E_cols 0
  let D22 ← wrapper E_cols E_cols Dt 0 0
  let D11 ← wrapper E_rows E_rows Dt E_cols E_cols
  let C12 ← gemm Trans.N Trans.C 1 D22 U.E (-1) C12
  let D11 ← gemm Trans.N Trans.N 1 U.E C12 1 D11
  let D11 ← gemm Trans.N Trans.C (-1) C21 U.E 1 D11
  let D12 := C21
  let D12 ← gemm Trans.N Trans.N (-1) U.E D22 1 D12
  let D21 := D12.transpose
  pure (D11, D12, D21, D22)

/-- The non-root branch of `inertia_recursive` (lines 138-179): permute, form the
blocks, factor `D11`, read its signs, and form `S = D22 - D21 inv(D11) D12`. -/
def nonRootStep (L : Lapack K) (U : HSSBasisID K) (Dt : DenseM K) (acc : Inertia)
    (w : WorkInertia K) : Option (Inertia × WorkInertia K) := do
  let Dt ← permuteDt U Dt
  let (D11, D12, D21, D22) ← schurBlocks U Dt
  let f := L.sytrf_rook D11
  let D11 : DenseM K := ⟨D11.rows, D11.cols, f.1⟩
  let inD11 ← readInertiaOffBlockDiag L.sqrt D11 f.2
  let D12 : DenseM K := ⟨D12.rows, D12.cols, L.sytrs_rook D11 f.2 D12⟩
  let D22 ← gemm Trans.N Trans.N (-1) D21 D12 1 D22
  pure (addCounts acc inD11, w.setS D22)

/-- Assembly of `Dt = [S{ch0} B01; B10 S{ch1}]` (lines 110-119), including the two
assertions on the coupling blocks. -/
def formDt (mem : Nat → Nat → K) (c0u c1u : Nat) (S0 S1 B01 B10 : DenseM K) :
    Option (DenseM K) :=
  let u_size := c0u + c1u
  let Dt := uninit mem u_size u_size
  if B01.rows = B10.cols ∧ B10.rows = B01.cols then do
    let Dt ← copy S0 Dt 0 0
    let Dt ← copy S1 Dt c0u c0u
    let Dt ← copy B01 Dt 0 c0u
    let Dt ← copy B10 Dt c0u 0
    pure Dt
  else none

/-- `inertia_recursive(w, isroot, depth)`; returns the counts and the updated work
context. -/
def inertia_recursive (L : Lapack K) (mem : Nat → Nat → K) :
    HSSMatrix K → WorkInertia K → Bool → Option (Inertia × WorkInertia K)
  | leaf _ _ U _ D, w, isroot =>
      if isroot then rootStep L D ⟨0, 0, 0⟩ w else nonRootStep L U D ⟨0, 0, 0⟩ w
  | node _ _ U _ B01 B10 c0 c1, w, isroot =>
      match w.resize2 with
      | WorkInertia.bare _ => none
      | WorkInertia.forked S w0 w1 => do
          let (in0, w0) ← inertia_recursive L mem c0 w0 false
          let (in1, w1) ← inertia_recursive L mem c1 w1 false
          let Dt ← formDt mem c0.U_rank c1.U_rank w0.S w1.S B01 B10
          if isroot then rootStep L Dt (addCounts in0 in1) (WorkInertia.forked S w0 w1)
          else nonRootStep L U Dt (addCounts in0 in1) (WorkInertia.forked S w0 w1)

/-- Pivot vector usable by `laswp` on `n` rows: at least `n` entries, the first `n`
of them in `1 .. n`. -/
def ValidPiv (P : List Int) (n : Nat) : Prop :=
  n ≤ P.length ∧ ∀ p ∈ P.take n, 1 ≤ p ∧ p ≤ (n : Int)

/-- The data of a basis read by the non-root branch: `U.cols <= U.rows`, `E` of size
`(U.rows - U.cols) x U.cols` and a valid row permutation `P`. -/
def BasisOK (U : HSSBasisID K) : Prop :=
  U.cols ≤ U.rows ∧ U.E.rows = U.rows - U.cols ∧ U.E.cols = U.cols ∧ ValidPiv U.P U.rows

/-- Well-formed HSS tree for the inertia engine.  Leaf: `D` is `n x n` with
`n = rows`, and below the root `U.rows = n` with well-formed basis data.  Internal node:
`rows = rows(c0) + rows(c1)`, `B01` is `Urank(c0) x Urank(c1)`, `B10` is
`Urank(c1) x Urank(c0)`, and below the root `U.rows = Urank(c0) + Urank(c1)` with
well-formed basis data. -/
def WFI : Bool → HSSMatrix K → Prop
  | isroot, leaf r _ U _ D =>
      D.rows = r ∧ D.cols = r ∧ (isroot = false → U.rows = r ∧ BasisOK U)
  | isroot, node r _ U _ B01 B10 c0 c1 =>
      r = c0.rows + c1.rows ∧
      B01.rows = c0.U_rank ∧ B01.cols = c1.U_rank ∧
      B10.rows = c1.U_rank ∧ B10.cols = c0.U_rank ∧
      (isroot = false → U.rows = c0.U_rank + c1.U_rank ∧ BasisOK U) ∧
      WFI false c0 ∧ WFI false c1

/-- The pivot vector returned by `sytrf_rook` has (at least) the order of the block. -/
def PivLen (L : Lapack K) : Prop :=
  ∀ D : DenseM K, D.rows ≤ (L.sytrf_rook D).2.length

/-- Behaviour of `sytrf_rook` on a diagonal block, as LAPACK implements it: every
column has a zero off-diagonal part, so no interchange is made and only 1 x 1 pivots
are produced; the diagonal is left unchanged and every pivot index is positive. -/
def SytrfOnDiagonal (L : Lapack K) : Prop :=
  ∀ D : DenseM K, D.cols = D.rows →
    (∀ i j, i < D.rows → j < D.rows → i ≠ j → D.val i j = 0) →
    (∀ i, i < D.rows → (L.sytrf_rook D).1 i i = D.val i i) ∧
    D.rows ≤ (L.sytrf_rook D).2.length ∧ ∀ p ∈ (L.sytrf_rook D).2, 0 < p

/-- Sign triple of one real number. -/
def signOf (d : K) : Inertia :=
  if d > 0 then ⟨1, 0, 0⟩ else if d < 0 then ⟨0, 1, 0⟩ else ⟨0, 0, 1⟩

/-- Counts accumulated by classifying the first `n` diagonal entries of `D` in order. -/
def diagCount (D : DenseM K) : Nat → Inertia
  | 0 => ⟨0, 0, 0⟩
  | n + 1 => classify (D.val n n) (diagCount D n)

/-- A 1 x 1 leaf block `[[d]]` with its basis data: `U` has one row and rank 0 or 1,
`E` is `(1 - rank) x rank` and the row permutation is `P = [1]`. -/
def Leaf1 (U : HSSBasisID K) (D : DenseM K) (d : K) : Prop :=
  D.rows = 1 ∧ D.cols = 1 ∧ D.val 0 0 = d ∧
  U.rows = 1 ∧ U.cols ≤ 1 ∧ U.E.rows = 1 - U.cols ∧ U.E.cols = U.cols ∧ U.P = [1]

/-- Coupling blocks of the given size whose entries are all zero. -/
def ZeroBlock (B : DenseM K) (m n : Nat) : Prop :=
  B.rows = m ∧ B.cols = n ∧ ∀ i j, i < m → j < n → B.val i j = 0

/-- `inertia()`: the recursion started at the root with a fresh work context. -/
def inertia (L : Lapack K) (mem : Nat → Nat → K) (t : HSSMatrix K) : Option Inertia :=
  (inertia_recursive L mem t (WorkInertia.bare DenseM.empty) true).map Prod.fst

end HSSMatrix

namespace HSSMatrix

open DenseM

/-- Idealised kernels over the rationals that are exact on diagonal blocks: the
factorization leaves the block unchanged with pivots `1, ..., n`, the solve returns its
right-hand side, and `sqrt` is never consulted (taken as the identity). -/
def diagLapack : Lapack ℚ :=
  ⟨fun x => x, fun D => (D.val, List.map (fun i : Nat => Int.ofNat (i + 1)) (List.range D.rows)),
    fun _ _ X => X.val⟩

/-- A 1 x 1 leaf `[[d]]` over the rationals with basis of rank `r` (`r = 0` or `1`):
`U` is `1 x r`, `E` is `(1 - r) x r` and `P = [1]`. -/
def ratLeaf (d : ℚ) (r : Nat) : HSSMatrix ℚ :=
  leaf 1 1 ⟨⟨1, r, fun _ _ => 1⟩, [1], ⟨1 - r, r, fun _ _ => 0⟩⟩
    ⟨⟨1, r, fun _ _ => 1⟩, [1], ⟨1 - r, r, fun _ _ => 0⟩⟩ ⟨1, 1, fun _ _ => d⟩

/-- The two-leaf tree with leaves `[[2]]` and `[[-3]]` of rank 1 and zero coupling. -/
def ratTree : HSSMatrix ℚ :=
  node 2 2 ⟨DenseM.empty, [], DenseM.empty⟩ ⟨DenseM.empty, [], DenseM.empty⟩
    (zeros 1 1) (zeros 1 1) (ratLeaf 2 1) (ratLeaf (-3) 1)

end HSSMatrix

/-! ## Projection through the expanded bases -/

namespace HSSMatrix

variable {R : Type} [CommRing R] [StarRing R]

open DenseM

/-- Every node of the subtree has as many rows as columns. -/
def Square : HSSMatrix R → Prop
  | leaf r c _ _ _ => r = c
  | node r c _ _ _ _ c0 c1 => r = c ∧ Square c0 ∧ Square c1

/-- The projection round trip at zero offsets: `apply_UtVt_big` on the probe `A`, then
`apply_UV_big` with the operands `UtA`, `VtA` it produced, into freshly allocated
`Theta` (`rows x A.cols`) and `Phi` (`cols x A.cols`).  Returns `(Theta, Phi)`. -/
def roundTrip (mem : Nat → Nat → R) (t : HSSMatrix R) (A : DenseM R) :
    Option (DenseM R × DenseM R) := do
  let (UtA, VtA) ← apply_UtVt_big t A (0, 0)
  apply_UV_big mem t (uninit mem t.rows A.cols) UtA (uninit mem t.cols A.cols) VtA (0, 0)

/-- A well-formed square two-leaf node over the integers whose own bases are the two
unit columns: `U = [[1], [0]]`, `V = [[0], [1]]`. -/
def exampleN : HSSMatrix ℤ :=
  node 2 2 (basisOf 2 1 [[1], [0]]) (basisOf 2 1 [[0], [1]]) (ofRows 1 1 [[3]])
    (ofRows 1 1 [[4]]) exLeaf0 exLeaf1

/-- A 1 x 1 leaf over the integers whose bases `U = V = [[2]]` are not orthonormal. -/
def exLeafTwo : HSSMatrix ℤ :=
  leaf 1 1 (basisOf 1 1 [[2]]) (basisOf 1 1 [[2]]) (ofRows 1 1 [[7]])

end HSSMatrix

/-! ## The dense matrix an HBS tree stands for -/

namespace HBSMatrix

variable {R : Type} [CommRing R] [StarRing R]

open DenseM

/-- Recursively expanded row basis: `Ubig(leaf) = U`,
`Ubig(internal) = blockdiag(Ubig(c0), Ubig(c1)) * U`. -/
def Ubig : HBSMatrix R → DenseM R
  | leaf _ _ U _ _ => U
  | node _ _ U _ _ c0 c1 => mul (blockdiag (Ubig c0) (Ubig c1)) U

/-- Recursively expanded column basis: `Vbig(leaf) = V`,
`Vbig(internal) = blockdiag(Vbig(c0), Vbig(c1)) * V`. -/
def Vbig : HBSMatrix R → DenseM R
  | leaf _ _ _ V _ => V
  | node _ _ _ V _ c0 c1 => mul (blockdiag (Vbig c0) (Vbig c1)) V

/-- The dense matrix of the tree: `Dense(leaf) = D`, `Dense(internal) =
blockdiag(Dense(c0), Dense(c1)) + blockdiag(Ubig(c0), Ubig(c1)) * D * blockdiag(Vbig(c0), Vbig(c1))^C`. -/
def Dense : HBSMatrix R → DenseM R
  | leaf _ _ _ _ D => D
  | node _ _ _ _ D c0 c1 =>
      add (blockdiag (Dense c0) (Dense c1))
        (mul (mul (blockdiag (Ubig c0) (Ubig c1)) D) (ctrans (blockdiag (Vbig c0) (Vbig c1))))

/-- Well-formed square HBS tree at recursion level `lvl` (`lvl = 0` is the root):
every node has `rows = cols`; a leaf has `D` of the node's size, `U.rows = D.rows`,
`V.rows = D.cols`; an internal node has the sizes of its children adding up, `D` of size
`(Urank(c0)+Urank(c1)) x (Vrank(c0)+Vrank(c1))` and, unless it is the root (whose own
bases are never read), `U` and `V` with `Urank(c0)+Urank(c1)` resp. `Vrank(c0)+Vrank(c1)` rows. -/
def WF : Nat → HBSMatrix R → Prop
  | _, leaf r c U V D => r = c ∧ D.rows = r ∧ D.cols = c ∧ U.rows = D.rows ∧ V.rows = D.cols
  | lvl, node r c U V D c0 c1 =>
      r = c ∧ r = c0.rows + c1.rows ∧ c = c0.cols + c1.cols ∧
      D.rows = c0.U_.cols + c1.U_.cols ∧ D.cols = c0.V_.cols + c1.V_.cols ∧
      (lvl ≠ 0 → U.rows = c0.U_.cols + c1.U_.cols ∧ V.rows = c0.V_.cols + c1.V_.cols) ∧
      WF (lvl + 1) c0 ∧ WF (lvl + 1) c1

/-- The node is internal (`!leaf()`). -/
def isNode : HBSMatrix R → Bool
  | leaf _ _ _ _ _ => false
  | node _ _ _ _ _ _ _ => true

/-- State of a work context after the forward pass over a square tree placed at
offset `(o, o)` and level `l`: it mirrors the tree, and `q` holds `Vbig^C` times the
rows `[o, o + cols)` of `b` (at every leaf, and at every internal node below the root). -/
def FwdDone (b : DenseM R) : HBSMatrix R → Nat → Nat → WorkApply R → Prop
  | leaf _ c _ V _, o, l, w =>
      w.offset = (o, o) ∧ w.lvl = l ∧ Same w.q (mul (ctrans V) (rowSlice b o c))
  | node _ c _ V _ c0 c1, o, l, w =>
      ∃ q u w0 w1, w = WorkApply.forked (o, o) l q u w0 w1 ∧
        FwdDone b c0 o (l + 1) w0 ∧ FwdDone b c1 (o + c0.rows) (l + 1) w1 ∧
        (l ≠ 0 → Same q (mul (ctrans (mul (blockdiag (Vbig c0) (Vbig c1)) V)) (rowSlice b o c)))

/-- A concrete HBS tree over the integers: a root with two 1 x 1 leaves of rank 1. -/
def example2 : HBSMatrix ℤ :=
  node 2 2 DenseM.empty DenseM.empty (ofRows 2 2 [[0, 5], [7, 0]])
    (leaf 1 1 (ofRows 1 1 [[2]]) (ofRows 1 1 [[3]]) (ofRows 1 1 [[4]]))
    (leaf 1 1 (ofRows 1 1 [[1]]) (ofRows 1 1 [[-1]]) (ofRows 1 1 [[6]]))

end HBSMatrix

/-! ## The HBS apply entry points and concrete trees -/

namespace HBSMatrix

variable {R : Type} [CommRing R] [StarRing R]

open DenseM

/-- The internal branch of `apply_bwd` with its two child calls issued in the other
order: `child(1)->apply_bwd` runs before `child(0)->apply_bwd`.  Everything else is as
in `apply_bwd`; at a leaf there are no child calls. -/
def apply_bwd_c1_first : HBSMatrix R → DenseM R → R → DenseM R → WorkApply R →
    Option (DenseM R × WorkApply R)
  | leaf r c U V D, b, beta, c', w => apply_bwd (leaf r c U V D) b beta c' w
  | node _ _ U _ D c0 c1, b, beta, c, w =>
      match w with
      | WorkApply.bare _ _ _ _ => none
      | WorkApply.forked o l q u w0 w1 => do
          let qq ← vconcat w0.q w1.q
          let uu ← gemmR Trans.N Trans.N 1 D qq
          let uu ← if l ≠ 0 then gemm Trans.N Trans.N 1 U u 1 uu else pure uu
          let u0 ← wrapper c0.U_.cols uu.cols uu 0 0
          let u1 ← wrapper c1.U_.cols uu.cols uu c0.U_.cols 0
          let (c, w1) ← apply_bwd c1 b beta c (w1.setU u1)
          let (c, w0) ← apply_bwd c0 b beta c (w0.setU u0)
          pure (c, WorkApply.forked o l q u w0 w1)

/-- Row sizes of the subtree are consistent: a leaf's `U_` has `rows()` rows, and the
rows of an internal node are those of its two children together. -/
def TreeRows : HBSMatrix R → Prop
  | leaf r _ U _ _ => U.rows = r
  | node r _ _ _ _ c0 c1 => r = c0.rows + c1.rows ∧ TreeRows c0 ∧ TreeRows c1

/-- The work context mirrors the subtree with the row offsets `split` assigns: child 0
starts at the node's row offset, child 1 right after the rows of child 0. -/
def CtxRows : HBSMatrix R → WorkApply R → Prop
  | leaf _ _ _ _ _, _ => True
  | node _ _ _ _ _ c0 c1, w =>
      ∃ o l q u w0 w1, w = WorkApply.forked o l q u w0 w1 ∧
        w0.offset.1 = o.1 ∧ w1.offset.1 = o.1 + c0.rows ∧ CtxRows c0 w0 ∧ CtxRows c1 w1

/-- Modelled from the spec: the tree as the conjugate-transpose passes see it.  The spec
describes the conjugate-transpose application as the structurally symmetric analogue of
the plain one, with the roles of the two bases exchanged and the same tree traversal:
`U_` and `V_` change places, `D_` is conjugate-transposed, rows and columns change
places, at every node. -/
def adjoint : HBSMatrix R → HBSMatrix R
  | leaf r c U V D => leaf c r V U (ctrans D)
  | node r c U V D c0 c1 => node c r V U (ctrans D) (adjoint c0) (adjoint c1)

/-- Modelled from the spec: `apply_HBS(op, A, b, beta, c)` is not among the sources.
It runs the forward pass on a default-constructed work context and then the backward
pass, which updates `c` in place; for `Trans::C` the two passes run with the roles of
the bases exchanged (`adjoint`). -/
def apply_HBS : Trans → HBSMatrix R → DenseM R → R → DenseM R → Option (DenseM R)
  | Trans.N, t, b, beta, c => do
      let w ← apply_fwd t b WorkApply.fresh
      let (c, _) ← apply_bwd t b beta c w
      pure c
  | Trans.C, t, b, beta, c => do
      let w ← apply_fwd (adjoint t) b WorkApply.fresh
      let (c, _) ← apply_bwd (adjoint t) b beta c w
      pure c

/-- `HBSMatrix::apply(b)`: `assert(cols() == b.rows())`, allocate `c` with `rows()`
rows and `b.cols()` columns, `apply_HBS(Trans::N, *this, b, 0, c)`, return `c`.
A failed assertion is a fault. -/
def apply (mem : Nat → Nat → R) (t : HBSMatrix R) (b : DenseM R) : Option (DenseM R) :=
  if t.cols = b.rows then apply_HBS Trans.N t b 0 (uninit mem t.rows b.cols)
  else none

/-- `HBSMatrix::applyC(b)`: `assert(rows() == b.rows())`, allocate `c` with `cols()`
rows and `b.cols()` columns, `apply_HBS(Trans::C, *this, b, 0, c)`, return `c`. -/
def applyC (mem : Nat → Nat → R) (t : HBSMatrix R) (b : DenseM R) : Option (DenseM R) :=
  if t.rows = b.rows then apply_HBS Trans.C t b 0 (uninit mem t.cols b.cols)
  else none

/-- An HBS tree over the integers that is a single leaf: `D = [[3]]`, `U = V = [[1]]`. -/
def exRootLeaf : HBSMatrix ℤ :=
  leaf 1 1 (ofRows 1 1 [[1]]) (ofRows 1 1 [[1]]) (ofRows 1 1 [[3]])

/-- An internal node over the integers with different bases `U = [[1], [1]]` and
`V = [[2], [3]]`, zero coupling block and two 1 x 1 leaves of rank 1. -/
def exInner : HBSMatrix ℤ :=
  node 2 2 (ofRows 2 1 [[1], [1]]) (ofRows 2 1 [[2], [3]]) (zeros 2 2)
    (leaf 1 1 (ofRows 1 1 [[1]]) (ofRows 1 1 [[1]]) (ofRows 1 1 [[1]]))
    (leaf 1 1 (ofRows 1 1 [[1]]) (ofRows 1 1 [[1]]) (ofRows 1 1 [[1]]))

/-- A 2 x 3 tree over the integers: child 0 is a 1 x 2 leaf with `D = [[1, 1]]`,
`V = [[1], [1]]`, child 1 is a 1 x 1 leaf with `D = [[1]]`; all ranks are 1 and the
root's coupling block is zero. -/
def exNonSquare : HBSMatrix ℤ :=
  node 2 3 DenseM.empty DenseM.empty (zeros 2 2)
    (leaf 1 2 (ofRows 1 1 [[1]]) (ofRows 2 1 [[1], [1]]) (ofRows 1 2 [[1, 1]]))
    (leaf 1 1 (ofRows 1 1 [[1]]) (ofRows 1 1 [[1]]) (ofRows 1 1 [[1]]))

end HBSMatrix

namespace HSSMatrix

variable {R : Type} [CommRing R] [StarRing R]

open DenseM

/-- Sizes of the subtree are consistent: a leaf's `U` has `rows` rows and its `V` has
`cols` rows; the rows and columns of an internal node are those of its children
together. -/
def Sizes : HSSMatrix R → Prop
  | leaf r c U V _ => U.rows = r ∧ V.rows = c
  | node r c _ _ _ _ c0 c1 =>
      r = c0.rows + c1.rows ∧ c = c0.cols + c1.cols ∧ Sizes c0 ∧ Sizes c1

end HSSMatrix

namespace HBSMatrix

variable {R : Type} [CommRing R] [StarRing R]

open DenseM

/-- The rows and columns of every internal node are those of its children together. -/
def Additive : HBSMatrix R → Prop
  | leaf _ _ _ _ _ => True
  | node r c _ _ _ c0 c1 =>
      r = c0.rows + c1.rows ∧ c = c0.cols + c1.cols ∧ Additive c0 ∧ Additive c1

/-- The leaves of the tree from left to right, each with the offset its work context
holds and its size: `((offset.first, offset.second), (rows, cols))`. -/
def leafWindows : HBSMatrix R → WorkApply R → List ((Nat × Nat) × (Nat × Nat))
  | leaf r c _ _ _, w => [(w.offset, (r, c))]
  | node _ _ _ _ _ c0 c1, WorkApply.forked _ _ _ _ w0 w1 =>
      leafWindows c0 w0 ++ leafWindows c1 w1
  | node _ _ _ _ _ _ _, WorkApply.bare _ _ _ _ => []

/-- The row windows `(start, length)` of the leaves. -/
def rowWindows (t : HBSMatrix R) (w : WorkApply R) : List (Nat × Nat) :=
  (leafWindows t w).map (fun p => (p.1.1, p.2.1))

/-- The column windows `(start, length)` of the leaves. -/
def colWindows (t : HBSMatrix R) (w : WorkApply R) : List (Nat × Nat) :=
  (leafWindows t w).map (fun p => (p.1.2, p.2.2))

/-- The windows `(start, length)` follow one another without gap from `a` to `b`. -/
def Tiles : List (Nat × Nat) → Nat → Nat → Prop
  | [], a, b => a = b
  | p :: l, a, b => p.1 = a ∧ Tiles l (a + p.2) b

/-- Index `i` lies in the window `p = (start, length)`. -/
def InWindow (p : Nat × Nat) (i : Nat) : Prop := p.1 ≤ i ∧ i < p.1 + p.2

end HBSMatrix

namespace HSSMatrix

variable {R : Type} [CommRing R] [StarRing R]

open DenseM

/-- A 2 x 2 leaf over the integers whose ranks differ: `U = [[1], [0]]` (rank 1) and
`V = I` (rank 2). -/
def exLeafUV : HSSMatrix ℤ :=
  leaf 2 2 (basisOf 2 1 [[1], [0]]) (basisOf 2 2 [[1, 0], [0, 1]])
    (ofRows 2 2 [[1, 0], [0, 1]])

/-- An internal node over `exLeafUV` and `exLeaf1` with coupling blocks sized as the
stated invariants ask:
`B01` of size `V_rank(c0) x U_rank(c1) = 2 x 1` and `B10` of size `V_rank(c1) x
U_rank(c0) = 1 x 1`. -/
def exampleUVdoc : HSSMatrix ℤ :=
  node 3 3 (basisOf 0 0 []) (basisOf 0 0 []) (ofRows 2 1 [[3], [3]]) (ofRows 1 1 [[4]])
    exLeafUV exLeaf1

end HSSMatrix

namespace HSSMatrix

variable {K : Type} [LinearOrderedField K] [StarRing K]

open DenseM

/-- The `m x n` block of `M` with top-left corner `(i, j)`. -/
def subBlock (M : DenseM K) (i j m n : Nat) : DenseM K :=
  ⟨m, n, fun a b => M.val (i + a) (j + b)⟩

/-- Index map of one row interchange: `i` and `p` swapped. -/
def swapIdx (i p a : Nat) : Nat := if a = i then p else if a = p then i else a

/-- Row `a` of the result of the interchanges of `laswp` for the pivots `P`, started at
row `i`, is row `pivPerm P i a` of the input. -/
def pivPerm : List Int → Nat → Nat → Nat
  | [], _, a => a
  | p :: ps, i, a => swapIdx i (p.toNat - 1) (pivPerm ps (i + 1) a)

/-- The permutation matrix `P` of order `n` with `P(s a, a) = 1`: `P^T * M` has row
`s a` of `M` as its row `a`. -/
def permMat (n : Nat) (s : Nat → Nat) : DenseM K :=
  ⟨n, n, fun k a => if k = s a then 1 else 0⟩

/-- The matrix `Omega = [[-E, I], [I, 0]]` of the non-root step (source lines 150-152). -/
def omegaMat (E : DenseM K) : DenseM K :=
  fromBlocks (smul (-1) E) (eye E.rows) (eye E.cols) (zeros E.cols E.rows)

/-- Basis data over the rationals for a non-root node with two rows and rank 1:
`E = [[3]]` and the row interchanges `P = [2, 2]` (rows 0 and 1 swapped). -/
def exBasis : HSSBasisID ℚ := ⟨⟨2, 1, fun _ _ => 1⟩, [2, 2], ⟨1, 1, fun _ _ => 3⟩⟩

/-- The symmetric block `[[1, 2], [2, 5]]` over the rationals. -/
def exDt : DenseM ℚ := ⟨2, 2, fun i j => if i = j then (if i = 0 then 1 else 5) else 2⟩

/-- Kernels over the rationals that are exact on blocks of order 1: the factorization
leaves the block unchanged with pivots `1, ..., n` and the solve divides the right-hand
side by the single entry. -/
def lapack1 : Lapack ℚ :=
  ⟨fun x => x, fun D => (D.val, List.map (fun i : Nat => Int.ofNat (i + 1)) (List.range D.rows)),
    fun F _ B i j => B.val i j / F.val 0 0⟩

end HSSMatrix

namespace HBSMatrix

variable {R : Type} [CommRing R] [StarRing R]

open DenseM

/-- A rectangular tree over the integers that is a single 1 x 2 leaf: `D = [[4, 5]]`,
`U = [[1]]`, `V = [[1], [1]]`. -/
def exRectLeaf : HBSMatrix ℤ :=
  leaf 1 2 (ofRows 1 1 [[1]]) (ofRows 2 1 [[1], [1]]) (ofRows 1 2 [[4, 5]])

end HBSMatrix

/-! ## IEEE 754 binary64 arithmetic -/

namespace Binary64

/-- The power `2^e` for an integer exponent. -/
def pow2 (e : Int) : ℚ :=
  if 0 ≤ e then ((2 ^ e.toNat : Nat) : ℚ) else 1 / ((2 ^ (-e).toNat : Nat) : ℚ)

/-- Halving loop of `log2`, at most `fuel` times. -/
def log2Aux : Nat → Nat → Nat
  | 0, _ => 0
  | fuel + 1, n => if 2 ≤ n then log2Aux fuel (n / 2) + 1 else 0

/-- The exponent `floor (log2 n)` of a positive natural number. -/
def log2 (n : Nat) : Nat := log2Aux n n

/-- The exponent `floor (log2 |x|)` of a non-zero rational. -/
def ilog2 (x : ℚ) : Int :=
  let e : Int := (log2 x.num.natAbs : Int) - (log2 x.den : Int)
  if pow2 e ≤ |x| then e else e - 1

/-- Bit-by-bit loop of the integer square root. -/
def isqrtAux (n : Nat) : Nat → Nat → Nat
  | 0, r => r
  | b + 1, r => isqrtAux n b (if (r + 2 ^ b) * (r + 2 ^ b) ≤ n then r + 2 ^ b else r)

/-- Integer square root `floor (sqrt n)`. -/
def isqrt (n : Nat) : Nat := isqrtAux n (log2 n / 2 + 1) 0

/-- `std::sqrt` on binary64: the correctly rounded square root of a non-negative
number (to nearest, ties to even).  The root of a number with exponent `e` has exponent
`floor (e / 2)`, so the candidates are the multiples of `q = 2^(floor (e / 2) - 52)`;
`k = floor (sqrt x / q)` and the comparison of `x / q^2` with `(k + 1/2)^2` decides
between `k q` and `(k + 1) q`.  Negative arguments (NaN) are not represented. -/
def sqrt (x : ℚ) : ℚ :=
  if x ≤ 0 then 0
  else
    let q := pow2 (ilog2 x / 2 - 52)
    let n := x / (q * q)
    let k : Nat := isqrt (Rat.floor n).toNat
    let half : ℚ := (k : ℚ) * k + k + 1 / 4
    if n < half then k * q
    else if half < n then (k + 1) * q
    else if k % 2 = 0 then k * q else (k + 1) * q

end Binary64

namespace HSSMatrix

variable {K : Type} [LinearOrderedField K] [StarRing K]

open DenseM

end HSSMatrix

/-! # Proofs -/

section DotLemmas

variable {R : Type} [CommRing R]

theorem dot_eq_sum (n : Nat) (f : Nat → R) : dot n f = ∑ k in Finset.range n, f k := by
  induction n with
  | zero => simp [dot]
  | succ n ih => simp [dot, Finset.sum_range_succ, ih]

theorem dot_congr {n : Nat} {f g : Nat → R} (h : ∀ k, k < n → f k = g k) :
    dot n f = dot n g := by
  rw [dot_eq_sum, dot_eq_sum]
  exact Finset.sum_congr rfl (fun k hk => h k (Finset.mem_range.mp hk))

theorem dot_zero_fun (n : Nat) : dot n (fun _ => (0 : R)) = 0 := by
  simp [dot_eq_sum]

theorem dot_eq_zero {n : Nat} {f : Nat → R} (h : ∀ k, k < n → f k = 0) : dot n f = 0 := by
  rw [dot_congr h, dot_zero_fun]

theorem dot_split (m n : Nat) (f : Nat → R) :
    dot (m + n) f = dot m f + dot n (fun k => f (m + k)) := by
  simp only [dot_eq_sum, Finset.sum_range_add]

theorem dot_add_fun (n : Nat) (f g : Nat → R) :
    dot n (fun k => f k + g k) = dot n f + dot n g := by
  simp only [dot_eq_sum, Finset.sum_add_distrib]

theorem dot_mul_left (n : Nat) (a : R) (f : Nat → R) :
    dot n (fun k => a * f k) = a * dot n f := by
  simp only [dot_eq_sum, Finset.mul_sum]

theorem dot_mul_right (n : Nat) (a : R) (f : Nat → R) :
    dot n (fun k => f k * a) = dot n f * a := by
  simp only [dot_eq_sum, Finset.sum_mul]

theorem dot_swap (m n : Nat) (f : Nat → Nat → R) :
    dot m (fun i => dot n (fun j => f i j)) = dot n (fun j => dot m (fun i => f i j)) := by
  simp only [dot_eq_sum]
  exact Finset.sum_comm

theorem star_dot [StarRing R] (n : Nat) (f : Nat → R) :
    star (dot n f) = dot n (fun k => star (f k)) := by
  simp only [dot_eq_sum, star_sum]

end DotLemmas

namespace DenseM

variable {R : Type} [CommRing R] [StarRing R]

@[simp] theorem mul_rows (A B : DenseM R) : (mul A B).rows = A.rows := rfl
@[simp] theorem mul_cols (A B : DenseM R) : (mul A B).cols = B.cols := rfl
@[simp] theorem add_rows (A B : DenseM R) : (add A B).rows = A.rows := rfl
@[simp] theorem add_cols (A B : DenseM R) : (add A B).cols = A.cols := rfl
@[simp] theorem sub_rows (A B : DenseM R) : (sub A B).rows = A.rows := rfl
@[simp] theorem sub_cols (A B : DenseM R) : (sub A B).cols = A.cols := rfl
@[simp] theorem smul_rows (a : R) (A : DenseM R) : (smul a A).rows = A.rows := rfl
@[simp] theorem smul_cols (a : R) (A : DenseM R) : (smul a A).cols = A.cols := rfl
@[simp] theorem ctrans_rows (A : DenseM R) : (ctrans A).rows = A.cols := rfl
@[simp] theorem ctrans_cols (A : DenseM R) : (ctrans A).cols = A.rows := rfl
@[simp] theorem blockdiag_rows (A B : DenseM R) : (blockdiag A B).rows = A.rows + B.rows := rfl
@[simp] theorem blockdiag_cols (A B : DenseM R) : (blockdiag A B).cols = A.cols + B.cols := rfl
@[simp] theorem rowSlice_rows (A : DenseM R) (i m : Nat) : (rowSlice A i m).rows = m := rfl
@[simp] theorem rowSlice_cols (A : DenseM R) (i m : Nat) : (rowSlice A i m).cols = A.cols := rfl
@[simp] theorem vstack_rows (A B : DenseM R) : (vstack A B).rows = A.rows + B.rows := rfl
@[simp] theorem vstack_cols (A B : DenseM R) : (vstack A B).cols = A.cols := rfl
@[simp] theorem store_rows (M : DenseM R) (i j : Nat) (blk : DenseM R) :
    (store M i j blk).rows = M.rows := rfl
@[simp] theorem store_cols (M : DenseM R) (i j : Nat) (blk : DenseM R) :
    (store M i j blk).cols = M.cols := rfl
@[simp] theorem op_N (A : DenseM R) : op Trans.N A = A := rfl
@[simp] theorem op_C (A : DenseM R) : op Trans.C A = ctrans A := rfl

theorem mul_val (A B : DenseM R) (i j : Nat) :
    (mul A B).val i j = dot A.cols (fun k => A.val i k * B.val k j) := rfl
theorem add_val (A B : DenseM R) (i j : Nat) : (add A B).val i j = A.val i j + B.val i j := rfl
theorem sub_val (A B : DenseM R) (i j : Nat) : (sub A B).val i j = A.val i j - B.val i j := rfl
theorem smul_val (a : R) (A : DenseM R) (i j : Nat) : (smul a A).val i j = a * A.val i j := rfl
theorem ctrans_val (A : DenseM R) (i j : Nat) : (ctrans A).val i j = star (A.val j i) := rfl
theorem rowSlice_val (A : DenseM R) (o m i j : Nat) :
    (rowSlice A o m).val i j = A.val (o + i) j := rfl
theorem vstack_val (A B : DenseM R) (i j : Nat) :
    (vstack A B).val i j = if i < A.rows then A.val i j else B.val (i - A.rows) j := rfl
theorem blockdiag_val (A B : DenseM R) (i j : Nat) :
    (blockdiag A B).val i j =
      if i < A.rows then (if j < A.cols then A.val i j else 0)
      else (if j < A.cols then 0 else B.val (i - A.rows) (j - A.cols)) := rfl
theorem store_val (M : DenseM R) (i j : Nat) (blk : DenseM R) (a b : Nat) :
    (store M i j blk).val a b =
      if i ≤ a ∧ a < i + blk.rows ∧ j ≤ b ∧ b < j + blk.cols then blk.val (a - i) (b - j)
      else M.val a b := rfl

theorem Same.refl (A : DenseM R) : Same A A := ⟨rfl, rfl, fun _ _ _ _ => rfl⟩

theorem Same.symm {A B : DenseM R} (h : Same A B) : Same B A :=
  ⟨h.1.symm, h.2.1.symm, fun i j hi hj => (h.2.2 i j (h.1 ▸ hi) (h.2.1 ▸ hj)).symm⟩

theorem Same.trans {A B C : DenseM R} (h1 : Same A B) (h2 : Same B C) : Same A C :=
  ⟨h1.1.trans h2.1, h1.2.1.trans h2.2.1, fun i j hi hj =>
    (h1.2.2 i j hi hj).trans (h2.2.2 i j (h1.1 ▸ hi) (h1.2.1 ▸ hj))⟩

/-- Associativity of the product, as an identity of storage. -/
theorem mul_assoc' (A B C : DenseM R) : mul (mul A B) C = mul A (mul B C) := by
  simp only [mul, DenseM.mk.injEq, true_and]
  funext i j
  simp only [← dot_mul_right, ← dot_mul_left]
  rw [dot_swap]
  exact dot_congr (fun k _ => dot_congr (fun l _ => by ring))

/-- `(A B)^C = B^C A^C` when the inner dimensions agree. -/
theorem ctrans_mul (A B : DenseM R) (h : A.cols = B.rows) :
    ctrans (mul A B) = mul (ctrans B) (ctrans A) := by
  simp only [mul, ctrans, DenseM.mk.injEq, true_and]
  funext i j
  rw [star_dot, h]
  exact dot_congr (fun k _ => by simp [mul_comm])

theorem ctrans_ctrans (A : DenseM R) : ctrans (ctrans A) = A := by
  cases A
  simp [ctrans]

/-- The product only reads the rows of the right factor below the inner dimension. -/
theorem mul_congr_right {A X Y : DenseM R} (h : Same X Y) (hd : A.cols ≤ X.rows) :
    Same (mul A X) (mul A Y) := by
  refine ⟨rfl, h.2.1, fun i j _ hj => ?_⟩
  simp only [mul_val]
  exact dot_congr (fun k hk => by rw [h.2.2 k j (lt_of_lt_of_le hk hd) hj])

theorem mul_congr_left {A B X : DenseM R} (h : Same A B) :
    Same (mul A X) (mul B X) := by
  refine ⟨h.1, rfl, fun i j hi _ => ?_⟩
  simp only [mul_val, ← h.2.1]
  exact dot_congr (fun k hk => by rw [h.2.2 i k hi hk])

theorem add_congr {A B X Y : DenseM R} (h1 : Same A B) (h2 : Same X Y)
    (hr : A.rows = X.rows) (hc : A.cols = X.cols) : Same (add A X) (add B Y) := by
  refine ⟨h1.1, h1.2.1, fun i j hi hj => ?_⟩
  simp only [add_val]
  rw [h1.2.2 i j hi hj, h2.2.2 i j (hr ▸ hi) (hc ▸ hj)]

theorem sub_congr {A B X Y : DenseM R} (h1 : Same A B) (h2 : Same X Y)
    (hr : A.rows = X.rows) (hc : A.cols = X.cols) : Same (sub A X) (sub B Y) := by
  refine ⟨h1.1, h1.2.1, fun i j hi hj => ?_⟩
  simp only [sub_val]
  rw [h1.2.2 i j hi hj, h2.2.2 i j (hr ▸ hi) (hc ▸ hj)]

theorem ctrans_congr {A B : DenseM R} (h : Same A B) : Same (ctrans A) (ctrans B) :=
  ⟨h.2.1, h.1, fun i j hi hj => by simp only [ctrans_val]; rw [h.2.2 j i hj hi]⟩

/-- Rows of `blockdiag(A, B) * X`: the upper rows are `A * X`, the lower rows are `B`
times the rows of `X` from `A.cols` on. -/
theorem blockdiag_mul_val (A B X : DenseM R) (i j : Nat) :
    (mul (blockdiag A B) X).val i j =
      if i < A.rows then (mul A X).val i j
      else (mul B (rowSlice X A.cols B.cols)).val (i - A.rows) j := by
  simp only [mul_val, blockdiag_cols, dot_split, blockdiag_val, rowSlice_val]
  by_cases hi : i < A.rows
  · simp only [hi, if_true]
    have h1 : dot A.cols (fun k => (if k < A.cols then A.val i k else 0) * X.val k j) =
        dot A.cols (fun k => A.val i k * X.val k j) :=
      dot_congr (fun k hk => by simp [hk])
    have h2 : dot B.cols (fun k => (if A.cols + k < A.cols then A.val i (A.cols + k) else 0) *
        X.val (A.cols + k) j) = 0 :=
      dot_eq_zero (fun k _ => by simp)
    rw [h1, h2, add_zero]
  · simp only [hi, if_false]
    have h1 : dot A.cols (fun k => (if k < A.cols then (0 : R)
        else B.val (i - A.rows) (k - A.cols)) * X.val k j) = 0 :=
      dot_eq_zero (fun k hk => by simp [hk])
    rw [h1, zero_add]
    exact dot_congr (fun k _ => by simp)

/-- Rows of `blockdiag(A, B)^C * X`: the upper rows are `A^C * X`, the lower rows are
`B^C` times the rows of `X` from `A.rows` on. -/
theorem ctrans_blockdiag_mul_val (A B X : DenseM R) (i j : Nat) :
    (mul (ctrans (blockdiag A B)) X).val i j =
      if i < A.cols then (mul (ctrans A) X).val i j
      else (mul (ctrans B) (rowSlice X A.rows B.rows)).val (i - A.cols) j := by
  simp only [mul_val, ctrans_cols, blockdiag_rows, dot_split, ctrans_val, blockdiag_val,
    rowSlice_val]
  by_cases hi : i < A.cols
  · simp only [hi, if_true]
    have h1 : dot A.rows (fun k => star (if k < A.rows then A.val k i else 0) * X.val k j) =
        dot A.rows (fun k => star (A.val k i) * X.val k j) :=
      dot_congr (fun k hk => by simp [hk])
    have h2 : dot B.rows (fun k => star (if A.rows + k < A.rows then A.val (A.rows + k) i
        else 0) * X.val (A.rows + k) j) = 0 :=
      dot_eq_zero (fun k _ => by simp)
    rw [h1, h2, add_zero]
  · simp only [hi, if_false]
    have h1 : dot A.rows (fun k => star (if k < A.rows then (0 : R)
        else B.val (k - A.rows) (i - A.cols)) * X.val k j) = 0 :=
      dot_eq_zero (fun k hk => by simp [hk])
    rw [h1, zero_add]
    exact dot_congr (fun k _ => by simp)

theorem rowSlice_rowSlice (X : DenseM R) (o a m n : Nat) :
    rowSlice (rowSlice X o m) a n = rowSlice X (o + a) n := by
  simp only [rowSlice, DenseM.mk.injEq, true_and]
  funext i j
  rw [Nat.add_assoc]

theorem wrapper_eq_some {m n : Nat} {M : DenseM R} {i j : Nat}
    (h1 : i + m ≤ M.rows) (h2 : j + n ≤ M.cols) :
    wrapper m n M i j = some ⟨m, n, fun a b => M.val (i + a) (j + b)⟩ := by
  simp [wrapper, h1, h2]

theorem vconcat_eq_some {A B : DenseM R} (h : A.cols = B.cols) :
    vconcat A B = some (vstack A B) := by
  simp [vconcat, h]

theorem gemmR_eq_some {ta tb : Trans} {alpha : R} {A B : DenseM R}
    (h : (op ta A).cols = (op tb B).rows) :
    gemmR ta tb alpha A B = some (smul alpha (mul (op ta A) (op tb B))) := by
  simp [gemmR, h]

theorem gemm_eq_some {ta tb : Trans} {alpha beta : R} {A B C : DenseM R}
    (h1 : (op ta A).cols = (op tb B).rows) (h2 : C.rows = (op ta A).rows)
    (h3 : C.cols = (op tb B).cols) :
    gemm ta tb alpha A B beta C =
      some (add (smul alpha (mul (op ta A) (op tb B))) (smul beta C)) := by
  simp [gemm, h1, h2, h3]

end DenseM


namespace DenseM

variable {R : Type} [CommRing R] [StarRing R]

theorem smul_one' (A : DenseM R) : smul 1 A = A := by
  cases A
  simp [smul]

theorem gemm_beta_zero (A B : DenseM R) : add (smul 1 A) (smul 0 B) = A := by
  cases A
  simp [add, smul]

theorem gemm_one_zero (ta tb : Trans) (A B C : DenseM R)
    (h1 : (op ta A).cols = (op tb B).rows) (h2 : C.rows = (op ta A).rows)
    (h3 : C.cols = (op tb B).cols) :
    gemm ta tb 1 A B 0 C = some (mul (op ta A) (op tb B)) := by
  rw [gemm_eq_some h1 h2 h3, gemm_beta_zero]

theorem gemm_acc (ta tb : Trans) (a : R) (A B C : DenseM R)
    (h1 : (op ta A).cols = (op tb B).rows) (h2 : C.rows = (op ta A).rows)
    (h3 : C.cols = (op tb B).cols) :
    gemm ta tb a A B 1 C = some (add (smul a (mul (op ta A) (op tb B))) C) := by
  rw [gemm_eq_some h1 h2 h3, smul_one']

theorem gemmR_one (ta tb : Trans) (A B : DenseM R) (h : (op ta A).cols = (op tb B).rows) :
    gemmR ta tb 1 A B = some (mul (op ta A) (op tb B)) := by
  rw [gemmR_eq_some h, smul_one']

theorem wrapper_rows_eq {m : Nat} {M : DenseM R} {o : Nat} (h : o + m ≤ M.rows) :
    wrapper m M.cols M o 0 = some (rowSlice M o m) := by
  rw [wrapper_eq_some h (by simp)]
  simp [rowSlice]

end DenseM

namespace HBSMatrix

variable {R : Type} [CommRing R] [StarRing R]

open DenseM

theorem Vbig_cols (t : HBSMatrix R) : (Vbig t).cols = t.V_.cols := by
  cases t <;> rfl

theorem Ubig_cols (t : HBSMatrix R) : (Ubig t).cols = t.U_.cols := by
  cases t <;> rfl

theorem WF_square {l : Nat} {t : HBSMatrix R} (h : WF l t) : t.rows = t.cols := by
  cases t with
  | leaf r c U V D => exact h.1
  | node r c U V D c0 c1 => exact h.1

theorem Vbig_rows : ∀ (t : HBSMatrix R) (l : Nat), WF l t → (Vbig t).rows = t.cols
  | leaf r c U V D, _, h => by
      obtain ⟨_, _, h3, _, h5⟩ := h
      show V.rows = c
      omega
  | node r c U V D c0 c1, l, h => by
      obtain ⟨_, _, h3, _, _, _, h7, h8⟩ := h
      show (mul (blockdiag (Vbig c0) (Vbig c1)) V).rows = c
      rw [mul_rows, blockdiag_rows, Vbig_rows c0 _ h7, Vbig_rows c1 _ h8]
      omega

theorem Ubig_rows : ∀ (t : HBSMatrix R) (l : Nat), WF l t → (Ubig t).rows = t.rows
  | leaf r c U V D, _, h => by
      obtain ⟨_, h2, _, h4, _⟩ := h
      show U.rows = r
      omega
  | node r c U V D c0 c1, l, h => by
      obtain ⟨_, h2, _, _, _, _, h7, h8⟩ := h
      show (mul (blockdiag (Ubig c0) (Ubig c1)) U).rows = r
      rw [mul_rows, blockdiag_rows, Ubig_rows c0 _ h7, Ubig_rows c1 _ h8]
      omega

theorem Dense_rows : ∀ (t : HBSMatrix R) (l : Nat), WF l t → (Dense t).rows = t.rows
  | leaf r c U V D, _, h => h.2.1
  | node r c U V D c0 c1, l, h => by
      obtain ⟨_, h2, _, _, _, _, h7, h8⟩ := h
      show (add (blockdiag (Dense c0) (Dense c1)) _).rows = r
      rw [add_rows, blockdiag_rows, Dense_rows c0 _ h7, Dense_rows c1 _ h8]
      omega

theorem Dense_cols : ∀ (t : HBSMatrix R) (l : Nat), WF l t → (Dense t).cols = t.cols
  | leaf r c U V D, _, h => h.2.2.1
  | node r c U V D c0 c1, l, h => by
      obtain ⟨_, _, h3, _, _, _, h7, h8⟩ := h
      show (add (blockdiag (Dense c0) (Dense c1)) _).cols = c
      rw [add_cols, blockdiag_cols, Dense_cols c0 _ h7, Dense_cols c1 _ h8]
      omega

theorem FwdDone_q {b : DenseM R} : ∀ (t : HBSMatrix R) (o l : Nat) (w : WorkApply R),
    FwdDone b t o l w → (t.isNode = false ∨ l ≠ 0) →
    Same w.q (mul (ctrans (Vbig t)) (rowSlice b o t.cols))
  | leaf r c U V D, o, l, w, h, _ => h.2.2
  | node r c U V D c0 c1, o, l, w, h, hl => by
      obtain ⟨q, u, w0, w1, rfl, _, _, hq⟩ := h
      have hl' : l ≠ 0 := by
        rcases hl with h | h
        · simp [isNode] at h
        · exact h
      exact hq hl'

theorem FwdDone_setU {b : DenseM R} : ∀ (t : HBSMatrix R) (o l : Nat) (w : WorkApply R)
    (u : DenseM R), FwdDone b t o l w → FwdDone b t o l (w.setU u)
  | leaf r c U V D, o, l, w, u, h => by
      cases w <;> exact h
  | node r c U V D c0 c1, o, l, w, u, h => by
      obtain ⟨q, u', w0, w1, rfl, h0, h1, hq⟩ := h
      exact ⟨q, u, w0, w1, rfl, h0, h1, hq⟩

theorem setU_u (w : WorkApply R) (u : DenseM R) : (w.setU u).u = u := by
  cases w <;> rfl

/-- The compressed vector of an internal node, from those of its children. -/
theorem fwd_node_q {b : DenseM R} {V A B q0 q1 : DenseM R} {o c m0 m1 : Nat}
    (hA : A.rows = m0) (hB : B.rows = m1) (hc : c = m0 + m1)
    (hV : V.rows = A.cols + B.cols)
    (h0 : Same q0 (mul (ctrans A) (rowSlice b o m0)))
    (h1 : Same q1 (mul (ctrans B) (rowSlice b (o + m0) m1))) :
    Same (mul (ctrans V) (vstack q0 q1))
      (mul (ctrans (mul (blockdiag A B) V)) (rowSlice b o c)) := by
  rw [ctrans_mul _ _ (by simp [hV]), mul_assoc']
  refine mul_congr_right ?_ (by simp [hV, h0.1, h1.1])
  refine ⟨by simp [h0.1, h1.1], by simp [h0.2.1], fun i j hi hj => ?_⟩
  rw [ctrans_blockdiag_mul_val, vstack_val]
  simp only [vstack_rows, vstack_cols] at hi hj
  have e0 : q0.rows = A.cols := h0.1
  have e1 : q1.rows = B.cols := h1.1
  rw [e0]
  by_cases hlt : i < A.cols
  · simp only [hlt, if_true]
    rw [h0.2.2 i j (by omega) hj]
    simp only [mul_val, ctrans_cols, ctrans_val, rowSlice_val, hA]
  · simp only [hlt, if_false]
    have hj1 : j < q1.cols := by
      have := h0.2.1
      have := h1.2.1
      simp only [mul_cols, rowSlice_cols] at *
      omega
    rw [h1.2.2 (i - A.cols) j (by omega) hj1]
    simp only [mul_val, ctrans_cols, ctrans_val, rowSlice_val, hA, hB, Nat.add_assoc]

theorem add_mul_val {A B : DenseM R} (X : DenseM R) (h : A.cols = B.cols) (i j : Nat) :
    (mul (add A B) X).val i j = (mul A X).val i j + (mul B X).val i j := by
  simp only [mul_val, add_cols, add_val, ← h, ← dot_add_fun]
  exact dot_congr (fun k _ => by ring)

theorem mul_add_val (A X Y : DenseM R) (i j : Nat) :
    (mul A (add X Y)).val i j = (mul A X).val i j + (mul A Y).val i j := by
  simp only [mul_val, add_val, ← dot_add_fun]
  exact dot_congr (fun k _ => by ring)

/-- Window values written by the two children of an internal node add up to the
node's own contribution. -/
theorem bwd_node_val {A0 A1 P0 P1 Q0 Q1 D U u X qq uu : DenseM R} {l : Nat}
    (hA0r : A0.rows = P0.rows) (hA0c : A0.cols = Q0.rows) (hA1c : A1.cols = Q1.rows)
    (hqq : Same qq (mul (ctrans (blockdiag Q0 Q1)) X))
    (hDc : D.cols = Q0.cols + Q1.cols) (hDr : D.rows = P0.cols + P1.cols)
    (huu : ∀ k j, k < D.rows → j < X.cols →
      uu.val k j = (mul D qq).val k j + (if l ≠ 0 then (mul U u).val k j else 0))
    (i j : Nat) (hj : j < X.cols) :
    (if i < P0.rows then
        (mul A0 X).val i j + (mul P0 (rowSlice uu 0 P0.cols)).val i j
      else
        (mul A1 (rowSlice X A0.cols A1.cols)).val (i - P0.rows) j +
          (mul P1 (rowSlice uu P0.cols P1.cols)).val (i - P0.rows) j) =
      (mul (add (blockdiag A0 A1)
          (mul (mul (blockdiag P0 P1) D) (ctrans (blockdiag Q0 Q1)))) X).val i j +
        (if l ≠ 0 then (mul (mul (blockdiag P0 P1) U) u).val i j else 0) := by
  have hY : ∀ k, k < D.rows →
      (mul D qq).val k j = (mul D (mul (ctrans (blockdiag Q0 Q1)) X)).val k j := by
    intro k hk
    have := (mul_congr_right (A := D) hqq (by rw [hqq.1]; simp [hDc])).2.2 k j
      (by simpa using hk) (by simpa [hqq.2.1] using hj)
    exact this
  have key : ∀ (P : DenseM R) (off i' : Nat), off + P.cols ≤ D.rows →
      (mul P (rowSlice uu off P.cols)).val i' j =
        (mul P (rowSlice (mul D (mul (ctrans (blockdiag Q0 Q1)) X)) off P.cols)).val i' j +
          (if l ≠ 0 then (mul P (rowSlice (mul U u) off P.cols)).val i' j else 0) := by
    intro P off i' hoff
    simp only [mul_val P, rowSlice_val]
    by_cases hl : l = 0
    · simp only [hl, ne_eq, not_true_eq_false, if_false, add_zero]
      refine dot_congr (fun k hk => ?_)
      rw [huu (off + k) j (by omega) hj, hY _ (by omega)]
      simp [hl]
    · simp only [ne_eq, hl, not_false_eq_true, if_true, ← dot_add_fun]
      refine dot_congr (fun k hk => ?_)
      rw [huu (off + k) j (by omega) hj, hY _ (by omega)]
      simp only [ne_eq, hl, not_false_eq_true, if_true]
      ring
  rw [add_mul_val X (by simp [hA0c, hA1c]), mul_assoc', mul_assoc', mul_assoc',
    blockdiag_mul_val, blockdiag_mul_val, blockdiag_mul_val, hA0r]
  by_cases hi : i < P0.rows
  · simp only [hi, if_true]
    rw [key P0 0 i (by omega)]
    have e1 : ∀ (Z : DenseM R), (mul P0 (rowSlice Z 0 P0.cols)).val i j = (mul P0 Z).val i j := by
      intro Z
      simp only [mul_val P0, rowSlice_val, Nat.zero_add]
    rw [e1, e1]
    by_cases hl : l = 0 <;> simp [hl] <;> ring
  · simp only [hi, if_false]
    rw [key P1 P0.cols (i - P0.rows) (by omega)]
    by_cases hl : l = 0 <;> simp [hl] <;> ring

theorem apply_fwd_done (b : DenseM R) : ∀ (t : HBSMatrix R) (o l : Nat) (q0 u0 : DenseM R),
    WF l t → o + t.cols ≤ b.rows →
    ∃ w, apply_fwd t b (WorkApply.bare (o, o) l q0 u0) = some w ∧ FwdDone b t o l w
  | leaf r c U V D, o, l, q0, u0, hwf, hb => by
      obtain ⟨h1, h2, h3, h4, h5⟩ := hwf
      change o + c ≤ b.rows at hb
      have hw : wrapper V.rows b.cols b o 0 = some (rowSlice b o V.rows) :=
        wrapper_rows_eq (by omega)
      have hg : gemmR Trans.C Trans.N 1 V (rowSlice b o V.rows) =
          some (smul 1 (mul (ctrans V) (rowSlice b o V.rows))) :=
        gemmR_eq_some (by simp)
      refine ⟨(WorkApply.bare (o, o) l q0 u0).setQ
        (smul 1 (mul (ctrans V) (rowSlice b o V.rows))), ?_, ?_⟩
      · simp only [apply_fwd, WorkApply.offset, hw, hg, Option.bind_eq_bind, Option.some_bind,
          Option.pure_def]
      · refine ⟨rfl, rfl, ?_⟩
        simp only [WorkApply.setQ, WorkApply.q, smul_one']
        rw [show V.rows = c by omega]
        exact Same.refl _
  | node r c U V D c0 c1, o, l, q0, u0, hwf, hb => by
      obtain ⟨h1, h2, h3, h4, h5, h6, h7, h8⟩ := hwf
      change o + c ≤ b.rows at hb
      have s0 := WF_square h7
      have s1 := WF_square h8
      obtain ⟨w0, e0, d0⟩ := apply_fwd_done b c0 o (l + 1) DenseM.empty DenseM.empty h7
        (by omega)
      obtain ⟨w1, e1, d1⟩ := apply_fwd_done b c1 (o + c0.rows) (l + 1) DenseM.empty
        DenseM.empty h8 (by omega)
      have hq0 := FwdDone_q c0 o (l + 1) w0 d0 (Or.inr (Nat.succ_ne_zero l))
      have hq1 := FwdDone_q c1 (o + c0.rows) (l + 1) w1 d1 (Or.inr (Nat.succ_ne_zero l))
      have hoff : (o + c0.dims.1, o + c0.dims.2) = (o + c0.rows, o + c0.rows) := by
        simp [dims, s0]
      by_cases hl : l = 0
      · subst hl
        refine ⟨WorkApply.forked (o, o) 0 q0 u0 w0 w1, ?_, ⟨q0, u0, w0, w1, rfl, d0, d1, ?_⟩⟩
        · simp only [apply_fwd, WorkApply.split, hoff, e0, e1, Option.bind_eq_bind,
            Option.some_bind, Option.pure_def, ne_eq, not_true_eq_false, if_false]
        · intro h
          exact absurd rfl h
      · have hv : vconcat w0.q w1.q = some (vstack w0.q w1.q) :=
          vconcat_eq_some (by rw [hq0.2.1, hq1.2.1]; rfl)
        have hrows : V.rows = (Vbig c0).cols + (Vbig c1).cols := by
          rw [Vbig_cols, Vbig_cols]
          exact (h6 hl).2
        have hg : gemmR Trans.C Trans.N 1 V (vstack w0.q w1.q) =
            some (smul 1 (mul (ctrans V) (vstack w0.q w1.q))) :=
          gemmR_eq_some (by simp [hq0.1, hq1.1, hrows])
        refine ⟨WorkApply.forked (o, o) l (smul 1 (mul (ctrans V) (vstack w0.q w1.q))) u0 w0 w1,
          ?_, ⟨_, u0, w0, w1, rfl, d0, d1, ?_⟩⟩
        · simp only [apply_fwd, WorkApply.split, hoff, e0, e1, hv, hg, Option.bind_eq_bind,
            Option.some_bind, Option.pure_def, ne_eq, hl, not_false_eq_true, if_true]
        · intro _
          rw [smul_one']
          exact fwd_node_q (Vbig_rows c0 _ h7) (Vbig_rows c1 _ h8) h3 hrows hq0
            (by rw [← s0]; exact hq1)

theorem apply_bwd_spec (b : DenseM R) (beta : R) :
    ∀ (t : HBSMatrix R) (o l : Nat) (w : WorkApply R) (c : DenseM R),
    WF l t → (t.isNode = false → l ≠ 0) → FwdDone b t o l w →
    (l ≠ 0 → w.u.rows = t.U_.cols ∧ w.u.cols = b.cols) →
    c.cols = b.cols → o + t.rows ≤ c.rows → o + t.cols ≤ b.rows →
    ∃ c' w', apply_bwd t b beta c w = some (c', w') ∧ c'.rows = c.rows ∧ c'.cols = c.cols ∧
      (∀ i j, (i < o ∨ o + t.rows ≤ i) → c'.val i j = c.val i j) ∧
      (∀ i j, i < t.rows → j < c.cols →
        c'.val (o + i) j = beta * c.val (o + i) j +
          (mul (Dense t) (rowSlice b o t.cols)).val i j +
          (if l ≠ 0 then (mul (Ubig t) w.u).val i j else 0))
  | leaf r c0 U V D, o, l, w, c, hwf, hleaf, hfd, hu, hcc, hcr, hbr => by
      obtain ⟨h1, h2, h3, h4, h5⟩ := hwf
      obtain ⟨ho, hlv, _⟩ := hfd
      have hl : l ≠ 0 := hleaf rfl
      obtain ⟨hur, huc⟩ := hu hl
      change w.u.rows = U.cols at hur
      change o + r ≤ c.rows at hcr
      change o + c0 ≤ b.rows at hbr
      have hw1 : wrapper U.rows c.cols c o 0 = some (rowSlice c o U.rows) :=
        wrapper_rows_eq (by omega)
      have hg1 : gemm Trans.N Trans.N 1 U w.u beta (rowSlice c o U.rows) =
          some (add (smul 1 (mul U w.u)) (smul beta (rowSlice c o U.rows))) :=
        gemm_eq_some (by simp [hur]) (by simp) (by simp [huc, hcc])
      have hw2 : wrapper D.cols b.cols b o 0 = some (rowSlice b o D.cols) :=
        wrapper_rows_eq (by omega)
      have hg2 : gemm Trans.N Trans.N 1 D (rowSlice b o D.cols) 1
            (add (smul 1 (mul U w.u)) (smul beta (rowSlice c o U.rows))) =
          some (add (smul 1 (mul D (rowSlice b o D.cols)))
            (smul 1 (add (smul 1 (mul U w.u)) (smul beta (rowSlice c o U.rows))))) :=
        gemm_eq_some (by simp) (by simp [h4]) (by simp [huc])
      refine ⟨store c o 0 (add (smul 1 (mul D (rowSlice b o D.cols)))
        (smul 1 (add (smul 1 (mul U w.u)) (smul beta (rowSlice c o U.rows))))), w,
        ?_, ?_, ?_, ?_, ?_⟩
      · simp only [apply_bwd, ho, hlv, hw1, hg1, hw2, hg2, Option.bind_eq_bind,
          Option.some_bind, Option.pure_def, ne_eq, hl, not_false_eq_true, if_true]
      · rfl
      · rfl
      · intro i j hij
        rw [store_val]
        have : ¬ (o ≤ i ∧ i < o + D.rows ∧ 0 ≤ j ∧ j < 0 + b.cols) := by
          simp only [add_rows, smul_rows, mul_rows, add_cols, smul_cols, mul_cols,
            rowSlice_cols] at *
          change i < o ∨ o + r ≤ i at hij
          omega
        simp only [add_rows, smul_rows, mul_rows, add_cols, smul_cols, mul_cols,
          rowSlice_cols, this, if_false]
      · intro i j hi hj
        change i < r at hi
        rw [store_val, if_pos (by
          simp only [add_rows, smul_rows, mul_rows, add_cols, smul_cols, mul_cols,
            rowSlice_cols]
          omega)]
        simp only [if_true, add_val, smul_val, rowSlice_val, ne_eq, hl,
          not_false_eq_true, Nat.add_sub_cancel_left, Nat.sub_zero]
        rw [show (leaf r c0 U V D).cols = D.cols from h3.symm]
        simp only [Dense, Ubig, mul_val, rowSlice_val]
        ring
  | node r c0 U V D t0 t1, o, l, w, c, hwf, _, hfd, hu, hcc, hcr, hbr => by
      obtain ⟨h1, h2, h3, h4, h5, h6, h7, h8⟩ := hwf
      obtain ⟨q, u, w0, w1, rfl, d0, d1, _⟩ := hfd
      change o + r ≤ c.rows at hcr
      change o + c0 ≤ b.rows at hbr
      change l ≠ 0 → u.rows = U.cols ∧ u.cols = b.cols at hu
      have s0 := WF_square h7
      have s1 := WF_square h8
      have hq0 := FwdDone_q t0 o (l + 1) w0 d0 (Or.inr (Nat.succ_ne_zero l))
      have hq1 := FwdDone_q t1 (o + t0.rows) (l + 1) w1 d1 (Or.inr (Nat.succ_ne_zero l))
      have hv : vconcat w0.q w1.q = some (vstack w0.q w1.q) :=
        vconcat_eq_some (by rw [hq0.2.1, hq1.2.1]; rfl)
      have hqqr : (vstack w0.q w1.q).rows = D.cols := by
        simp [hq0.1, hq1.1, h5, Vbig_cols]
      have hqqc : (vstack w0.q w1.q).cols = b.cols := by
        simp [hq0.2.1]
      have hg : gemmR Trans.N Trans.N 1 D (vstack w0.q w1.q) =
          some (smul 1 (mul D (vstack w0.q w1.q))) :=
        gemmR_eq_some (by simpa using hqqr.symm)
      obtain ⟨uu, huu, huur, huuc, huuv⟩ : ∃ uu : DenseM R,
          (if l ≠ 0 then gemm Trans.N Trans.N 1 U u 1 (smul 1 (mul D (vstack w0.q w1.q)))
            else pure (smul 1 (mul D (vstack w0.q w1.q)))) = some uu ∧
          uu.rows = D.rows ∧ uu.cols = b.cols ∧
          ∀ k j, uu.val k j = (mul D (vstack w0.q w1.q)).val k j +
            (if l ≠ 0 then (mul U u).val k j else 0) := by
        by_cases hl : l = 0
        · refine ⟨smul 1 (mul D (vstack w0.q w1.q)), by simp [hl], rfl, hqqc, ?_⟩
          intro k j
          simp [hl, smul_val]
        · obtain ⟨hur, huc⟩ := hu hl
          refine ⟨add (smul 1 (mul U u)) (smul 1 (smul 1 (mul D (vstack w0.q w1.q)))), ?_,
            by simp [(h6 hl).1, h4], huc, ?_⟩
          · simp only [ne_eq, hl, not_false_eq_true, if_true]
            exact gemm_eq_some (by simp [hur]) (by simp [(h6 hl).1, h4]) (hqqc.trans huc.symm)
          · intro k j
            simp only [ne_eq, hl, not_false_eq_true, if_true, add_val, smul_val]
            ring
      have hw0 : wrapper t0.U_.cols uu.cols uu 0 0 = some (rowSlice uu 0 t0.U_.cols) :=
        wrapper_rows_eq (by omega)
      have hw1 : wrapper t1.U_.cols uu.cols uu t0.U_.cols 0 =
          some (rowSlice uu t0.U_.cols t1.U_.cols) :=
        wrapper_rows_eq (by omega)
      obtain ⟨c1, w0', e0, c1r, c1c, c1f, c1v⟩ :=
        apply_bwd_spec b beta t0 o (l + 1) (w0.setU (rowSlice uu 0 t0.U_.cols)) c h7
          (fun _ => Nat.succ_ne_zero l) (FwdDone_setU _ _ _ _ _ d0)
          (fun _ => by rw [setU_u]; exact ⟨rfl, huuc⟩) hcc (by omega) (by omega)
      obtain ⟨c2, w1', e1, c2r, c2c, c2f, c2v⟩ :=
        apply_bwd_spec b beta t1 (o + t0.rows) (l + 1)
          (w1.setU (rowSlice uu t0.U_.cols t1.U_.cols)) c1 h8
          (fun _ => Nat.succ_ne_zero l) (FwdDone_setU _ _ _ _ _ d1)
          (fun _ => by rw [setU_u]; exact ⟨rfl, huuc⟩) (by omega) (by omega) (by omega)
      refine ⟨c2, WorkApply.forked (o, o) l q u w0' w1', ?_, by omega, by omega, ?_, ?_⟩
      · by_cases hl : l = 0
        · simp only [hl, ne_eq, not_true_eq_false, if_false, Option.pure_def,
            Option.some.injEq] at huu
          subst huu
          simp only [apply_bwd, hv, hg, hw0, hw1, e0, e1, hl, Option.bind_eq_bind,
            Option.some_bind, Option.pure_def, ne_eq, not_true_eq_false, if_false]
        · simp only [ne_eq, hl, not_false_eq_true, if_true] at huu
          simp only [apply_bwd, hv, hg, huu, hw0, hw1, e0, e1, Option.bind_eq_bind,
            Option.some_bind, Option.pure_def, ne_eq, hl, not_false_eq_true, if_true]
      · intro i j hij
        change i < o ∨ o + r ≤ i at hij
        rw [c2f i j (by omega), c1f i j (by omega)]
      · intro i j hi hj
        change i < r at hi
        have hqq : Same (vstack w0.q w1.q)
            (mul (ctrans (blockdiag (Vbig t0) (Vbig t1))) (rowSlice b o c0)) := by
          refine ⟨by simp [hq0.1, hq1.1], by simp [hq0.2.1], fun a b' ha hb' => ?_⟩
          rw [ctrans_blockdiag_mul_val, vstack_val]
          simp only [vstack_rows, vstack_cols] at ha hb'
          have e0' : w0.q.rows = (Vbig t0).cols := hq0.1
          have e1' : w1.q.rows = (Vbig t1).cols := hq1.1
          have hb1 : b' < w1.q.cols := by
            have := hq0.2.1
            have := hq1.2.1
            simp only [mul_cols, rowSlice_cols] at *
            omega
          rw [e0']
          by_cases hlt : a < (Vbig t0).cols
          · simp only [hlt, if_true]
            rw [hq0.2.2 a b' (by omega) hb']
            simp only [mul_val, ctrans_cols, ctrans_val, rowSlice_val]
          · simp only [hlt, if_false]
            rw [hq1.2.2 (a - (Vbig t0).cols) b' (by omega) hb1]
            simp only [mul_val, ctrans_cols, ctrans_val, rowSlice_val, Vbig_rows t0 _ h7, s0,
              Nat.add_assoc]
        have hval := @bwd_node_val R _ _ (Dense t0) (Dense t1) (Ubig t0) (Ubig t1)
          (Vbig t0) (Vbig t1) D U u (rowSlice b o c0) (vstack w0.q w1.q) uu l
          (by rw [Dense_rows _ _ h7, Ubig_rows _ _ h7])
          (by rw [Dense_cols _ _ h7, Vbig_rows _ _ h7])
          (by rw [Dense_cols _ _ h8, Vbig_rows _ _ h8])
          hqq (by rw [Vbig_cols, Vbig_cols]; exact h5) (by rw [Ubig_cols, Ubig_cols]; exact h4)
          (fun k j _ _ => huuv k j) i j (by simpa [hcc] using hj)
        rw [Ubig_rows _ _ h7, Ubig_cols, Ubig_cols, Dense_cols _ _ h7, Dense_cols _ _ h8] at hval
        show c2.val (o + i) j = beta * c.val (o + i) j +
          (mul (add (blockdiag (Dense t0) (Dense t1))
            (mul (mul (blockdiag (Ubig t0) (Ubig t1)) D)
              (ctrans (blockdiag (Vbig t0) (Vbig t1))))) (rowSlice b o c0)).val i j +
          (if l ≠ 0 then (mul (mul (blockdiag (Ubig t0) (Ubig t1)) U) u).val i j else 0)
        rw [add_assoc, ← hval]
        by_cases hi0 : i < t0.rows
        · simp only [hi0, if_true]
          rw [c2f (o + i) j (by omega), c1v i j hi0 hj]
          simp only [ne_eq, Nat.succ_ne_zero, not_false_eq_true, if_true, setU_u]
          have : (mul (Dense t0) (rowSlice b o t0.cols)).val i j =
              (mul (Dense t0) (rowSlice b o c0)).val i j := rfl
          rw [this]
          ring
        · simp only [hi0, if_false]
          have hidx : o + i = (o + t0.rows) + (i - t0.rows) := by omega
          rw [hidx, c2v (i - t0.rows) j (by omega) (by omega),
            c1f _ j (Or.inr (by omega))]
          simp only [ne_eq, Nat.succ_ne_zero, not_false_eq_true, if_true, setU_u]
          have : (mul (Dense t1) (rowSlice b (o + t0.rows) t1.cols)).val (i - t0.rows) j =
              (mul (Dense t1) (rowSlice (rowSlice b o c0) t0.cols t1.cols)).val
                (i - t0.rows) j := by
            rw [rowSlice_rowSlice, s0]
          rw [this]
          ring

theorem mul_eye_same (A : DenseM R) : Same (mul A (eye A.cols)) A := by
  refine ⟨rfl, rfl, fun i j _ hj => ?_⟩
  change j < A.cols at hj
  simp only [mul_val, eye, dot_eq_sum]
  rw [Finset.sum_eq_single j]
  · simp
  · intro k _ hk
    simp [hk]
  · intro h
    exact absurd (Finset.mem_range.mpr hj) h

/-- Forward pass followed by backward pass on a fresh work context: the general
statement behind the apply contract. -/
theorem apply_fwd_bwd (t : HBSMatrix R) (b c : DenseM R) (beta : R)
    (hnode : t.isNode = true) (hwf : WF 0 t) (hb : b.rows = t.cols)
    (hcr : c.rows = t.rows) (hcc : c.cols = b.cols) :
    ∃ w1 c' w2, apply_fwd t b WorkApply.fresh = some w1 ∧
      apply_bwd t b beta c w1 = some (c', w2) ∧
      Same c' (add (smul beta c) (mul (Dense t) b)) := by
  obtain ⟨w1, e1, d1⟩ := apply_fwd_done b t 0 0 DenseM.empty DenseM.empty hwf (by omega)
  obtain ⟨c', w2, e2, hr, hc, _, hv⟩ := apply_bwd_spec b beta t 0 0 w1 c hwf
    (fun h => by rw [hnode] at h; exact absurd h (by decide)) d1
    (fun h => absurd rfl h) hcc (by omega) (by omega)
  refine ⟨w1, c', w2, e1, e2, hr, hc, fun i j hi hj => ?_⟩
  have := hv i j (by omega) (by omega)
  rw [Nat.zero_add] at this
  rw [this]
  simp only [ne_eq, not_true_eq_false, if_false, add_zero, add_val, smul_val, mul_val,
    rowSlice_val, Nat.zero_add]

/-- C1 (HBS apply correctness).  For a well-formed square HBS tree whose root is an
internal node, every operand `b` with `cols(root)` rows, every `beta` and every initial
`c` of size `rows(root) x b.cols`: `apply_fwd` on a fresh work context succeeds, the
following `apply_bwd` succeeds, and it leaves `c = beta * c_old + Dense(t) * b`.  With
`beta = 0` and `b` the identity the result is `Dense(t)` itself. -/
theorem HBS_apply_correct (t : HBSMatrix R) (b c : DenseM R) (beta : R)
    (hnode : t.isNode = true) (hwf : WF 0 t) (hb : b.rows = t.cols)
    (hcr : c.rows = t.rows) (hcc : c.cols = b.cols) :
    (∃ w1 c' w2, apply_fwd t b WorkApply.fresh = some w1 ∧
      apply_bwd t b beta c w1 = some (c', w2) ∧
      Same c' (add (smul beta c) (mul (Dense t) b))) ∧
    (∀ c0 : DenseM R, c0.rows = t.rows → c0.cols = t.cols →
      ∃ w1 c' w2, apply_fwd t (eye t.cols) WorkApply.fresh = some w1 ∧
        apply_bwd t (eye t.cols) 0 c0 w1 = some (c', w2) ∧ Same c' (Dense t)) := by
  refine ⟨apply_fwd_bwd t b c beta hnode hwf hb hcr hcc, fun c0 h0r h0c => ?_⟩
  obtain ⟨w1, c', w2, e1, e2, hs⟩ :=
    apply_fwd_bwd t (eye t.cols) c0 0 hnode hwf rfl h0r h0c
  refine ⟨w1, c', w2, e1, e2, hs.trans ?_⟩
  have hm := mul_eye_same (Dense t)
  rw [Dense_cols t 0 hwf] at hm
  refine Same.trans (B := mul (Dense t) (eye t.cols))
    ⟨by simp [h0r, Dense_rows t 0 hwf], by simp [h0c, eye], fun i j _ _ => ?_⟩ hm
  simp [add_val, smul_val]

/-- C1 witness: the hypotheses hold for the concrete two-leaf tree `example2`. -/
theorem HBS_apply_correct_witness :
    (∃ w1 c' w2, apply_fwd example2 (ofRows 2 1 [[1], [2]]) WorkApply.fresh = some w1 ∧
      apply_bwd example2 (ofRows 2 1 [[1], [2]]) 3 (ofRows 2 1 [[10], [20]]) w1 =
        some (c', w2) ∧
      Same c' (add (smul 3 (ofRows 2 1 [[10], [20]]))
        (mul (Dense example2) (ofRows 2 1 [[1], [2]])))) ∧
    (∀ c0 : DenseM ℤ, c0.rows = example2.rows → c0.cols = example2.cols →
      ∃ w1 c' w2, apply_fwd example2 (eye example2.cols) WorkApply.fresh = some w1 ∧
        apply_bwd example2 (eye example2.cols) 0 c0 w1 = some (c', w2) ∧
        Same c' (Dense example2)) :=
  HBS_apply_correct example2 (ofRows 2 1 [[1], [2]]) (ofRows 2 1 [[10], [20]]) 3
    rfl (by simp [example2, WF, rows, cols, U_, V_, ofRows, DenseM.empty]) rfl rfl rfl

end HBSMatrix

namespace HSSMatrix

variable {R : Type} [CommRing R] [StarRing R]

open DenseM

theorem hss_Ubig_cols (t : HSSMatrix R) : (Ubig t).cols = t.U_rank := by
  cases t <;> rfl

theorem hss_Vbig_cols (t : HSSMatrix R) : (Vbig t).cols = t.V_rank := by
  cases t <;> rfl

theorem hss_Ubig_rows : ∀ (t : HSSMatrix R), WFB t → (Ubig t).rows = t.rows
  | leaf r c U V D, h => h.1
  | node r c U V B01 B10 c0 c1, h => by
      obtain ⟨h1, _, _, _, h5, h6⟩ := h
      show (mul (blockdiag (Ubig c0) (Ubig c1)) U.mat).rows = r
      rw [mul_rows, blockdiag_rows, hss_Ubig_rows c0 h5, hss_Ubig_rows c1 h6]
      omega

theorem hss_Vbig_rows : ∀ (t : HSSMatrix R), WFB t → (Vbig t).rows = t.cols
  | leaf r c U V D, h => h.2
  | node r c U V B01 B10 c0 c1, h => by
      obtain ⟨_, h2, _, _, h5, h6⟩ := h
      show (mul (blockdiag (Vbig c0) (Vbig c1)) V.mat).rows = c
      rw [mul_rows, blockdiag_rows, hss_Vbig_rows c0 h5, hss_Vbig_rows c1 h6]
      omega

theorem expandLeaf_spec (U : HSSBasisID R) (Uop lt : DenseM R) (h1 : Uop.rows = U.cols)
    (h2 : lt.rows = U.rows) (h3 : lt.cols = Uop.cols) :
    ∃ blk, expandLeaf U Uop lt = some blk ∧ blk.rows = lt.rows ∧ blk.cols = lt.cols ∧
      ∀ i j, j < lt.cols → blk.val i j = (mul U.mat Uop).val i j := by
  by_cases h : U.cols ≠ 0 ∧ Uop.cols ≠ 0
  · refine ⟨add (smul 1 (mul U.mat Uop)) (smul 0 lt), ?_, h2.symm, h3.symm, ?_⟩
    · simp only [expandLeaf, if_pos h, HSSBasisID.applyInto]
      exact @gemm_eq_some R _ _ Trans.N Trans.N 1 0 U.mat Uop lt h1.symm h2 h3
    · intro i j _
      simp [add_val, smul_val]
  · refine ⟨zeros lt.rows lt.cols, by simp only [expandLeaf, if_neg h], rfl, rfl, ?_⟩
    intro i j hj
    have hz : U.mat.cols = 0 := by
      by_contra hne
      exact h ⟨hne, by omega⟩
    simp [zeros, mul_val, hz, dot]

theorem splitOp_spec (mem : Nat → Nat → R) (U : HSSBasisID R) (Uop : DenseM R) (r0 r1 : Nat)
    (h1 : Uop.rows = U.cols) (h2 : U.rows = r0 + r1) :
    ∃ X0 X1, splitOp mem U Uop r0 r1 = some (X0, X1) ∧
      X0.rows = r0 ∧ X0.cols = Uop.cols ∧ X1.rows = r1 ∧ X1.cols = Uop.cols ∧
      (∀ k j, j < Uop.cols → X0.val k j = (mul U.mat Uop).val k j) ∧
      (∀ k j, j < Uop.cols → X1.val k j = (mul U.mat Uop).val (r0 + k) j) := by
  by_cases h : U.cols ≠ 0 ∧ Uop.cols ≠ 0
  · have hg : U.apply Uop = some (smul 1 (mul U.mat Uop)) := gemmR_eq_some h1.symm
    have hrows : (smul (1 : R) (mul U.mat Uop)).rows = r0 + r1 := h2
    have hw0 : copyFrom (uninit mem r0 Uop.cols) (smul 1 (mul U.mat Uop)) 0 0 =
        some ⟨r0, Uop.cols, fun a b => (smul 1 (mul U.mat Uop)).val (0 + a) (0 + b)⟩ :=
      wrapper_eq_some (by rw [hrows]; show 0 + r0 ≤ r0 + r1; omega)
        (by show 0 + Uop.cols ≤ Uop.cols; omega)
    have hw1 : copyFrom (uninit mem r1 Uop.cols) (smul 1 (mul U.mat Uop)) r0 0 =
        some ⟨r1, Uop.cols, fun a b => (smul 1 (mul U.mat Uop)).val (r0 + a) (0 + b)⟩ :=
      wrapper_eq_some (by rw [hrows]; show r0 + r1 ≤ r0 + r1; omega)
        (by show 0 + Uop.cols ≤ Uop.cols; omega)
    refine ⟨⟨r0, Uop.cols, fun a b => (smul 1 (mul U.mat Uop)).val (0 + a) (0 + b)⟩,
      ⟨r1, Uop.cols, fun a b => (smul 1 (mul U.mat Uop)).val (r0 + a) (0 + b)⟩,
      ?_, rfl, rfl, rfl, rfl, ?_, ?_⟩
    · simp only [splitOp, if_pos h, hg, hw0, hw1, Option.bind_eq_bind,
        Option.some_bind, Option.pure_def]
    · intro k j _
      simp [smul_val]
    · intro k j _
      simp [smul_val]
  · have hz : U.mat.cols = 0 ∨ Uop.cols = 0 := by
      by_contra hne
      push_neg at hne
      exact h ⟨hne.1, hne.2⟩
    refine ⟨zeros r0 Uop.cols, zeros r1 Uop.cols, ?_, rfl, rfl, rfl, rfl, ?_, ?_⟩
    · simp only [splitOp, if_neg h, uninit]
    · intro k j hj
      rcases hz with hz | hz
      · simp [zeros, mul_val, hz, dot]
      · omega
    · intro k j hj
      rcases hz with hz | hz
      · simp [zeros, mul_val, hz, dot]
      · omega

/-- Rows of `blockdiag(P0, P1) * M` from the two halves `X0`, `X1` of `M`. -/
theorem expand_node_val {P0 P1 M X0 X1 : DenseM R} {n : Nat}
    (hX0 : ∀ k j, j < n → X0.val k j = M.val k j)
    (hX1 : ∀ k j, j < n → X1.val k j = M.val (P0.cols + k) j)
    (i j : Nat) (hj : j < n) :
    (mul (blockdiag P0 P1) M).val i j =
      if i < P0.rows then (mul P0 X0).val i j else (mul P1 X1).val (i - P0.rows) j := by
  rw [blockdiag_mul_val]
  by_cases hi : i < P0.rows
  · simp only [hi, if_true, mul_val]
    exact dot_congr (fun k _ => by rw [hX0 k j hj])
  · simp only [hi, if_false, mul_val, rowSlice_val]
    exact dot_congr (fun k _ => by rw [hX1 k j hj])

/-- What `apply_UV_big` does: it succeeds, keeps the sizes of `Theta` and `Phi`, leaves
every row outside the node's windows unchanged and fills the windows with
`Ubig * Uop` and `Vbig * Vop`. -/
theorem apply_UV_big_spec (mem : Nat → Nat → R) :
    ∀ (t : HSSMatrix R) (Theta Uop Phi Vop : DenseM R) (o1 o2 : Nat),
    WFB t → Uop.rows = t.U_rank → Vop.rows = t.V_rank →
    Theta.cols = Uop.cols → Phi.cols = Vop.cols →
    o1 + t.rows ≤ Theta.rows → o2 + t.cols ≤ Phi.rows →
    ∃ Theta' Phi', apply_UV_big mem t Theta Uop Phi Vop (o1, o2) = some (Theta', Phi') ∧
      Theta'.rows = Theta.rows ∧ Theta'.cols = Theta.cols ∧
      Phi'.rows = Phi.rows ∧ Phi'.cols = Phi.cols ∧
      (∀ i j, (i < o1 ∨ o1 + t.rows ≤ i) → Theta'.val i j = Theta.val i j) ∧
      (∀ i j, (i < o2 ∨ o2 + t.cols ≤ i) → Phi'.val i j = Phi.val i j) ∧
      (∀ i j, i < t.rows → j < Theta.cols →
        Theta'.val (o1 + i) j = (mul (Ubig t) Uop).val i j) ∧
      (∀ i j, i < t.cols → j < Phi.cols →
        Phi'.val (o2 + i) j = (mul (Vbig t) Vop).val i j)
  | leaf r c U V D, Theta, Uop, Phi, Vop, o1, o2, hwf, hU, hV, hT, hP, hTr, hPr => by
      obtain ⟨h1, h2⟩ := hwf
      change o1 + r ≤ Theta.rows at hTr
      change o2 + c ≤ Phi.rows at hPr
      change Uop.rows = U.cols at hU
      change Vop.rows = V.cols at hV
      have hw1 : wrapper U.rows Theta.cols Theta o1 0 = some (rowSlice Theta o1 U.rows) :=
        wrapper_rows_eq (by omega)
      have hw2 : wrapper V.rows Phi.cols Phi o2 0 = some (rowSlice Phi o2 V.rows) :=
        wrapper_rows_eq (by omega)
      obtain ⟨bt, ebt, btr, btc, btv⟩ :=
        expandLeaf_spec U Uop (rowSlice Theta o1 U.rows) hU rfl hT
      obtain ⟨bp, ebp, bpr, bpc, bpv⟩ :=
        expandLeaf_spec V Vop (rowSlice Phi o2 V.rows) hV rfl hP
      simp only [rowSlice_rows, rowSlice_cols] at btr btc bpr bpc btv bpv
      refine ⟨store Theta o1 0 bt, store Phi o2 0 bp, ?_, rfl, rfl, rfl, rfl, ?_, ?_, ?_, ?_⟩
      · simp only [apply_UV_big, hw1, hw2, ebt, ebp, Option.bind_eq_bind, Option.some_bind,
          Option.pure_def]
      · intro i j hij
        change i < o1 ∨ o1 + r ≤ i at hij
        rw [store_val, if_neg (by omega)]
      · intro i j hij
        change i < o2 ∨ o2 + c ≤ i at hij
        rw [store_val, if_neg (by omega)]
      · intro i j hi hj
        change i < r at hi
        rw [store_val, if_pos (by omega), Nat.add_sub_cancel_left, Nat.sub_zero, btv i j hj]
        rfl
      · intro i j hi hj
        change i < c at hi
        rw [store_val, if_pos (by omega), Nat.add_sub_cancel_left, Nat.sub_zero, bpv i j hj]
        rfl
  | node r c U V B01 B10 c0 c1, Theta, Uop, Phi, Vop, o1, o2, hwf, hU, hV, hT, hP, hTr,
      hPr => by
      obtain ⟨h1, h2, h3, h4, h5, h6⟩ := hwf
      change o1 + r ≤ Theta.rows at hTr
      change o2 + c ≤ Phi.rows at hPr
      change Uop.rows = U.cols at hU
      change Vop.rows = V.cols at hV
      obtain ⟨U0, U1, eU, U0r, U0c, U1r, U1c, U0v, U1v⟩ :=
        splitOp_spec mem U Uop c0.U_rank c1.U_rank hU h3
      obtain ⟨V0, V1, eV, V0r, V0c, V1r, V1c, V0v, V1v⟩ :=
        splitOp_spec mem V Vop c0.V_rank c1.V_rank hV h4
      obtain ⟨T1, P1, e1, T1r, T1c, P1r, P1c, T1f, P1f, T1v, P1v⟩ :=
        apply_UV_big_spec mem c0 Theta U0 Phi V0 o1 o2 h5 U0r V0r (by omega) (by omega)
          (by omega) (by omega)
      obtain ⟨T2, P2, e2, T2r, T2c, P2r, P2c, T2f, P2f, T2v, P2v⟩ :=
        apply_UV_big_spec mem c1 T1 U1 P1 V1 (o1 + c0.rows) (o2 + c0.cols) h6 U1r V1r
          (by omega) (by omega) (by omega) (by omega)
      refine ⟨T2, P2, ?_, by omega, by omega, by omega, by omega, ?_, ?_, ?_, ?_⟩
      · simp only [apply_UV_big, eU, eV, e1, dims, e2, Option.bind_eq_bind, Option.some_bind]
      · intro i j hij
        change i < o1 ∨ o1 + r ≤ i at hij
        rw [T2f i j (by omega), T1f i j (by omega)]
      · intro i j hij
        change i < o2 ∨ o2 + c ≤ i at hij
        rw [P2f i j (by omega), P1f i j (by omega)]
      · intro i j hi hj
        change i < r at hi
        show T2.val (o1 + i) j = (mul (mul (blockdiag (Ubig c0) (Ubig c1)) U.mat) Uop).val i j
        rw [mul_assoc', @expand_node_val R _ _ _ _ _ U0 U1 Uop.cols U0v
          (by rw [hss_Ubig_cols]; exact U1v) i j (by omega), hss_Ubig_rows c0 h5]
        by_cases hi0 : i < c0.rows
        · rw [if_pos hi0, T2f _ j (Or.inl (by omega)), T1v i j hi0 hj]
        · rw [if_neg hi0, show o1 + i = (o1 + c0.rows) + (i - c0.rows) by omega,
            T2v _ j (by omega) (by omega)]
      · intro i j hi hj
        change i < c at hi
        show P2.val (o2 + i) j = (mul (mul (blockdiag (Vbig c0) (Vbig c1)) V.mat) Vop).val i j
        rw [mul_assoc', @expand_node_val R _ _ _ _ _ V0 V1 Vop.cols V0v
          (by rw [hss_Vbig_cols]; exact V1v) i j (by omega), hss_Vbig_rows c0 h5]
        by_cases hi0 : i < c0.cols
        · rw [if_pos hi0, P2f _ j (Or.inl (by omega)), P1v i j hi0 hj]
        · rw [if_neg hi0, show o2 + i = (o2 + c0.cols) + (i - c0.cols) by omega,
            P2v _ j (by omega) (by omega)]

/-- What `Schur_update` returns at an internal node. -/
theorem Schur_update_spec (solve : DenseM R → List Int → DenseM R → Nat → Nat → R)
    (mem : Nat → Nat → R) (r c : Nat) (U V : HSSBasisID R) (B01 B10 : DenseM R)
    (c0 c1 : HSSMatrix R) (f : HSSFactors R) (Theta DUB01 Phi : DenseM R)
    (hwf : WFB c1) (h01r : B01.rows = c0.U_rank) (h01c : B01.cols = c1.V_rank)
    (h10r : B10.rows = c1.U_rank) :
    ∃ Theta' Phi', Schur_update solve mem (node r c U V B01 B10 c0 c1) f Theta DUB01 Phi =
        some (Theta', ⟨c0.U_.rows, B01.cols, solve f.D f.piv (mul c0.U_.mat B01)⟩, Phi') ∧
      Same Theta' (mul (Ubig c1) B10) ∧
      Same Phi' (mul (Vbig c1)
        (ctrans ⟨c0.U_.rows, B01.cols, solve f.D f.piv (mul c0.U_.mat B01)⟩)) := by
  have hg : c0.U_.apply B01 = some (smul 1 (mul c0.U_.mat B01)) :=
    @gemmR_eq_some R _ _ Trans.N Trans.N 1 c0.U_.mat B01 h01r.symm
  obtain ⟨T, P, e, Tr, Tc, Pr, Pc, _, _, Tv, Pv⟩ :=
    apply_UV_big_spec mem c1 (uninit mem c1.rows B10.cols) B10
      (uninit mem c1.cols
        (transpose ⟨c0.U_.rows, B01.cols, solve f.D f.piv (mul c0.U_.mat B01)⟩).cols)
      (transpose ⟨c0.U_.rows, B01.cols, solve f.D f.piv (mul c0.U_.mat B01)⟩) 0 0
      hwf h10r h01c rfl rfl (by simp [uninit]) (by simp [uninit])
  refine ⟨T, P, ?_, ?_, ?_⟩
  · simp only [Schur_update, hg, smul_one', Option.bind_eq_bind, Option.some_bind,
      Option.pure_def]
    simp only [smul_rows, smul_cols, mul_rows, mul_cols, HSSBasisID.rows] at e ⊢
    rw [e]
    rfl
  · refine ⟨by rw [Tr, mul_rows, hss_Ubig_rows c1 hwf]; rfl, by rw [Tc]; rfl, fun i j hi hj => ?_⟩
    have := Tv i j (by rw [Tr] at hi; exact hi) (by rw [Tc] at hj; exact hj)
    rwa [Nat.zero_add] at this
  · refine ⟨by rw [Pr, mul_rows, hss_Vbig_rows c1 hwf]; rfl, by rw [Pc]; rfl, fun i j hi hj => ?_⟩
    have := Pv i j (by rw [Pr] at hi; exact hi) (by rw [Pc] at hj; exact hj)
    rwa [Nat.zero_add] at this

/-- C9 (Theta of `Schur_update`).  At an internal node whose child 1 is well formed
and whose coupling blocks fit the children's ranks, `Schur_update` succeeds and its
output `Theta` has `rows(child1)` rows, `B10.cols()` columns and equals `U1big * B10`.
(The node itself is read-only: `B10` is copied into `_theta` before the expansion.) -/
theorem Schur_update_Theta (solve : DenseM R → List Int → DenseM R → Nat → Nat → R)
    (mem : Nat → Nat → R) (r c : Nat) (U V : HSSBasisID R) (B01 B10 : DenseM R)
    (c0 c1 : HSSMatrix R) (f : HSSFactors R) (Theta DUB01 Phi : DenseM R)
    (hwf : WFB c1) (h01r : B01.rows = c0.U_rank) (h01c : B01.cols = c1.V_rank)
    (h10r : B10.rows = c1.U_rank) :
    ∃ Theta' DUB01' Phi',
      Schur_update solve mem (node r c U V B01 B10 c0 c1) f Theta DUB01 Phi =
        some (Theta', DUB01', Phi') ∧
      Theta'.rows = c1.rows ∧ Theta'.cols = B10.cols ∧
      Same Theta' (mul (Ubig c1) B10) := by
  obtain ⟨T, P, e, hT, _⟩ :=
    Schur_update_spec solve mem r c U V B01 B10 c0 c1 f Theta DUB01 Phi hwf h01r h01c h10r
  exact ⟨T, _, P, e, by rw [hT.1, mul_rows, hss_Ubig_rows c1 hwf], hT.2.1, hT⟩

/-- C9 witness: the concrete node `exampleS`. -/
theorem Schur_update_Theta_witness :
    ∃ Theta' DUB01' Phi',
      Schur_update solveId (fun _ _ => 7) exampleS exampleF DenseM.empty DenseM.empty
        DenseM.empty = some (Theta', DUB01', Phi') ∧
      Theta'.rows = 1 ∧ Theta'.cols = 1 ∧
      Same Theta' (mul (ofRows 1 1 [[1]]) (ofRows 1 1 [[4]])) :=
  Schur_update_Theta solveId (fun _ _ => 7) 2 2 (basisOf 0 0 []) (basisOf 0 0 [])
    (ofRows 1 1 [[3]]) (ofRows 1 1 [[4]])
    exLeaf0 exLeaf1
    exampleF DenseM.empty DenseM.empty DenseM.empty ⟨rfl, rfl⟩ rfl rfl rfl

/-- C10 (DUB01 and Phi of `Schur_update`), for every scalar type with a conjugation.
At an internal node `Schur_update` succeeds; `DUB01` is the solve against `f` applied to
`child0.U * B01`; when that solve realises the multiplication by a matrix `Dinv`
(`D0^{-1}`), `DUB01 = Dinv * U0 * B01`; and `Phi = V1big * DUB01^C =
(Dinv * U0 * B01 * V1big^C)^C`. -/
theorem Schur_update_DUB01_Phi (solve : DenseM R → List Int → DenseM R → Nat → Nat → R)
    (mem : Nat → Nat → R) (r c : Nat) (U V : HSSBasisID R) (B01 B10 : DenseM R)
    (c0 c1 : HSSMatrix R) (f : HSSFactors R) (Theta DUB01 Phi Dinv : DenseM R)
    (hwf : WFB c1) (h01r : B01.rows = c0.U_rank) (h01c : B01.cols = c1.V_rank)
    (h10r : B10.rows = c1.U_rank)
    (hDr : Dinv.rows = c0.U_.rows)
    (hsolve : ∀ X : DenseM R, X.rows = c0.U_.rows → ∀ i j, i < X.rows → j < X.cols →
      solve f.D f.piv X i j = (mul Dinv X).val i j) :
    ∃ Theta' DUB01' Phi',
      Schur_update solve mem (node r c U V B01 B10 c0 c1) f Theta DUB01 Phi =
        some (Theta', DUB01', Phi') ∧
      DUB01' = ⟨c0.U_.rows, B01.cols, solve f.D f.piv (mul c0.U_.mat B01)⟩ ∧
      Same DUB01' (mul Dinv (mul c0.U_.mat B01)) ∧
      Same Phi' (mul (Vbig c1) (ctrans DUB01')) ∧
      Same Phi' (ctrans (mul (mul Dinv (mul c0.U_.mat B01)) (ctrans (Vbig c1)))) := by
  obtain ⟨T, P, e, _, hP⟩ :=
    Schur_update_spec solve mem r c U V B01 B10 c0 c1 f Theta DUB01 Phi hwf h01r h01c h10r
  have hD : Same (⟨c0.U_.rows, B01.cols, solve f.D f.piv (mul c0.U_.mat B01)⟩ : DenseM R)
      (mul Dinv (mul c0.U_.mat B01)) :=
    ⟨hDr.symm, rfl, fun i j hi hj => hsolve (mul c0.U_.mat B01) rfl i j hi hj⟩
  refine ⟨T, _, P, e, rfl, hD, hP, hP.trans ?_⟩
  rw [ctrans_mul _ _ (by simp [hss_Vbig_cols, h01c]), ctrans_ctrans]
  exact mul_congr_right (ctrans_congr hD) (by simp [hss_Vbig_cols, h01c])

/-- C10 witness: the concrete node `exampleS` with the unit solve. -/
theorem Schur_update_DUB01_Phi_witness :
    ∃ Theta' DUB01' Phi',
      Schur_update solveId (fun _ _ => 7) exampleS exampleF DenseM.empty DenseM.empty
        DenseM.empty = some (Theta', DUB01', Phi') ∧
      DUB01' = ⟨1, 1, solveId exampleF.D exampleF.piv
        (mul (ofRows 1 1 [[1]]) (ofRows 1 1 [[3]]))⟩ ∧
      Same DUB01' (mul (eye 1) (mul (ofRows 1 1 [[1]]) (ofRows 1 1 [[3]]))) ∧
      Same Phi' (mul (ofRows 1 1 [[1]]) (ctrans DUB01')) ∧
      Same Phi' (ctrans (mul (mul (eye 1) (mul (ofRows 1 1 [[1]]) (ofRows 1 1 [[3]])))
        (ctrans (ofRows 1 1 [[1]])))) :=
  Schur_update_DUB01_Phi solveId (fun _ _ => 7) 2 2 (basisOf 0 0 []) (basisOf 0 0 [])
    (ofRows 1 1 [[3]]) (ofRows 1 1 [[4]])
    exLeaf0 exLeaf1
    exampleF DenseM.empty DenseM.empty DenseM.empty (eye 1) ⟨rfl, rfl⟩ rfl rfl rfl rfl
    (fun X hX i j hi _ => by
      have h1 : X.rows = 1 := hX
      have h0 : i = 0 := by omega
      subst h0
      simp [solveId, mul_val, eye, dot])

/-- Closed form of the `Theta.cols() < Phi.cols()` branch of `Schur_product_direct`. -/
theorem Schur_product_direct_lt_eq (mem : Nat → Nat → R) (f : HSSFactors R)
    (B10 : DenseM R) (c0 c1 : HSSMatrix R) (Theta DUB01 X R' Sr Sc : DenseM R)
    (hVb : (Vbig c1).rows = R'.rows) (hUb : (Ubig c1).rows = R'.rows)
    (hdr : (dense c1).rows = R'.rows) (hdc : (dense c1).cols = R'.rows)
    (hVh : f.Vhat.rows = DUB01.rows) (hDUc : DUB01.cols = c1.V_rank)
    (hV0 : c0.V_rank = f.Vhat.cols) (hB10r : B10.rows = c1.U_rank)
    (hTc : Theta.cols = f.Vhat.cols) (hTr : Theta.rows = R'.rows)
    (hXr : X.rows = B10.cols) (hXc : X.cols = R'.rows)
    (hSr : Sr.rows = R'.rows) (hSrc : Sr.cols = R'.cols)
    (hSc : Sc.rows = R'.rows) (hScc : Sc.cols = R'.cols) :
    Schur_product_direct_lt mem f B10 c0 c1 Theta DUB01 X R' Sr Sc =
      some
        (add (smul (-1) (mul Theta (mul (mul (ctrans f.Vhat) DUB01) (mul (ctrans (Vbig c1)) R'))))
            (mul (dense c1) R'),
          add (smul (-1) (mul (ctrans X) (mul (ctrans B10) (mul (ctrans (Ubig c1)) R'))))
            (mul (ctrans (dense c1)) R')) := by
  have e1 : c1.apply_fwd R' = some (mul (ctrans (Vbig c1)) R') :=
    gemmR_one Trans.C Trans.N (Vbig c1) R' (by simpa using hVb)
  have e2 : c1.applyT_fwd R' = some (mul (ctrans (Ubig c1)) R') :=
    gemmR_one Trans.C Trans.N (Ubig c1) R' (by simpa using hUb)
  have e3 : gemm Trans.C Trans.N 1 f.Vhat DUB01 0 (uninit mem f.Vhat.cols DUB01.cols) =
      some (mul (ctrans f.Vhat) DUB01) :=
    gemm_one_zero Trans.C Trans.N f.Vhat DUB01 _ (by simpa using hVh) rfl rfl
  have e4 : gemm Trans.N Trans.N 1 (mul (ctrans f.Vhat) DUB01) (mul (ctrans (Vbig c1)) R') 0
      (uninit mem c0.V_rank R'.cols) =
      some (mul (mul (ctrans f.Vhat) DUB01) (mul (ctrans (Vbig c1)) R')) :=
    gemm_one_zero Trans.N Trans.N _ _ _ (by simpa [hss_Vbig_cols] using hDUc)
      (by simpa [uninit] using hV0) rfl
  have e5 : gemm Trans.C Trans.N 1 B10 (mul (ctrans (Ubig c1)) R') 0
      (uninit mem B10.cols R'.cols) = some (mul (ctrans B10) (mul (ctrans (Ubig c1)) R')) :=
    gemm_one_zero Trans.C Trans.N _ _ _ (by simpa [hss_Ubig_cols] using hB10r) rfl rfl
  have e6 : c1.apply_bwd R' 0 Sr = some (mul (dense c1) R') :=
    gemm_one_zero Trans.N Trans.N _ _ _ (by simpa using hdc) (by simpa [hdr] using hSr)
      (by simpa using hSrc)
  have e7 : c1.applyT_bwd R' 0 Sc = some (mul (ctrans (dense c1)) R') :=
    gemm_one_zero Trans.C Trans.N _ _ _ (by simpa using hdr) (by simpa [hdc] using hSc)
      (by simpa using hScc)
  have e8 : gemm Trans.N Trans.N (-1) Theta
      (mul (mul (ctrans f.Vhat) DUB01) (mul (ctrans (Vbig c1)) R')) 1 (mul (dense c1) R') =
      some (add (smul (-1)
        (mul Theta (mul (mul (ctrans f.Vhat) DUB01) (mul (ctrans (Vbig c1)) R'))))
        (mul (dense c1) R')) :=
    gemm_acc Trans.N Trans.N (-1) _ _ _ (by simpa using hTc) (by simpa [hdr] using hTr.symm)
      rfl
  have e9 : gemm Trans.C Trans.N (-1) X (mul (ctrans B10) (mul (ctrans (Ubig c1)) R')) 1
      (mul (ctrans (dense c1)) R') =
      some (add (smul (-1) (mul (ctrans X) (mul (ctrans B10) (mul (ctrans (Ubig c1)) R'))))
        (mul (ctrans (dense c1)) R')) :=
    gemm_acc Trans.C Trans.N (-1) _ _ _ (by simpa using hXr) (by simpa [hdc] using hXc.symm)
      rfl
  simp only [Schur_product_direct_lt, e1, e2, e3, e4, e5, e6, e7, e8, e9,
    Option.bind_eq_bind, Option.some_bind, Option.pure_def]

/-- Closed form of the other branch of `Schur_product_direct`. -/
theorem Schur_product_direct_ge_eq (mem : Nat → Nat → R) (f : HSSFactors R)
    (B10 : DenseM R) (c1 : HSSMatrix R) (DUB01 Phi X R' Sr Sc : DenseM R)
    (hVb : (Vbig c1).rows = R'.rows) (hUb : (Ubig c1).rows = R'.rows)
    (hdr : (dense c1).rows = R'.rows) (hdc : (dense c1).cols = R'.rows)
    (hDUc : DUB01.cols = c1.V_rank) (hB10r : B10.rows = c1.U_rank)
    (hB10c : B10.cols = f.Vhat.cols)
    (hPc : Phi.cols = f.Vhat.rows) (hPr : Phi.rows = R'.rows)
    (hXr : X.rows = R'.rows) (hXc : X.cols = DUB01.rows)
    (hSr : Sr.rows = R'.rows) (hSrc : Sr.cols = R'.cols)
    (hSc : Sc.rows = R'.rows) (hScc : Sc.cols = R'.cols) :
    Schur_product_direct_ge mem f B10 c1 DUB01 Phi X R' Sr Sc =
      some
        (add (smul (-1) (mul X (mul DUB01 (mul (ctrans (Vbig c1)) R')))) (mul (dense c1) R'),
          add (smul (-1) (mul Phi (mul (mul f.Vhat (ctrans B10)) (mul (ctrans (Ubig c1)) R'))))
            (mul (ctrans (dense c1)) R')) := by
  have e1 : c1.apply_fwd R' = some (mul (ctrans (Vbig c1)) R') :=
    gemmR_one Trans.C Trans.N (Vbig c1) R' (by simpa using hVb)
  have e2 : c1.applyT_fwd R' = some (mul (ctrans (Ubig c1)) R') :=
    gemmR_one Trans.C Trans.N (Ubig c1) R' (by simpa using hUb)
  have e3 : gemm Trans.N Trans.N 1 DUB01 (mul (ctrans (Vbig c1)) R') 0
      (uninit mem DUB01.rows R'.cols) = some (mul DUB01 (mul (ctrans (Vbig c1)) R')) :=
    gemm_one_zero Trans.N Trans.N _ _ _ (by simpa [hss_Vbig_cols] using hDUc) rfl rfl
  have e4 : gemm Trans.N Trans.C 1 f.Vhat B10 0 (uninit mem f.Vhat.rows B10.rows) =
      some (mul f.Vhat (ctrans B10)) :=
    gemm_one_zero Trans.N Trans.C _ _ _ (by simpa using hB10c.symm) rfl rfl
  have e5 : gemm Trans.N Trans.N 1 (mul f.Vhat (ctrans B10)) (mul (ctrans (Ubig c1)) R') 0
      (uninit mem f.Vhat.rows R'.cols) =
      some (mul (mul f.Vhat (ctrans B10)) (mul (ctrans (Ubig c1)) R')) :=
    gemm_one_zero Trans.N Trans.N _ _ _ (by simpa [hss_Ubig_cols] using hB10r) rfl rfl
  have e6 : c1.apply_bwd R' 0 Sr = some (mul (dense c1) R') :=
    gemm_one_zero Trans.N Trans.N _ _ _ (by simpa using hdc) (by simpa [hdr] using hSr)
      (by simpa using hSrc)
  have e7 : c1.applyT_bwd R' 0 Sc = some (mul (ctrans (dense c1)) R') :=
    gemm_one_zero Trans.C Trans.N _ _ _ (by simpa using hdr) (by simpa [hdc] using hSc)
      (by simpa using hScc)
  have e8 : gemm Trans.N Trans.N (-1) X (mul DUB01 (mul (ctrans (Vbig c1)) R')) 1
      (mul (dense c1) R') =
      some (add (smul (-1) (mul X (mul DUB01 (mul (ctrans (Vbig c1)) R'))))
        (mul (dense c1) R')) :=
    gemm_acc Trans.N Trans.N (-1) _ _ _ (by simpa using hXc) (by simpa [hdr] using hXr.symm)
      rfl
  have e9 : gemm Trans.N Trans.N (-1) Phi
      (mul (mul f.Vhat (ctrans B10)) (mul (ctrans (Ubig c1)) R')) 1
      (mul (ctrans (dense c1)) R') =
      some (add (smul (-1)
        (mul Phi (mul (mul f.Vhat (ctrans B10)) (mul (ctrans (Ubig c1)) R'))))
        (mul (ctrans (dense c1)) R')) :=
    gemm_acc Trans.N Trans.N (-1) _ _ _ (by simpa using hPc) (by simpa [hdc] using hPr.symm)
      rfl
  simp only [Schur_product_direct_ge, e1, e2, e3, e4, e5, e6, e7, e8, e9,
    Option.bind_eq_bind, Option.some_bind, Option.pure_def]

/-- C6 (the two evaluation orders of `Schur_product_direct` agree).  For inputs of
compatible dimensions, the branch taken when `Theta.cols() < Phi.cols()`, given the
combined term `Vhat^C * Phi^C`, and the other branch, given `Theta * Vhat^C`, both
succeed and return the same `Sr` and the same `Sc`. -/
theorem Schur_product_direct_orders_agree (mem : Nat → Nat → R) (f : HSSFactors R)
    (B10 : DenseM R) (c0 c1 : HSSMatrix R) (Theta DUB01 Phi R' Sr Sc : DenseM R)
    (hVb : (Vbig c1).rows = R'.rows) (hUb : (Ubig c1).rows = R'.rows)
    (hdr : (dense c1).rows = R'.rows) (hdc : (dense c1).cols = R'.rows)
    (hVh : f.Vhat.rows = DUB01.rows) (hDUc : DUB01.cols = c1.V_rank)
    (hV0 : c0.V_rank = f.Vhat.cols) (hB10r : B10.rows = c1.U_rank)
    (hB10c : B10.cols = f.Vhat.cols)
    (hTc : Theta.cols = f.Vhat.cols) (hTr : Theta.rows = R'.rows)
    (hPc : Phi.cols = f.Vhat.rows) (hPr : Phi.rows = R'.rows)
    (hSr : Sr.rows = R'.rows) (hSrc : Sr.cols = R'.cols)
    (hSc : Sc.rows = R'.rows) (hScc : Sc.cols = R'.cols) :
    ∃ Sr' Sc',
      Schur_product_direct_lt mem f B10 c0 c1 Theta DUB01
        (mul (ctrans f.Vhat) (ctrans Phi)) R' Sr Sc = some (Sr', Sc') ∧
      Schur_product_direct_ge mem f B10 c1 DUB01 Phi
        (mul Theta (ctrans f.Vhat)) R' Sr Sc = some (Sr', Sc') := by
  refine ⟨_, _, Schur_product_direct_lt_eq mem f B10 c0 c1 Theta DUB01 _ R' Sr Sc hVb hUb hdr
    hdc hVh hDUc hV0 hB10r hTc hTr (by simpa using hB10c.symm) (by simpa using hPr) hSr hSrc
    hSc hScc, ?_⟩
  rw [Schur_product_direct_ge_eq mem f B10 c1 DUB01 Phi _ R' Sr Sc hVb hUb hdr hdc hDUc hB10r
    hB10c hPc hPr (by simpa using hTr) (by simpa using hVh) hSr hSrc hSc hScc]
  rw [ctrans_mul _ _ (by simpa using hPc.symm), ctrans_ctrans, ctrans_ctrans]
  simp only [mul_assoc']

theorem ctrans_sub (A B : DenseM R) : ctrans (sub A B) = sub (ctrans A) (ctrans B) := by
  simp only [ctrans, sub, DenseM.mk.injEq, true_and]
  funext i j
  simp

theorem sub_mul_val {A B : DenseM R} (X : DenseM R) (h : A.cols = B.cols) (i j : Nat) :
    (mul (sub A B) X).val i j = (mul A X).val i j - (mul B X).val i j := by
  simp only [mul_val, sub_cols, sub_val, ← h]
  rw [sub_eq_add_neg, ← neg_one_mul, ← dot_mul_left, ← dot_add_fun]
  exact dot_congr (fun k _ => by ring)

/-- The two canonical results of `Schur_product_direct` are `S * R` and `S^C * R`. -/
theorem direct_canon {c1 : HSSMatrix R} {f : HSSFactors R} {B10 Theta DUB01 Phi R' : DenseM R}
    (hT : Same Theta (mul (Ubig c1) B10)) (hP : Same Phi (mul (Vbig c1) (ctrans DUB01)))
    (hB10r : B10.rows = c1.U_rank) (hB10c : B10.cols = f.Vhat.cols)
    (hDUc : DUB01.cols = c1.V_rank) (hDUr : DUB01.rows = f.Vhat.rows)
    (hdr : (dense c1).rows = R'.rows) (hdc : (dense c1).cols = R'.rows)
    (hUb : (Ubig c1).rows = R'.rows) (hVb : (Vbig c1).rows = R'.rows) :
    Same (add (smul (-1) (mul Theta (mul (ctrans f.Vhat) (mul DUB01 (mul (ctrans (Vbig c1)) R')))))
        (mul (dense c1) R')) (mul (SchurS c1 f Theta Phi) R') ∧
    Same (add (smul (-1) (mul Phi (mul f.Vhat (mul (ctrans B10) (mul (ctrans (Ubig c1)) R')))))
        (mul (ctrans (dense c1)) R')) (mul (ctrans (SchurS c1 f Theta Phi)) R') := by
  have hTr : Theta.rows = R'.rows := by rw [hT.1, mul_rows, hUb]
  have hTc : Theta.cols = f.Vhat.cols := by rw [hT.2.1, mul_cols, hB10c]
  have hPr : Phi.rows = R'.rows := by rw [hP.1, mul_rows, hVb]
  have hPc : Phi.cols = f.Vhat.rows := by rw [hP.2.1, mul_cols, ctrans_cols, hDUr]
  have hPhiC : Same (ctrans Phi) (mul DUB01 (ctrans (Vbig c1))) := by
    have := ctrans_congr hP
    rwa [ctrans_mul _ _ (by simp [hss_Vbig_cols, hDUc]), ctrans_ctrans] at this
  have hThC : Same (ctrans Theta) (mul (ctrans B10) (ctrans (Ubig c1))) := by
    have := ctrans_congr hT
    rwa [ctrans_mul _ _ (by simp [hss_Ubig_cols, hB10r])] at this
  constructor
  · have h1 : Same (mul (mul (mul Theta (ctrans f.Vhat)) (ctrans Phi)) R')
        (mul Theta (mul (ctrans f.Vhat) (mul DUB01 (mul (ctrans (Vbig c1)) R')))) := by
      have := mul_congr_left (X := R')
        (mul_congr_right (A := mul Theta (ctrans f.Vhat)) hPhiC (by simp [hPc]))
      simpa only [mul_assoc'] using this
    refine ⟨by simp [SchurS, hTr, hdr], rfl, fun i j hi hj => ?_⟩
    simp only [add_rows, smul_rows, mul_rows, add_cols, smul_cols, mul_cols] at hi hj
    rw [SchurS, sub_mul_val _ (by simp [hdc, hPr]), add_val, smul_val,
      h1.2.2 i j (by simpa using hi) (by simpa using hj)]
    ring
  · have h2 : Same (mul (ctrans (mul (mul Theta (ctrans f.Vhat)) (ctrans Phi))) R')
        (mul Phi (mul f.Vhat (mul (ctrans B10) (mul (ctrans (Ubig c1)) R')))) := by
      rw [ctrans_mul _ _ (by simp [hPc]), ctrans_mul _ _ (by simp [hTc]), ctrans_ctrans,
        ctrans_ctrans]
      have := mul_congr_left (X := R')
        (mul_congr_right (A := Phi)
          (mul_congr_right (A := f.Vhat) hThC (by simp [hTc])) (by simp [hPc]))
      simpa only [mul_assoc'] using this
    refine ⟨by simp [SchurS, hPr, hdc], rfl, fun i j hi hj => ?_⟩
    simp only [add_rows, smul_rows, mul_rows, add_cols, smul_cols, mul_cols] at hi hj
    rw [SchurS, ctrans_sub, sub_mul_val _ (by simp [hdr, hTr]), add_val, smul_val,
      h2.2.2 i j (by simpa [hPr] using hi) (by simpa using hj)]
    ring

/-- `Schur_update` followed by `Schur_product_direct` with the combined term the
contract asks for: both succeed and the outputs are `S * R` and `S^C * R` for
`S = F22 - Theta * Vhat^C * Phi^C`. -/
theorem Schur_direct_spec (solve : DenseM R → List Int → DenseM R → Nat → Nat → R)
    (mem : Nat → Nat → R) (r c : Nat) (U V : HSSBasisID R) (B01 B10 : DenseM R)
    (c0 c1 : HSSMatrix R) (f : HSSFactors R) (Theta0 DUB0 Phi0 R' Sr Sc : DenseM R)
    (hwf : WFB c1) (h01r : B01.rows = c0.U_rank) (h01c : B01.cols = c1.V_rank)
    (h10r : B10.rows = c1.U_rank) (h10c : B10.cols = c0.V_rank)
    (hVr : f.Vhat.rows = c0.U_.rows) (hVc : f.Vhat.cols = c0.V_rank)
    (hR : R'.rows = c1.rows) (hsq : c1.rows = c1.cols)
    (hdr : (dense c1).rows = c1.rows) (hdc : (dense c1).cols = c1.cols)
    (hSr : Sr.rows = R'.rows) (hSrc : Sr.cols = R'.cols)
    (hSc : Sc.rows = R'.rows) (hScc : Sc.cols = R'.cols) :
    ∃ Theta DUB01 Phi Sr' Sc',
      Schur_update solve mem (node r c U V B01 B10 c0 c1) f Theta0 DUB0 Phi0 =
        some (Theta, DUB01, Phi) ∧
      Schur_product_direct mem (node r c U V B01 B10 c0 c1) f Theta DUB01 Phi
        (combinedTerm f Theta Phi) R' Sr Sc = some (Sr', Sc') ∧
      Same Sr' (mul (SchurS c1 f Theta Phi) R') ∧
      Same Sc' (mul (ctrans (SchurS c1 f Theta Phi)) R') := by
  obtain ⟨T, P, e, hT, hP⟩ :=
    Schur_update_spec solve mem r c U V B01 B10 c0 c1 f Theta0 DUB0 Phi0 hwf h01r h01c h10r
  have hUb : (Ubig c1).rows = R'.rows := by rw [hss_Ubig_rows c1 hwf, hR]
  have hVb : (Vbig c1).rows = R'.rows := by rw [hss_Vbig_rows c1 hwf, hR, hsq]
  have hdr' : (dense c1).rows = R'.rows := by rw [hdr, hR]
  have hdc' : (dense c1).cols = R'.rows := by rw [hdc, hR, hsq]
  have hTr : T.rows = R'.rows := by rw [hT.1, mul_rows, hUb]
  have hTc : T.cols = f.Vhat.cols := by rw [hT.2.1, mul_cols, h10c, hVc]
  have hPr : P.rows = R'.rows := by rw [hP.1, mul_rows, hVb]
  have hPc : P.cols = f.Vhat.rows := by rw [hP.2.1, mul_cols, ctrans_cols, hVr]
  obtain ⟨k1, k2⟩ := @direct_canon R _ _ c1 f B10 T _ P R' hT hP h10r
    (by rw [h10c, hVc]) h01c hVr.symm hdr' hdc' hUb hVb
  refine ⟨T, ⟨c0.U_.rows, B01.cols, solve f.D f.piv (mul c0.U_.mat B01)⟩, P, ?_⟩
  by_cases hlt : T.cols < P.cols
  · have eq := Schur_product_direct_lt_eq mem f B10 c0 c1 T
      ⟨c0.U_.rows, B01.cols, solve f.D f.piv (mul c0.U_.mat B01)⟩
      (mul (ctrans f.Vhat) (ctrans P)) R' Sr Sc hVb hUb hdr' hdc' hVr
      h01c hVc.symm h10r hTc hTr (by simp [h10c, hVc]) (by simpa using hPr) hSr hSrc hSc hScc
    simp only [Schur_product_direct, combinedTerm, if_pos hlt]
    rw [eq]
    refine ⟨_, _, e, rfl, ?_, ?_⟩
    · simpa only [mul_assoc'] using k1
    · rw [ctrans_mul _ _ (by simpa using hPc.symm), ctrans_ctrans, ctrans_ctrans]
      simpa only [mul_assoc'] using k2
  · have eq := Schur_product_direct_ge_eq mem f B10 c1
      ⟨c0.U_.rows, B01.cols, solve f.D f.piv (mul c0.U_.mat B01)⟩ P
      (mul T (ctrans f.Vhat)) R' Sr Sc hVb hUb hdr' hdc' h01c h10r
      (by rw [h10c, hVc]) hPc hPr (by simpa using hTr) (by simpa using hVr) hSr hSrc hSc hScc
    simp only [Schur_product_direct, combinedTerm, if_neg hlt]
    rw [eq]
    refine ⟨_, _, e, rfl, ?_, ?_⟩
    · simpa only [mul_assoc'] using k1
    · simpa only [mul_assoc'] using k2

/-- C5, amended (`Schur_product_direct` applies the Schur complement).  At an internal
node, with `Theta`, `DUB01`, `Phi` as produced by `Schur_update`, the combined term
supplied as the contract requires and `F22` the matrix of child 1, for every probe `R`
the outputs are `Sr = S * R` and `Sc = S^C * R` where `S = F22 - Theta * Vhat^C * Phi^C`
(with the conjugate transpose of `Vhat`). -/
theorem Schur_product_direct_applies_S
    (solve : DenseM R → List Int → DenseM R → Nat → Nat → R)
    (mem : Nat → Nat → R) (r c : Nat) (U V : HSSBasisID R) (B01 B10 : DenseM R)
    (c0 c1 : HSSMatrix R) (f : HSSFactors R) (Theta0 DUB0 Phi0 R' Sr Sc : DenseM R)
    (hwf : WFB c1) (h01r : B01.rows = c0.U_rank) (h01c : B01.cols = c1.V_rank)
    (h10r : B10.rows = c1.U_rank) (h10c : B10.cols = c0.V_rank)
    (hVr : f.Vhat.rows = c0.U_.rows) (hVc : f.Vhat.cols = c0.V_rank)
    (hR : R'.rows = c1.rows) (hsq : c1.rows = c1.cols)
    (hdr : (dense c1).rows = c1.rows) (hdc : (dense c1).cols = c1.cols)
    (hSr : Sr.rows = R'.rows) (hSrc : Sr.cols = R'.cols)
    (hSc : Sc.rows = R'.rows) (hScc : Sc.cols = R'.cols) :
    ∃ Theta DUB01 Phi Sr' Sc',
      Schur_update solve mem (node r c U V B01 B10 c0 c1) f Theta0 DUB0 Phi0 =
        some (Theta, DUB01, Phi) ∧
      Schur_product_direct mem (node r c U V B01 B10 c0 c1) f Theta DUB01 Phi
        (combinedTerm f Theta Phi) R' Sr Sc = some (Sr', Sc') ∧
      Same Sr' (mul (SchurS c1 f Theta Phi) R') ∧
      Same Sc' (mul (ctrans (SchurS c1 f Theta Phi)) R') :=
  Schur_direct_spec solve mem r c U V B01 B10 c0 c1 f Theta0 DUB0 Phi0 R' Sr Sc hwf h01r h01c
    h10r h10c hVr hVc hR hsq hdr hdc hSr hSrc hSc hScc

/-- C5 witness: the concrete node `exampleT` with the non-symmetric `Vhat`. -/
theorem Schur_product_direct_applies_S_witness :
    ∃ Theta DUB01 Phi Sr' Sc',
      Schur_update solveId (fun _ _ => 0) exampleT exampleG DenseM.empty DenseM.empty
        DenseM.empty = some (Theta, DUB01, Phi) ∧
      Schur_product_direct (fun _ _ => 0) exampleT exampleG Theta DUB01 Phi
        (combinedTerm exampleG Theta Phi) (ofRows 1 1 [[1]]) (zeros 1 1) (zeros 1 1) =
        some (Sr', Sc') ∧
      Same Sr' (mul (SchurS exLeaf1 exampleG Theta Phi) (ofRows 1 1 [[1]])) ∧
      Same Sc' (mul (ctrans (SchurS exLeaf1 exampleG Theta Phi)) (ofRows 1 1 [[1]])) :=
  Schur_product_direct_applies_S solveId (fun _ _ => 0) 3 3 (basisOf 0 0 []) (basisOf 0 0 [])
    (ofRows 2 1 [[0], [1]]) (ofRows 1 2 [[1, 0]]) exLeaf2 exLeaf1 exampleG DenseM.empty
    DenseM.empty DenseM.empty (ofRows 1 1 [[1]]) (zeros 1 1) (zeros 1 1) ⟨rfl, rfl⟩
    rfl rfl rfl rfl rfl rfl rfl rfl rfl rfl rfl rfl rfl rfl

/-- C6 witness: the concrete node `exampleS`. -/
theorem Schur_product_direct_orders_agree_witness :
    ∃ Sr' Sc',
      Schur_product_direct_lt (fun _ _ => 7) exampleF (ofRows 1 1 [[4]]) exLeaf0 exLeaf1
        (ofRows 1 1 [[4]]) (ofRows 1 1 [[3]])
        (mul (ctrans exampleF.Vhat) (ctrans (ofRows 1 1 [[3]]))) (ofRows 1 1 [[1]])
        (zeros 1 1) (zeros 1 1) = some (Sr', Sc') ∧
      Schur_product_direct_ge (fun _ _ => 7) exampleF (ofRows 1 1 [[4]]) exLeaf1
        (ofRows 1 1 [[3]]) (ofRows 1 1 [[3]])
        (mul (ofRows 1 1 [[4]]) (ctrans exampleF.Vhat)) (ofRows 1 1 [[1]])
        (zeros 1 1) (zeros 1 1) = some (Sr', Sc') :=
  Schur_product_direct_orders_agree (fun _ _ => 7) exampleF (ofRows 1 1 [[4]]) exLeaf0 exLeaf1
    (ofRows 1 1 [[4]]) (ofRows 1 1 [[3]]) (ofRows 1 1 [[3]]) (ofRows 1 1 [[1]])
    (zeros 1 1) (zeros 1 1) rfl rfl rfl rfl rfl rfl rfl rfl rfl rfl rfl rfl rfl rfl rfl rfl rfl

/-- C5 as stated fails: on `exampleT` with `Vhat = [[0, 1], [0, 0]]` and the probe
`R = [[1]]`, `Schur_product_direct` returns `Sr = [[5]]`, while
`(F22 - Theta * Vhat * Phi^C) * R = [[4]]`. -/
theorem Schur_product_direct_doc_formula_fails :
    ∃ Theta DUB01 Phi Sr' Sc',
      Schur_update solveId (fun _ _ => 0) exampleT exampleG DenseM.empty DenseM.empty
        DenseM.empty = some (Theta, DUB01, Phi) ∧
      Schur_product_direct (fun _ _ => 0) exampleT exampleG Theta DUB01 Phi
        (combinedTerm exampleG Theta Phi) (ofRows 1 1 [[1]]) (zeros 1 1) (zeros 1 1) =
        some (Sr', Sc') ∧
      Sr'.val 0 0 = 5 ∧
      (mul (SchurS_doc exLeaf1 exampleG Theta Phi) (ofRows 1 1 [[1]])).val 0 0 = 4 ∧
      ¬ Same Sr' (mul (SchurS_doc exLeaf1 exampleG Theta Phi) (ofRows 1 1 [[1]])) := by
  refine ⟨_, _, _, _, _, rfl, rfl, ?_, ?_, ?_⟩
  · decide
  · decide
  · intro h
    exact absurd (h.2.2 0 0 (by decide) (by decide)) (by decide)

/-- C7 at a concrete input: on `exampleS` with `DUB01 = [[3]]`, `R0 = R1 = [[1]]` and
`Sr1 = Sc1 = [[0]]`, `Schur_product_indirect` returns `Sr = [[8]]` and `Sc = [[9]]`,
whereas the documented formulas give `[[-16]]` and `[[-15]]`: the second cross term
is added instead of subtracted. -/
theorem Schur_product_indirect_sign :
    ∃ Sr Sc,
      Schur_product_indirect (fun _ _ => 0) exampleS exampleF (ofRows 1 1 [[3]])
        (ofRows 1 1 [[1]]) (ofRows 1 1 [[1]]) (ofRows 1 1 [[0]]) (ofRows 1 1 [[0]])
        DenseM.empty DenseM.empty = some (Sr, Sc) ∧
      Sr.val 0 0 = 8 ∧ Sc.val 0 0 = 9 ∧
      (indirect_doc_Sr exampleF (ofRows 1 1 [[4]]) exLeaf0 exLeaf1 (ofRows 1 1 [[3]])
        (ofRows 1 1 [[1]]) (ofRows 1 1 [[1]]) (ofRows 1 1 [[0]])).val 0 0 = -16 ∧
      (indirect_doc_Sc exampleF (ofRows 1 1 [[3]]) (ofRows 1 1 [[4]]) exLeaf0 exLeaf1
        (ofRows 1 1 [[3]]) (ofRows 1 1 [[1]]) (ofRows 1 1 [[1]]) (ofRows 1 1 [[0]])).val 0 0
        = -15 := by
  refine ⟨_, _, rfl, ?_, ?_, ?_, ?_⟩ <;> decide

/-- C8 at a concrete input: on `exampleS` with `R0 = R1 = [[1]]`, `Sr1 = F22 R1 + U1big
B10 V0big^C R0 = [[9]]` and `Sc1 = F22^C R1 + V1big B01^C U0big^C R0 = [[8]]`,
`Schur_product_direct` on the probe `R1` returns `Sr = Sc = [[-7]]` while
`Schur_product_indirect` returns `Sr = Sc = [[17]]`. -/
theorem Schur_direct_indirect_differ :
    ∃ Theta DUB01 Phi SrD ScD SrI ScI,
      Schur_update solveId (fun _ _ => 0) exampleS exampleF DenseM.empty DenseM.empty
        DenseM.empty = some (Theta, DUB01, Phi) ∧
      Schur_product_direct (fun _ _ => 0) exampleS exampleF Theta DUB01 Phi
        (combinedTerm exampleF Theta Phi) (ofRows 1 1 [[1]]) (zeros 1 1) (zeros 1 1) =
        some (SrD, ScD) ∧
      Schur_product_indirect (fun _ _ => 0) exampleS exampleF DUB01
        (ofRows 1 1 [[1]]) (ofRows 1 1 [[1]])
        (add (mul (dense exLeaf1) (ofRows 1 1 [[1]]))
          (mul (mul (mul (Ubig exLeaf1) (ofRows 1 1 [[4]])) (ctrans (Vbig exLeaf0)))
            (ofRows 1 1 [[1]])))
        (add (mul (ctrans (dense exLeaf1)) (ofRows 1 1 [[1]]))
          (mul (mul (mul (Vbig exLeaf1) (ctrans (ofRows 1 1 [[3]]))) (ctrans (Ubig exLeaf0)))
            (ofRows 1 1 [[1]])))
        DenseM.empty DenseM.empty = some (SrI, ScI) ∧
      SrD.val 0 0 = -7 ∧ ScD.val 0 0 = -7 ∧ SrI.val 0 0 = 17 ∧ ScI.val 0 0 = 17 := by
  refine ⟨_, _, _, _, _, _, _, rfl, rfl, rfl, ?_, ?_, ?_, ?_⟩ <;> decide

end HSSMatrix

namespace HSSMatrix

variable {K : Type} [LinearOrderedField K] [StarRing K]

open DenseM

/-- Total of a count triple. -/
theorem classify_total (x : K) (acc : Inertia) :
    (classify x acc).np + (classify x acc).nn + (classify x acc).nz =
      acc.np + acc.nn + acc.nz + 1 := by
  unfold classify
  split_ifs <;> simp <;> omega

theorem readLoop_spec (sqrt : K → K) (D : DenseM K) (IPIV : List Int) (nD : Nat)
    (hlen : nD ≤ IPIV.length) :
    ∀ (fuel k : Nat) (acc : Inertia), k ≤ nD → nD - 1 - k ≤ fuel →
    ∃ k' acc', readLoop sqrt D IPIV nD fuel k acc = some (k', acc') ∧
      nD - 1 ≤ k' ∧ k' ≤ nD ∧ k ≤ k' ∧
      acc'.np + acc'.nn + acc'.nz = acc.np + acc.nn + acc.nz + (k' - k) := by
  intro fuel
  induction fuel with
  | zero =>
      intro k acc hk hf
      refine ⟨k, acc, ?_, by omega, hk, le_refl k, by omega⟩
      simp only [readLoop]
      rw [if_neg (by omega)]
  | succ fuel ih =>
      intro k acc hk hf
      by_cases hlt : k < nD - 1
      · have h1 : k + 1 < IPIV.length := by omega
        have h0 : k < IPIV.length := by omega
        have e1 : IPIV[k + 1]? = some IPIV[k + 1] := List.getElem?_eq_getElem h1
        have e0 : IPIV[k]? = some IPIV[k] := List.getElem?_eq_getElem h0
        simp only [readLoop, if_pos hlt, e1, Option.bind_eq_bind, Option.some_bind]
        by_cases hp1 : IPIV[k + 1] < 0
        · simp only [if_pos hp1, e0, Option.some_bind, Option.pure_def]
          by_cases hp0 : IPIV[k] < 0
          · simp only [hp0, decide_True, if_true]
            obtain ⟨k', acc', e, a1, a2, a3, a4⟩ := ih (k + 2) _ (by omega) (by omega)
            refine ⟨k', acc', e, a1, a2, by omega, ?_⟩
            rw [a4, classify_total, classify_total]
            omega
          · simp only [hp0, decide_False, Bool.false_eq_true, if_false]
            obtain ⟨k', acc', e, a1, a2, a3, a4⟩ := ih (k + 1) _ (by omega) (by omega)
            refine ⟨k', acc', e, a1, a2, by omega, ?_⟩
            rw [a4, classify_total]
            omega
        · simp only [if_neg hp1, Option.pure_def, Option.some_bind, Bool.false_eq_true,
            if_false]
          obtain ⟨k', acc', e, a1, a2, a3, a4⟩ := ih (k + 1) _ (by omega) (by omega)
          refine ⟨k', acc', e, a1, a2, by omega, ?_⟩
          rw [a4, classify_total]
          omega
      · refine ⟨k, acc, ?_, by omega, hk, le_refl k, by omega⟩
        simp only [readLoop, if_neg hlt]

/-- The sign reader returns, and its counts add up to the order of the block. -/
theorem readInertia_total (sqrt : K → K) (D : DenseM K) (IPIV : List Int)
    (hlen : D.rows ≤ IPIV.length) :
    ∃ r, readInertiaOffBlockDiag sqrt D IPIV = some r ∧ r.np + r.nn + r.nz = D.rows := by
  by_cases h0 : D.rows = 0
  · exact ⟨⟨0, 0, 0⟩, by simp [readInertiaOffBlockDiag, h0], by simp [h0]⟩
  · obtain ⟨k', acc', e, a1, a2, _, a4⟩ :=
      readLoop_spec sqrt D IPIV D.rows hlen D.rows 0 ⟨0, 0, 0⟩ (by omega) (by omega)
    by_cases hk : k' < D.rows
    · refine ⟨classify (D.val k' k') acc', ?_, ?_⟩
      · simp only [readInertiaOffBlockDiag, if_neg h0, e, Option.bind_eq_bind,
          Option.some_bind, if_pos hk, Option.pure_def]
      · rw [classify_total, a4]
        simp only [Nat.add_zero, Nat.zero_add, Nat.sub_zero]
        omega
    · refine ⟨acc', ?_, ?_⟩
      · simp only [readInertiaOffBlockDiag, if_neg h0, e, Option.bind_eq_bind,
          Option.some_bind, if_neg hk, Option.pure_def]
      · rw [a4]
        simp only [Nat.add_zero, Nat.zero_add, Nat.sub_zero]
        omega

theorem laswpLoop_ok : ∀ (P : List Int) (i : Nat) (M : DenseM K),
    (∀ p ∈ P, 1 ≤ p ∧ p ≤ (M.rows : Int)) →
    ∃ M', laswpLoop P i M = some M' ∧ M'.rows = M.rows ∧ M'.cols = M.cols
  | [], _, M, _ => ⟨M, rfl, rfl, rfl⟩
  | p :: ps, i, M, h => by
      have hp := h p (List.mem_cons_self p ps)
      obtain ⟨M', e, hr, hc⟩ := laswpLoop_ok ps (i + 1) (swapRows M i (p.toNat - 1))
        (fun q hq => h q (List.mem_cons_of_mem p hq))
      exact ⟨M', by simp only [laswpLoop, if_pos hp, e], hr, hc⟩

theorem laswp_ok (M : DenseM K) (P : List Int) (h : ValidPiv P M.rows) :
    ∃ M', laswp M P = some M' ∧ M'.rows = M.rows ∧ M'.cols = M.cols := by
  obtain ⟨M', e, hr, hc⟩ := laswpLoop_ok (P.take M.rows) 0 M h.2
  exact ⟨M', by simp only [laswp, if_pos h.1, e], hr, hc⟩

theorem gemm_ok {R : Type} [CommRing R] [StarRing R] (ta tb : Trans) (a b : R)
    (A B C : DenseM R) (h1 : (op ta A).cols = (op tb B).rows) (h2 : C.rows = (op ta A).rows)
    (h3 : C.cols = (op tb B).cols) :
    ∃ X, gemm ta tb a A B b C = some X ∧ X.rows = (op ta A).rows ∧ X.cols = (op tb B).cols ∧
      ∀ i j, X.val i j = a * (mul (op ta A) (op tb B)).val i j + b * C.val i j :=
  ⟨_, gemm_eq_some h1 h2 h3, rfl, rfl, fun _ _ => rfl⟩

theorem permuteDt_ok (U : HSSBasisID K) (Dt : DenseM K) (hsq : Dt.cols = Dt.rows)
    (hP : ValidPiv U.P Dt.rows) :
    ∃ X, permuteDt U Dt = some X ∧ X.rows = Dt.rows ∧ X.cols = Dt.rows := by
  obtain ⟨M1, e1, r1, c1⟩ := laswp_ok Dt U.P hP
  obtain ⟨M2, e2, r2, c2⟩ := laswp_ok M1.transpose U.P
    (by rw [show M1.transpose.rows = Dt.rows from c1.trans hsq]; exact hP)
  refine ⟨M2.transpose, ?_, ?_, ?_⟩
  · simp only [permuteDt, e1, e2, Option.bind_eq_bind, Option.some_bind, Option.pure_def]
  · show M2.cols = Dt.rows
    rw [c2]
    exact r1
  · show M2.rows = Dt.rows
    rw [r2]
    exact c1.trans hsq

theorem schurBlocks_ok (U : HSSBasisID K) (Dt : DenseM K) (hr : Dt.rows = U.rows)
    (hc : Dt.cols = U.rows) (hU : U.cols ≤ U.rows) (hEr : U.E.rows = U.rows - U.cols)
    (hEc : U.E.cols = U.cols) :
    ∃ D11 D12 D21 D22, schurBlocks U Dt = some (D11, D12, D21, D22) ∧
      D11.rows = U.rows - U.cols ∧ D11.cols = U.rows - U.cols ∧
      D12.rows = U.rows - U.cols ∧ D12.cols = U.cols ∧
      D21.rows = U.cols ∧ D21.cols = U.rows - U.cols ∧
      D22.rows = U.cols ∧ D22.cols = U.cols := by
  have w1 := wrapper_eq_some (m := U.cols) (n := U.rows - U.cols) (M := Dt) (i := 0)
    (j := U.cols) (by omega) (by omega)
  have w2 := wrapper_eq_some (m := U.rows - U.cols) (n := U.cols) (M := Dt) (i := U.cols)
    (j := 0) (by omega) (by omega)
  have w3 := wrapper_eq_some (m := U.cols) (n := U.cols) (M := Dt) (i := 0)
    (j := 0) (by omega) (by omega)
  have w4 := wrapper_eq_some (m := U.rows - U.cols) (n := U.rows - U.cols) (M := Dt)
    (i := U.cols) (j := U.cols) (by omega) (by omega)
  obtain ⟨X1, g1, x1r, x1c, _⟩ := gemm_ok Trans.N Trans.C 1 (-1)
    (⟨U.cols, U.cols, fun a b => Dt.val (0 + a) (0 + b)⟩ : DenseM K) U.E
    ⟨U.cols, U.rows - U.cols, fun a b => Dt.val (0 + a) (U.cols + b)⟩
    (by simp [hEc]) rfl (by simp [hEr])
  obtain ⟨X2, g2, x2r, x2c, _⟩ := gemm_ok Trans.N Trans.N 1 1 U.E X1
    (⟨U.rows - U.cols, U.rows - U.cols, fun a b => Dt.val (U.cols + a) (U.cols + b)⟩ :
      DenseM K)
    (by simp [hEc, x1r]) (by simp [hEr]) (by simp [x1c, hEr])
  obtain ⟨X3, g3, x3r, x3c, _⟩ := gemm_ok Trans.N Trans.C (-1) 1
    (⟨U.rows - U.cols, U.cols, fun a b => Dt.val (U.cols + a) (0 + b)⟩ : DenseM K) U.E X2
    (by simp [hEc]) (by simp [x2r, hEr]) (by simp [x2c, x1c])
  obtain ⟨X4, g4, x4r, x4c, _⟩ := gemm_ok Trans.N Trans.N (-1) 1 U.E
    (⟨U.cols, U.cols, fun a b => Dt.val (0 + a) (0 + b)⟩ : DenseM K)
    (⟨U.rows - U.cols, U.cols, fun a b => Dt.val (U.cols + a) (0 + b)⟩ : DenseM K)
    (by simp [hEc]) (by simp [hEr]) (by simp)
  refine ⟨X3, X4, X4.transpose, ⟨U.cols, U.cols, fun a b => Dt.val (0 + a) (0 + b)⟩,
    ?_, ?_, ?_, ?_, ?_, ?_, ?_, rfl, rfl⟩
  · simp only [schurBlocks, w1, w2, w3, w4, g1, g2, g3, g4, Option.bind_eq_bind,
      Option.some_bind, Option.pure_def]
  · simpa using x3r
  · simpa [hEr] using x3c
  · simpa [hEr] using x4r
  · simpa using x4c
  · show X4.cols = U.cols
    simpa using x4c
  · show X4.rows = U.rows - U.cols
    simpa [hEr] using x4r

theorem addCounts_total (a b : Inertia) :
    (addCounts a b).np + (addCounts a b).nn + (addCounts a b).nz =
      (a.np + a.nn + a.nz) + (b.np + b.nn + b.nz) := by
  simp only [addCounts]
  omega

theorem setS_S (w : WorkInertia K) (S : DenseM K) : (w.setS S).S = S := by
  cases w <;> rfl

theorem rootStep_ok (L : Lapack K) (Dt : DenseM K) (acc : Inertia) (w : WorkInertia K)
    (hPL : PivLen L) :
    ∃ r, rootStep L Dt acc w = some (addCounts acc r, w) ∧ r.np + r.nn + r.nz = Dt.rows := by
  obtain ⟨r, e, hr⟩ := readInertia_total L.sqrt ⟨Dt.rows, Dt.cols, (L.sytrf_rook Dt).1⟩
    (L.sytrf_rook Dt).2 (hPL Dt)
  exact ⟨r, by simp only [rootStep, e, Option.bind_eq_bind, Option.some_bind,
    Option.pure_def], hr⟩

theorem nonRootStep_ok (L : Lapack K) (U : HSSBasisID K) (Dt : DenseM K) (acc : Inertia)
    (w : WorkInertia K) (hPL : PivLen L) (hr : Dt.rows = U.rows) (hc : Dt.cols = U.rows)
    (hB : BasisOK U) :
    ∃ r S, nonRootStep L U Dt acc w = some (addCounts acc r, w.setS S) ∧
      r.np + r.nn + r.nz = U.rows - U.cols ∧ S.rows = U.cols ∧ S.cols = U.cols := by
  obtain ⟨hU, hEr, hEc, hP⟩ := hB
  obtain ⟨Dp, ep, pr, pc⟩ := permuteDt_ok U Dt (hc.trans hr.symm) (by rw [hr]; exact hP)
  obtain ⟨D11, D12, D21, D22, eb, d11r, d11c, d12r, d12c, d21r, d21c, d22r, d22c⟩ :=
    schurBlocks_ok U Dp (pr.trans hr) (pc.trans hr) hU hEr hEc
  obtain ⟨r, er, hsum⟩ := readInertia_total L.sqrt ⟨D11.rows, D11.cols, (L.sytrf_rook D11).1⟩
    (L.sytrf_rook D11).2 (hPL D11)
  obtain ⟨S, eS, sr, sc, _⟩ := gemm_ok Trans.N Trans.N (-1) 1 D21
    (⟨D12.rows, D12.cols, L.sytrs_rook ⟨D11.rows, D11.cols, (L.sytrf_rook D11).1⟩
      (L.sytrf_rook D11).2 D12⟩ : DenseM K) D22
    (by simp [d21c, d12r]) (by simp [d22r, d21r]) (by simp [d22c, d12c])
  refine ⟨r, S, ?_, by rw [hsum]; exact d11r, by simpa [d21r] using sr,
    by simpa [d12c] using sc⟩
  simp only [nonRootStep, ep, eb, er, eS, Option.bind_eq_bind, Option.some_bind,
    Option.pure_def]

theorem formDt_ok (mem : Nat → Nat → K) (c0u c1u : Nat) (S0 S1 B01 B10 : DenseM K)
    (h0r : S0.rows = c0u) (h0c : S0.cols = c0u) (h1r : S1.rows = c1u) (h1c : S1.cols = c1u)
    (b01r : B01.rows = c0u) (b01c : B01.cols = c1u) (b10r : B10.rows = c1u)
    (b10c : B10.cols = c0u) :
    ∃ Dt, formDt mem c0u c1u S0 S1 B01 B10 = some Dt ∧
      Dt.rows = c0u + c1u ∧ Dt.cols = c0u + c1u := by
  refine ⟨store (store (store (store (uninit mem (c0u + c1u) (c0u + c1u)) 0 0 S0)
    c0u c0u S1) 0 c0u B01) c0u 0 B10, ?_, rfl, rfl⟩
  simp only [formDt, copy, uninit, store_rows, store_cols, h0r, h0c, h1r, h1c, b01r, b01c,
    b10r, b10c, and_self, if_true, Option.bind_eq_bind, Option.some_bind, Option.pure_def,
    Nat.zero_add, Nat.le_add_right, Nat.le_add_left, le_refl]

/-- Below the root: the recursion returns, its counts and the node's rank add up to the
node's size, and the remainder left in the work context is `U_rank x U_rank`. -/
theorem inertia_recursive_nonroot (L : Lapack K) (mem : Nat → Nat → K) (hPL : PivLen L) :
    ∀ (t : HSSMatrix K) (w : WorkInertia K), WFI false t →
    ∃ r w', inertia_recursive L mem t w false = some (r, w') ∧
      r.np + r.nn + r.nz + t.U_rank = t.rows ∧
      w'.S.rows = t.U_rank ∧ w'.S.cols = t.U_rank
  | leaf n c U V D, w, hwf => by
      obtain ⟨h1, h2, h3⟩ := hwf
      obtain ⟨hUr, hB⟩ := h3 rfl
      obtain ⟨r, S, e, hs, sr, sc⟩ := nonRootStep_ok L U D ⟨0, 0, 0⟩ w hPL (h1.trans hUr.symm)
        (h2.trans hUr.symm) hB
      refine ⟨addCounts ⟨0, 0, 0⟩ r, w.setS S,
        by simp only [inertia_recursive, Bool.false_eq_true, if_false, e], ?_,
        by rw [setS_S]; exact sr, by rw [setS_S]; exact sc⟩
      rw [addCounts_total, hs]
      have := hB.1
      show 0 + 0 + 0 + (U.rows - U.cols) + U.cols = n
      omega
  | node n c U V B01 B10 c0 c1, w, hwf => by
      obtain ⟨h1, b01r, b01c, b10r, b10c, h3, hw0, hw1⟩ := hwf
      obtain ⟨hUr, hB⟩ := h3 rfl
      obtain ⟨S, w0, w1, hres⟩ : ∃ S w0 w1, w.resize2 = WorkInertia.forked S w0 w1 := by
        cases w with
        | bare S => exact ⟨S, _, _, rfl⟩
        | forked S a b => exact ⟨S, a, b, rfl⟩
      obtain ⟨r0, w0', e0, s0, s0r, s0c⟩ := inertia_recursive_nonroot L mem hPL c0 w0 hw0
      obtain ⟨r1, w1', e1, s1, s1r, s1c⟩ := inertia_recursive_nonroot L mem hPL c1 w1 hw1
      obtain ⟨Dt, eD, dr, dc⟩ := formDt_ok mem c0.U_rank c1.U_rank w0'.S w1'.S B01 B10
        s0r s0c s1r s1c b01r b01c b10r b10c
      obtain ⟨r, S', e, hs, sr, sc⟩ := nonRootStep_ok L U Dt (addCounts r0 r1)
        (WorkInertia.forked S w0' w1') hPL (dr.trans hUr.symm) (dc.trans hUr.symm) hB
      refine ⟨addCounts (addCounts r0 r1) r, (WorkInertia.forked S w0' w1').setS S',
        by simp only [inertia_recursive, hres, e0, e1, eD, Bool.false_eq_true,
          if_false, e, Option.bind_eq_bind, Option.some_bind], ?_,
        by rw [setS_S]; exact sr, by rw [setS_S]; exact sc⟩
      rw [addCounts_total, addCounts_total, hs]
      have := hB.1
      show r0.np + r0.nn + r0.nz + (r1.np + r1.nn + r1.nz) + (U.rows - U.cols) + U.cols = n
      omega

/-- At the root: the recursion returns and its counts add up to the size of the tree. -/
theorem inertia_recursive_root (L : Lapack K) (mem : Nat → Nat → K) (hPL : PivLen L)
    (t : HSSMatrix K) (w : WorkInertia K) (hwf : WFI true t) :
    ∃ r w', inertia_recursive L mem t w true = some (r, w') ∧
      r.np + r.nn + r.nz = t.rows := by
  cases t with
  | leaf n c U V D =>
      obtain ⟨h1, _, _⟩ := hwf
      obtain ⟨r, e, hs⟩ := rootStep_ok L D ⟨0, 0, 0⟩ w hPL
      refine ⟨addCounts ⟨0, 0, 0⟩ r, w, by simp only [inertia_recursive, if_true, e], ?_⟩
      rw [addCounts_total, hs]
      show 0 + 0 + 0 + D.rows = n
      omega
  | node n c U V B01 B10 c0 c1 =>
      obtain ⟨h1, b01r, b01c, b10r, b10c, _, hw0, hw1⟩ := hwf
      obtain ⟨S, w0, w1, hres⟩ : ∃ S w0 w1, w.resize2 = WorkInertia.forked S w0 w1 := by
        cases w with
        | bare S => exact ⟨S, _, _, rfl⟩
        | forked S a b => exact ⟨S, a, b, rfl⟩
      obtain ⟨r0, w0', e0, s0, s0r, s0c⟩ := inertia_recursive_nonroot L mem hPL c0 w0 hw0
      obtain ⟨r1, w1', e1, s1, s1r, s1c⟩ := inertia_recursive_nonroot L mem hPL c1 w1 hw1
      obtain ⟨Dt, eD, dr, dc⟩ := formDt_ok mem c0.U_rank c1.U_rank w0'.S w1'.S B01 B10
        s0r s0c s1r s1c b01r b01c b10r b10c
      obtain ⟨r, e, hs⟩ := rootStep_ok L Dt (addCounts r0 r1)
        (WorkInertia.forked S w0' w1') hPL
      refine ⟨addCounts (addCounts r0 r1) r, WorkInertia.forked S w0' w1',
        by simp only [inertia_recursive, hres, e0, e1, eD, if_true, e,
          Option.bind_eq_bind, Option.some_bind], ?_⟩
      rw [addCounts_total, addCounts_total, hs, dr]
      show r0.np + r0.nn + r0.nz + (r1.np + r1.nn + r1.nz) + (c0.U_rank + c1.U_rank) = n
      omega

/-- C2 (inertia partition at the root).  For every well-formed HSS tree and every
`sytrf_rook` that returns a pivot vector of the block's order, `inertia()` returns a
triple with `np + nn + nz = rows(root)`. -/
theorem inertia_partition (L : Lapack K) (mem : Nat → Nat → K) (t : HSSMatrix K)
    (hPL : PivLen L) (hwf : WFI true t) :
    ∃ r, inertia L mem t = some r ∧ r.np + r.nn + r.nz = t.rows := by
  obtain ⟨r, w', e, hs⟩ :=
    inertia_recursive_root L mem hPL t (WorkInertia.bare DenseM.empty) hwf
  exact ⟨r, by simp only [inertia, e, Option.map_some'], hs⟩

theorem signOf_eq_classify (d : K) : classify d ⟨0, 0, 0⟩ = signOf d := by
  unfold classify signOf
  split_ifs <;> rfl

theorem addCounts_zero_left (r : Inertia) : addCounts ⟨0, 0, 0⟩ r = r := by
  cases r
  simp [addCounts]

/-- The sign reader on a 1 x 1 block classifies its entry; `IPIV` is not read. -/
theorem readInertia_one (sqrt : K → K) (D : DenseM K) (IPIV : List Int) (h : D.rows = 1) :
    readInertiaOffBlockDiag sqrt D IPIV = some (signOf (D.val 0 0)) := by
  simp [readInertiaOffBlockDiag, h, readLoop, signOf_eq_classify]

/-- C4 (inertia degeneracy).  For a tree that is a single leaf with the 1 x 1 block
`[[d]]`, and a `sytrf_rook` that leaves diagonal blocks unchanged, `inertia()` returns
`(1,0,0)` if `d > 0`, `(0,1,0)` if `d < 0` and `(0,0,1)` if `d = 0`; in particular
`[[0]]` yields `(0,0,1)` and is not a fault. -/
theorem inertia_single_leaf (L : Lapack K) (mem : Nat → Nat → K) (c : Nat)
    (U V : HSSBasisID K) (D : DenseM K) (d : K) (hL : SytrfOnDiagonal L)
    (hr : D.rows = 1) (hc : D.cols = 1) (hd : D.val 0 0 = d) :
    inertia L mem (leaf 1 c U V D) =
      some (if d > 0 then ⟨1, 0, 0⟩ else if d < 0 then ⟨0, 1, 0⟩ else ⟨0, 0, 1⟩) ∧
    (d = 0 → inertia L mem (leaf 1 c U V D) = some ⟨0, 0, 1⟩) := by
  have hdiag := (hL D (hc.trans hr.symm) (fun i j hi hj hij => by omega)).1 0 (by omega)
  have e : inertia L mem (leaf 1 c U V D) = some (signOf d) := by
    simp only [inertia, inertia_recursive, if_true, rootStep, Option.bind_eq_bind]
    rw [readInertia_one L.sqrt ⟨D.rows, D.cols, (L.sytrf_rook D).1⟩ _ hr]
    simp only [Option.some_bind, Option.pure_def, Option.map_some', addCounts_zero_left,
      hdiag, hd]
  refine ⟨e, fun h0 => ?_⟩
  rw [e, h0]
  simp [signOf]

theorem permuteDt_one (U : HSSBasisID K) (Dt : DenseM K) (hr : Dt.rows = 1)
    (hc : Dt.cols = 1) (hP : U.P = [1]) :
    ∃ X, permuteDt U Dt = some X ∧ X.rows = 1 ∧ X.cols = 1 ∧ X.val 0 0 = Dt.val 0 0 := by
  have e1 : laswp Dt [1] = some (swapRows Dt 0 0) := by
    simp [laswp, hr, laswpLoop]
  have e2 : laswp (swapRows Dt 0 0).transpose [1] =
      some (swapRows (swapRows Dt 0 0).transpose 0 0) := by
    simp [laswp, hc, laswpLoop, transpose, ctrans, swapRows]
  have hv : ∀ (M : DenseM K) (a b : Nat), (swapRows M 0 0).val a b = M.val a b := by
    intro M a b
    show (if a = 0 then M.val 0 b else if a = 0 then M.val 0 b else M.val a b) = M.val a b
    by_cases ha : a = 0
    · rw [if_pos ha, ha]
    · rw [if_neg ha, if_neg ha]
  refine ⟨(swapRows (swapRows Dt 0 0).transpose 0 0).transpose, ?_, hr, hc, ?_⟩
  · simp only [permuteDt, hP, e1, e2, Option.bind_eq_bind, Option.some_bind, Option.pure_def]
  · show star ((swapRows (swapRows Dt 0 0).transpose 0 0).val 0 0) = Dt.val 0 0
    rw [hv]
    show star (star ((swapRows Dt 0 0).val 0 0)) = Dt.val 0 0
    rw [hv, star_star]

/-- Values of the blocks when the rank is full (`U.cols = U.rows`) or zero. -/
theorem schurBlocks_vals (U : HSSBasisID K) (Dt : DenseM K) (hr : Dt.rows = U.rows)
    (hc : Dt.cols = U.rows) (hU : U.cols ≤ U.rows) (hEr : U.E.rows = U.rows - U.cols)
    (hEc : U.E.cols = U.cols) :
    ∃ D11 D12 D21 D22, schurBlocks U Dt = some (D11, D12, D21, D22) ∧
      D11.rows = U.rows - U.cols ∧ D11.cols = U.rows - U.cols ∧
      D12.rows = U.rows - U.cols ∧ D12.cols = U.cols ∧
      D21.rows = U.cols ∧ D21.cols = U.rows - U.cols ∧
      D22.rows = U.cols ∧ D22.cols = U.cols ∧
      (∀ i j, D22.val i j = Dt.val i j) ∧
      (U.cols = 0 → ∀ i j, D11.val i j = Dt.val i j) := by
  have w1 := wrapper_eq_some (m := U.cols) (n := U.rows - U.cols) (M := Dt) (i := 0)
    (j := U.cols) (by omega) (by omega)
  have w2 := wrapper_eq_some (m := U.rows - U.cols) (n := U.cols) (M := Dt) (i := U.cols)
    (j := 0) (by omega) (by omega)
  have w3 := wrapper_eq_some (m := U.cols) (n := U.cols) (M := Dt) (i := 0)
    (j := 0) (by omega) (by omega)
  have w4 := wrapper_eq_some (m := U.rows - U.cols) (n := U.rows - U.cols) (M := Dt)
    (i := U.cols) (j := U.cols) (by omega) (by omega)
  obtain ⟨X1, g1, x1r, x1c, _⟩ := gemm_ok Trans.N Trans.C 1 (-1)
    (⟨U.cols, U.cols, fun a b => Dt.val (0 + a) (0 + b)⟩ : DenseM K) U.E
    ⟨U.cols, U.rows - U.cols, fun a b => Dt.val (0 + a) (U.cols + b)⟩
    (by simp [hEc]) rfl (by simp [hEr])
  obtain ⟨X2, g2, x2r, x2c, x2v⟩ := gemm_ok Trans.N Trans.N 1 1 U.E X1
    (⟨U.rows - U.cols, U.rows - U.cols, fun a b => Dt.val (U.cols + a) (U.cols + b)⟩ :
      DenseM K)
    (by simp [hEc, x1r]) (by simp [hEr]) (by simp [x1c, hEr])
  obtain ⟨X3, g3, x3r, x3c, x3v⟩ := gemm_ok Trans.N Trans.C (-1) 1
    (⟨U.rows - U.cols, U.cols, fun a b => Dt.val (U.cols + a) (0 + b)⟩ : DenseM K) U.E X2
    (by simp [hEc]) (by simp [x2r, hEr]) (by simp [x2c, x1c])
  obtain ⟨X4, g4, x4r, x4c, _⟩ := gemm_ok Trans.N Trans.N (-1) 1 U.E
    (⟨U.cols, U.cols, fun a b => Dt.val (0 + a) (0 + b)⟩ : DenseM K)
    (⟨U.rows - U.cols, U.cols, fun a b => Dt.val (U.cols + a) (0 + b)⟩ : DenseM K)
    (by simp [hEc]) (by simp [hEr]) (by simp)
  refine ⟨X3, X4, X4.transpose, ⟨U.cols, U.cols, fun a b => Dt.val (0 + a) (0 + b)⟩,
    ?_, ?_, ?_, ?_, ?_, ?_, ?_, rfl, rfl, ?_, ?_⟩
  · simp only [schurBlocks, w1, w2, w3, w4, g1, g2, g3, g4, Option.bind_eq_bind,
      Option.some_bind, Option.pure_def]
  · simpa using x3r
  · simpa [hEr] using x3c
  · simpa [hEr] using x4r
  · simpa using x4c
  · show X4.cols = U.cols
    simpa using x4c
  · show X4.rows = U.rows - U.cols
    simpa [hEr] using x4r
  · intro i j
    simp
  · intro h0 i j
    rw [x3v, x2v]
    simp [mul_val, hEc, h0, dot]

theorem readLoop_nonneg (sqrt : K → K) (D : DenseM K) (IPIV : List Int) (nD : Nat)
    (hlen : nD ≤ IPIV.length) (hpos : ∀ p ∈ IPIV, ¬ p < 0) :
    ∀ (fuel k : Nat), k ≤ nD - 1 → nD - 1 - k ≤ fuel →
      readLoop sqrt D IPIV nD fuel k (diagCount D k) =
        some (nD - 1, diagCount D (nD - 1)) := by
  intro fuel
  induction fuel with
  | zero =>
      intro k hk hf
      have hkk : k = nD - 1 := by omega
      simp only [readLoop]
      rw [if_neg (by omega), hkk]
  | succ fuel ih =>
      intro k hk hf
      by_cases hlt : k < nD - 1
      · have h1 : k + 1 < IPIV.length := by omega
        have e1 : IPIV[k + 1]? = some IPIV[k + 1] := List.getElem?_eq_getElem h1
        have hp1 : ¬ IPIV[k + 1] < 0 := hpos _ (List.getElem_mem h1)
        simp only [readLoop, if_pos hlt, e1, Option.bind_eq_bind, Option.some_bind,
          if_neg hp1, Option.pure_def, Bool.false_eq_true, if_false]
        exact ih (k + 1) (by omega) (by omega)
      · have hkk : k = nD - 1 := by omega
        simp only [readLoop, if_neg hlt]
        rw [hkk]

/-- With no negative pivot the sign reader classifies the diagonal entries one by one. -/
theorem readInertia_nonneg (sqrt : K → K) (D : DenseM K) (IPIV : List Int)
    (hlen : D.rows ≤ IPIV.length) (hpos : ∀ p ∈ IPIV, ¬ p < 0) :
    readInertiaOffBlockDiag sqrt D IPIV = some (diagCount D D.rows) := by
  by_cases h0 : D.rows = 0
  · simp [readInertiaOffBlockDiag, h0, diagCount]
  · have e := readLoop_nonneg sqrt D IPIV D.rows hlen hpos D.rows 0 (by omega) (by omega)
    have hk : D.rows - 1 < D.rows := by omega
    have hs : D.rows = (D.rows - 1) + 1 := by omega
    simp only [readInertiaOffBlockDiag, if_neg h0, Option.bind_eq_bind]
    rw [show (⟨0, 0, 0⟩ : Inertia) = diagCount D 0 from rfl, e]
    simp only [Option.some_bind, if_pos hk, Option.pure_def]
    conv_rhs => rw [hs]
    rfl

theorem diagCount_congr (D D' : DenseM K) :
    ∀ n : Nat, (∀ i, i < n → D.val i i = D'.val i i) → diagCount D n = diagCount D' n
  | 0, _ => rfl
  | n + 1, h => by
      simp only [diagCount]
      rw [h n (by omega), diagCount_congr D D' n (fun i hi => h i (by omega))]

/-- Root step on a diagonal block: the signs of the diagonal entries are counted. -/
theorem rootStep_diag (L : Lapack K) (hL : SytrfOnDiagonal L) (Dt : DenseM K) (acc : Inertia)
    (w : WorkInertia K) (hsq : Dt.cols = Dt.rows)
    (hd : ∀ i j, i < Dt.rows → j < Dt.rows → i ≠ j → Dt.val i j = 0) :
    rootStep L Dt acc w = some (addCounts acc (diagCount Dt Dt.rows), w) := by
  obtain ⟨h1, h2, h3⟩ := hL Dt hsq hd
  have e := readInertia_nonneg L.sqrt ⟨Dt.rows, Dt.cols, (L.sytrf_rook Dt).1⟩
    (L.sytrf_rook Dt).2 h2 (fun p hp => not_lt.mpr (le_of_lt (h3 p hp)))
  simp only [rootStep, e, Option.bind_eq_bind, Option.some_bind, Option.pure_def]
  rw [diagCount_congr ⟨Dt.rows, Dt.cols, (L.sytrf_rook Dt).1⟩ Dt Dt.rows h1]

/-- A 1 x 1 leaf below the root: with rank 1 nothing is eliminated and the remainder
is `[[d]]`; with rank 0 the entry is eliminated, its sign counted, and the remainder is
empty. -/
theorem inertia_leaf1 (L : Lapack K) (mem : Nat → Nat → K) (hL : SytrfOnDiagonal L)
    (c : Nat) (U V : HSSBasisID K) (D : DenseM K) (d : K) (w : WorkInertia K)
    (h : Leaf1 U D d) :
    ∃ w', inertia_recursive L mem (leaf 1 c U V D) w false =
        some (if U.cols = 0 then signOf d else ⟨0, 0, 0⟩, w') ∧
      w'.S.rows = U.cols ∧ w'.S.cols = U.cols ∧ (U.cols = 1 → w'.S.val 0 0 = d) := by
  obtain ⟨hr, hc, hd, hUr, hUc, hEr, hEc, hP⟩ := h
  obtain ⟨Dp, ep, pr, pc, pv⟩ := permuteDt_one U D hr hc hP
  obtain ⟨D11, D12, D21, D22, eb, d11r, d11c, d12r, d12c, d21r, d21c, d22r, d22c, v22, v11⟩ :=
    schurBlocks_vals U Dp (pr.trans hUr.symm) (pc.trans hUr.symm) (by omega)
      (by rw [hEr, hUr]) hEc
  obtain ⟨S, eS, sr, sc, sv⟩ := gemm_ok Trans.N Trans.N (-1) 1 D21
    (⟨D12.rows, D12.cols, L.sytrs_rook ⟨D11.rows, D11.cols, (L.sytrf_rook D11).1⟩
      (L.sytrf_rook D11).2 D12⟩ : DenseM K) D22
    (by simp [d21c, d12r]) (by simp [d22r, d21r]) (by simp [d22c, d12c])
  have hread : readInertiaOffBlockDiag L.sqrt ⟨D11.rows, D11.cols, (L.sytrf_rook D11).1⟩
      (L.sytrf_rook D11).2 = some (if U.cols = 0 then signOf d else ⟨0, 0, 0⟩) := by
    by_cases h0 : U.cols = 0
    · have h11 : D11.rows = 1 := by rw [d11r, hUr, h0]
      have h11c : D11.cols = 1 := by rw [d11c, hUr, h0]
      have hdiag := (hL D11 (h11c.trans h11.symm) (fun i j hi hj hij => by omega)).1 0
        (by omega)
      rw [readInertia_one L.sqrt ⟨D11.rows, D11.cols, (L.sytrf_rook D11).1⟩ _ h11, if_pos h0]
      show some (signOf ((L.sytrf_rook D11).1 0 0)) = some (signOf d)
      rw [hdiag, v11 h0, pv, hd]
    · have h11 : D11.rows = 0 := by rw [d11r, hUr]; omega
      rw [if_neg h0]
      simp [readInertiaOffBlockDiag, h11]
  refine ⟨w.setS S, ?_, ?_, ?_, ?_⟩
  · simp only [inertia_recursive, Bool.false_eq_true, if_false, nonRootStep, ep, eb, hread,
      eS, Option.bind_eq_bind, Option.some_bind, Option.pure_def, addCounts_zero_left]
  · rw [setS_S]
    simpa [d21r] using sr
  · rw [setS_S]
    simpa [d12c] using sc
  · intro h1
    rw [setS_S, sv]
    have hz : D21.cols = 0 := by rw [d21c, hUr, h1]
    simp [mul_val, hz, dot, v22, pv, hd]

/-- The assembled block is `[[S0, B01], [B10, S1]]`, with no entry left unwritten. -/
theorem formDt_val (mem : Nat → Nat → K) (c0u c1u : Nat) (S0 S1 B01 B10 : DenseM K)
    (h0r : S0.rows = c0u) (h0c : S0.cols = c0u) (h1r : S1.rows = c1u) (h1c : S1.cols = c1u)
    (b01r : B01.rows = c0u) (b01c : B01.cols = c1u) (b10r : B10.rows = c1u)
    (b10c : B10.cols = c0u) :
    ∃ Dt, formDt mem c0u c1u S0 S1 B01 B10 = some Dt ∧
      Dt.rows = c0u + c1u ∧ Dt.cols = c0u + c1u ∧
      ∀ i j, i < c0u + c1u → j < c0u + c1u →
        Dt.val i j = (fromBlocks S0 B01 B10 S1).val i j := by
  refine ⟨store (store (store (store (uninit mem (c0u + c1u) (c0u + c1u)) 0 0 S0)
    c0u c0u S1) 0 c0u B01) c0u 0 B10, ?_, rfl, rfl, ?_⟩
  · simp only [formDt, copy, uninit, store_rows, store_cols, h0r, h0c, h1r, h1c, b01r, b01c,
      b10r, b10c, and_self, if_true, Option.bind_eq_bind, Option.some_bind, Option.pure_def,
      Nat.zero_add, Nat.le_add_right, Nat.le_add_left, le_refl]
  · intro i j hi hj
    simp only [store_val, fromBlocks, h0r, h0c, h1r, h1c, b01r, b01c, b10r, b10c]
    by_cases hi0 : i < c0u <;> by_cases hj0 : j < c0u
    · rw [if_neg (by omega), if_neg (by omega), if_neg (by omega), if_pos (by omega),
        if_pos hi0, if_pos hj0]
      simp
    · rw [if_neg (by omega), if_pos (by omega), if_pos hi0, if_neg hj0]
      simp
    · rw [if_pos (by omega), if_neg hi0, if_pos hj0]
      simp
    · rw [if_neg (by omega), if_neg (by omega), if_pos (by omega), if_neg hi0, if_neg hj0]

theorem addCounts_comm (a b : Inertia) : addCounts a b = addCounts b a := by
  simp [addCounts, Nat.add_comm]

theorem addCounts_zero_right (r : Inertia) : addCounts r ⟨0, 0, 0⟩ = r := by
  cases r
  simp [addCounts]

theorem classify_eq_add (x : K) (acc : Inertia) :
    classify x acc = addCounts acc (signOf x) := by
  unfold classify signOf addCounts
  split_ifs <;> simp

theorem inertia_recursive_node_root (L : Lapack K) (mem : Nat → Nat → K) (n c : Nat)
    (U V : HSSBasisID K) (B01 B10 : DenseM K) (c0 c1 : HSSMatrix K) (S : DenseM K) :
    inertia_recursive L mem (node n c U V B01 B10 c0 c1) (WorkInertia.bare S) true =
      (inertia_recursive L mem c0 (WorkInertia.bare DenseM.empty) false).bind fun p0 =>
        (inertia_recursive L mem c1 (WorkInertia.bare DenseM.empty) false).bind fun p1 =>
          (formDt mem c0.U_rank c1.U_rank p0.2.S p1.2.S B01 B10).bind fun Dt =>
            rootStep L Dt (addCounts p0.1 p1.1) (WorkInertia.forked S p0.2 p1.2) := by
  rw [inertia_recursive]
  simp only [WorkInertia.resize2, if_true, Option.bind_eq_bind]

/-- The two-leaf tree: `inertia()` counts the signs of `d0` and `d1`. -/
theorem inertia_two_leaves_aux (L : Lapack K) (mem : Nat → Nat → K) (hL : SytrfOnDiagonal L)
    (U V U0 V0 U1 V1 : HSSBasisID K) (B01 B10 D0 D1 : DenseM K) (d0 d1 : K)
    (h0 : Leaf1 U0 D0 d0) (h1 : Leaf1 U1 D1 d1)
    (hB01 : ZeroBlock B01 U0.cols U1.cols) (hB10 : ZeroBlock B10 U1.cols U0.cols) :
    inertia L mem (node 2 2 U V B01 B10 (leaf 1 1 U0 V0 D0) (leaf 1 1 U1 V1 D1)) =
      some (addCounts (signOf d0) (signOf d1)) := by
  obtain ⟨w0, e0, s0r, s0c, s0v⟩ := inertia_leaf1 L mem hL 1 U0 V0 D0 d0
    (WorkInertia.bare DenseM.empty) h0
  obtain ⟨w1, e1, s1r, s1c, s1v⟩ := inertia_leaf1 L mem hL 1 U1 V1 D1 d1
    (WorkInertia.bare DenseM.empty) h1
  obtain ⟨Dt, eD, dr, dc, dv⟩ := formDt_val mem U0.cols U1.cols w0.S w1.S B01 B10
    s0r s0c s1r s1c hB01.1 hB01.2.1 hB10.1 hB10.2.1
  have hU0 : U0.cols ≤ 1 := h0.2.2.2.2.1
  have hU1 : U1.cols ≤ 1 := h1.2.2.2.2.1
  have hdiag : ∀ i j, i < Dt.rows → j < Dt.rows → i ≠ j → Dt.val i j = 0 := by
    intro i j hi hj hij
    rw [dr] at hi hj
    rw [dv i j hi hj]
    simp only [fromBlocks, s0r, s0c]
    by_cases hi0 : i < U0.cols <;> by_cases hj0 : j < U0.cols
    · omega
    · rw [if_pos hi0, if_neg hj0]
      exact hB01.2.2 i (j - U0.cols) hi0 (by omega)
    · rw [if_neg hi0, if_pos hj0]
      exact hB10.2.2 (i - U0.cols) j (by omega) hj0
    · omega
  have er := rootStep_diag L hL Dt
    (addCounts (if U0.cols = 0 then signOf d0 else ⟨0, 0, 0⟩)
      (if U1.cols = 0 then signOf d1 else ⟨0, 0, 0⟩))
    (WorkInertia.forked DenseM.empty w0 w1) (dc.trans dr.symm) hdiag
  have hres : inertia L mem (node 2 2 U V B01 B10 (leaf 1 1 U0 V0 D0) (leaf 1 1 U1 V1 D1)) =
      some (addCounts (addCounts (if U0.cols = 0 then signOf d0 else ⟨0, 0, 0⟩)
        (if U1.cols = 0 then signOf d1 else ⟨0, 0, 0⟩)) (diagCount Dt Dt.rows)) := by
    rw [inertia, inertia_recursive_node_root, e0, e1]
    simp only [Option.some_bind]
    rw [show (leaf 1 1 U0 V0 D0).U_rank = U0.cols from rfl,
      show (leaf 1 1 U1 V1 D1).U_rank = U1.cols from rfl, eD]
    simp only [Option.some_bind, er, Option.map_some']
  rw [hres, dr]
  have c0 : U0.cols = 0 ∨ U0.cols = 1 := by omega
  have c1 : U1.cols = 0 ∨ U1.cols = 1 := by omega
  rcases c0 with a0 | a0 <;> rcases c1 with a1 | a1
  · simp [a0, a1, diagCount, addCounts_zero_right]
  · have v : Dt.val 0 0 = d1 := by
      rw [dv 0 0 (by omega) (by omega)]
      simp [fromBlocks, s0r, s0c, a0, s1v a1]
    simp [a0, a1, diagCount, v, classify_eq_add, addCounts_zero_right, addCounts_zero_left]
  · have v : Dt.val 0 0 = d0 := by
      rw [dv 0 0 (by omega) (by omega)]
      simp [fromBlocks, s0r, s0c, a0, s0v a0]
    simp [a0, a1, diagCount, v, classify_eq_add, addCounts_zero_right, addCounts_zero_left,
      addCounts_comm (signOf d1) (signOf d0)]
  · have v0 : Dt.val 0 0 = d0 := by
      rw [dv 0 0 (by omega) (by omega)]
      simp [fromBlocks, s0r, s0c, a0, s0v a0]
    have v1 : Dt.val 1 1 = d1 := by
      rw [dv 1 1 (by omega) (by omega)]
      simp [fromBlocks, s0r, s0c, a0, s1v a1]
    simp [a0, a1, diagCount, v0, v1, classify_eq_add, addCounts_zero_right,
      addCounts_zero_left]

theorem diagLapack_diag : SytrfOnDiagonal diagLapack := by
  intro D _ _
  refine ⟨fun i _ => rfl, by simp [diagLapack], ?_⟩
  intro p hp
  simp only [diagLapack, List.mem_map, List.mem_range] at hp
  obtain ⟨i, _, rfl⟩ := hp
  exact Int.ofNat_pos.mpr (Nat.succ_pos i)

theorem diagLapack_pivlen : PivLen diagLapack := by
  intro D
  simp [diagLapack]

theorem ratLeaf_ok (d : ℚ) : Leaf1 (ratLeaf d 1).U_ ⟨1, 1, fun _ _ => d⟩ d :=
  ⟨rfl, rfl, rfl, rfl, Nat.le_refl 1, rfl, rfl, rfl⟩

theorem ratTree_wf : WFI true ratTree := by
  simp [ratTree, ratLeaf, WFI, BasisOK, ValidPiv, U_rank, U_, HSSBasisID.rows,
    HSSBasisID.cols, rows, zeros]

/-- C2 witness: the two-leaf tree `ratTree` with the kernels `diagLapack`. -/
theorem inertia_partition_witness :
    ∃ r, inertia diagLapack (fun _ _ => 0) ratTree = some r ∧
      r.np + r.nn + r.nz = ratTree.rows :=
  inertia_partition diagLapack (fun _ _ => 0) ratTree diagLapack_pivlen ratTree_wf

/-- C3 (two-leaf tree with zero coupling).  For a root with two 1 x 1 leaves `[[d0]]`,
`[[d1]]` (each of rank 0 or 1), zero coupling blocks and a `sytrf_rook` that leaves
diagonal blocks unchanged, `inertia()` returns the numbers of positive, negative and
zero values among `d0`, `d1`; for `d0 = 2`, `d1 = -3` it returns `(1, 1, 0)`. -/
theorem inertia_two_leaves (L : Lapack K) (mem : Nat → Nat → K) (hL : SytrfOnDiagonal L)
    (U V U0 V0 U1 V1 : HSSBasisID K) (B01 B10 D0 D1 : DenseM K) (d0 d1 : K)
    (h0 : Leaf1 U0 D0 d0) (h1 : Leaf1 U1 D1 d1)
    (hB01 : ZeroBlock B01 U0.cols U1.cols) (hB10 : ZeroBlock B10 U1.cols U0.cols) :
    inertia L mem (node 2 2 U V B01 B10 (leaf 1 1 U0 V0 D0) (leaf 1 1 U1 V1 D1)) =
      some (addCounts (signOf d0) (signOf d1)) ∧
    (d0 = 2 → d1 = -3 →
      inertia L mem (node 2 2 U V B01 B10 (leaf 1 1 U0 V0 D0) (leaf 1 1 U1 V1 D1)) =
        some ⟨1, 1, 0⟩) := by
  have e := inertia_two_leaves_aux L mem hL U V U0 V0 U1 V1 B01 B10 D0 D1 d0 d1 h0 h1 hB01 hB10
  refine ⟨e, fun a b => ?_⟩
  rw [e, a, b]
  have p2 : (2 : K) > 0 := by norm_num
  have n3 : ¬ ((-3 : K) > 0) := by norm_num
  have m3 : (-3 : K) < 0 := by norm_num
  simp only [signOf, if_pos p2, if_neg n3, if_pos m3, addCounts]

/-- C3 witness: the tree `ratTree` with leaves `[[2]]` and `[[-3]]`. -/
theorem inertia_two_leaves_witness :
    inertia diagLapack (fun _ _ => 0) ratTree =
      some (addCounts (signOf (2 : ℚ)) (signOf (-3 : ℚ))) ∧
    ((2 : ℚ) = 2 → (-3 : ℚ) = -3 →
      inertia diagLapack (fun _ _ => 0) ratTree = some ⟨1, 1, 0⟩) :=
  inertia_two_leaves diagLapack (fun _ _ => 0) diagLapack_diag
    ⟨DenseM.empty, [], DenseM.empty⟩ ⟨DenseM.empty, [], DenseM.empty⟩
    (ratLeaf 2 1).U_ (ratLeaf 2 1).V_ (ratLeaf (-3) 1).U_ (ratLeaf (-3) 1).V_
    (zeros 1 1) (zeros 1 1) ⟨1, 1, fun _ _ => 2⟩ ⟨1, 1, fun _ _ => -3⟩ 2 (-3)
    (ratLeaf_ok 2) (ratLeaf_ok (-3)) ⟨rfl, rfl, fun _ _ _ _ => rfl⟩
    ⟨rfl, rfl, fun _ _ _ _ => rfl⟩

/-- C4 witness: the single leaf `[[0]]` with the kernels `diagLapack`. -/
theorem inertia_single_leaf_witness :
    inertia diagLapack (fun _ _ => 0) (leaf 1 1 (ratLeaf 0 1).U_ (ratLeaf 0 1).V_
        ⟨1, 1, fun _ _ => 0⟩) =
      some (if (0 : ℚ) > 0 then ⟨1, 0, 0⟩ else if (0 : ℚ) < 0 then ⟨0, 1, 0⟩
        else ⟨0, 0, 1⟩) ∧
    ((0 : ℚ) = 0 → inertia diagLapack (fun _ _ => 0) (leaf 1 1 (ratLeaf 0 1).U_
        (ratLeaf 0 1).V_ ⟨1, 1, fun _ _ => 0⟩) = some ⟨0, 0, 1⟩) :=
  inertia_single_leaf diagLapack (fun _ _ => 0) 1 (ratLeaf 0 1).U_ (ratLeaf 0 1).V_
    ⟨1, 1, fun _ _ => 0⟩ 0 diagLapack_diag rfl rfl rfl

end HSSMatrix

/-! ## Projection through the expanded bases: proofs -/

namespace HSSMatrix

variable {R : Type} [CommRing R] [StarRing R]

open DenseM

theorem Square_eq : ∀ (t : HSSMatrix R), Square t → t.rows = t.cols
  | leaf _ _ _ _ _, h => h
  | node _ _ _ _ _ _ _ _, h => h.1

/-- What `apply_UtVt_big` returns on a well-formed square subtree. -/
theorem apply_UtVt_big_spec : ∀ (t : HSSMatrix R) (A : DenseM R) (o1 o2 : Nat),
    WFB t → Square t → o1 + t.rows ≤ A.rows →
    ∃ UtA VtA, apply_UtVt_big t A (o1, o2) = some (UtA, VtA) ∧
      Same UtA (mul (ctrans (Ubig t)) (rowSlice A o1 t.rows)) ∧
      Same VtA (mul (ctrans (Vbig t)) (rowSlice A o1 t.rows))
  | leaf r c U V D, A, o1, o2, hwf, hsq, hA => by
      obtain ⟨h1, h2⟩ := hwf
      change r = c at hsq
      change o1 + r ≤ A.rows at hA
      have hw : wrapper r A.cols A o1 0 = some (rowSlice A o1 r) := wrapper_rows_eq hA
      have hU : U.applyC (rowSlice A o1 r) = some (mul (ctrans U.mat) (rowSlice A o1 r)) :=
        gemmR_one Trans.C Trans.N U.mat (rowSlice A o1 r) h1
      have hV : V.applyC (rowSlice A o1 r) = some (mul (ctrans V.mat) (rowSlice A o1 r)) :=
        gemmR_one Trans.C Trans.N V.mat (rowSlice A o1 r) (h2.trans hsq.symm)
      refine ⟨mul (ctrans U.mat) (rowSlice A o1 r), mul (ctrans V.mat) (rowSlice A o1 r),
        ?_, Same.refl _, Same.refl _⟩
      simp only [apply_UtVt_big, hw, hU, hV, Option.bind_eq_bind, Option.some_bind,
        Option.pure_def]
  | node r c U V B01 B10 c0 c1, A, o1, o2, hwf, hsq, hA => by
      obtain ⟨h1, h2, h3, h4, h5, h6⟩ := hwf
      obtain ⟨s, s0, s1⟩ := hsq
      change o1 + r ≤ A.rows at hA
      have e0 := Square_eq c0 s0
      obtain ⟨X0, Y0, eq0, hX0, hY0⟩ := apply_UtVt_big_spec c0 A o1 o2 h5 s0 (by omega)
      obtain ⟨X1, Y1, eq1, hX1, hY1⟩ :=
        apply_UtVt_big_spec c1 A (o1 + c0.rows) (o2 + c0.cols) h6 s1 (by omega)
      have hvX : vconcat X0 X1 = some (vstack X0 X1) :=
        vconcat_eq_some (by rw [hX0.2.1, hX1.2.1]; rfl)
      have hvY : vconcat Y0 Y1 = some (vstack Y0 Y1) :=
        vconcat_eq_some (by rw [hY0.2.1, hY1.2.1]; rfl)
      have hUr : U.mat.rows = (Ubig c0).cols + (Ubig c1).cols := by
        rw [hss_Ubig_cols, hss_Ubig_cols]; exact h3
      have hVr : V.mat.rows = (Vbig c0).cols + (Vbig c1).cols := by
        rw [hss_Vbig_cols, hss_Vbig_cols]; exact h4
      have hU : U.applyC (vstack X0 X1) = some (mul (ctrans U.mat) (vstack X0 X1)) :=
        gemmR_one Trans.C Trans.N U.mat (vstack X0 X1) (by
          show U.mat.rows = X0.rows + X1.rows
          rw [hX0.1, hX1.1]; exact hUr)
      have hV : V.applyC (vstack Y0 Y1) = some (mul (ctrans V.mat) (vstack Y0 Y1)) :=
        gemmR_one Trans.C Trans.N V.mat (vstack Y0 Y1) (by
          show V.mat.rows = Y0.rows + Y1.rows
          rw [hY0.1, hY1.1]; exact hVr)
      refine ⟨mul (ctrans U.mat) (vstack X0 X1), mul (ctrans V.mat) (vstack Y0 Y1), ?_, ?_, ?_⟩
      · simp only [apply_UtVt_big, eq0, dims, eq1, hvX, hvY, hU, hV, Option.bind_eq_bind,
          Option.some_bind, Option.pure_def]
      · exact HBSMatrix.fwd_node_q (hss_Ubig_rows c0 h5) (hss_Ubig_rows c1 h6) h1 hUr hX0 hX1
      · exact HBSMatrix.fwd_node_q ((hss_Vbig_rows c0 h5).trans e0.symm)
          ((hss_Vbig_rows c1 h6).trans (Square_eq c1 s1).symm) h1 hVr hY0 hY1

/-- C11 (`apply_UtVt_big` projects through the expanded bases).  On a well-formed
subtree with `rows = cols` at every node, for every offset and every `A` with at least
`offset.first + rows` rows, the call succeeds and returns `UtA = Ubig^C * A[offset.first
.. offset.first + rows, :]` and `VtA = Vbig^C *` the same row slice; `UtA` has `U_rank`
rows and `VtA` has `V_rank` rows, both with the columns of `A`. -/
theorem apply_UtVt_big_projects (t : HSSMatrix R) (A : DenseM R) (o1 o2 : Nat)
    (hwf : WFB t) (hsq : Square t) (hA : o1 + t.rows ≤ A.rows) :
    ∃ UtA VtA, apply_UtVt_big t A (o1, o2) = some (UtA, VtA) ∧
      Same UtA (mul (ctrans (Ubig t)) (rowSlice A o1 t.rows)) ∧
      Same VtA (mul (ctrans (Vbig t)) (rowSlice A o1 t.rows)) ∧
      UtA.rows = t.U_rank ∧ VtA.rows = t.V_rank ∧ UtA.cols = A.cols ∧ VtA.cols = A.cols := by
  obtain ⟨X, Y, e, hX, hY⟩ := apply_UtVt_big_spec t A o1 o2 hwf hsq hA
  refine ⟨X, Y, e, hX, hY, ?_, ?_, hX.2.1, hY.2.1⟩
  · rw [hX.1]; exact hss_Ubig_cols t
  · rw [hY.1]; exact hss_Vbig_cols t

/-- C11 witness: the two-leaf node `exampleN`, offset `(1, 1)` and a probe with three
rows. -/
theorem apply_UtVt_big_projects_witness :
    ∃ UtA VtA, apply_UtVt_big exampleN (ofRows 3 1 [[5], [6], [7]]) (1, 1) =
        some (UtA, VtA) ∧
      Same UtA (mul (ctrans (Ubig exampleN))
        (rowSlice (ofRows 3 1 [[5], [6], [7]]) 1 exampleN.rows)) ∧
      Same VtA (mul (ctrans (Vbig exampleN))
        (rowSlice (ofRows 3 1 [[5], [6], [7]]) 1 exampleN.rows)) ∧
      UtA.rows = exampleN.U_rank ∧ VtA.rows = exampleN.V_rank ∧
      UtA.cols = (ofRows 3 1 [[5], [6], [7]] : DenseM ℤ).cols ∧
      VtA.cols = (ofRows 3 1 [[5], [6], [7]] : DenseM ℤ).cols :=
  apply_UtVt_big_projects exampleN (ofRows 3 1 [[5], [6], [7]]) 1 1
    ⟨rfl, rfl, rfl, rfl, ⟨rfl, rfl⟩, ⟨rfl, rfl⟩⟩ ⟨rfl, rfl, rfl⟩ (by decide)

end HSSMatrix

namespace HSSMatrix

variable {R : Type} [CommRing R] [StarRing R]

open DenseM

/-- Leaf step of `apply_UV_big` when the block may be wider than a zero-width operand. -/
theorem expandLeaf_gen (U : HSSBasisID R) (Uop lt : DenseM R) (h1 : Uop.rows = U.cols)
    (h2 : lt.rows = U.rows) (h3 : Uop.cols ≠ 0 → lt.cols = Uop.cols) :
    ∃ blk, expandLeaf U Uop lt = some blk ∧ blk.rows = lt.rows ∧ blk.cols = lt.cols ∧
      ∀ i j, j < lt.cols →
        blk.val i j = if Uop.cols = 0 then 0 else (mul U.mat Uop).val i j := by
  by_cases h : U.cols ≠ 0 ∧ Uop.cols ≠ 0
  · obtain ⟨blk, e, hr, hc, hv⟩ := expandLeaf_spec U Uop lt h1 h2 (h3 h.2)
    exact ⟨blk, e, hr, hc, fun i j hj => by rw [if_neg h.2, hv i j hj]⟩
  · refine ⟨zeros lt.rows lt.cols, by simp only [expandLeaf, if_neg h], rfl, rfl, ?_⟩
    intro i j hj
    by_cases hz : Uop.cols = 0
    · rw [if_pos hz]; rfl
    · have hU : U.mat.cols = 0 := by
        by_contra hne
        exact h ⟨hne, hz⟩
      rw [if_neg hz]
      simp [zeros, mul_val, hU, dot]

/-- What `apply_UV_big` does, zero-width operands included: it succeeds, keeps the
sizes of `Theta` and `Phi`, leaves every row outside the node's windows unchanged and
fills the windows with `Ubig * Uop` and `Vbig * Vop`, or with zeros when the operand
has no columns. -/
theorem apply_UV_big_gen (mem : Nat → Nat → R) :
    ∀ (t : HSSMatrix R) (Theta Uop Phi Vop : DenseM R) (o1 o2 : Nat),
    WFB t → Uop.rows = t.U_rank → Vop.rows = t.V_rank →
    (Uop.cols ≠ 0 → Theta.cols = Uop.cols) → (Vop.cols ≠ 0 → Phi.cols = Vop.cols) →
    o1 + t.rows ≤ Theta.rows → o2 + t.cols ≤ Phi.rows →
    ∃ Theta' Phi', apply_UV_big mem t Theta Uop Phi Vop (o1, o2) = some (Theta', Phi') ∧
      Theta'.rows = Theta.rows ∧ Theta'.cols = Theta.cols ∧
      Phi'.rows = Phi.rows ∧ Phi'.cols = Phi.cols ∧
      (∀ i j, (i < o1 ∨ o1 + t.rows ≤ i) → Theta'.val i j = Theta.val i j) ∧
      (∀ i j, (i < o2 ∨ o2 + t.cols ≤ i) → Phi'.val i j = Phi.val i j) ∧
      (∀ i j, i < t.rows → j < Theta.cols →
        Theta'.val (o1 + i) j = if Uop.cols = 0 then 0 else (mul (Ubig t) Uop).val i j) ∧
      (∀ i j, i < t.cols → j < Phi.cols →
        Phi'.val (o2 + i) j = if Vop.cols = 0 then 0 else (mul (Vbig t) Vop).val i j)
  | leaf r c U V D, Theta, Uop, Phi, Vop, o1, o2, hwf, hU, hV, hT, hP, hTr, hPr => by
      obtain ⟨h1, h2⟩ := hwf
      change o1 + r ≤ Theta.rows at hTr
      change o2 + c ≤ Phi.rows at hPr
      change Uop.rows = U.cols at hU
      change Vop.rows = V.cols at hV
      have hw1 : wrapper U.rows Theta.cols Theta o1 0 = some (rowSlice Theta o1 U.rows) :=
        wrapper_rows_eq (by omega)
      have hw2 : wrapper V.rows Phi.cols Phi o2 0 = some (rowSlice Phi o2 V.rows) :=
        wrapper_rows_eq (by omega)
      obtain ⟨bt, ebt, btr, btc, btv⟩ :=
        expandLeaf_gen U Uop (rowSlice Theta o1 U.rows) hU rfl hT
      obtain ⟨bp, ebp, bpr, bpc, bpv⟩ :=
        expandLeaf_gen V Vop (rowSlice Phi o2 V.rows) hV rfl hP
      simp only [rowSlice_rows, rowSlice_cols] at btr btc bpr bpc btv bpv
      refine ⟨store Theta o1 0 bt, store Phi o2 0 bp, ?_, rfl, rfl, rfl, rfl, ?_, ?_, ?_, ?_⟩
      · simp only [apply_UV_big, hw1, hw2, ebt, ebp, Option.bind_eq_bind, Option.some_bind,
          Option.pure_def]
      · intro i j hij
        change i < o1 ∨ o1 + r ≤ i at hij
        rw [store_val, if_neg (by omega)]
      · intro i j hij
        change i < o2 ∨ o2 + c ≤ i at hij
        rw [store_val, if_neg (by omega)]
      · intro i j hi hj
        change i < r at hi
        rw [store_val, if_pos (by omega), Nat.add_sub_cancel_left, Nat.sub_zero, btv i j hj]
        rfl
      · intro i j hi hj
        change i < c at hi
        rw [store_val, if_pos (by omega), Nat.add_sub_cancel_left, Nat.sub_zero, bpv i j hj]
        rfl
  | node r c U V B01 B10 c0 c1, Theta, Uop, Phi, Vop, o1, o2, hwf, hU, hV, hT, hP, hTr,
      hPr => by
      obtain ⟨h1, h2, h3, h4, h5, h6⟩ := hwf
      change o1 + r ≤ Theta.rows at hTr
      change o2 + c ≤ Phi.rows at hPr
      change Uop.rows = U.cols at hU
      change Vop.rows = V.cols at hV
      obtain ⟨U0, U1, eU, U0r, U0c, U1r, U1c, U0v, U1v⟩ :=
        splitOp_spec mem U Uop c0.U_rank c1.U_rank hU h3
      obtain ⟨V0, V1, eV, V0r, V0c, V1r, V1c, V0v, V1v⟩ :=
        splitOp_spec mem V Vop c0.V_rank c1.V_rank hV h4
      obtain ⟨T1, P1, e1, T1r, T1c, P1r, P1c, T1f, P1f, T1v, P1v⟩ :=
        apply_UV_big_gen mem c0 Theta U0 Phi V0 o1 o2 h5 U0r V0r
          (by rw [U0c]; exact hT) (by rw [V0c]; exact hP) (by omega) (by omega)
      obtain ⟨T2, P2, e2, T2r, T2c, P2r, P2c, T2f, P2f, T2v, P2v⟩ :=
        apply_UV_big_gen mem c1 T1 U1 P1 V1 (o1 + c0.rows) (o2 + c0.cols) h6 U1r V1r
          (by rw [U1c, T1c]; exact hT) (by rw [V1c, P1c]; exact hP) (by omega) (by omega)
      refine ⟨T2, P2, ?_, by omega, by omega, by omega, by omega, ?_, ?_, ?_, ?_⟩
      · simp only [apply_UV_big, eU, eV, e1, dims, e2, Option.bind_eq_bind, Option.some_bind]
      · intro i j hij
        change i < o1 ∨ o1 + r ≤ i at hij
        rw [T2f i j (by omega), T1f i j (by omega)]
      · intro i j hij
        change i < o2 ∨ o2 + c ≤ i at hij
        rw [P2f i j (by omega), P1f i j (by omega)]
      · intro i j hi hj
        change i < r at hi
        by_cases hz : Uop.cols = 0
        · rw [if_pos hz]
          by_cases hi0 : i < c0.rows
          · rw [T2f _ j (Or.inl (by omega)), T1v i j hi0 hj, if_pos (U0c.trans hz)]
          · rw [show o1 + i = (o1 + c0.rows) + (i - c0.rows) by omega,
              T2v _ j (by omega) (by omega), if_pos (U1c.trans hz)]
        · rw [if_neg hz]
          have hjU : j < Uop.cols := by rw [← hT hz]; exact hj
          show T2.val (o1 + i) j =
            (mul (mul (blockdiag (Ubig c0) (Ubig c1)) U.mat) Uop).val i j
          rw [mul_assoc', @expand_node_val R _ _ _ _ _ U0 U1 Uop.cols U0v
            (by rw [hss_Ubig_cols]; exact U1v) i j hjU, hss_Ubig_rows c0 h5]
          by_cases hi0 : i < c0.rows
          · rw [if_pos hi0, T2f _ j (Or.inl (by omega)), T1v i j hi0 hj,
              if_neg (by rw [U0c]; exact hz)]
          · rw [if_neg hi0, show o1 + i = (o1 + c0.rows) + (i - c0.rows) by omega,
              T2v _ j (by omega) (by omega), if_neg (by rw [U1c]; exact hz)]
      · intro i j hi hj
        change i < c at hi
        by_cases hz : Vop.cols = 0
        · rw [if_pos hz]
          by_cases hi0 : i < c0.cols
          · rw [P2f _ j (Or.inl (by omega)), P1v i j hi0 hj, if_pos (V0c.trans hz)]
          · rw [show o2 + i = (o2 + c0.cols) + (i - c0.cols) by omega,
              P2v _ j (by omega) (by omega), if_pos (V1c.trans hz)]
        · rw [if_neg hz]
          have hjV : j < Vop.cols := by rw [← hP hz]; exact hj
          show P2.val (o2 + i) j =
            (mul (mul (blockdiag (Vbig c0) (Vbig c1)) V.mat) Vop).val i j
          rw [mul_assoc', @expand_node_val R _ _ _ _ _ V0 V1 Vop.cols V0v
            (by rw [hss_Vbig_cols]; exact V1v) i j hjV, hss_Vbig_rows c0 h5]
          by_cases hi0 : i < c0.cols
          · rw [if_pos hi0, P2f _ j (Or.inl (by omega)), P1v i j hi0 hj,
              if_neg (by rw [V0c]; exact hz)]
          · rw [if_neg hi0, show o2 + i = (o2 + c0.cols) + (i - c0.cols) by omega,
              P2v _ j (by omega) (by omega), if_neg (by rw [V1c]; exact hz)]

/-- C12 (`apply_UV_big` expands through the bases).  On a well-formed subtree, for every
offset, every `Uop` with `U_rank` rows and `Vop` with `V_rank` rows, with `Theta` and
`Phi` as wide as their operands (any width when the operand has no columns) and the
windows inside them, the call succeeds and on return rows `[offset.first, offset.first +
rows)` of `Theta` equal `Ubig * Uop` and rows `[offset.second, offset.second + cols)` of
`Phi` equal `Vbig * Vop`.  When the node has rank zero or the operand has no columns,
the written block is all zeros. -/
theorem apply_UV_big_expands (mem : Nat → Nat → R) (t : HSSMatrix R)
    (Theta Uop Phi Vop : DenseM R) (o1 o2 : Nat)
    (hwf : WFB t) (hU : Uop.rows = t.U_rank) (hV : Vop.rows = t.V_rank)
    (hT : Uop.cols ≠ 0 → Theta.cols = Uop.cols) (hP : Vop.cols ≠ 0 → Phi.cols = Vop.cols)
    (hTr : o1 + t.rows ≤ Theta.rows) (hPr : o2 + t.cols ≤ Phi.rows) :
    ∃ Theta' Phi', apply_UV_big mem t Theta Uop Phi Vop (o1, o2) = some (Theta', Phi') ∧
      (∀ i j, i < t.rows → j < Theta.cols → Uop.cols ≠ 0 →
        Theta'.val (o1 + i) j = (mul (Ubig t) Uop).val i j) ∧
      (∀ i j, i < t.cols → j < Phi.cols → Vop.cols ≠ 0 →
        Phi'.val (o2 + i) j = (mul (Vbig t) Vop).val i j) ∧
      (∀ i j, i < t.rows → j < Theta.cols → (t.U_rank = 0 ∨ Uop.cols = 0) →
        Theta'.val (o1 + i) j = 0) ∧
      (∀ i j, i < t.cols → j < Phi.cols → (t.V_rank = 0 ∨ Vop.cols = 0) →
        Phi'.val (o2 + i) j = 0) := by
  obtain ⟨T, P, e, _, _, _, _, _, _, hTv, hPv⟩ :=
    apply_UV_big_gen mem t Theta Uop Phi Vop o1 o2 hwf hU hV hT hP hTr hPr
  refine ⟨T, P, e, ?_, ?_, ?_, ?_⟩
  · intro i j hi hj hz
    rw [hTv i j hi hj, if_neg hz]
  · intro i j hi hj hz
    rw [hPv i j hi hj, if_neg hz]
  · intro i j hi hj hz
    rw [hTv i j hi hj]
    by_cases h0 : Uop.cols = 0
    · rw [if_pos h0]
    · rw [if_neg h0]
      rcases hz with hz | hz
      · simp [mul_val, hss_Ubig_cols, hz, dot]
      · exact absurd hz h0
  · intro i j hi hj hz
    rw [hPv i j hi hj]
    by_cases h0 : Vop.cols = 0
    · rw [if_pos h0]
    · rw [if_neg h0]
      rcases hz with hz | hz
      · simp [mul_val, hss_Vbig_cols, hz, dot]
      · exact absurd hz h0

/-- C12 witness: the two-leaf node `exampleN` expanded into 3-row buffers at offset
`(1, 0)`. -/
theorem apply_UV_big_expands_witness :
    ∃ Theta' Phi', apply_UV_big (fun _ _ => 9) exampleN (zeros 3 1) (ofRows 1 1 [[2]])
        (zeros 2 1) (ofRows 1 1 [[3]]) (1, 0) = some (Theta', Phi') ∧
      (∀ i j, i < exampleN.rows → j < (zeros 3 1 : DenseM ℤ).cols →
        (ofRows 1 1 [[2]] : DenseM ℤ).cols ≠ 0 →
        Theta'.val (1 + i) j = (mul (Ubig exampleN) (ofRows 1 1 [[2]])).val i j) ∧
      (∀ i j, i < exampleN.cols → j < (zeros 2 1 : DenseM ℤ).cols →
        (ofRows 1 1 [[3]] : DenseM ℤ).cols ≠ 0 →
        Phi'.val (0 + i) j = (mul (Vbig exampleN) (ofRows 1 1 [[3]])).val i j) ∧
      (∀ i j, i < exampleN.rows → j < (zeros 3 1 : DenseM ℤ).cols →
        (exampleN.U_rank = 0 ∨ (ofRows 1 1 [[2]] : DenseM ℤ).cols = 0) →
        Theta'.val (1 + i) j = 0) ∧
      (∀ i j, i < exampleN.cols → j < (zeros 2 1 : DenseM ℤ).cols →
        (exampleN.V_rank = 0 ∨ (ofRows 1 1 [[3]] : DenseM ℤ).cols = 0) →
        Phi'.val (0 + i) j = 0) :=
  apply_UV_big_expands (fun _ _ => 9) exampleN (zeros 3 1) (ofRows 1 1 [[2]]) (zeros 2 1)
    (ofRows 1 1 [[3]]) 1 0 ⟨rfl, rfl, rfl, rfl, ⟨rfl, rfl⟩, ⟨rfl, rfl⟩⟩ rfl rfl
    (fun _ => rfl) (fun _ => rfl) (by decide) (by decide)

end HSSMatrix

namespace HSSMatrix

variable {R : Type} [CommRing R] [StarRing R]

open DenseM

theorem eye_mul_same (X : DenseM R) : Same (mul (eye X.rows) X) X := by
  refine ⟨rfl, rfl, fun i j hi _ => ?_⟩
  change i < X.rows at hi
  simp only [mul_val, eye, dot_eq_sum]
  rw [Finset.sum_eq_single i]
  · simp
  · intro k _ hk
    simp [Ne.symm hk]
  · intro h
    exact absurd (Finset.mem_range.mpr hi) h

/-- What the round trip returns on a well-formed square subtree: `Ubig * Ubig^C * A`
and `Vbig * Vbig^C * A`. -/
theorem roundTrip_spec (mem : Nat → Nat → R) (t : HSSMatrix R) (A : DenseM R)
    (hwf : WFB t) (hsq : Square t) (hA : A.rows = t.rows) :
    ∃ T P, roundTrip mem t A = some (T, P) ∧
      Same T (mul (Ubig t) (mul (ctrans (Ubig t)) A)) ∧
      Same P (mul (Vbig t) (mul (ctrans (Vbig t)) A)) := by
  obtain ⟨X, Y, e1, hX, hY⟩ := apply_UtVt_big_spec t A 0 0 hwf hsq (by omega)
  have hXr : X.rows = t.U_rank := by rw [hX.1]; exact hss_Ubig_cols t
  have hYr : Y.rows = t.V_rank := by rw [hY.1]; exact hss_Vbig_cols t
  have hXc : X.cols = A.cols := hX.2.1
  have hYc : Y.cols = A.cols := hY.2.1
  obtain ⟨T, P, e2, Tr, Tc, Pr, Pc, _, _, Tv, Pv⟩ :=
    apply_UV_big_spec mem t (uninit mem t.rows A.cols) X (uninit mem t.cols A.cols) Y 0 0
      hwf hXr hYr hXc.symm hYc.symm (by show 0 + t.rows ≤ t.rows; omega)
      (by show 0 + t.cols ≤ t.cols; omega)
  change T.rows = t.rows at Tr
  change T.cols = A.cols at Tc
  change P.rows = t.cols at Pr
  change P.cols = A.cols at Pc
  have hs := Square_eq t hsq
  refine ⟨T, P, ?_, ⟨?_, Tc, ?_⟩, ⟨?_, Pc, ?_⟩⟩
  · simp only [roundTrip, e1, e2, Option.bind_eq_bind, Option.some_bind]
  · rw [Tr]; exact (hss_Ubig_rows t hwf).symm
  · intro i j hi hj
    have := Tv i j (by omega) (by show j < A.cols; omega)
    rw [Nat.zero_add] at this
    rw [this]
    simp only [mul_val]
    refine dot_congr (fun k hk => ?_)
    rw [hX.2.2 k j (by rw [hX.1]; exact hk) (by omega)]
    simp only [mul_val, ctrans_cols, ctrans_val, rowSlice_val, Nat.zero_add]
  · rw [Pr]; exact (hss_Vbig_rows t hwf).symm
  · intro i j hi hj
    have := Pv i j (by omega) (by show j < A.cols; omega)
    rw [Nat.zero_add] at this
    rw [this]
    simp only [mul_val]
    refine dot_congr (fun k hk => ?_)
    rw [hY.2.2 k j (by rw [hY.1]; exact hk) (by omega)]
    simp only [mul_val, ctrans_cols, ctrans_val, rowSlice_val, Nat.zero_add,
      hss_Vbig_rows t hwf, hs]

/-- With orthonormal columns, `B * B^C` is idempotent on matrices of matching height. -/
theorem gram_idem {B A T T2 : DenseM R} (horth : Same (mul (ctrans B) B) (eye B.cols))
    (hT : Same T (mul B (mul (ctrans B) A))) (hT2 : Same T2 (mul B (mul (ctrans B) T))) :
    Same T2 T := by
  have h1 : Same (mul (ctrans B) T) (mul (ctrans B) (mul B (mul (ctrans B) A))) :=
    mul_congr_right hT (by rw [hT.1]; rfl)
  have h2 : Same (mul (mul (ctrans B) B) (mul (ctrans B) A))
      (mul (eye B.cols) (mul (ctrans B) A)) := mul_congr_left horth
  have h3 : Same (mul (eye B.cols) (mul (ctrans B) A)) (mul (ctrans B) A) :=
    eye_mul_same (mul (ctrans B) A)
  have h4 : Same (mul (ctrans B) T) (mul (ctrans B) A) := by
    rw [← mul_assoc'] at h1
    exact h1.trans (h2.trans h3)
  exact hT2.trans ((mul_congr_right h4 (by show B.cols ≤ B.cols; omega)).trans hT.symm)

/-- C13, amended (projection round trip).  On a well-formed square subtree and a probe
`A` with `rows` rows, the round trip succeeds and returns `Theta = Ubig * Ubig^C * A`
and `Phi = Vbig * Vbig^C * A`.  Applying the round trip again reproduces `Theta` when
`Ubig` has orthonormal columns (`Ubig^C * Ubig = I`), and reproduces `Phi` when `Vbig`
has orthonormal columns. -/
theorem roundTrip_projection (mem : Nat → Nat → R) (t : HSSMatrix R) (A : DenseM R)
    (hwf : WFB t) (hsq : Square t) (hA : A.rows = t.rows) :
    ∃ T P, roundTrip mem t A = some (T, P) ∧
      Same T (mul (Ubig t) (mul (ctrans (Ubig t)) A)) ∧
      Same P (mul (Vbig t) (mul (ctrans (Vbig t)) A)) ∧
      (Same (mul (ctrans (Ubig t)) (Ubig t)) (eye t.U_rank) →
        ∃ T2 P2, roundTrip mem t T = some (T2, P2) ∧ Same T2 T) ∧
      (Same (mul (ctrans (Vbig t)) (Vbig t)) (eye t.V_rank) →
        ∃ T2 P2, roundTrip mem t P = some (T2, P2) ∧ Same P2 P) := by
  obtain ⟨T, P, e, hT, hP⟩ := roundTrip_spec mem t A hwf hsq hA
  refine ⟨T, P, e, hT, hP, ?_, ?_⟩
  · intro horth
    obtain ⟨T2, P2, e2, hT2, _⟩ := roundTrip_spec mem t T hwf hsq
      (by rw [hT.1]; exact hss_Ubig_rows t hwf)
    rw [← hss_Ubig_cols] at horth
    exact ⟨T2, P2, e2, gram_idem horth hT hT2⟩
  · intro horth
    obtain ⟨T2, P2, e2, _, hP2⟩ := roundTrip_spec mem t P hwf hsq
      (by rw [hP.1]; exact (hss_Vbig_rows t hwf).trans (Square_eq t hsq).symm)
    rw [← hss_Vbig_cols] at horth
    exact ⟨T2, P2, e2, gram_idem horth hP hP2⟩

/-- C13 witness: the two-leaf node `exampleN` and a probe with two rows. -/
theorem roundTrip_projection_witness :
    ∃ T P, roundTrip (fun _ _ => 9) exampleN (ofRows 2 1 [[5], [6]]) = some (T, P) ∧
      Same T (mul (Ubig exampleN) (mul (ctrans (Ubig exampleN)) (ofRows 2 1 [[5], [6]]))) ∧
      Same P (mul (Vbig exampleN) (mul (ctrans (Vbig exampleN)) (ofRows 2 1 [[5], [6]]))) ∧
      (Same (mul (ctrans (Ubig exampleN)) (Ubig exampleN)) (eye exampleN.U_rank) →
        ∃ T2 P2, roundTrip (fun _ _ => 9) exampleN T = some (T2, P2) ∧ Same T2 T) ∧
      (Same (mul (ctrans (Vbig exampleN)) (Vbig exampleN)) (eye exampleN.V_rank) →
        ∃ T2 P2, roundTrip (fun _ _ => 9) exampleN P = some (T2, P2) ∧ Same P2 P) :=
  roundTrip_projection (fun _ _ => 9) exampleN (ofRows 2 1 [[5], [6]])
    ⟨rfl, rfl, rfl, rfl, ⟨rfl, rfl⟩, ⟨rfl, rfl⟩⟩ ⟨rfl, rfl, rfl⟩ rfl

/-- C13 as stated fails: on the 1 x 1 leaf with `U = V = [[2]]` and the probe `[[1]]`
the round trip gives `Theta = [[4]]`, and the round trip of that gives `[[16]]`. -/
theorem roundTrip_not_idempotent :
    ∃ T P T2 P2, roundTrip (fun _ _ => 0) exLeafTwo (ofRows 1 1 [[1]]) = some (T, P) ∧
      roundTrip (fun _ _ => 0) exLeafTwo T = some (T2, P2) ∧
      WFB exLeafTwo ∧ Square exLeafTwo ∧
      T.val 0 0 = 4 ∧ T2.val 0 0 = 16 ∧ P.val 0 0 = 4 ∧ ¬ Same T2 T := by
  refine ⟨_, _, _, _, rfl, rfl, ⟨rfl, rfl⟩, rfl, ?_, ?_, ?_, ?_⟩
  · decide
  · decide
  · decide
  · intro h
    exact absurd (h.2.2 0 0 (by decide) (by decide)) (by decide)

end HSSMatrix

namespace HBSMatrix

variable {R : Type} [CommRing R] [StarRing R]

open DenseM

/-- C14 at a concrete input: on the single-leaf tree `D = [[3]]` with `b = [[2]]`,
`beta = 0` and `c = [[5]]` the two passes leave `c = [[11]] = c_old + D * b`, whereas
`beta * c_old + D * b = [[6]]`: at a root leaf the old contents of `c` are not scaled
by `beta`. -/
theorem apply_bwd_root_leaf_beta :
    ∃ w1 c' w2, apply_fwd exRootLeaf (ofRows 1 1 [[2]]) WorkApply.fresh = some w1 ∧
      w1.lvl = 0 ∧
      apply_bwd exRootLeaf (ofRows 1 1 [[2]]) 0 (ofRows 1 1 [[5]]) w1 = some (c', w2) ∧
      c'.val 0 0 = 11 ∧
      (add (smul 0 (ofRows 1 1 [[5]])) (mul (Dense exRootLeaf) (ofRows 1 1 [[2]]))).val 0 0
        = 6 := by
  refine ⟨_, _, _, rfl, rfl, rfl, ?_, ?_⟩ <;> decide

/-- C17, amended (forward pass at an internal node).  On a well-formed subtree rooted
at an internal node placed at level `l`, `apply_fwd` succeeds; the children's contexts
are those of `apply_fwd` on the children; below the root (`l != 0`) the node's
compressed vector is `q = V^C * vconcat(child0.q, child1.q)` with `V` the node's own
column basis, and at the root (`l = 0`) `q` is left as it was. -/
theorem apply_fwd_node_compress (b : DenseM R) (r c : Nat) (U V D : DenseM R)
    (c0 c1 : HBSMatrix R) (o l : Nat) (q0 u0 : DenseM R)
    (hwf : WF l (node r c U V D c0 c1)) (hb : o + c ≤ b.rows) :
    ∃ q w0 w1,
      apply_fwd (node r c U V D c0 c1) b (WorkApply.bare (o, o) l q0 u0) =
        some (WorkApply.forked (o, o) l q u0 w0 w1) ∧
      apply_fwd c0 b (WorkApply.bare (o, o) (l + 1) DenseM.empty DenseM.empty) = some w0 ∧
      apply_fwd c1 b (WorkApply.bare (o + c0.rows, o + c0.cols) (l + 1) DenseM.empty
        DenseM.empty) = some w1 ∧
      (l ≠ 0 → vconcat w0.q w1.q = some (vstack w0.q w1.q) ∧
        q = mul (ctrans V) (vstack w0.q w1.q)) ∧
      (l = 0 → q = q0) := by
  obtain ⟨h1, h2, h3, h4, h5, h6, h7, h8⟩ := hwf
  have s0 := WF_square h7
  obtain ⟨w0, e0, d0⟩ := apply_fwd_done b c0 o (l + 1) DenseM.empty DenseM.empty h7
    (by omega)
  obtain ⟨w1, e1, d1⟩ := apply_fwd_done b c1 (o + c0.rows) (l + 1) DenseM.empty
    DenseM.empty h8 (by omega)
  have hq0 := FwdDone_q c0 o (l + 1) w0 d0 (Or.inr (Nat.succ_ne_zero l))
  have hq1 := FwdDone_q c1 (o + c0.rows) (l + 1) w1 d1 (Or.inr (Nat.succ_ne_zero l))
  have hoff : (o + c0.dims.1, o + c0.dims.2) = (o + c0.rows, o + c0.rows) := by
    simp [dims, s0]
  have e1' : apply_fwd c1 b (WorkApply.bare (o + c0.rows, o + c0.cols) (l + 1) DenseM.empty
      DenseM.empty) = some w1 := by rw [← s0]; exact e1
  by_cases hl : l = 0
  · subst hl
    refine ⟨q0, w0, w1, ?_, e0, e1', fun h => absurd rfl h, fun _ => rfl⟩
    simp only [apply_fwd, WorkApply.split, hoff, e0, e1, Option.bind_eq_bind,
      Option.some_bind, Option.pure_def, ne_eq, not_true_eq_false, if_false]
  · have hv : vconcat w0.q w1.q = some (vstack w0.q w1.q) :=
      vconcat_eq_some (by rw [hq0.2.1, hq1.2.1]; rfl)
    have hrows : V.rows = (Vbig c0).cols + (Vbig c1).cols := by
      rw [Vbig_cols, Vbig_cols]
      exact (h6 hl).2
    have hg : gemmR Trans.C Trans.N 1 V (vstack w0.q w1.q) =
        some (mul (ctrans V) (vstack w0.q w1.q)) :=
      gemmR_one Trans.C Trans.N V (vstack w0.q w1.q) (by
        show V.rows = w0.q.rows + w1.q.rows
        rw [hq0.1, hq1.1]; exact hrows)
    refine ⟨mul (ctrans V) (vstack w0.q w1.q), w0, w1, ?_, e0, e1', fun _ => ⟨hv, rfl⟩,
      fun h => absurd h hl⟩
    simp only [apply_fwd, WorkApply.split, hoff, e0, e1, hv, hg, Option.bind_eq_bind,
      Option.some_bind, Option.pure_def, ne_eq, hl, not_false_eq_true, if_true]

/-- C17 witness: the node `exInner` placed at level 1 and offset 0. -/
theorem apply_fwd_node_compress_witness :
    ∃ q w0 w1,
      apply_fwd exInner (ofRows 2 1 [[1], [1]])
        (WorkApply.bare (0, 0) 1 DenseM.empty DenseM.empty) =
        some (WorkApply.forked (0, 0) 1 q DenseM.empty w0 w1) ∧
      apply_fwd (leaf 1 1 (ofRows 1 1 [[1]]) (ofRows 1 1 [[1]]) (ofRows 1 1 [[1]]))
        (ofRows 2 1 [[1], [1]])
        (WorkApply.bare (0, 0) (1 + 1) DenseM.empty DenseM.empty) = some w0 ∧
      apply_fwd (leaf 1 1 (ofRows 1 1 [[1]]) (ofRows 1 1 [[1]]) (ofRows 1 1 [[1]]))
        (ofRows 2 1 [[1], [1]])
        (WorkApply.bare
          (0 + (leaf 1 1 (ofRows 1 1 [[1]]) (ofRows 1 1 [[1]]) (ofRows 1 1 [[1]]) :
            HBSMatrix ℤ).rows,
           0 + (leaf 1 1 (ofRows 1 1 [[1]]) (ofRows 1 1 [[1]]) (ofRows 1 1 [[1]]) :
            HBSMatrix ℤ).cols) (1 + 1) DenseM.empty DenseM.empty) = some w1 ∧
      ((1 : Nat) ≠ 0 → vconcat w0.q w1.q = some (vstack w0.q w1.q) ∧
        q = mul (ctrans (ofRows 2 1 [[2], [3]])) (vstack w0.q w1.q)) ∧
      ((1 : Nat) = 0 → q = DenseM.empty) :=
  apply_fwd_node_compress (ofRows 2 1 [[1], [1]]) 2 2 (ofRows 2 1 [[1], [1]])
    (ofRows 2 1 [[2], [3]]) (zeros 2 2)
    (leaf 1 1 (ofRows 1 1 [[1]]) (ofRows 1 1 [[1]]) (ofRows 1 1 [[1]]))
    (leaf 1 1 (ofRows 1 1 [[1]]) (ofRows 1 1 [[1]]) (ofRows 1 1 [[1]])) 0 1
    DenseM.empty DenseM.empty
    ⟨rfl, rfl, rfl, rfl, rfl, fun _ => ⟨rfl, rfl⟩, ⟨rfl, rfl, rfl, rfl, rfl⟩,
      ⟨rfl, rfl, rfl, rfl, rfl⟩⟩ (by decide)

/-- C17 as stated fails: on `exInner` at level 1 with `b = [[1], [1]]` the children's
vectors are `[[1]]` and `[[1]]`, the node's `q` is `[[5]] = V^C * [1; 1]`, whereas
`U^C * vconcat(child0.q, child1.q) = [[2]]`. -/
theorem apply_fwd_node_not_U :
    ∃ q u w0 w1,
      apply_fwd exInner (ofRows 2 1 [[1], [1]])
        (WorkApply.bare (0, 0) 1 DenseM.empty DenseM.empty) =
        some (WorkApply.forked (0, 0) 1 q u w0 w1) ∧
      WF 1 exInner ∧
      q.val 0 0 = 5 ∧
      (mul (ctrans exInner.U_) (vstack w0.q w1.q)).val 0 0 = 2 ∧
      (mul (ctrans exInner.V_) (vstack w0.q w1.q)).val 0 0 = 5 := by
  refine ⟨_, _, _, _, rfl, ⟨rfl, rfl, rfl, rfl, rfl, fun _ => ⟨rfl, rfl⟩,
    ⟨rfl, rfl, rfl, rfl, rfl⟩, ⟨rfl, rfl, rfl, rfl, rfl⟩⟩, ?_, ?_, ?_⟩ <;> decide

/-- C18 at a concrete input: on the 2 x 3 tree `exNonSquare` with `b = [[10], [20],
[30]]`, `beta = 0` and `c = 0`, leaf 1 has offset `(1, 2)`; the forward pass compresses
row 2 of `b` (`q = [[30]]`), the backward pass multiplies `D` by row 1 of `b` and
leaves `c(1, 0) = 20`, whereas row 1 of `Dense * b` is `30`. -/
theorem apply_bwd_operand_offset :
    ∃ q u wa wb c' w2,
      apply_fwd exNonSquare (ofRows 3 1 [[10], [20], [30]]) WorkApply.fresh =
        some (WorkApply.forked (0, 0) 0 q u wa wb) ∧
      wb.offset = (1, 2) ∧ wb.q.val 0 0 = 30 ∧
      apply_bwd exNonSquare (ofRows 3 1 [[10], [20], [30]]) 0 (zeros 2 1)
        (WorkApply.forked (0, 0) 0 q u wa wb) = some (c', w2) ∧
      c'.val 1 0 = 20 ∧
      (mul (Dense exNonSquare) (ofRows 3 1 [[10], [20], [30]])).val 1 0 = 30 := by
  refine ⟨_, _, _, _, _, _, rfl, rfl, ?_, rfl, ?_, ?_⟩ <;> decide

end HBSMatrix

namespace HBSMatrix

variable {R : Type} [CommRing R] [StarRing R]

open DenseM

theorem gemm_shape {ta tb : Trans} {a beta : R} {A B C X : DenseM R}
    (h : gemm ta tb a A B beta C = some X) : X.rows = C.rows ∧ X.cols = C.cols := by
  unfold gemm at h
  split at h
  · rename_i hc
    simp only [Option.some.injEq] at h
    subst h
    exact ⟨hc.2.1.symm, hc.2.2.symm⟩
  · exact absurd h (by simp)

theorem wrapper_shape {m n : Nat} {M X : DenseM R} {i j : Nat}
    (h : wrapper m n M i j = some X) : X.rows = m ∧ X.cols = n := by
  unfold wrapper at h
  split at h
  · simp only [Option.some.injEq] at h
    subst h
    exact ⟨rfl, rfl⟩
  · exact absurd h (by simp)

/-- The backward pass keeps the size of `c` and never touches anything to the right of
its last column. -/
theorem apply_bwd_shape (b : DenseM R) (beta : R) :
    ∀ (t : HBSMatrix R) (c : DenseM R) (w : WorkApply R) (c' : DenseM R) (w' : WorkApply R),
    apply_bwd t b beta c w = some (c', w') →
    c'.rows = c.rows ∧ c'.cols = c.cols ∧ ∀ i j, c.cols ≤ j → c'.val i j = c.val i j
  | leaf r c0 U V D, c, w, c', w', h => by
      by_cases hl : w.lvl = 0
      · simp only [apply_bwd, hl, ne_eq, not_true_eq_false, if_false, Option.bind_eq_bind,
          Option.bind_eq_some, Option.pure_def, Option.some.injEq, Prod.mk.injEq] at h
        obtain ⟨cl1, h1, cl2, h2, bl, h3, cl3, h4, rfl, _⟩ := h
        subst h2
        have s1 := wrapper_shape h1
        have s3 := gemm_shape h4
        refine ⟨rfl, rfl, fun i j hj => ?_⟩
        rw [store_val, if_neg (by omega)]
      · simp only [apply_bwd, hl, ne_eq, not_false_eq_true, if_true, Option.bind_eq_bind,
          Option.bind_eq_some, Option.pure_def, Option.some.injEq, Prod.mk.injEq] at h
        obtain ⟨cl1, h1, cl2, h2, bl, h3, cl3, h4, rfl, _⟩ := h
        have s1 := wrapper_shape h1
        have s2 := gemm_shape h2
        have s3 := gemm_shape h4
        refine ⟨rfl, rfl, fun i j hj => ?_⟩
        rw [store_val, if_neg (by omega)]
  | node r c0 U V D t0 t1, c, w, c', w', h => by
      cases w with
      | bare o l q u => simp [apply_bwd] at h
      | forked o l q u w0 w1 =>
          have key : ∃ x1 y1 x2 y2 u0 u1, apply_bwd t0 b beta c (w0.setU u0) = some (x1, y1) ∧
              apply_bwd t1 b beta x1 (w1.setU u1) = some (x2, y2) ∧ c' = x2 := by
            by_cases hl : l = 0
            · simp only [apply_bwd, hl, ne_eq, not_true_eq_false, if_false,
                Option.bind_eq_bind, Option.bind_eq_some, Option.pure_def,
                Option.some.injEq, Prod.mk.injEq, Prod.exists] at h
              obtain ⟨qq, _, uu, _, uu2, _, u0, _, u1, _, x1, y1, e1, x2, y2, e2, rfl, _⟩ := h
              exact ⟨x1, y1, x2, y2, u0, u1, e1, e2, rfl⟩
            · simp only [apply_bwd, hl, ne_eq, not_false_eq_true, if_true,
                Option.bind_eq_bind, Option.bind_eq_some, Option.pure_def,
                Option.some.injEq, Prod.mk.injEq, Prod.exists] at h
              obtain ⟨qq, _, uu, _, uu2, _, u0, _, u1, _, x1, y1, e1, x2, y2, e2, rfl, _⟩ := h
              exact ⟨x1, y1, x2, y2, u0, u1, e1, e2, rfl⟩
          obtain ⟨x1, y1, x2, y2, u0, u1, e1, e2, rfl⟩ := key
          obtain ⟨a1, a2, a3⟩ := apply_bwd_shape b beta t0 c _ x1 y1 e1
          obtain ⟨b1, b2, b3⟩ := apply_bwd_shape b beta t1 x1 _ c' y2 e2
          exact ⟨by omega, by omega, fun i j hj => by
            rw [b3 i j (by omega), a3 i j hj]⟩

theorem DenseM_ext {A B : DenseM R} (hr : A.rows = B.rows) (hc : A.cols = B.cols)
    (hv : ∀ i j, A.val i j = B.val i j) : A = B := by
  cases A
  cases B
  simp only [DenseM.mk.injEq]
  exact ⟨hr, hc, funext (fun i => funext (fun j => hv i j))⟩

/-- On a well-formed square tree, with a work context left by the forward pass, both
orders of the two child calls of an internal node succeed and leave the same `c`. -/
theorem apply_bwd_orders_succeed (b : DenseM R) (beta : R) (r c0 : Nat) (U V D : DenseM R)
    (t0 t1 : HBSMatrix R) (o l : Nat) (w : WorkApply R) (c : DenseM R)
    (hwf : WF l (node r c0 U V D t0 t1)) (hfd : FwdDone b (node r c0 U V D t0 t1) o l w)
    (hu : l ≠ 0 → w.u.rows = U.cols ∧ w.u.cols = b.cols)
    (hcc : c.cols = b.cols) (hcr : o + r ≤ c.rows) (hbr : o + c0 ≤ b.rows) :
    ∃ c' w' w'', apply_bwd (node r c0 U V D t0 t1) b beta c w = some (c', w') ∧
      apply_bwd_c1_first (node r c0 U V D t0 t1) b beta c w = some (c', w'') := by
  obtain ⟨h1, h2, h3, h4, h5, h6, h7, h8⟩ := hwf
  obtain ⟨q, u, w0, w1, rfl, d0, d1, _⟩ := hfd
  change l ≠ 0 → u.rows = U.cols ∧ u.cols = b.cols at hu
  have s0 := WF_square h7
  have s1 := WF_square h8
  have hq0 := FwdDone_q t0 o (l + 1) w0 d0 (Or.inr (Nat.succ_ne_zero l))
  have hq1 := FwdDone_q t1 (o + t0.rows) (l + 1) w1 d1 (Or.inr (Nat.succ_ne_zero l))
  have hv : vconcat w0.q w1.q = some (vstack w0.q w1.q) :=
    vconcat_eq_some (by rw [hq0.2.1, hq1.2.1]; rfl)
  have hqqr : (vstack w0.q w1.q).rows = D.cols := by
    simp [hq0.1, hq1.1, h5, Vbig_cols]
  have hqqc : (vstack w0.q w1.q).cols = b.cols := by
    simp [hq0.2.1]
  have hg : gemmR Trans.N Trans.N 1 D (vstack w0.q w1.q) =
      some (smul 1 (mul D (vstack w0.q w1.q))) :=
    gemmR_eq_some (by simpa using hqqr.symm)
  obtain ⟨uu, huu, huur, huuc⟩ : ∃ uu : DenseM R,
      (if l ≠ 0 then gemm Trans.N Trans.N 1 U u 1 (smul 1 (mul D (vstack w0.q w1.q)))
        else pure (smul 1 (mul D (vstack w0.q w1.q)))) = some uu ∧
      uu.rows = D.rows ∧ uu.cols = b.cols := by
    by_cases hl : l = 0
    · exact ⟨smul 1 (mul D (vstack w0.q w1.q)), by simp [hl], rfl, hqqc⟩
    · obtain ⟨hur, huc⟩ := hu hl
      refine ⟨add (smul 1 (mul U u)) (smul 1 (smul 1 (mul D (vstack w0.q w1.q)))), ?_,
        by simp [(h6 hl).1, h4], huc⟩
      simp only [ne_eq, hl, not_false_eq_true, if_true]
      exact gemm_eq_some (by simp [hur]) (by simp [(h6 hl).1, h4]) (hqqc.trans huc.symm)
  have hw0 : wrapper t0.U_.cols uu.cols uu 0 0 = some (rowSlice uu 0 t0.U_.cols) :=
    wrapper_rows_eq (by omega)
  have hw1 : wrapper t1.U_.cols uu.cols uu t0.U_.cols 0 =
      some (rowSlice uu t0.U_.cols t1.U_.cols) :=
    wrapper_rows_eq (by omega)
  -- child 0 first
  obtain ⟨c1, w0', e0, c1r, c1c, c1f, c1v⟩ :=
    apply_bwd_spec b beta t0 o (l + 1) (w0.setU (rowSlice uu 0 t0.U_.cols)) c h7
      (fun _ => Nat.succ_ne_zero l) (FwdDone_setU _ _ _ _ _ d0)
      (fun _ => by rw [setU_u]; exact ⟨rfl, huuc⟩) hcc (by omega) (by omega)
  obtain ⟨c2, w1', e1, c2r, c2c, c2f, c2v⟩ :=
    apply_bwd_spec b beta t1 (o + t0.rows) (l + 1)
      (w1.setU (rowSlice uu t0.U_.cols t1.U_.cols)) c1 h8
      (fun _ => Nat.succ_ne_zero l) (FwdDone_setU _ _ _ _ _ d1)
      (fun _ => by rw [setU_u]; exact ⟨rfl, huuc⟩) (by omega) (by omega) (by omega)
  -- child 1 first
  obtain ⟨k1, v1', f1, k1r, k1c, k1f, k1v⟩ :=
    apply_bwd_spec b beta t1 (o + t0.rows) (l + 1)
      (w1.setU (rowSlice uu t0.U_.cols t1.U_.cols)) c h8
      (fun _ => Nat.succ_ne_zero l) (FwdDone_setU _ _ _ _ _ d1)
      (fun _ => by rw [setU_u]; exact ⟨rfl, huuc⟩) hcc (by omega) (by omega)
  obtain ⟨k2, v0', f0, k2r, k2c, k2f, k2v⟩ :=
    apply_bwd_spec b beta t0 o (l + 1) (w0.setU (rowSlice uu 0 t0.U_.cols)) k1 h7
      (fun _ => Nat.succ_ne_zero l) (FwdDone_setU _ _ _ _ _ d0)
      (fun _ => by rw [setU_u]; exact ⟨rfl, huuc⟩) (by omega) (by omega) (by omega)
  have hc1 := (apply_bwd_shape b beta t0 c _ c1 w0' e0).2.2
  have hc2 := (apply_bwd_shape b beta t1 c1 _ c2 w1' e1).2.2
  have hk1 := (apply_bwd_shape b beta t1 c _ k1 v1' f1).2.2
  have hk2 := (apply_bwd_shape b beta t0 k1 _ k2 v0' f0).2.2
  have heq : k2 = c2 := by
    refine DenseM_ext (by omega) (by omega) (fun i j => ?_)
    by_cases hj : j < c.cols
    · by_cases hi0 : i < o ∨ o + t0.rows ≤ i
      · by_cases hi1 : i < o + t0.rows ∨ o + t0.rows + t1.rows ≤ i
        · rw [k2f i j hi0, k1f i j hi1, c2f i j hi1, c1f i j hi0]
        · have hidx : i = (o + t0.rows) + (i - (o + t0.rows)) := by omega
          rw [k2f i j hi0, hidx, k1v _ j (by omega) hj, c2v _ j (by omega) (by omega),
            c1f _ j (by omega)]
      · have hidx : i = o + (i - o) := by omega
        rw [c2f i j (Or.inl (by omega)), hidx, k2v _ j (by omega) (by omega),
          c1v _ j (by omega) hj, k1f _ j (Or.inl (by omega))]
    · rw [hk2 i j (by omega), hk1 i j (by omega), hc2 i j (by omega), hc1 i j (by omega)]
  subst heq
  refine ⟨k2, WorkApply.forked (o, o) l q u w0' w1', WorkApply.forked (o, o) l q u v0' v1',
    ?_, ?_⟩
  · by_cases hl : l = 0
    · simp only [hl, ne_eq, not_true_eq_false, if_false, Option.pure_def,
        Option.some.injEq] at huu
      subst huu
      simp only [apply_bwd, hv, hg, hw0, hw1, e0, e1, hl, Option.bind_eq_bind,
        Option.some_bind, Option.pure_def, ne_eq, not_true_eq_false, if_false]
    · simp only [ne_eq, hl, not_false_eq_true, if_true] at huu
      simp only [apply_bwd, hv, hg, huu, hw0, hw1, e0, e1, Option.bind_eq_bind,
        Option.some_bind, Option.pure_def, ne_eq, hl, not_false_eq_true, if_true]
  · by_cases hl : l = 0
    · simp only [hl, ne_eq, not_true_eq_false, if_false, Option.pure_def,
        Option.some.injEq] at huu
      subst huu
      simp only [apply_bwd_c1_first, hv, hg, hw0, hw1, f0, f1, hl, Option.bind_eq_bind,
        Option.some_bind, Option.pure_def, ne_eq, not_true_eq_false, if_false]
    · simp only [ne_eq, hl, not_false_eq_true, if_true] at huu
      simp only [apply_bwd_c1_first, hv, hg, huu, hw0, hw1, f0, f1, Option.bind_eq_bind,
        Option.some_bind, Option.pure_def, ne_eq, hl, not_false_eq_true, if_true]

end HBSMatrix

namespace HSSMatrix

variable {K : Type} [LinearOrderedField K] [StarRing K]

open DenseM

/-- The sign reader on a block of order 2 whose two pivot entries are negative: one
2 x 2 pivot, both closed-form eigenvalues classified. -/
theorem readInertia_two (sqrt : K → K) (D : DenseM K) (p0 p1 : Int) (rest : List Int)
    (hD : D.rows = 2) (h0 : p0 < 0) (h1 : p1 < 0) :
    readInertiaOffBlockDiag sqrt D (p0 :: p1 :: rest) =
      some (classify
        ((1 / 2) * ((D.val 0 0 + D.val 1 1) -
          sqrt ((D.val 0 0 - D.val 1 1) * (D.val 0 0 - D.val 1 1) +
            4 * D.val 1 0 * D.val 1 0)))
        (classify
          ((1 / 2) * ((D.val 0 0 + D.val 1 1) +
            sqrt ((D.val 0 0 - D.val 1 1) * (D.val 0 0 - D.val 1 1) +
              4 * D.val 1 0 * D.val 1 0)))
          ⟨0, 0, 0⟩)) := by
  simp [readInertiaOffBlockDiag, readLoop, hD, h0, h1]

theorem diagCount_card (D : DenseM K) : ∀ n : Nat,
    diagCount D n =
      ⟨((Finset.range n).filter (fun i => D.val i i > 0)).card,
        ((Finset.range n).filter (fun i => D.val i i < 0)).card,
        ((Finset.range n).filter (fun i => D.val i i = 0)).card⟩
  | 0 => by simp [diagCount]
  | n + 1 => by
      have hn : ∀ p : Nat → Prop, [DecidablePred p] → n ∉ (Finset.range n).filter p :=
        fun p _ h => absurd (Finset.mem_range.mp (Finset.mem_filter.mp h).1) (lt_irrefl n)
      rw [diagCount, diagCount_card D n, Finset.range_succ]
      simp only [Finset.filter_insert, classify]
      rcases lt_trichotomy (D.val n n) 0 with h | h | h
      · have h1 : ¬ D.val n n > 0 := not_lt_of_gt h
        have h2 : ¬ D.val n n = 0 := ne_of_lt h
        simp only [h, h1, h2, if_true, if_false]
        rw [Finset.card_insert_of_not_mem (hn _)]
      · simp only [h, gt_iff_lt, lt_self_iff_false, if_true, if_false]
        rw [Finset.card_insert_of_not_mem (hn _)]
      · have h1 : ¬ D.val n n < 0 := not_lt_of_gt h
        have h2 : ¬ D.val n n = 0 := ne_of_gt h
        have h3 : D.val n n > 0 := h
        simp only [h3, h1, h2, if_true, if_false]
        rw [Finset.card_insert_of_not_mem (hn _)]

/-- C20 (1 x 1 pivot classification).  For a block `D` of order `n` and a pivot vector
of at least `n` entries none of which is negative, the sign reader returns
`np = #{i < n : D(i,i) > 0}`, `nn = #{i < n : D(i,i) < 0}` and
`nz = #{i < n : D(i,i) = 0}`; the last diagonal entry is counted like the others. -/
theorem readInertia_one_by_one (sqrt : K → K) (D : DenseM K) (IPIV : List Int)
    (hlen : D.rows ≤ IPIV.length) (hpos : ∀ p ∈ IPIV, ¬ p < 0) :
    readInertiaOffBlockDiag sqrt D IPIV =
      some ⟨((Finset.range D.rows).filter (fun i => D.val i i > 0)).card,
        ((Finset.range D.rows).filter (fun i => D.val i i < 0)).card,
        ((Finset.range D.rows).filter (fun i => D.val i i = 0)).card⟩ := by
  rw [readInertia_nonneg sqrt D IPIV hlen hpos, diagCount_card]

/-- C20 witness: the diagonal `(2, -3, 0)` over the rationals with pivots `1, 2, 3`
gives `(1, 1, 1)`. -/
theorem readInertia_one_by_one_witness :
    readInertiaOffBlockDiag (fun x : ℚ => x)
        ⟨3, 3, fun i _ => if i = 0 then 2 else if i = 1 then -3 else 0⟩ [1, 2, 3] =
      some ⟨1, 1, 1⟩ :=
  (readInertia_one_by_one (fun x : ℚ => x)
    ⟨3, 3, fun i _ => if i = 0 then 2 else if i = 1 then -3 else 0⟩
    [1, 2, 3] (by decide) (by decide)).trans (by decide)

end HSSMatrix

namespace HBSMatrix

variable {R : Type} [CommRing R] [StarRing R]

open DenseM

theorem gemm_some {ta tb : Trans} {a beta : R} {A B C X : DenseM R}
    (h : gemm ta tb a A B beta C = some X) :
    ((op ta A).cols = (op tb B).rows ∧ C.rows = (op ta A).rows ∧
      C.cols = (op tb B).cols) ∧
    X = add (smul a (mul (op ta A) (op tb B))) (smul beta C) := by
  unfold gemm at h
  split at h
  · rename_i hc
    simp only [Option.some.injEq] at h
    exact ⟨hc, h.symm⟩
  · exact absurd h (by simp)

theorem wrapper_some {m n : Nat} {M X : DenseM R} {i j : Nat}
    (h : wrapper m n M i j = some X) :
    (i + m ≤ M.rows ∧ j + n ≤ M.cols) ∧ X = ⟨m, n, fun a b => M.val (i + a) (j + b)⟩ := by
  unfold wrapper at h
  split at h
  · rename_i hc
    simp only [Option.some.injEq] at h
    exact ⟨hc, h.symm⟩
  · exact absurd h (by simp)

theorem setU_offset (w : WorkApply R) (u : DenseM R) : (w.setU u).offset = w.offset := by
  cases w <;> rfl

theorem setQ_offset (w : WorkApply R) (q : DenseM R) : (w.setQ q).offset = w.offset := by
  cases w <;> rfl

theorem CtxRows_setU : ∀ (t : HBSMatrix R) (w : WorkApply R) (u : DenseM R),
    CtxRows t w → CtxRows t (w.setU u)
  | leaf _ _ _ _ _, _, _, _ => trivial
  | node _ _ _ _ _ c0 c1, w, u, h => by
      obtain ⟨o, l, q, u', w0, w1, rfl, h0, h1, hc0, hc1⟩ := h
      exact ⟨o, l, q, u, w0, w1, rfl, h0, h1, hc0, hc1⟩

/-- The forward pass on a context without children leaves one that mirrors the tree. -/
theorem apply_fwd_ctx (b : DenseM R) : ∀ (t : HBSMatrix R) (o : Nat × Nat) (l : Nat)
    (q u : DenseM R) (w' : WorkApply R),
    apply_fwd t b (WorkApply.bare o l q u) = some w' → CtxRows t w' ∧ w'.offset = o
  | leaf r c U V D, o, l, q, u, w', h => by
      simp only [apply_fwd, Option.bind_eq_bind, Option.bind_eq_some, Option.pure_def,
        Option.some.injEq] at h
      obtain ⟨_, _, q', _, rfl⟩ := h
      exact ⟨trivial, rfl⟩
  | node r c U V D c0 c1, o, l, q, u, w', h => by
      have key : ∃ q' w0' w1', w' = WorkApply.forked o l q' u w0' w1' ∧
          apply_fwd c0 b (WorkApply.bare o (l + 1) DenseM.empty DenseM.empty) = some w0' ∧
          apply_fwd c1 b (WorkApply.bare (o.1 + c0.dims.1, o.2 + c0.dims.2) (l + 1)
            DenseM.empty DenseM.empty) = some w1' := by
        by_cases hl : l = 0
        · simp only [apply_fwd, WorkApply.split, hl, ne_eq, not_true_eq_false, if_false,
            Option.bind_eq_bind, Option.bind_eq_some, Option.pure_def,
            Option.some.injEq] at h
          obtain ⟨w0', e0, w1', e1, rfl⟩ := h
          exact ⟨q, w0', w1', by rw [hl], by rw [hl]; exact e0, by rw [hl]; exact e1⟩
        · simp only [apply_fwd, WorkApply.split, hl, ne_eq, not_false_eq_true, if_true,
            Option.bind_eq_bind, Option.bind_eq_some, Option.pure_def,
            Option.some.injEq] at h
          obtain ⟨w0', e0, w1', e1, qq, _, q', _, rfl⟩ := h
          exact ⟨q', w0', w1', rfl, e0, e1⟩
      obtain ⟨q', w0', w1', rfl, e0, e1⟩ := key
      obtain ⟨k0, f0⟩ := apply_fwd_ctx b c0 _ _ _ _ w0' e0
      obtain ⟨k1, f1⟩ := apply_fwd_ctx b c1 _ _ _ _ w1' e1
      exact ⟨⟨o, l, q', u, w0', w1', rfl, by rw [f0], by rw [f1]; rfl, k0, k1⟩, rfl⟩

theorem wrapper_congr {m n : Nat} {c d X : DenseM R} {o : Nat}
    (h : wrapper m n c o 0 = some X) (hr : c.rows = d.rows) (hc : c.cols = d.cols)
    (hag : ∀ i j, o ≤ i → i < o + m → c.val i j = d.val i j) :
    ∃ Y, wrapper m n d o 0 = some Y ∧ Same X Y ∧ X.rows = m ∧ X.cols = n := by
  obtain ⟨hb, rfl⟩ := wrapper_some h
  refine ⟨⟨m, n, fun a b => d.val (o + a) (0 + b)⟩,
    wrapper_eq_some (by omega) (by omega), ⟨rfl, rfl, fun i j hi _ => ?_⟩, rfl, rfl⟩
  change i < m at hi
  exact hag (o + i) (0 + j) (by omega) (by omega)

theorem gemm_congr {ta tb : Trans} {a beta : R} {A B C C' X : DenseM R}
    (h : gemm ta tb a A B beta C = some X) (hs : Same C C') :
    ∃ X', gemm ta tb a A B beta C' = some X' ∧ Same X X' ∧
      X.rows = C.rows ∧ X.cols = C.cols := by
  obtain ⟨hc, rfl⟩ := gemm_some h
  refine ⟨add (smul a (mul (op ta A) (op tb B))) (smul beta C'),
    gemm_eq_some hc.1 (hs.1 ▸ hc.2.1) (hs.2.1 ▸ hc.2.2), ⟨rfl, rfl, fun i j hi hj => ?_⟩,
    hc.2.1.symm, hc.2.2.symm⟩
  simp only [add_rows, smul_rows, mul_rows, add_cols, smul_cols, mul_cols] at hi hj
  simp only [add_val, smul_val]
  rw [hs.2.2 i j (by rw [hc.2.1]; exact hi) (by rw [hc.2.2]; exact hj)]

theorem store_local {c d X Y : DenseM R} (o r : Nat) (hs : Same X Y) (hr : X.rows = r)
    (hcc : X.cols = c.cols) (hag : ∀ i j, o ≤ i → i < o + r → c.val i j = d.val i j) :
    (∀ i j, o ≤ i → i < o + r → (store d o 0 Y).val i j = (store c o 0 X).val i j) ∧
    (∀ i j, (i < o ∨ o + r ≤ i) → (store c o 0 X).val i j = c.val i j) ∧
    (∀ i j, (i < o ∨ o + r ≤ i) → (store d o 0 Y).val i j = d.val i j) := by
  have hYr : Y.rows = r := hs.1 ▸ hr
  refine ⟨fun i j h1 h2 => ?_, fun i j h => ?_, fun i j h => ?_⟩
  · rw [store_val, store_val, ← hs.1, ← hs.2.1]
    by_cases hj : j < X.cols
    · rw [if_pos ⟨h1, by omega, Nat.zero_le j, by omega⟩,
        if_pos ⟨h1, by omega, Nat.zero_le j, by omega⟩]
      exact (hs.2.2 (i - o) (j - 0) (by omega) (by omega)).symm
    · rw [if_neg (by omega), if_neg (by omega)]
      exact (hag i j h1 h2).symm
  · rw [store_val, if_neg (by omega)]
  · rw [store_val, if_neg (by omega)]

/-- Locality of the backward pass: the rows of `c` a subtree writes, and whether it
succeeds, depend on `c` only through its size and the rows of the subtree's window;
all other rows of `c` are left as they were, and the returned work context does not
depend on `c`. -/
theorem apply_bwd_local (b : DenseM R) (beta : R) :
    ∀ (t : HBSMatrix R) (w : WorkApply R) (c d c' : DenseM R) (w' : WorkApply R),
    TreeRows t → CtxRows t w → c.rows = d.rows → c.cols = d.cols →
    (∀ i j, w.offset.1 ≤ i → i < w.offset.1 + t.rows → c.val i j = d.val i j) →
    apply_bwd t b beta c w = some (c', w') →
    ∃ d', apply_bwd t b beta d w = some (d', w') ∧
      c'.rows = c.rows ∧ c'.cols = c.cols ∧ d'.rows = d.rows ∧ d'.cols = d.cols ∧
      (∀ i j, w.offset.1 ≤ i → i < w.offset.1 + t.rows → d'.val i j = c'.val i j) ∧
      (∀ i j, (i < w.offset.1 ∨ w.offset.1 + t.rows ≤ i) → c'.val i j = c.val i j) ∧
      (∀ i j, (i < w.offset.1 ∨ w.offset.1 + t.rows ≤ i) → d'.val i j = d.val i j)
  | leaf r c0 U V D, w, c, d, c', w', hT, _, hr, hc, hag, h => by
      change U.rows = r at hT
      change ∀ i j, w.offset.1 ≤ i → i < w.offset.1 + r → c.val i j = d.val i j at hag
      show ∃ d', apply_bwd (leaf r c0 U V D) b beta d w = some (d', w') ∧
        c'.rows = c.rows ∧ c'.cols = c.cols ∧ d'.rows = d.rows ∧ d'.cols = d.cols ∧
        (∀ i j, w.offset.1 ≤ i → i < w.offset.1 + r → d'.val i j = c'.val i j) ∧
        (∀ i j, (i < w.offset.1 ∨ w.offset.1 + r ≤ i) → c'.val i j = c.val i j) ∧
        (∀ i j, (i < w.offset.1 ∨ w.offset.1 + r ≤ i) → d'.val i j = d.val i j)
      by_cases hl : w.lvl = 0
      · simp only [apply_bwd, hl, ne_eq, not_true_eq_false, if_false, Option.bind_eq_bind,
          Option.bind_eq_some, Option.pure_def, Option.some.injEq, Prod.mk.injEq] at h
        obtain ⟨cl1, h1, cl2, h2, bl, h3, cl3, h4, rfl, rfl⟩ := h
        subst h2
        obtain ⟨dl1, g1, s1, r1, k1⟩ := wrapper_congr h1 hr hc (by rw [hT]; exact hag)
        obtain ⟨dl3, g4, s3, r3, k3⟩ := gemm_congr h4 s1
        obtain ⟨p1, p2, p3⟩ := @store_local R _ _ c d cl3 dl3 w.offset.1 r s3
          (by omega) (by omega) hag
        refine ⟨store d w.offset.1 0 dl3, ?_, rfl, rfl, rfl, rfl, p1, p2, p3⟩
        rw [hc] at g1
        simp only [apply_bwd, hl, ne_eq, not_true_eq_false, if_false, g1, h3, g4,
          Option.bind_eq_bind, Option.some_bind, Option.pure_def]
      · simp only [apply_bwd, hl, ne_eq, not_false_eq_true, if_true, Option.bind_eq_bind,
          Option.bind_eq_some, Option.pure_def, Option.some.injEq, Prod.mk.injEq] at h
        obtain ⟨cl1, h1, cl2, h2, bl, h3, cl3, h4, rfl, rfl⟩ := h
        obtain ⟨dl1, g1, s1, r1, k1⟩ := wrapper_congr h1 hr hc (by rw [hT]; exact hag)
        obtain ⟨dl2, g2, s2, r2, k2⟩ := gemm_congr h2 s1
        obtain ⟨dl3, g4, s3, r3, k3⟩ := gemm_congr h4 s2
        obtain ⟨p1, p2, p3⟩ := @store_local R _ _ c d cl3 dl3 w.offset.1 r s3
          (by omega) (by omega) hag
        refine ⟨store d w.offset.1 0 dl3, ?_, rfl, rfl, rfl, rfl, p1, p2, p3⟩
        rw [hc] at g1
        simp only [apply_bwd, hl, ne_eq, not_false_eq_true, if_true, g1, g2, h3, g4,
          Option.bind_eq_bind, Option.some_bind, Option.pure_def]
  | node r c0 U V D t0 t1, w, c, d, c', w', hT, hC, hr, hc, hag, h => by
      obtain ⟨hrows, hT0, hT1⟩ := hT
      obtain ⟨o, l, q, u, w0, w1, rfl, ho0, ho1, hC0, hC1⟩ := hC
      change ∀ i j, o.1 ≤ i → i < o.1 + r → c.val i j = d.val i j at hag
      show ∃ d', apply_bwd (node r c0 U V D t0 t1) b beta d (WorkApply.forked o l q u w0 w1) =
          some (d', w') ∧
        c'.rows = c.rows ∧ c'.cols = c.cols ∧ d'.rows = d.rows ∧ d'.cols = d.cols ∧
        (∀ i j, o.1 ≤ i → i < o.1 + r → d'.val i j = c'.val i j) ∧
        (∀ i j, (i < o.1 ∨ o.1 + r ≤ i) → c'.val i j = c.val i j) ∧
        (∀ i j, (i < o.1 ∨ o.1 + r ≤ i) → d'.val i j = d.val i j)
      have key : ∃ u0 u1 x1 y1 y2,
          apply_bwd t0 b beta c (w0.setU u0) = some (x1, y1) ∧
          apply_bwd t1 b beta x1 (w1.setU u1) = some (c', y2) ∧
          w' = WorkApply.forked o l q u y1 y2 ∧
          ∀ (e1 : DenseM R) (e2 : DenseM R),
            apply_bwd t0 b beta d (w0.setU u0) = some (e1, y1) →
            apply_bwd t1 b beta e1 (w1.setU u1) = some (e2, y2) →
            apply_bwd (node r c0 U V D t0 t1) b beta d (WorkApply.forked o l q u w0 w1) =
              some (e2, WorkApply.forked o l q u y1 y2) := by
        by_cases hl : l = 0
        · simp only [apply_bwd, hl, ne_eq, not_true_eq_false, if_false,
            Option.bind_eq_bind, Option.bind_eq_some, Option.pure_def,
            Option.some.injEq, Prod.mk.injEq, Prod.exists] at h
          obtain ⟨qq, hv, uu, hg, uu2, hu2, u0, hw0, u1, hw1, x1, y1, e1, x2, y2, e2,
            rfl, rfl⟩ := h
          subst hu2
          refine ⟨u0, u1, x1, y1, y2, e1, e2, by rw [hl], fun f1 f2 g1 g2 => ?_⟩
          simp only [apply_bwd, hl, ne_eq, not_true_eq_false, if_false, hv, hg, hw0, hw1,
            g1, g2, Option.bind_eq_bind, Option.some_bind, Option.pure_def]
        · simp only [apply_bwd, hl, ne_eq, not_false_eq_true, if_true,
            Option.bind_eq_bind, Option.bind_eq_some, Option.pure_def,
            Option.some.injEq, Prod.mk.injEq, Prod.exists] at h
          obtain ⟨qq, hv, uu, hg, uu2, hu2, u0, hw0, u1, hw1, x1, y1, e1, x2, y2, e2,
            rfl, rfl⟩ := h
          refine ⟨u0, u1, x1, y1, y2, e1, e2, rfl, fun f1 f2 g1 g2 => ?_⟩
          simp only [apply_bwd, hl, ne_eq, not_false_eq_true, if_true, hv, hg, hu2, hw0,
            hw1, g1, g2, Option.bind_eq_bind, Option.some_bind, Option.pure_def]
      obtain ⟨u0, u1, x1, y1, y2, e1, e2, rfl, hd⟩ := key
      have a0 : (w0.setU u0).offset.1 = o.1 := by rw [setU_offset]; exact ho0
      have a1 : (w1.setU u1).offset.1 = o.1 + t0.rows := by rw [setU_offset]; exact ho1
      obtain ⟨z1, g1, m1, m2, m3, m4, m5, m6, m7⟩ :=
        apply_bwd_local b beta t0 (w0.setU u0) c d x1 y1 hT0 (CtxRows_setU _ _ _ hC0) hr hc
          (fun i j h1 h2 => hag i j (by omega) (by omega)) e1
      rw [a0] at m5 m6 m7
      obtain ⟨z2, g2, n1, n2, n3, n4, n5, n6, n7⟩ :=
        apply_bwd_local b beta t1 (w1.setU u1) x1 z1 c' y2 hT1 (CtxRows_setU _ _ _ hC1)
          (by omega) (by omega)
          (fun i j h1 h2 => by
            rw [m6 i j (by omega), m7 i j (by omega)]
            exact hag i j (by omega) (by omega)) e2
      rw [a1] at n5 n6 n7
      refine ⟨z2, hd z1 z2 g1 g2, by omega, by omega, by omega, by omega, ?_, ?_, ?_⟩
      · intro i j h1 h2
        by_cases hi : i < o.1 + t0.rows
        · rw [n7 i j (by omega), n6 i j (by omega)]
          exact m5 i j h1 hi
        · exact n5 i j (by omega) (by omega)
      · intro i j hi
        rw [n6 i j (by omega), m6 i j (by omega)]
      · intro i j hi
        rw [n7 i j (by omega), m7 i j (by omega)]

/-- Two subtrees with disjoint row windows can be run in either order. -/
theorem apply_bwd_commute (b : DenseM R) (beta : R) (tA tB : HBSMatrix R)
    (wA wB : WorkApply R) (hTA : TreeRows tA) (hCA : CtxRows tA wA) (hTB : TreeRows tB)
    (hCB : CtxRows tB wB)
    (hdis : wA.offset.1 + tA.rows ≤ wB.offset.1 ∨ wB.offset.1 + tB.rows ≤ wA.offset.1)
    {c x1 c' : DenseM R} {yA yB : WorkApply R}
    (e1 : apply_bwd tA b beta c wA = some (x1, yA))
    (e2 : apply_bwd tB b beta x1 wB = some (c', yB)) :
    ∃ k1, apply_bwd tB b beta c wB = some (k1, yB) ∧
      apply_bwd tA b beta k1 wA = some (c', yA) := by
  obtain ⟨_, _, m1, m2, _, _, _, m6, _⟩ :=
    apply_bwd_local b beta tA wA c c x1 yA hTA hCA rfl rfl (fun _ _ _ _ => rfl) e1
  obtain ⟨k1, g1, n1, n2, n3, n4, n5, n6, n7⟩ :=
    apply_bwd_local b beta tB wB x1 c c' yB hTB hCB m1 m2
      (fun i j h1 h2 => m6 i j (by omega)) e2
  obtain ⟨k2, g2, _, _, p3, p4, p5, _, p7⟩ :=
    apply_bwd_local b beta tA wA c k1 x1 yA hTA hCA n3.symm n4.symm
      (fun i j h1 h2 => (n7 i j (by omega)).symm) e1
  have heq : k2 = c' := by
    refine DenseM_ext (by omega) (by omega) (fun i j => ?_)
    by_cases hA : wA.offset.1 ≤ i ∧ i < wA.offset.1 + tA.rows
    · rw [p5 i j hA.1 hA.2, n6 i j (by omega)]
    · by_cases hB : wB.offset.1 ≤ i ∧ i < wB.offset.1 + tB.rows
      · rw [p7 i j (by omega), n5 i j hB.1 hB.2]
      · rw [p7 i j (by omega), n7 i j (by omega), n6 i j (by omega), m6 i j (by omega)]
  subst heq
  exact ⟨k1, g1, g2⟩

/-- At an internal node whose context mirrors the tree, the two orders of the child
calls give the same result (the same `c` and work context, or a fault in both). -/
theorem apply_bwd_orders_agree (b : DenseM R) (beta : R) (r c0 : Nat) (U V D : DenseM R)
    (t0 t1 : HBSMatrix R) (w : WorkApply R) (c : DenseM R)
    (hT : TreeRows (node r c0 U V D t0 t1)) (hC : CtxRows (node r c0 U V D t0 t1) w) :
    apply_bwd_c1_first (node r c0 U V D t0 t1) b beta c w =
      apply_bwd (node r c0 U V D t0 t1) b beta c w := by
  obtain ⟨hrows, hT0, hT1⟩ := hT
  obtain ⟨o, l, q, u, w0, w1, rfl, ho0, ho1, hC0, hC1⟩ := hC
  have d01 : ∀ u0 u1 : DenseM R, (w0.setU u0).offset.1 + t0.rows ≤ (w1.setU u1).offset.1 ∨
      (w1.setU u1).offset.1 + t1.rows ≤ (w0.setU u0).offset.1 := by
    intro u0 u1
    rw [setU_offset, setU_offset]
    omega
  have d10 : ∀ u0 u1 : DenseM R, (w1.setU u1).offset.1 + t1.rows ≤ (w0.setU u0).offset.1 ∨
      (w0.setU u0).offset.1 + t0.rows ≤ (w1.setU u1).offset.1 := by
    intro u0 u1
    rw [setU_offset, setU_offset]
    omega
  apply Option.ext
  rintro ⟨c', w'⟩
  simp only [Option.mem_def]
  by_cases hl : l = 0
  · constructor
    · intro h
      simp only [apply_bwd_c1_first, hl, ne_eq, not_true_eq_false, if_false,
        Option.bind_eq_bind, Option.bind_eq_some, Option.pure_def,
        Option.some.injEq, Prod.mk.injEq, Prod.exists] at h
      obtain ⟨qq, hv, uu, hg, uu2, hu2, u0, hw0, u1, hw1, x1, y1, e1, x2, y2, e2,
        rfl, rfl⟩ := h
      obtain ⟨k1, g1, g2⟩ := apply_bwd_commute b beta t1 t0 _ _ hT1 (CtxRows_setU _ _ _ hC1)
        hT0 (CtxRows_setU _ _ _ hC0) (d10 u0 u1) e1 e2
      simp only [apply_bwd, hl, ne_eq, not_true_eq_false, if_false,
        Option.bind_eq_bind, Option.bind_eq_some, Option.pure_def,
        Option.some.injEq, Prod.mk.injEq, Prod.exists]
      exact ⟨qq, hv, uu, hg, uu2, hu2, u0, hw0, u1, hw1, k1, y2, g1, x2, y1, g2, rfl, rfl⟩
    · intro h
      simp only [apply_bwd, hl, ne_eq, not_true_eq_false, if_false,
        Option.bind_eq_bind, Option.bind_eq_some, Option.pure_def,
        Option.some.injEq, Prod.mk.injEq, Prod.exists] at h
      obtain ⟨qq, hv, uu, hg, uu2, hu2, u0, hw0, u1, hw1, x1, y1, e1, x2, y2, e2,
        rfl, rfl⟩ := h
      obtain ⟨k1, g1, g2⟩ := apply_bwd_commute b beta t0 t1 _ _ hT0 (CtxRows_setU _ _ _ hC0)
        hT1 (CtxRows_setU _ _ _ hC1) (d01 u0 u1) e1 e2
      simp only [apply_bwd_c1_first, hl, ne_eq, not_true_eq_false, if_false,
        Option.bind_eq_bind, Option.bind_eq_some, Option.pure_def,
        Option.some.injEq, Prod.mk.injEq, Prod.exists]
      exact ⟨qq, hv, uu, hg, uu2, hu2, u0, hw0, u1, hw1, k1, y2, g1, x2, y1, g2, rfl, rfl⟩
  · constructor
    · intro h
      simp only [apply_bwd_c1_first, hl, ne_eq, not_false_eq_true, if_true,
        Option.bind_eq_bind, Option.bind_eq_some, Option.pure_def,
        Option.some.injEq, Prod.mk.injEq, Prod.exists] at h
      obtain ⟨qq, hv, uu, hg, uu2, hu2, u0, hw0, u1, hw1, x1, y1, e1, x2, y2, e2,
        rfl, rfl⟩ := h
      obtain ⟨k1, g1, g2⟩ := apply_bwd_commute b beta t1 t0 _ _ hT1 (CtxRows_setU _ _ _ hC1)
        hT0 (CtxRows_setU _ _ _ hC0) (d10 u0 u1) e1 e2
      simp only [apply_bwd, hl, ne_eq, not_false_eq_true, if_true,
        Option.bind_eq_bind, Option.bind_eq_some, Option.pure_def,
        Option.some.injEq, Prod.mk.injEq, Prod.exists]
      exact ⟨qq, hv, uu, hg, uu2, hu2, u0, hw0, u1, hw1, k1, y2, g1, x2, y1, g2, rfl, rfl⟩
    · intro h
      simp only [apply_bwd, hl, ne_eq, not_false_eq_true, if_true,
        Option.bind_eq_bind, Option.bind_eq_some, Option.pure_def,
        Option.some.injEq, Prod.mk.injEq, Prod.exists] at h
      obtain ⟨qq, hv, uu, hg, uu2, hu2, u0, hw0, u1, hw1, x1, y1, e1, x2, y2, e2,
        rfl, rfl⟩ := h
      obtain ⟨k1, g1, g2⟩ := apply_bwd_commute b beta t0 t1 _ _ hT0 (CtxRows_setU _ _ _ hC0)
        hT1 (CtxRows_setU _ _ _ hC1) (d01 u0 u1) e1 e2
      simp only [apply_bwd_c1_first, hl, ne_eq, not_false_eq_true, if_true,
        Option.bind_eq_bind, Option.bind_eq_some, Option.pure_def,
        Option.some.injEq, Prod.mk.injEq, Prod.exists]
      exact ⟨qq, hv, uu, hg, uu2, hu2, u0, hw0, u1, hw1, k1, y2, g1, x2, y1, g2, rfl, rfl⟩

/-- C15 (sibling order independence of the backward pass).  At an internal node of a
tree with consistent row sizes, for every operand `b`, every `beta`, every initial `c`
and the work context the forward pass produced (with any `u` the parent stored in it),
issuing the child-1 `apply_bwd` call before the child-0 call gives exactly the same
result as the original order: the same `c`, or a fault in both. -/
theorem apply_bwd_sibling_order (b : DenseM R) (beta : R) (r c0 : Nat) (U V D : DenseM R)
    (t0 t1 : HBSMatrix R) (o : Nat × Nat) (l : Nat) (q0 u0 : DenseM R) (w : WorkApply R)
    (hT : TreeRows (node r c0 U V D t0 t1))
    (hfwd : apply_fwd (node r c0 U V D t0 t1) b (WorkApply.bare o l q0 u0) = some w) :
    ∀ c u : DenseM R,
      apply_bwd_c1_first (node r c0 U V D t0 t1) b beta c (w.setU u) =
        apply_bwd (node r c0 U V D t0 t1) b beta c (w.setU u) :=
  fun c u => apply_bwd_orders_agree b beta r c0 U V D t0 t1 (w.setU u) c hT
    (CtxRows_setU _ _ _ (apply_fwd_ctx b _ o l q0 u0 w hfwd).1)

/-- C15 witness: the two-leaf tree `example2` with `b = [[1], [2]]`; both orders
return a result on `c = [[10], [20]]`. -/
theorem apply_bwd_sibling_order_witness :
    ∃ w, apply_fwd example2 (ofRows 2 1 [[1], [2]]) WorkApply.fresh = some w ∧
      (∀ c u : DenseM ℤ,
        apply_bwd_c1_first example2 (ofRows 2 1 [[1], [2]]) 3 c (w.setU u) =
          apply_bwd example2 (ofRows 2 1 [[1], [2]]) 3 c (w.setU u)) ∧
      (apply_bwd example2 (ofRows 2 1 [[1], [2]]) 3 (ofRows 2 1 [[10], [20]])
        (w.setU DenseM.empty)).isSome = true :=
  ⟨_, rfl, apply_bwd_sibling_order (ofRows 2 1 [[1], [2]]) 3 2 2 DenseM.empty DenseM.empty
    (ofRows 2 2 [[0, 5], [7, 0]])
    (leaf 1 1 (ofRows 1 1 [[2]]) (ofRows 1 1 [[3]]) (ofRows 1 1 [[4]]))
    (leaf 1 1 (ofRows 1 1 [[1]]) (ofRows 1 1 [[-1]]) (ofRows 1 1 [[6]])) (0, 0) 0
    DenseM.empty DenseM.empty _ ⟨rfl, rfl, rfl⟩ rfl, rfl⟩

end HBSMatrix

namespace HSSMatrix

variable {K : Type} [LinearOrderedField K] [StarRing K]

open DenseM

/-- The loop of the sign reader consults `D` and `IPIV` only at indices below `nD`. -/
theorem readLoop_congr (sqrt : K → K) (D D' : DenseM K) (IPIV IPIV' : List Int) (nD : Nat)
    (hD : ∀ i j, i < nD → j < nD → D'.val i j = D.val i j)
    (hP : ∀ k, k < nD → IPIV'[k]? = IPIV[k]?) :
    ∀ (fuel k : Nat) (acc : Inertia),
      readLoop sqrt D' IPIV' nD fuel k acc = readLoop sqrt D IPIV nD fuel k acc := by
  intro fuel
  induction fuel with
  | zero =>
      intro k acc
      simp only [readLoop]
  | succ fuel ih =>
      intro k acc
      by_cases hlt : k < nD - 1
      · simp only [readLoop, if_pos hlt, hP (k + 1) (by omega), hP k (by omega),
          hD k k (by omega) (by omega), hD (k + 1) k (by omega) (by omega),
          hD (k + 1) (k + 1) (by omega) (by omega), ih]
      · simp only [readLoop, if_neg hlt]

theorem readLoop_le (sqrt : K → K) (D : DenseM K) (IPIV : List Int) (nD : Nat) :
    ∀ (fuel k : Nat) (acc : Inertia) (k' : Nat) (acc' : Inertia), k ≤ nD →
      readLoop sqrt D IPIV nD fuel k acc = some (k', acc') → k' ≤ nD := by
  intro fuel
  induction fuel with
  | zero =>
      intro k acc k' acc' hk h
      simp only [readLoop] at h
      split at h
      · exact absurd h (by simp)
      · simp only [Option.some.injEq, Prod.mk.injEq] at h
        omega
  | succ fuel ih =>
      intro k acc k' acc' hk h
      by_cases hlt : k < nD - 1
      · simp only [readLoop, if_pos hlt, Option.bind_eq_bind] at h
        cases e1 : IPIV[k + 1]? with
        | none => simp [e1] at h
        | some p1 =>
            rw [e1, Option.some_bind] at h
            by_cases hp1 : p1 < 0
            · simp only [if_pos hp1] at h
              cases e0 : IPIV[k]? with
              | none => simp [e0] at h
              | some p0 =>
                  simp only [e0, Option.some_bind, Option.pure_def] at h
                  by_cases hp0 : p0 < 0
                  · simp only [hp0, decide_True, if_true] at h
                    exact ih (k + 2) _ k' acc' (by omega) h
                  · simp only [hp0, decide_False, Bool.false_eq_true, if_false] at h
                    exact ih (k + 1) _ k' acc' (by omega) h
            · simp only [if_neg hp1, Option.pure_def, Option.some_bind, Bool.false_eq_true,
                if_false] at h
              exact ih (k + 1) _ k' acc' (by omega) h
      · simp only [readLoop, if_neg hlt, Option.some.injEq, Prod.mk.injEq] at h
        omega

/-- The sign reader consults `D` and `IPIV` only at indices below the order of `D`. -/
theorem readInertia_congr (sqrt : K → K) (D D' : DenseM K) (IPIV IPIV' : List Int)
    (hr : D'.rows = D.rows)
    (hD : ∀ i j, i < D.rows → j < D.rows → D'.val i j = D.val i j)
    (hP : ∀ k, k < D.rows → IPIV'[k]? = IPIV[k]?) :
    readInertiaOffBlockDiag sqrt D' IPIV' = readInertiaOffBlockDiag sqrt D IPIV := by
  by_cases h0 : D.rows = 0
  · simp [readInertiaOffBlockDiag, hr, h0]
  · simp only [readInertiaOffBlockDiag, hr, if_neg h0,
      readLoop_congr sqrt D D' IPIV IPIV' D.rows hD hP]
    cases e : readLoop sqrt D IPIV D.rows D.rows 0 ⟨0, 0, 0⟩ with
    | none => rfl
    | some p =>
        obtain ⟨k', acc'⟩ := p
        have hk := readLoop_le sqrt D IPIV D.rows D.rows 0 ⟨0, 0, 0⟩ k' acc' (by omega) e
        simp only [Option.bind_eq_bind, Option.some_bind]
        by_cases hlt : k' < D.rows
        · simp only [if_pos hlt, hD k' k' hlt hlt]
        · simp only [if_neg hlt]

/-- C21 (the sign reader partitions the block order).  For a block `D` of order `n` and
a pivot vector of length `n` with arbitrary signs, `readInertiaOffBlockDiag` returns (the
loop ends within `n` iterations and no pivot is read past the end), its counts add up
to `n`, and for `n = 0` it returns `(0, 0, 0)`; the result does not depend on any entry
of `D` or `IPIV` with an index `>= n`. -/
theorem readInertia_partitions (sqrt : K → K) (D : DenseM K) (IPIV : List Int)
    (hlen : IPIV.length = D.rows) :
    (∃ r, readInertiaOffBlockDiag sqrt D IPIV = some r ∧ r.np + r.nn + r.nz = D.rows) ∧
    (D.rows = 0 → readInertiaOffBlockDiag sqrt D IPIV = some ⟨0, 0, 0⟩) ∧
    (∀ (D' : DenseM K) (IPIV' : List Int), D'.rows = D.rows →
      (∀ i j, i < D.rows → j < D.rows → D'.val i j = D.val i j) →
      (∀ k, k < D.rows → IPIV'[k]? = IPIV[k]?) →
      readInertiaOffBlockDiag sqrt D' IPIV' = readInertiaOffBlockDiag sqrt D IPIV) := by
  refine ⟨readInertia_total sqrt D IPIV (by omega), fun h0 => ?_,
    fun D' IPIV' hr hD hP => readInertia_congr sqrt D D' IPIV IPIV' hr hD hP⟩
  simp [readInertiaOffBlockDiag, h0]

/-- C21 witness: a block of order 3 over the rationals with pivots `1, -2, -2` (one
1 x 1 pivot followed by a 2 x 2 pivot). -/
theorem readInertia_partitions_witness :
    (∃ r, readInertiaOffBlockDiag (fun x : ℚ => x)
        ⟨3, 3, fun i j => if i = j then 1 else 2⟩ [1, -2, -2] = some r ∧
      r.np + r.nn + r.nz = 3) ∧
    ((3 : Nat) = 0 → readInertiaOffBlockDiag (fun x : ℚ => x)
        ⟨3, 3, fun i j => if i = j then 1 else 2⟩ [1, -2, -2] = some ⟨0, 0, 0⟩) ∧
    (∀ (D' : DenseM ℚ) (IPIV' : List Int), D'.rows = 3 →
      (∀ i j, i < 3 → j < 3 → D'.val i j = if i = j then 1 else 2) →
      (∀ k, k < 3 → IPIV'[k]? = [1, -2, -2][k]?) →
      readInertiaOffBlockDiag (fun x : ℚ => x) D' IPIV' =
        readInertiaOffBlockDiag (fun x : ℚ => x)
          ⟨3, 3, fun i j => if i = j then 1 else 2⟩ [1, -2, -2]) :=
  readInertia_partitions (fun x : ℚ => x) ⟨3, 3, fun i j => if i = j then 1 else 2⟩
    [1, -2, -2] rfl

end HSSMatrix

namespace HSSMatrix

variable {K : Type} [LinearOrderedField K] [StarRing K]

open DenseM

/-- C23 (per-node count and remainder size).  On every well-formed non-root subtree
`inertia_recursive` returns counts whose sum is `rows - U_rank` and leaves in the work
context a remainder `S` of size `U_rank x U_rank`.  At an internal node of a well-formed
tree (root or not) this holds for both children; the assembly of `Dt` then
succeeds, `Dt` is square of order `U_rank(c0) + U_rank(c1)` and every entry of it is the
corresponding entry of `[[S(c0), B01], [B10, S(c1)]]`, whatever the fresh storage
held. -/
theorem inertia_child_counts (L : Lapack K) (mem : Nat → Nat → K) (hPL : PivLen L)
    (isroot : Bool) (n c : Nat) (U V : HSSBasisID K) (B01 B10 : DenseM K)
    (c0 c1 : HSSMatrix K) (w0 w1 : WorkInertia K)
    (hwf : WFI isroot (node n c U V B01 B10 c0 c1)) :
    (∀ (t : HSSMatrix K) (w : WorkInertia K), WFI false t →
      ∃ r w', inertia_recursive L mem t w false = some (r, w') ∧
        r.np + r.nn + r.nz = t.rows - t.U_rank ∧ t.U_rank ≤ t.rows ∧
        w'.S.rows = t.U_rank ∧ w'.S.cols = t.U_rank) ∧
    ∃ in0 w0' in1 w1' Dt,
      inertia_recursive L mem c0 w0 false = some (in0, w0') ∧
      inertia_recursive L mem c1 w1 false = some (in1, w1') ∧
      in0.np + in0.nn + in0.nz = c0.rows - c0.U_rank ∧ c0.U_rank ≤ c0.rows ∧
      in1.np + in1.nn + in1.nz = c1.rows - c1.U_rank ∧ c1.U_rank ≤ c1.rows ∧
      w0'.S.rows = c0.U_rank ∧ w0'.S.cols = c0.U_rank ∧
      w1'.S.rows = c1.U_rank ∧ w1'.S.cols = c1.U_rank ∧
      formDt mem c0.U_rank c1.U_rank w0'.S w1'.S B01 B10 = some Dt ∧
      Dt.rows = c0.U_rank + c1.U_rank ∧ Dt.cols = c0.U_rank + c1.U_rank ∧
      ∀ i j, i < c0.U_rank + c1.U_rank → j < c0.U_rank + c1.U_rank →
        Dt.val i j = (fromBlocks w0'.S B01 B10 w1'.S).val i j := by
  obtain ⟨h1, b01r, b01c, b10r, b10c, _, hw0, hw1⟩ := hwf
  obtain ⟨in0, w0', e0, s0, r0, k0⟩ := inertia_recursive_nonroot L mem hPL c0 w0 hw0
  obtain ⟨in1, w1', e1, s1, r1, k1⟩ := inertia_recursive_nonroot L mem hPL c1 w1 hw1
  obtain ⟨Dt, eD, dr, dc, dv⟩ := formDt_val mem c0.U_rank c1.U_rank w0'.S w1'.S B01 B10
    r0 k0 r1 k1 b01r b01c b10r b10c
  refine ⟨fun t w ht => ?_, ?_⟩
  · obtain ⟨r, w', e, s, a, b⟩ := inertia_recursive_nonroot L mem hPL t w ht
    exact ⟨r, w', e, by omega, by omega, a, b⟩
  exact ⟨in0, w0', in1, w1', Dt, e0, e1, by omega, by omega, by omega, by omega, r0, k0, r1,
    k1, eD, dr, dc, dv⟩

/-- C23 witness: the two-leaf tree `ratTree` with the kernels `diagLapack`. -/
theorem inertia_child_counts_witness :
    (∀ (t : HSSMatrix ℚ) (w : WorkInertia ℚ), WFI false t →
      ∃ r w', inertia_recursive diagLapack (fun _ _ => 0) t w false = some (r, w') ∧
        r.np + r.nn + r.nz = t.rows - t.U_rank ∧ t.U_rank ≤ t.rows ∧
        w'.S.rows = t.U_rank ∧ w'.S.cols = t.U_rank) ∧
    ∃ in0 w0' in1 w1' Dt,
      inertia_recursive diagLapack (fun _ _ => 0) (ratLeaf 2 1)
        (WorkInertia.bare DenseM.empty) false = some (in0, w0') ∧
      inertia_recursive diagLapack (fun _ _ => 0) (ratLeaf (-3) 1)
        (WorkInertia.bare DenseM.empty) false = some (in1, w1') ∧
      in0.np + in0.nn + in0.nz = (ratLeaf 2 1).rows - (ratLeaf 2 1).U_rank ∧
      (ratLeaf 2 1).U_rank ≤ (ratLeaf 2 1).rows ∧
      in1.np + in1.nn + in1.nz = (ratLeaf (-3) 1).rows - (ratLeaf (-3) 1).U_rank ∧
      (ratLeaf (-3) 1).U_rank ≤ (ratLeaf (-3) 1).rows ∧
      w0'.S.rows = (ratLeaf 2 1).U_rank ∧ w0'.S.cols = (ratLeaf 2 1).U_rank ∧
      w1'.S.rows = (ratLeaf (-3) 1).U_rank ∧ w1'.S.cols = (ratLeaf (-3) 1).U_rank ∧
      formDt (fun _ _ => 0) (ratLeaf 2 1).U_rank (ratLeaf (-3) 1).U_rank w0'.S w1'.S
        (zeros 1 1) (zeros 1 1) = some Dt ∧
      Dt.rows = (ratLeaf 2 1).U_rank + (ratLeaf (-3) 1).U_rank ∧
      Dt.cols = (ratLeaf 2 1).U_rank + (ratLeaf (-3) 1).U_rank ∧
      ∀ i j, i < (ratLeaf 2 1).U_rank + (ratLeaf (-3) 1).U_rank →
        j < (ratLeaf 2 1).U_rank + (ratLeaf (-3) 1).U_rank →
        Dt.val i j = (fromBlocks w0'.S (zeros 1 1) (zeros 1 1) w1'.S).val i j :=
  inertia_child_counts diagLapack (fun _ _ => 0) diagLapack_pivlen true 2 2
    ⟨DenseM.empty, [], DenseM.empty⟩ ⟨DenseM.empty, [], DenseM.empty⟩ (zeros 1 1) (zeros 1 1)
    (ratLeaf 2 1) (ratLeaf (-3) 1) (WorkInertia.bare DenseM.empty)
    (WorkInertia.bare DenseM.empty) ratTree_wf

end HSSMatrix

namespace HSSMatrix

variable {R : Type} [CommRing R] [StarRing R]

open DenseM


theorem expandLeaf_shape {U : HSSBasisID R} {Uop lt blk : DenseM R}
    (h : expandLeaf U Uop lt = some blk) : blk.rows = lt.rows ∧ blk.cols = lt.cols := by
  unfold expandLeaf at h
  split at h
  · exact HBSMatrix.gemm_shape h
  · simp only [Option.some.injEq] at h
    subst h
    exact ⟨rfl, rfl⟩

/-- Whenever `apply_UV_big` returns, `Theta` and `Phi` keep their sizes and every row
outside the node's windows is unchanged. -/
theorem apply_UV_big_frame (mem : Nat → Nat → R) :
    ∀ (t : HSSMatrix R) (Theta Uop Phi Vop : DenseM R) (o1 o2 : Nat) (T' P' : DenseM R),
    Sizes t → apply_UV_big mem t Theta Uop Phi Vop (o1, o2) = some (T', P') →
    T'.rows = Theta.rows ∧ T'.cols = Theta.cols ∧ P'.rows = Phi.rows ∧ P'.cols = Phi.cols ∧
      (∀ i j, (i < o1 ∨ o1 + t.rows ≤ i) → T'.val i j = Theta.val i j) ∧
      (∀ i j, (i < o2 ∨ o2 + t.cols ≤ i) → P'.val i j = Phi.val i j)
  | leaf r c U V D, Theta, Uop, Phi, Vop, o1, o2, T', P', hs, h => by
      obtain ⟨h1, h2⟩ := hs
      simp only [apply_UV_big, Option.bind_eq_bind, Option.bind_eq_some, Option.pure_def,
        Option.some.injEq, Prod.mk.injEq] at h
      obtain ⟨lt, e1, lp, e2, bt, e3, bp, e4, rfl, rfl⟩ := h
      have s1 := HBSMatrix.wrapper_shape e1
      have s2 := HBSMatrix.wrapper_shape e2
      have s3 := expandLeaf_shape e3
      have s4 := expandLeaf_shape e4
      refine ⟨rfl, rfl, rfl, rfl, fun i j hi => ?_, fun i j hi => ?_⟩
      · change i < o1 ∨ o1 + r ≤ i at hi
        rw [store_val, if_neg (by omega)]
      · change i < o2 ∨ o2 + c ≤ i at hi
        rw [store_val, if_neg (by omega)]
  | node r c U V B01 B10 c0 c1, Theta, Uop, Phi, Vop, o1, o2, T', P', hs, h => by
      obtain ⟨h1, h2, hs0, hs1⟩ := hs
      simp only [apply_UV_big, dims, Option.bind_eq_bind, Option.bind_eq_some,
        Prod.exists] at h
      obtain ⟨U0, U1, _, V0, V1, _, T1, P1, e1, e2⟩ := h
      obtain ⟨a1, a2, a3, a4, a5, a6⟩ :=
        apply_UV_big_frame mem c0 Theta U0 Phi V0 o1 o2 T1 P1 hs0 e1
      obtain ⟨b1, b2, b3, b4, b5, b6⟩ :=
        apply_UV_big_frame mem c1 T1 U1 P1 V1 (o1 + c0.rows) (o2 + c0.cols) T' P' hs1 e2
      refine ⟨by omega, by omega, by omega, by omega, fun i j hi => ?_, fun i j hi => ?_⟩
      · change i < o1 ∨ o1 + r ≤ i at hi
        rw [b5 i j (by omega), a5 i j (by omega)]
      · change i < o2 ∨ o2 + c ≤ i at hi
        rw [b6 i j (by omega), a6 i j (by omega)]

/-- C24 (`apply_UV_big` writes only its own window).  On a subtree with consistent
sizes, for every offset and all inputs: the call returns when the tree is well formed,
the operands have `U_rank` resp. `V_rank` rows, the buffers are as wide as their
operands and the windows fit; and whenever it returns, every row of `Theta` outside
`[offset.first, offset.first + rows)` and every row of `Phi` outside `[offset.second,
offset.second + cols)` is unchanged.  At an internal node the result is that of the
child-0 call at the node's offset followed by the child-1 call at the offset advanced
by the size of child 0; each call changes only its own window, and the two windows are
disjoint and lie inside the node's window. -/
theorem apply_UV_big_own_window (mem : Nat → Nat → R) (t : HSSMatrix R)
    (Theta Uop Phi Vop : DenseM R) (o1 o2 : Nat) (hs : Sizes t) :
    (WFB t → Uop.rows = t.U_rank → Vop.rows = t.V_rank →
      (Uop.cols ≠ 0 → Theta.cols = Uop.cols) → (Vop.cols ≠ 0 → Phi.cols = Vop.cols) →
      o1 + t.rows ≤ Theta.rows → o2 + t.cols ≤ Phi.rows →
      ∃ T' P', apply_UV_big mem t Theta Uop Phi Vop (o1, o2) = some (T', P')) ∧
    ∀ T' P', apply_UV_big mem t Theta Uop Phi Vop (o1, o2) = some (T', P') →
      (∀ i j, (i < o1 ∨ o1 + t.rows ≤ i) → T'.val i j = Theta.val i j) ∧
      (∀ i j, (i < o2 ∨ o2 + t.cols ≤ i) → P'.val i j = Phi.val i j) ∧
      (∀ (r c : Nat) (U V : HSSBasisID R) (B01 B10 : DenseM R) (c0 c1 : HSSMatrix R),
        t = node r c U V B01 B10 c0 c1 →
        ∃ U0 U1 V0 V1 T1 P1,
          apply_UV_big mem c0 Theta U0 Phi V0 (o1, o2) = some (T1, P1) ∧
          apply_UV_big mem c1 T1 U1 P1 V1 (o1 + c0.rows, o2 + c0.cols) = some (T', P') ∧
          (∀ i j, (i < o1 ∨ o1 + c0.rows ≤ i) → T1.val i j = Theta.val i j) ∧
          (∀ i j, (i < o2 ∨ o2 + c0.cols ≤ i) → P1.val i j = Phi.val i j) ∧
          (∀ i j, (i < o1 + c0.rows ∨ o1 + c0.rows + c1.rows ≤ i) →
            T'.val i j = T1.val i j) ∧
          (∀ i j, (i < o2 + c0.cols ∨ o2 + c0.cols + c1.cols ≤ i) →
            P'.val i j = P1.val i j) ∧
          (∀ i, ¬ ((o1 ≤ i ∧ i < o1 + c0.rows) ∧
            (o1 + c0.rows ≤ i ∧ i < o1 + c0.rows + c1.rows))) ∧
          (∀ i, ¬ ((o2 ≤ i ∧ i < o2 + c0.cols) ∧
            (o2 + c0.cols ≤ i ∧ i < o2 + c0.cols + c1.cols))) ∧
          o1 + c0.rows + c1.rows = o1 + r ∧ o2 + c0.cols + c1.cols = o2 + c) := by
  refine ⟨fun hwf hU hV hT hP hTr hPr => ?_, fun T' P' h => ?_⟩
  · obtain ⟨T', P', e, _⟩ :=
      apply_UV_big_gen mem t Theta Uop Phi Vop o1 o2 hwf hU hV hT hP hTr hPr
    exact ⟨T', P', e⟩
  obtain ⟨_, _, _, _, f1, f2⟩ := apply_UV_big_frame mem t Theta Uop Phi Vop o1 o2 T' P' hs h
  refine ⟨f1, f2, ?_⟩
  rintro r c U V B01 B10 c0 c1 rfl
  obtain ⟨h1, h2, hs0, hs1⟩ := hs
  simp only [apply_UV_big, dims, Option.bind_eq_bind, Option.bind_eq_some,
    Prod.exists] at h
  obtain ⟨U0, U1, _, V0, V1, _, T1, P1, e1, e2⟩ := h
  obtain ⟨_, _, _, _, a5, a6⟩ :=
    apply_UV_big_frame mem c0 Theta U0 Phi V0 o1 o2 T1 P1 hs0 e1
  obtain ⟨_, _, _, _, b5, b6⟩ :=
    apply_UV_big_frame mem c1 T1 U1 P1 V1 (o1 + c0.rows) (o2 + c0.cols) T' P' hs1 e2
  exact ⟨U0, U1, V0, V1, T1, P1, e1, e2, a5, a6, b5, b6, fun i hi => by omega,
    fun i hi => by omega, by omega, by omega⟩

/-- C24 witness: the two-leaf node `exampleN` expanded into 3-row and 2-row buffers at
offset `(1, 0)`; the call returns and rows 0 of `Theta` is untouched. -/
theorem apply_UV_big_own_window_witness :
    ∃ T' P', apply_UV_big (fun _ _ => 9) exampleN (ofRows 3 1 [[5], [6], [7]])
        (ofRows 1 1 [[2]]) (ofRows 2 1 [[8], [9]]) (ofRows 1 1 [[3]]) (1, 0) =
        some (T', P') ∧
      (∀ i j, (i < 1 ∨ 1 + exampleN.rows ≤ i) →
        T'.val i j = (ofRows 3 1 [[5], [6], [7]] : DenseM ℤ).val i j) ∧
      (∀ i j, (i < 0 ∨ 0 + exampleN.cols ≤ i) →
        P'.val i j = (ofRows 2 1 [[8], [9]] : DenseM ℤ).val i j) :=
  ⟨_, _, rfl,
    (((apply_UV_big_own_window (fun _ _ => 9) exampleN (ofRows 3 1 [[5], [6], [7]])
      (ofRows 1 1 [[2]]) (ofRows 2 1 [[8], [9]]) (ofRows 1 1 [[3]]) 1 0
      ⟨rfl, rfl, ⟨rfl, rfl⟩, ⟨rfl, rfl⟩⟩).2 _ _ rfl).1),
    (((apply_UV_big_own_window (fun _ _ => 9) exampleN (ofRows 3 1 [[5], [6], [7]])
      (ofRows 1 1 [[2]]) (ofRows 2 1 [[8], [9]]) (ofRows 1 1 [[3]]) 1 0
      ⟨rfl, rfl, ⟨rfl, rfl⟩, ⟨rfl, rfl⟩⟩).2 _ _ rfl).2.1)⟩

end HSSMatrix

namespace HBSMatrix

variable {R : Type} [CommRing R] [StarRing R]

open DenseM


theorem Tiles_append : ∀ (l1 l2 : List (Nat × Nat)) (a m b : Nat),
    Tiles l1 a m → Tiles l2 m b → Tiles (l1 ++ l2) a b
  | [], l2, a, m, b, h1, h2 => by
      change a = m at h1
      subst h1
      exact h2
  | p :: l, l2, a, m, b, h1, h2 =>
      ⟨h1.1, Tiles_append l l2 (a + p.2) m b h1.2 h2⟩

theorem Tiles_le : ∀ (l : List (Nat × Nat)) (a b : Nat), Tiles l a b → a ≤ b
  | [], a, b, h => le_of_eq h
  | p :: l, a, b, h => by
      have := Tiles_le l (a + p.2) b h.2
      omega

/-- Windows that follow one another from `a` to `b` cover exactly `[a, b)`. -/
theorem Tiles_cover : ∀ (l : List (Nat × Nat)) (a b : Nat), Tiles l a b →
    ∀ i, (a ≤ i ∧ i < b) ↔ ∃ p ∈ l, InWindow p i
  | [], a, b, h, i => by
      change a = b at h
      constructor
      · intro hi
        omega
      · rintro ⟨p, hp, _⟩
        exact absurd hp (List.not_mem_nil p)
  | p :: l, a, b, h, i => by
      obtain ⟨h1, h2⟩ := h
      have ih := Tiles_cover l (a + p.2) b h2 i
      have hle := Tiles_le l (a + p.2) b h2
      constructor
      · intro hi
        by_cases hlt : i < a + p.2
        · exact ⟨p, List.mem_cons_self p l, by unfold InWindow; omega⟩
        · obtain ⟨q, hq, hw⟩ := ih.mp ⟨by omega, hi.2⟩
          exact ⟨q, List.mem_cons_of_mem p hq, hw⟩
      · rintro ⟨q, hq, hw⟩
        rcases List.mem_cons.mp hq with rfl | hq'
        · unfold InWindow at hw
          omega
        · have := ih.mpr ⟨q, hq', hw⟩
          omega

/-- Windows that follow one another are pairwise disjoint. -/
theorem Tiles_disjoint : ∀ (l : List (Nat × Nat)) (a b : Nat), Tiles l a b →
    l.Pairwise (fun p q => ∀ i, ¬ (InWindow p i ∧ InWindow q i))
  | [], _, _, _ => List.Pairwise.nil
  | p :: l, a, b, h => by
      obtain ⟨h1, h2⟩ := h
      refine List.Pairwise.cons (fun q hq i hi => ?_) (Tiles_disjoint l (a + p.2) b h2)
      have := (Tiles_cover l (a + p.2) b h2 i).mpr ⟨q, hq, hi.2⟩
      have hp := hi.1
      unfold InWindow at hp
      omega

/-- The forward pass at an internal node on a context without children: the result
has the children's results at the offsets `split` assigned. -/
theorem apply_fwd_node_inv (b : DenseM R) (r c : Nat) (U V D : DenseM R)
    (c0 c1 : HBSMatrix R) (o : Nat × Nat) (l : Nat) (q u : DenseM R) (w' : WorkApply R)
    (h : apply_fwd (node r c U V D c0 c1) b (WorkApply.bare o l q u) = some w') :
    ∃ q' w0' w1', w' = WorkApply.forked o l q' u w0' w1' ∧
      apply_fwd c0 b (WorkApply.bare o (l + 1) DenseM.empty DenseM.empty) = some w0' ∧
      apply_fwd c1 b (WorkApply.bare (o.1 + c0.rows, o.2 + c0.cols) (l + 1)
        DenseM.empty DenseM.empty) = some w1' := by
  by_cases hl : l = 0
  · simp only [apply_fwd, WorkApply.split, hl, ne_eq, not_true_eq_false, if_false,
      Option.bind_eq_bind, Option.bind_eq_some, Option.pure_def,
      Option.some.injEq] at h
    obtain ⟨w0', e0, w1', e1, rfl⟩ := h
    exact ⟨q, w0', w1', by rw [hl], by rw [hl]; exact e0, by rw [hl]; exact e1⟩
  · simp only [apply_fwd, WorkApply.split, hl, ne_eq, not_false_eq_true, if_true,
      Option.bind_eq_bind, Option.bind_eq_some, Option.pure_def,
      Option.some.injEq] at h
    obtain ⟨w0', e0, w1', e1, qq, _, q', _, rfl⟩ := h
    exact ⟨q', w0', w1', rfl, e0, e1⟩

/-- After the forward pass from a context without children at offset `o`, the leaves'
row windows run from `o.first` to `o.first + rows` and the column windows from
`o.second` to `o.second + cols`. -/
theorem apply_fwd_tiles (b : DenseM R) : ∀ (t : HBSMatrix R) (o : Nat × Nat) (l : Nat)
    (q u : DenseM R) (w : WorkApply R), Additive t →
    apply_fwd t b (WorkApply.bare o l q u) = some w →
    Tiles (rowWindows t w) o.1 (o.1 + t.rows) ∧ Tiles (colWindows t w) o.2 (o.2 + t.cols)
  | leaf r c U V D, o, l, q, u, w, _, h => by
      simp only [apply_fwd, Option.bind_eq_bind, Option.bind_eq_some, Option.pure_def,
        Option.some.injEq] at h
      obtain ⟨_, _, q', _, rfl⟩ := h
      exact ⟨⟨rfl, rfl⟩, ⟨rfl, rfl⟩⟩
  | node r c U V D c0 c1, o, l, q, u, w, ha, h => by
      obtain ⟨h1, h2, a0, a1⟩ := ha
      obtain ⟨q', w0', w1', rfl, e0, e1⟩ := apply_fwd_node_inv b r c U V D c0 c1 o l q u w h
      obtain ⟨r0, k0⟩ := apply_fwd_tiles b c0 o (l + 1) _ _ w0' a0 e0
      obtain ⟨r1, k1⟩ := apply_fwd_tiles b c1 (o.1 + c0.rows, o.2 + c0.cols) (l + 1) _ _ w1'
        a1 e1
      constructor
      · show Tiles (List.map _ (leafWindows c0 w0' ++ leafWindows c1 w1')) o.1 (o.1 + r)
        rw [List.map_append, h1, ← Nat.add_assoc]
        exact Tiles_append _ _ _ _ _ r0 r1
      · show Tiles (List.map _ (leafWindows c0 w0' ++ leafWindows c1 w1')) o.2 (o.2 + c)
        rw [List.map_append, h2, ← Nat.add_assoc]
        exact Tiles_append _ _ _ _ _ k0 k1

/-- C25 (work-context offsets tile the index range).  `split(dim)` on a context without
children gives child 0 the offset of the context, child 1 that offset advanced by
`dim`, and both the level `lvl + 1`; on a context with children it changes nothing.
Consequently, on a tree whose sizes add up at every internal node, after `apply_fwd`
from a zero-offset context without children the leaves' row windows are pairwise
disjoint and cover exactly `[0, rows(root))`, and the column windows are pairwise
disjoint and cover exactly `[0, cols(root))`. -/
theorem split_offsets_tile (b : DenseM R) (t : HBSMatrix R) (l : Nat) (q u : DenseM R)
    (w : WorkApply R) (ha : Additive t)
    (h : apply_fwd t b (WorkApply.bare (0, 0) l q u) = some w) :
    (∀ (o dim : Nat × Nat) (l' : Nat) (q' u' : DenseM R),
      ∃ w0 w1, (WorkApply.bare o l' q' u').split dim = WorkApply.forked o l' q' u' w0 w1 ∧
        w0.offset = o ∧ w1.offset = (o.1 + dim.1, o.2 + dim.2) ∧
        w0.lvl = l' + 1 ∧ w1.lvl = l' + 1) ∧
    (∀ (o dim : Nat × Nat) (l' : Nat) (q' u' : DenseM R) (w0 w1 : WorkApply R),
      (WorkApply.forked o l' q' u' w0 w1).split dim = WorkApply.forked o l' q' u' w0 w1) ∧
    (∀ i, i < t.rows ↔ ∃ p ∈ rowWindows t w, InWindow p i) ∧
    (rowWindows t w).Pairwise (fun p p' => ∀ i, ¬ (InWindow p i ∧ InWindow p' i)) ∧
    (∀ i, i < t.cols ↔ ∃ p ∈ colWindows t w, InWindow p i) ∧
    (colWindows t w).Pairwise (fun p p' => ∀ i, ¬ (InWindow p i ∧ InWindow p' i)) := by
  obtain ⟨hr, hc⟩ := apply_fwd_tiles b t (0, 0) l q u w ha h
  refine ⟨fun o dim l' q' u' => ⟨_, _, rfl, rfl, rfl, rfl, rfl⟩,
    fun o dim l' q' u' w0 w1 => rfl, fun i => ?_, Tiles_disjoint _ _ _ hr, fun i => ?_,
    Tiles_disjoint _ _ _ hc⟩
  · rw [← Tiles_cover _ _ _ hr i]
    show i < t.rows ↔ 0 ≤ i ∧ i < 0 + t.rows
    omega
  · rw [← Tiles_cover _ _ _ hc i]
    show i < t.cols ↔ 0 ≤ i ∧ i < 0 + t.cols
    omega

/-- C25 witness: the 2 x 3 tree `exNonSquare`, whose leaves get the windows
`((0, 0), (1, 2))` and `((1, 2), (1, 1))`. -/
theorem split_offsets_tile_witness :
    ∃ w, apply_fwd exNonSquare (ofRows 3 1 [[10], [20], [30]]) WorkApply.fresh = some w ∧
      leafWindows exNonSquare w = [((0, 0), (1, 2)), ((1, 2), (1, 1))] ∧
      (∀ i, i < exNonSquare.rows ↔ ∃ p ∈ rowWindows exNonSquare w, InWindow p i) ∧
      (∀ i, i < exNonSquare.cols ↔ ∃ p ∈ colWindows exNonSquare w, InWindow p i) :=
  ⟨_, rfl, rfl,
    (split_offsets_tile (ofRows 3 1 [[10], [20], [30]]) exNonSquare 0 DenseM.empty
      DenseM.empty _ ⟨rfl, rfl, trivial, trivial⟩ rfl).2.2.1,
    (split_offsets_tile (ofRows 3 1 [[10], [20], [30]]) exNonSquare 0 DenseM.empty
      DenseM.empty _ ⟨rfl, rfl, trivial, trivial⟩ rfl).2.2.2.2.1⟩

end HBSMatrix

namespace HSSMatrix

open DenseM


variable {R : Type} [CommRing R] [StarRing R]

open DenseM

/-- The six products of `Schur_product_indirect` (lines 172-198) are dimension
compatible when the operands have the sizes stated. -/
theorem indirect_gemms_ok (mem : Nat → Nat → R) (f : HSSFactors R)
    (B01 B10 DUB01 A0 B0 A1 B1 : DenseM R) (cc : Nat)
    (hVr : f.Vhat.rows = DUB01.rows) (hVc : f.Vhat.cols = B10.cols)
    (hDc : DUB01.cols = B01.cols)
    (a0r : A0.rows = B01.rows) (b0r : B0.rows = B10.cols)
    (a1r : A1.rows = B10.rows) (b1r : B1.rows = B01.cols)
    (a0c : A0.cols = cc) (b0c : B0.cols = cc) (a1c : A1.cols = cc) (b1c : B1.cols = cc) :
    ∃ G1 G2 G3 G4 G5 G6,
      gemm Trans.C Trans.N 1 f.Vhat DUB01 0 (uninit mem f.Vhat.cols DUB01.cols) = some G1 ∧
      gemm Trans.N Trans.N 1 B10 G1 0 (uninit mem B10.rows G1.cols) = some G2 ∧
      gemm Trans.N Trans.N (-1) B10 B0 0 (uninit mem B10.rows cc) = some G3 ∧
      gemm Trans.C Trans.N (-1) B01 A0 0 (uninit mem B01.cols cc) = some G4 ∧
      gemm Trans.N Trans.N 1 G2 B1 1 G3 = some G5 ∧
      gemm Trans.C Trans.N 1 G2 A1 1 G4 = some G6 ∧
      G5.rows = B10.rows ∧ G5.cols = cc ∧ G6.rows = B01.cols ∧ G6.cols = cc := by
  have g1 := @gemm_eq_some R _ _ Trans.C Trans.N 1 0 f.Vhat DUB01
    (uninit mem f.Vhat.cols DUB01.cols) hVr rfl rfl
  have g2 := @gemm_eq_some R _ _ Trans.N Trans.N 1 0 B10
    (add (smul 1 (mul (op Trans.C f.Vhat) (op Trans.N DUB01)))
      (smul 0 (uninit mem f.Vhat.cols DUB01.cols)))
    (uninit mem B10.rows DUB01.cols) hVc.symm rfl rfl
  have g3 := @gemm_eq_some R _ _ Trans.N Trans.N (-1) 0 B10 B0 (uninit mem B10.rows cc)
    b0r.symm rfl b0c.symm
  have g4 := @gemm_eq_some R _ _ Trans.C Trans.N (-1) 0 B01 A0 (uninit mem B01.cols cc)
    a0r.symm rfl a0c.symm
  have g5 := @gemm_eq_some R _ _ Trans.N Trans.N 1 1
    (add (smul 1 (mul (op Trans.N B10)
      (op Trans.N (add (smul 1 (mul (op Trans.C f.Vhat) (op Trans.N DUB01)))
        (smul 0 (uninit mem f.Vhat.cols DUB01.cols))))))
      (smul 0 (uninit mem B10.rows DUB01.cols)))
    B1
    (add (smul (-1) (mul (op Trans.N B10) (op Trans.N B0))) (smul 0 (uninit mem B10.rows cc)))
    (hDc.trans b1r.symm) rfl (b0c.trans b1c.symm)
  have g6 := @gemm_eq_some R _ _ Trans.C Trans.N 1 1
    (add (smul 1 (mul (op Trans.N B10)
      (op Trans.N (add (smul 1 (mul (op Trans.C f.Vhat) (op Trans.N DUB01)))
        (smul 0 (uninit mem f.Vhat.cols DUB01.cols))))))
      (smul 0 (uninit mem B10.rows DUB01.cols)))
    A1
    (add (smul (-1) (mul (op Trans.C B01) (op Trans.N A0))) (smul 0 (uninit mem B01.cols cc)))
    a1r.symm hDc.symm (a0c.trans a1c.symm)
  exact ⟨_, _, _, _, _, _, g1, g2, g3, g4, g5, g6, rfl, b1c, hDc, a1c⟩

/-- `Schur_product_indirect` returns when the coupling blocks fit the children's ranks
(`B01` is `U_rank(c0) x V_rank(c1)`, `B10` is `U_rank(c1) x V_rank(c0)`). -/
theorem Schur_indirect_ok (mem : Nat → Nat → R) (r c : Nat) (U V : HSSBasisID R)
    (B01 B10 : DenseM R) (c0 c1 : HSSMatrix R) (f : HSSFactors R)
    (DUB01 R0 R1 Sr1 Sc1 Sr Sc : DenseM R)
    (hwf0 : WFB c0) (hsq0 : Square c0) (hwf1 : WFB c1) (hsq1 : Square c1)
    (h01r : B01.rows = c0.U_rank) (h01c : B01.cols = c1.V_rank)
    (h10r : B10.rows = c1.U_rank) (h10c : B10.cols = c0.V_rank)
    (hVr : f.Vhat.rows = DUB01.rows) (hVc : f.Vhat.cols = c0.V_rank)
    (hDc : DUB01.cols = B01.cols)
    (hR0 : c0.rows ≤ R0.rows) (hR1 : c1.rows ≤ R1.rows) (hRc : R0.cols = R1.cols)
    (hSr : Sr1.rows = R1.rows) (hSrc : Sr1.cols = R1.cols)
    (hSc : Sc1.rows = R1.rows) (hScc : Sc1.cols = R1.cols) :
    ∃ U0tR0 V0tR0 X Y Sr' Sc',
      apply_UtVt_big c0 R0 (0, 0) = some (U0tR0, V0tR0) ∧
      gemm Trans.N Trans.N (-1) B10 V0tR0 0 (uninit mem B10.rows R1.cols) = some X ∧
      gemm Trans.C Trans.N (-1) B01 U0tR0 0 (uninit mem B01.cols R1.cols) = some Y ∧
      Schur_product_indirect mem (node r c U V B01 B10 c0 c1) f DUB01 R0 R1 Sr1 Sc1 Sr Sc =
        some (Sr', Sc') := by
  obtain ⟨A0, B0, e0, hA0, hB0⟩ := apply_UtVt_big_spec c0 R0 0 0 hwf0 hsq0
    (le_of_eq_of_le (Nat.zero_add _) hR0)
  obtain ⟨A1, B1, e1, hA1, hB1⟩ := apply_UtVt_big_spec c1 R1 0 0 hwf1 hsq1
    (le_of_eq_of_le (Nat.zero_add _) hR1)
  have a0r : A0.rows = B01.rows := (hA0.1.trans (hss_Ubig_cols c0)).trans h01r.symm
  have b0r : B0.rows = B10.cols := (hB0.1.trans (hss_Vbig_cols c0)).trans h10c.symm
  have a1r : A1.rows = B10.rows := (hA1.1.trans (hss_Ubig_cols c1)).trans h10r.symm
  have b1r : B1.rows = B01.cols := (hB1.1.trans (hss_Vbig_cols c1)).trans h01c.symm
  obtain ⟨G1, G2, G3, G4, G5, G6, g1, g2, g3, g4, g5, g6, r5, c5, r6, c6⟩ :=
    indirect_gemms_ok mem f B01 B10 DUB01 A0 B0 A1 B1 R1.cols hVr (hVc.trans h10c.symm) hDc
      a0r b0r a1r b1r (hA0.2.1.trans hRc) (hB0.2.1.trans hRc) hA1.2.1 hB1.2.1
  obtain ⟨T, P, e2, Tr, Tc, Pr, Pc, _⟩ :=
    apply_UV_big_spec mem c1 (uninit mem R1.rows R1.cols) G5 (uninit mem R1.rows R1.cols) G6
      0 0 hwf1 (r5.trans h10r) (r6.trans h01c) c5.symm c6.symm
      (le_of_eq_of_le (Nat.zero_add _) hR1)
      (le_of_eq_of_le (Nat.zero_add _) ((Square_eq c1 hsq1) ▸ hR1))
  have ad1 : T.addInPlace Sr1 = some (T.add Sr1) := by
    simp only [addInPlace]
    rw [if_pos ⟨Tr.trans hSr.symm, Tc.trans hSrc.symm⟩]
  have ad2 : P.addInPlace Sc1 = some (P.add Sc1) := by
    simp only [addInPlace]
    rw [if_pos ⟨Pr.trans hSc.symm, Pc.trans hScc.symm⟩]
  refine ⟨A0, B0, G3, G4, T.add Sr1, P.add Sc1, e0, g3, g4, ?_⟩
  simp only [Schur_product_indirect]
  rw [if_pos ⟨hRc, hSrc.trans hScc.symm⟩]
  simp only [e0, e1, g1, g2, g3, g4, g5, g6, e2, ad1, ad2, Option.bind_eq_bind,
    Option.some_bind, Option.pure_def]

/-- C26, amended (coupling-block dimensions that suffice for the Schur kernels).  At an
internal node whose children are well formed and square, with `B01` of size
`U_rank(child0) x V_rank(child1)` and `B10` of size `U_rank(child1) x V_rank(child0)`
(the ranks may differ), `Vhat` of size `U(child0).rows x V_rank(child0)` and operands
`R0`, `R1`, `Sr1`, `Sc1` of fitting sizes: `child0.U.apply(B01)` and `Schur_update`
return, and with the `DUB01` they produce `B10 * V0tR0`, `B01^C * U0tR0` and
`Schur_product_indirect` (including the expansion through child 1) return: no
dimension fault occurs. -/
theorem Schur_kernels_dims_suffice
    (solve : DenseM R → List Int → DenseM R → Nat → Nat → R)
    (mem : Nat → Nat → R) (r c : Nat) (U V : HSSBasisID R) (B01 B10 : DenseM R)
    (c0 c1 : HSSMatrix R) (f : HSSFactors R)
    (Theta0 DUB0 Phi0 R0 R1 Sr1 Sc1 Sr Sc : DenseM R)
    (hwf0 : WFB c0) (hsq0 : Square c0) (hwf1 : WFB c1) (hsq1 : Square c1)
    (h01r : B01.rows = c0.U_rank) (h01c : B01.cols = c1.V_rank)
    (h10r : B10.rows = c1.U_rank) (h10c : B10.cols = c0.V_rank)
    (hVr : f.Vhat.rows = c0.U_.rows) (hVc : f.Vhat.cols = c0.V_rank)
    (hR0 : c0.rows ≤ R0.rows) (hR1 : c1.rows ≤ R1.rows) (hRc : R0.cols = R1.cols)
    (hSr : Sr1.rows = R1.rows) (hSrc : Sr1.cols = R1.cols)
    (hSc : Sc1.rows = R1.rows) (hScc : Sc1.cols = R1.cols) :
    ∃ UB Theta DUB01 Phi U0tR0 V0tR0 X Y Sr' Sc',
      c0.U_.apply B01 = some UB ∧
      Schur_update solve mem (node r c U V B01 B10 c0 c1) f Theta0 DUB0 Phi0 =
        some (Theta, DUB01, Phi) ∧
      apply_UtVt_big c0 R0 (0, 0) = some (U0tR0, V0tR0) ∧
      gemm Trans.N Trans.N (-1) B10 V0tR0 0 (uninit mem B10.rows R1.cols) = some X ∧
      gemm Trans.C Trans.N (-1) B01 U0tR0 0 (uninit mem B01.cols R1.cols) = some Y ∧
      Schur_product_indirect mem (node r c U V B01 B10 c0 c1) f DUB01 R0 R1 Sr1 Sc1 Sr Sc =
        some (Sr', Sc') := by
  obtain ⟨T, P, eU, _, _⟩ := Schur_update_spec solve mem r c U V B01 B10 c0 c1 f Theta0
    DUB0 Phi0 hwf1 h01r h01c h10r
  obtain ⟨A0, B0, X, Y, Sr', Sc', e0, gX, gY, eI⟩ :=
    Schur_indirect_ok mem r c U V B01 B10 c0 c1 f
      ⟨c0.U_.rows, B01.cols, solve f.D f.piv (mul c0.U_.mat B01)⟩ R0 R1 Sr1 Sc1 Sr Sc
      hwf0 hsq0 hwf1 hsq1 h01r h01c h10r h10c hVr hVc rfl hR0 hR1 hRc hSr hSrc hSc hScc
  exact ⟨_, T, _, P, A0, B0, X, Y, Sr', Sc',
    @gemmR_eq_some R _ _ Trans.N Trans.N 1 c0.U_.mat B01 h01r.symm, eU, e0, gX, gY, eI⟩

/-- C26 witness: the node `exampleUV`, whose child 0 has `U_rank = 1` and
`V_rank = 2`. -/
theorem Schur_kernels_dims_suffice_witness :
    ∃ UB Theta DUB01 Phi U0tR0 V0tR0 X Y Sr' Sc',
      exLeafUV.U_.apply (ofRows 1 1 [[3]]) = some UB ∧
      Schur_update solveId (fun _ _ => 0) (node 3 3 (basisOf 0 0 []) (basisOf 0 0 [])
        (ofRows 1 1 [[3]]) (ofRows 1 2 [[4, 5]]) exLeafUV exLeaf1) exampleG DenseM.empty
        DenseM.empty DenseM.empty = some (Theta, DUB01, Phi) ∧
      apply_UtVt_big exLeafUV (ofRows 2 1 [[1], [2]]) (0, 0) = some (U0tR0, V0tR0) ∧
      gemm Trans.N Trans.N (-1) (ofRows 1 2 [[4, 5]]) V0tR0 0
        (uninit (fun _ _ => 0) (ofRows 1 2 [[4, 5]] : DenseM ℤ).rows
          (ofRows 1 1 [[1]] : DenseM ℤ).cols) = some X ∧
      gemm Trans.C Trans.N (-1) (ofRows 1 1 [[3]]) U0tR0 0
        (uninit (fun _ _ => 0) (ofRows 1 1 [[3]] : DenseM ℤ).cols
          (ofRows 1 1 [[1]] : DenseM ℤ).cols) = some Y ∧
      Schur_product_indirect (fun _ _ => 0) (node 3 3 (basisOf 0 0 []) (basisOf 0 0 [])
        (ofRows 1 1 [[3]]) (ofRows 1 2 [[4, 5]]) exLeafUV exLeaf1) exampleG DUB01
        (ofRows 2 1 [[1], [2]]) (ofRows 1 1 [[1]]) (ofRows 1 1 [[0]]) (ofRows 1 1 [[0]])
        DenseM.empty DenseM.empty = some (Sr', Sc') :=
  Schur_kernels_dims_suffice solveId (fun _ _ => 0) 3 3 (basisOf 0 0 []) (basisOf 0 0 [])
    (ofRows 1 1 [[3]]) (ofRows 1 2 [[4, 5]]) exLeafUV exLeaf1 exampleG DenseM.empty
    DenseM.empty DenseM.empty (ofRows 2 1 [[1], [2]]) (ofRows 1 1 [[1]]) (ofRows 1 1 [[0]])
    (ofRows 1 1 [[0]]) DenseM.empty DenseM.empty ⟨rfl, rfl⟩ rfl ⟨rfl, rfl⟩ rfl
    rfl rfl rfl rfl rfl rfl (by decide) (by decide) rfl rfl rfl rfl rfl

/-- C26 as stated fails: on `exampleUVdoc` the coupling blocks have the sizes the
stated invariants ask (`B01` is `V_rank(c0) x U_rank(c1) = 2 x 1`, `B10` is
`V_rank(c1) x U_rank(c0) = 1 x 1`) with `U_rank(c0) = 1`, `V_rank(c0) = 2`, and
`child0.U.apply(B01)`, `Schur_update` and `Schur_product_indirect` all fault. -/
theorem Schur_kernels_doc_dims_fault :
    WFB exLeafUV ∧ Square exLeafUV ∧ WFB exLeaf1 ∧ Square exLeaf1 ∧
    (ofRows 2 1 [[3], [3]] : DenseM ℤ).rows = exLeafUV.V_rank ∧
    (ofRows 2 1 [[3], [3]] : DenseM ℤ).cols = exLeaf1.U_rank ∧
    (ofRows 1 1 [[4]] : DenseM ℤ).rows = exLeaf1.V_rank ∧
    (ofRows 1 1 [[4]] : DenseM ℤ).cols = exLeafUV.U_rank ∧
    exLeafUV.U_.apply (ofRows 2 1 [[3], [3]]) = none ∧
    Schur_update solveId (fun _ _ => 0) exampleUVdoc exampleG DenseM.empty DenseM.empty
      DenseM.empty = none ∧
    (∃ U0tR0 V0tR0, apply_UtVt_big exLeafUV (ofRows 2 1 [[1], [2]]) (0, 0) =
        some (U0tR0, V0tR0) ∧
      gemm Trans.N Trans.N (-1) (ofRows 1 1 [[4]]) V0tR0 0
        (uninit (fun _ _ => 0) 1 1) = none ∧
      gemm Trans.C Trans.N (-1) (ofRows 2 1 [[3], [3]]) U0tR0 0
        (uninit (fun _ _ => 0) 1 1) = none) ∧
    Schur_product_indirect (fun _ _ => 0) exampleUVdoc exampleG (ofRows 2 1 [[1], [1]])
      (ofRows 2 1 [[1], [2]]) (ofRows 1 1 [[1]]) (ofRows 1 1 [[0]]) (ofRows 1 1 [[0]])
      DenseM.empty DenseM.empty = none :=
  ⟨⟨rfl, rfl⟩, rfl, ⟨rfl, rfl⟩, rfl, rfl, rfl, rfl, rfl, rfl, rfl, ⟨_, _, rfl, rfl, rfl⟩, rfl⟩

end HSSMatrix

namespace HSSMatrix

variable {K : Type} [LinearOrderedField K] [StarRing K]

open DenseM


theorem laswpLoop_val : ∀ (P : List Int) (i : Nat) (M M' : DenseM K),
    laswpLoop P i M = some M' →
    M'.rows = M.rows ∧ M'.cols = M.cols ∧ ∀ a b, M'.val a b = M.val (pivPerm P i a) b
  | [], _, M, M', h => by
      simp only [laswpLoop, Option.some.injEq] at h
      subst h
      exact ⟨rfl, rfl, fun _ _ => rfl⟩
  | p :: ps, i, M, M', h => by
      simp only [laswpLoop] at h
      split at h
      · obtain ⟨hr, hc, hv⟩ := laswpLoop_val ps (i + 1) _ M' h
        refine ⟨hr, hc, fun a b => ?_⟩
        rw [hv a b]
        simp only [swapRows, pivPerm, swapIdx]
        split_ifs <;> rfl
      · exact absurd h (by simp)

theorem pivPerm_lt : ∀ (P : List Int) (i n : Nat), (∀ p ∈ P, 1 ≤ p ∧ p ≤ (n : Int)) →
    i + P.length ≤ n → ∀ a, a < n → pivPerm P i a < n
  | [], _, _, _, _, a, ha => ha
  | p :: ps, i, n, h, hl, a, ha => by
      have hp := h p (List.mem_cons_self p ps)
      have ih := pivPerm_lt ps (i + 1) n (fun q hq => h q (List.mem_cons_of_mem p hq))
        (by simp only [List.length_cons] at hl; omega) a ha
      simp only [List.length_cons] at hl
      simp only [pivPerm, swapIdx]
      split_ifs <;> omega

/-- The permutation step: `C(a, b) = Dt(s a, s b)` for the index map `s` of the
interchanges. -/
theorem permuteDt_val (U : HSSBasisID K) (Dt : DenseM K) (hsq : Dt.cols = Dt.rows)
    (hP : ValidPiv U.P Dt.rows) (hstar : ∀ x : K, star x = x) :
    ∃ C, permuteDt U Dt = some C ∧ C.rows = Dt.rows ∧ C.cols = Dt.rows ∧
      ∀ a b, C.val a b =
        Dt.val (pivPerm (U.P.take Dt.rows) 0 a) (pivPerm (U.P.take Dt.rows) 0 b) := by
  obtain ⟨M1, e1, r1, c1⟩ := laswp_ok Dt U.P hP
  have hT : M1.transpose.rows = Dt.rows := c1.trans hsq
  obtain ⟨M2, e2, r2, c2⟩ := laswp_ok M1.transpose U.P (by rw [hT]; exact hP)
  have v1 : ∀ a b, M1.val a b = Dt.val (pivPerm (U.P.take Dt.rows) 0 a) b := by
    have h := e1
    simp only [laswp, if_pos hP.1] at h
    exact (laswpLoop_val _ 0 Dt M1 h).2.2
  have v2 : ∀ a b, M2.val a b = M1.transpose.val (pivPerm (U.P.take Dt.rows) 0 a) b := by
    have h := e2
    simp only [laswp, hT, if_pos hP.1] at h
    exact (laswpLoop_val _ 0 M1.transpose M2 h).2.2
  refine ⟨M2.transpose, ?_, ?_, ?_, fun a b => ?_⟩
  · simp only [permuteDt, e1, e2, Option.bind_eq_bind, Option.some_bind, Option.pure_def]
  · show M2.cols = Dt.rows
    rw [c2]
    exact r1
  · show M2.rows = Dt.rows
    rw [r2]
    exact hT
  · show star (M2.val b a) = _
    rw [v2 b a]
    show star (star (M1.val a (pivPerm (U.P.take Dt.rows) 0 b))) = _
    rw [hstar, hstar, v1]

theorem dot_pick_right (n s : Nat) (f : Nat → K) (hs : s < n) :
    dot n (fun k => f k * (if k = s then 1 else 0)) = f s := by
  rw [dot_eq_sum, Finset.sum_eq_single s]
  · simp
  · intro k _ hk
    simp [hk]
  · intro h
    exact absurd (Finset.mem_range.mpr hs) h

theorem dot_pick_left (n s : Nat) (f : Nat → K) (hs : s < n) :
    dot n (fun k => (if k = s then 1 else 0) * f k) = f s := by
  rw [dot_eq_sum, Finset.sum_eq_single s]
  · simp
  · intro k _ hk
    simp [hk]
  · intro h
    exact absurd (Finset.mem_range.mpr hs) h

/-- The permutation step in matrix form: `C = P^T * Dt * P`. -/
theorem permuteDt_matrix (U : HSSBasisID K) (Dt : DenseM K) (hsq : Dt.cols = Dt.rows)
    (hP : ValidPiv U.P Dt.rows) (hstar : ∀ x : K, star x = x) :
    ∃ C, permuteDt U Dt = some C ∧ C.rows = Dt.rows ∧ C.cols = Dt.rows ∧
      (∀ a b, C.val a b =
        Dt.val (pivPerm (U.P.take Dt.rows) 0 a) (pivPerm (U.P.take Dt.rows) 0 b)) ∧
      (∀ a, a < Dt.rows → pivPerm (U.P.take Dt.rows) 0 a < Dt.rows) ∧
      Same C (mul (mul (ctrans (permMat Dt.rows (pivPerm (U.P.take Dt.rows) 0))) Dt)
        (permMat Dt.rows (pivPerm (U.P.take Dt.rows) 0))) := by
  obtain ⟨C, e, hr, hc, hv⟩ := permuteDt_val U Dt hsq hP hstar
  have hlt : ∀ a, a < Dt.rows → pivPerm (U.P.take Dt.rows) 0 a < Dt.rows := by
    intro a ha
    refine pivPerm_lt _ 0 Dt.rows hP.2 ?_ a ha
    rw [List.length_take]
    omega
  refine ⟨C, e, hr, hc, hv, hlt, hr, hc, fun a b ha hb => ?_⟩
  rw [hr] at ha
  rw [hc] at hb
  rw [hv a b]
  simp only [mul_val, mul_cols, ctrans_cols, ctrans_val, permMat, hsq]
  rw [dot_pick_right _ _ _ (hlt b hb)]
  simp only [hstar]
  rw [dot_pick_left _ _ _ (hlt a ha)]

theorem dot_sub_affine (n : Nat) (e x y : Nat → K) :
    dot n (fun k => e k * (1 * x k + -1 * y k)) =
      dot n (fun k => e k * x k) - dot n (fun k => e k * y k) := by
  rw [dot_eq_sum, dot_eq_sum, dot_eq_sum, ← Finset.sum_sub_distrib]
  exact Finset.sum_congr rfl (fun k _ => by ring)

/-- The blocks the update sequence of lines 157-169 leaves, in terms of the blocks
`C11`, `C12`, `C21`, `C22` of the permuted matrix. -/
theorem schurBlocks_formulas (U : HSSBasisID K) (C : DenseM K) (hr : C.rows = U.rows)
    (hc : C.cols = U.rows) (hU : U.cols ≤ U.rows) (hEr : U.E.rows = U.rows - U.cols)
    (hEc : U.E.cols = U.cols) :
    ∃ D11 D12, schurBlocks U C =
        some (D11, D12, D12.transpose, subBlock C 0 0 U.cols U.cols) ∧
      D11.rows = U.rows - U.cols ∧ D11.cols = U.rows - U.cols ∧
      D12.rows = U.rows - U.cols ∧ D12.cols = U.cols ∧
      (∀ i j, D11.val i j =
        (mul (mul U.E (subBlock C 0 0 U.cols U.cols)) (ctrans U.E)).val i j -
          (mul U.E (subBlock C 0 U.cols U.cols (U.rows - U.cols))).val i j -
          (mul (subBlock C U.cols 0 (U.rows - U.cols) U.cols) (ctrans U.E)).val i j +
          (subBlock C U.cols U.cols (U.rows - U.cols) (U.rows - U.cols)).val i j) ∧
      (∀ i j, D12.val i j =
        -(mul U.E (subBlock C 0 0 U.cols U.cols)).val i j +
          (subBlock C U.cols 0 (U.rows - U.cols) U.cols).val i j) := by
  have w1 : wrapper U.cols (U.rows - U.cols) C 0 U.cols =
      some (subBlock C 0 U.cols U.cols (U.rows - U.cols)) :=
    wrapper_eq_some (by omega) (by omega)
  have w2 : wrapper (U.rows - U.cols) U.cols C U.cols 0 =
      some (subBlock C U.cols 0 (U.rows - U.cols) U.cols) :=
    wrapper_eq_some (by omega) (by omega)
  have w3 : wrapper U.cols U.cols C 0 0 = some (subBlock C 0 0 U.cols U.cols) :=
    wrapper_eq_some (by omega) (by omega)
  have w4 : wrapper (U.rows - U.cols) (U.rows - U.cols) C U.cols U.cols =
      some (subBlock C U.cols U.cols (U.rows - U.cols) (U.rows - U.cols)) :=
    wrapper_eq_some (by omega) (by omega)
  have g1 := @gemm_eq_some K _ _ Trans.N Trans.C 1 (-1) (subBlock C 0 0 U.cols U.cols) U.E
    (subBlock C 0 U.cols U.cols (U.rows - U.cols)) hEc.symm rfl hEr.symm
  have g2 := @gemm_eq_some K _ _ Trans.N Trans.N 1 1 U.E
    (add (smul 1 (mul (op Trans.N (subBlock C 0 0 U.cols U.cols)) (op Trans.C U.E)))
      (smul (-1) (subBlock C 0 U.cols U.cols (U.rows - U.cols))))
    (subBlock C U.cols U.cols (U.rows - U.cols) (U.rows - U.cols)) hEc hEr.symm hEr.symm
  obtain ⟨X3, g3, r3, c3, v3⟩ := gemm_ok Trans.N Trans.C (-1) 1
    (subBlock C U.cols 0 (U.rows - U.cols) U.cols) U.E
    (add (smul 1 (mul (op Trans.N U.E)
      (op Trans.N (add (smul 1 (mul (op Trans.N (subBlock C 0 0 U.cols U.cols))
        (op Trans.C U.E))) (smul (-1) (subBlock C 0 U.cols U.cols (U.rows - U.cols)))))))
      (smul 1 (subBlock C U.cols U.cols (U.rows - U.cols) (U.rows - U.cols))))
    hEc.symm hEr rfl
  obtain ⟨X4, g4, r4, c4, v4⟩ := gemm_ok Trans.N Trans.N (-1) 1 U.E
    (subBlock C 0 0 U.cols U.cols) (subBlock C U.cols 0 (U.rows - U.cols) U.cols)
    hEc hEr.symm rfl
  refine ⟨X3, X4, ?_, r3, c3.trans hEr, r4.trans hEr, c4, ?_, ?_⟩
  · simp only [schurBlocks, w1, w2, w3, w4, g1, g2, g3, g4, Option.bind_eq_bind,
      Option.some_bind, Option.pure_def]
  · intro i j
    rw [v3 i j, mul_assoc']
    simp only [add_val, smul_val, op_N, op_C]
    have h : (mul U.E (add (smul 1 (mul (subBlock C 0 0 U.cols U.cols) (ctrans U.E)))
        (smul (-1) (subBlock C 0 U.cols U.cols (U.rows - U.cols))))).val i j =
        (mul U.E (mul (subBlock C 0 0 U.cols U.cols) (ctrans U.E))).val i j -
          (mul U.E (subBlock C 0 U.cols U.cols (U.rows - U.cols))).val i j := by
      simp only [mul_val, add_val, smul_val]
      exact dot_sub_affine _ _ _ _
    rw [h]
    ring
  · intro i j
    rw [v4 i j]
    simp only [op_N]
    ring

/-- A row of `Omega = [[-E, I], [I, 0]]` against a vector `f`. -/
theorem omega_row (E : DenseM K) (i : Nat) (f : Nat → K) :
    dot (E.cols + E.rows) (fun l => (omegaMat E).val i l * f l) =
      if i < E.rows then -dot E.cols (fun l => E.val i l * f l) + f (E.cols + i)
      else if i - E.rows < E.cols then f (i - E.rows) else 0 := by
  rw [dot_split]
  by_cases hi : i < E.rows
  · rw [if_pos hi]
    have h1 : dot E.cols (fun l => (omegaMat E).val i l * f l) =
        -dot E.cols (fun l => E.val i l * f l) := by
      rw [dot_eq_sum, dot_eq_sum, ← Finset.sum_neg_distrib]
      refine Finset.sum_congr rfl (fun l hl => ?_)
      have hl' : l < E.cols := Finset.mem_range.mp hl
      simp only [omegaMat, fromBlocks, smul_rows, smul_cols, smul_val, hi, hl', if_true]
      ring
    have h2 : dot E.rows (fun k => (omegaMat E).val i (E.cols + k) * f (E.cols + k)) =
        f (E.cols + i) := by
      have : ∀ k, k < E.rows → (omegaMat E).val i (E.cols + k) * f (E.cols + k) =
          (if k = i then 1 else 0) * f (E.cols + k) := by
        intro k _
        simp only [omegaMat, fromBlocks, smul_rows, smul_cols, hi, if_true,
          Nat.not_lt.mpr (Nat.le_add_right E.cols k), if_false, eye,
          Nat.add_sub_cancel_left]
        by_cases hk : i = k
        · simp [hk]
        · simp [hk, Ne.symm hk]
      rw [dot_congr this]
      exact dot_pick_left E.rows i (fun k => f (E.cols + k)) hi
    rw [h1, h2]
  · rw [if_neg hi]
    have h2 : dot E.rows (fun k => (omegaMat E).val i (E.cols + k) * f (E.cols + k)) = 0 := by
      refine dot_eq_zero (fun k _ => ?_)
      simp only [omegaMat, fromBlocks, smul_rows, smul_cols, hi, if_false,
        Nat.not_lt.mpr (Nat.le_add_right E.cols k), zeros, zero_mul]
    rw [h2, add_zero]
    by_cases hlt : i - E.rows < E.cols
    · rw [if_pos hlt]
      have : ∀ l, l < E.cols → (omegaMat E).val i l * f l =
          (if l = i - E.rows then 1 else 0) * f l := by
        intro l hl
        simp only [omegaMat, fromBlocks, smul_rows, smul_cols, hi, if_false, hl, if_true,
          eye]
        by_cases hk : i - E.rows = l
        · simp [hk]
        · simp [hk, Ne.symm hk]
      rw [dot_congr this]
      exact dot_pick_left E.cols (i - E.rows) f hlt
    · rw [if_neg hlt]
      refine dot_eq_zero (fun l hl => ?_)
      have hne : ¬ (i - E.rows = l) := by omega
      simp only [omegaMat, fromBlocks, smul_rows, smul_cols, hi, if_false, hl, if_true,
        eye, hne, zero_mul]

theorem omega_rows (E : DenseM K) : (omegaMat E).rows = E.rows + E.cols := rfl

theorem omega_cols (E : DenseM K) : (omegaMat E).cols = E.cols + E.rows := rfl

/-- Entries of `Omega * C`. -/
theorem omega_mul_val (E C : DenseM K) (i k : Nat) :
    (mul (omegaMat E) C).val i k =
      if i < E.rows then -dot E.cols (fun l => E.val i l * C.val l k) + C.val (E.cols + i) k
      else if i - E.rows < E.cols then C.val (i - E.rows) k else 0 := by
  rw [mul_val, omega_cols]
  exact omega_row E i (fun l => C.val l k)

/-- Entries of `W * Omega^T` for a real scalar type. -/
theorem mul_omegaT_val (E W : DenseM K) (hstar : ∀ x : K, star x = x)
    (hW : W.cols = E.cols + E.rows) (i j : Nat) :
    (mul W (ctrans (omegaMat E))).val i j =
      if j < E.rows then -dot E.cols (fun l => E.val j l * W.val i l) + W.val i (E.cols + j)
      else if j - E.rows < E.cols then W.val i (j - E.rows) else 0 := by
  rw [mul_val, hW, ← omega_row E j (fun l => W.val i l)]
  refine dot_congr (fun l _ => ?_)
  rw [ctrans_val, hstar, mul_comm]

theorem dot_neg_add (n : Nat) (e a b : Nat → K) :
    dot n (fun l => e l * (-a l + b l)) =
      -dot n (fun l => a l * e l) + dot n (fun l => b l * e l) := by
  rw [dot_eq_sum, dot_eq_sum, dot_eq_sum, ← Finset.sum_neg_distrib, ← Finset.sum_add_distrib]
  exact Finset.sum_congr rfl (fun k _ => by ring)

/-- The blocks with the stated formulas are the blocks of `Omega * C * Omega^T` when `C`
is symmetric (real scalar type). -/
theorem omega_product (E C D11 D12 : DenseM K) (hstar : ∀ x : K, star x = x)
    (hCc : C.cols = E.cols + E.rows)
    (hsym : ∀ i j, i < E.cols + E.rows → j < E.cols + E.rows → C.val i j = C.val j i)
    (r11 : D11.rows = E.rows) (c11 : D11.cols = E.rows)
    (v11 : ∀ i j, D11.val i j =
      (mul (mul E (subBlock C 0 0 E.cols E.cols)) (ctrans E)).val i j -
        (mul E (subBlock C 0 E.cols E.cols E.rows)).val i j -
        (mul (subBlock C E.cols 0 E.rows E.cols) (ctrans E)).val i j +
        (subBlock C E.cols E.cols E.rows E.rows).val i j)
    (v12 : ∀ i j, D12.val i j =
      -(mul E (subBlock C 0 0 E.cols E.cols)).val i j +
        (subBlock C E.cols 0 E.rows E.cols).val i j) :
    Same (fromBlocks D11 D12 (ctrans D12) (subBlock C 0 0 E.cols E.cols))
      (mul (mul (omegaMat E) C) (ctrans (omegaMat E))) := by
  refine ⟨?_, ?_, fun i j hi hj => ?_⟩
  · show D11.rows + E.cols = E.rows + E.cols
    rw [r11]
  · show D11.cols + E.cols = E.rows + E.cols
    rw [c11]
  · have hi' : i < E.rows + E.cols := by
      have : i < D11.rows + E.cols := hi
      omega
    have hj' : j < E.rows + E.cols := by
      have : j < D11.cols + E.cols := hj
      omega
    rw [mul_omegaT_val E (mul (omegaMat E) C) hstar hCc]
    simp only [omega_mul_val]
    show (if i < D11.rows then (if j < D11.cols then D11.val i j
        else D12.val i (j - D11.cols))
      else (if j < D11.cols then (ctrans D12).val (i - D11.rows) j
        else (subBlock C 0 0 E.cols E.cols).val (i - D11.rows) (j - D11.cols))) = _
    rw [r11, c11]
    by_cases h1 : i < E.rows
    · by_cases h2 : j < E.rows
      · simp only [h1, h2, if_true]
        rw [v11 i j, dot_neg_add]
        simp only [mul_val, mul_cols, subBlock, ctrans_val, hstar, Nat.zero_add]
        ring
      · have h3 : j - E.rows < E.cols := by omega
        simp only [h1, h2, h3, if_true, if_false]
        rw [v12 i (j - E.rows)]
        simp only [mul_val, subBlock, Nat.zero_add]
    · have h1' : i - E.rows < E.cols := by omega
      by_cases h2 : j < E.rows
      · simp only [h1, h1', h2, if_true, if_false]
        rw [ctrans_val, hstar, v12 j (i - E.rows)]
        simp only [mul_val, subBlock, Nat.zero_add]
        rw [hsym (E.cols + j) (i - E.rows) (by omega) (by omega)]
        congr 2
        refine dot_congr (fun l hl => ?_)
        rw [hsym l (i - E.rows) (by omega) (by omega)]
      · have h3 : j - E.rows < E.cols := by omega
        simp only [h1, h1', h2, h3, if_true, if_false]
        simp only [subBlock, Nat.zero_add]

/-- The last part of the non-root step: with `D11` nonsingular and `sytrs_rook` returning
the solution of `D11 * X = D12`, the block stored for the parent is
`D22 - D21 * D11^{-1} * D12`. -/
theorem nonRootStep_remainder (L : Lapack K) (U : HSSBasisID K) (Dt : DenseM K)
    (acc : Inertia) (w : WorkInertia K) (C D11 D12 D22 Dinv : DenseM K) (n m : Nat)
    (ep : permuteDt U Dt = some C)
    (eb : schurBlocks U C = some (D11, D12, D12.transpose, D22))
    (r11 : D11.rows = n) (r12 : D12.rows = n) (c12 : D12.cols = m)
    (r22 : D22.rows = m) (c22 : D22.cols = m)
    (hlen : D11.rows ≤ (L.sytrf_rook D11).2.length)
    (hDc : Dinv.cols = n) (hinv : Same (mul Dinv D11) (eye n))
    (hsolve : Same (mul D11 ⟨D12.rows, D12.cols,
      L.sytrs_rook ⟨D11.rows, D11.cols, (L.sytrf_rook D11).1⟩ (L.sytrf_rook D11).2 D12⟩)
      D12) :
    ∃ r S, nonRootStep L U Dt acc w = some (addCounts acc r, w.setS S) ∧
      r.np + r.nn + r.nz = n ∧
      Same S (sub D22 (mul D12.transpose (mul Dinv D12))) := by
  subst r12
  obtain ⟨r, er, hsum⟩ := readInertia_total L.sqrt
    ⟨D11.rows, D11.cols, (L.sytrf_rook D11).1⟩ (L.sytrf_rook D11).2 hlen
  obtain ⟨S, eS, sr, sc, sv⟩ := gemm_ok Trans.N Trans.N (-1) 1 D12.transpose
    (⟨D12.rows, D12.cols, L.sytrs_rook ⟨D11.rows, D11.cols, (L.sytrf_rook D11).1⟩
      (L.sytrf_rook D11).2 D12⟩ : DenseM K) D22
    rfl (r22.trans c12.symm) (c22.trans c12.symm)
  have hX : Same (⟨D12.rows, D12.cols,
      L.sytrs_rook ⟨D11.rows, D11.cols, (L.sytrf_rook D11).1⟩ (L.sytrf_rook D11).2 D12⟩ :
        DenseM K) (mul Dinv D12) := by
    have h1 := (eye_mul_same (⟨D12.rows, D12.cols,
      L.sytrs_rook ⟨D11.rows, D11.cols, (L.sytrf_rook D11).1⟩ (L.sytrf_rook D11).2 D12⟩ :
        DenseM K)).symm
    have h2 := (@mul_congr_left K _ _ _ _ (⟨D12.rows, D12.cols,
      L.sytrs_rook ⟨D11.rows, D11.cols, (L.sytrf_rook D11).1⟩ (L.sytrf_rook D11).2 D12⟩ :
        DenseM K) hinv).symm
    have h3 := @mul_congr_right K _ _ Dinv _ _ hsolve (by
      show Dinv.cols ≤ D11.rows
      omega)
    rw [mul_assoc'] at h2
    exact h1.trans (h2.trans h3)
  have hM := @mul_congr_right K _ _ D12.transpose _ _ hX (by
    show D12.rows ≤ D12.rows
    omega)
  refine ⟨r, S, ?_, hsum.trans r11, ⟨?_, ?_, fun i j hi hj => ?_⟩⟩
  · simp only [nonRootStep, ep, eb, er, eS, Option.bind_eq_bind, Option.some_bind,
      Option.pure_def]
  · rw [sr]
    show D12.cols = D22.rows
    omega
  · rw [sc]
    show D12.cols = D22.cols
    omega
  · rw [sv i j]
    have hi' : i < D12.cols := by
      rw [sr] at hi
      exact hi
    have hj' : j < D12.cols := by
      rw [sc] at hj
      exact hj
    have := hM.2.2 i j hi' hj'
    simp only [op_N, sub_val]
    rw [this]
    ring

/-- C22 (non-root Schur remainder).  For a real scalar type, at a non-root node with
well-formed basis data and a symmetric assembled block `Dt` of order `U.rows`: the
permutation step returns `C = P^T * Dt * P` (`P` the permutation matrix of the stored
row interchanges); the update sequence returns `D11 = E*C11*E^T - E*C12 - C21*E^T +
C22`, `D12 = -E*C11 + C21`, `D21 = D12^T` and `D22 = C11`, which are the blocks of
`Omega * C * Omega^T` with `Omega = [[-E, I], [I, 0]]`; and when `D11` is nonsingular
(inverse `Dinv`) and `sytrs_rook` returns the solution of `D11 * X = D12`, the step
returns and stores `S = D22 - D21 * D11^{-1} * D12` in the work context. -/
theorem nonRoot_schur_remainder (L : Lapack K) (U : HSSBasisID K) (Dt : DenseM K)
    (acc : Inertia) (w : WorkInertia K) (hstar : ∀ x : K, star x = x) (hPL : PivLen L)
    (hr : Dt.rows = U.rows) (hc : Dt.cols = U.rows) (hB : BasisOK U)
    (hsym : ∀ i j, i < U.rows → j < U.rows → Dt.val i j = Dt.val j i) :
    ∃ C D11 D12 D21 D22,
      permuteDt U Dt = some C ∧
      Same C (mul (mul (ctrans (permMat Dt.rows (pivPerm (U.P.take Dt.rows) 0))) Dt)
        (permMat Dt.rows (pivPerm (U.P.take Dt.rows) 0))) ∧
      schurBlocks U C = some (D11, D12, D21, D22) ∧
      Same D11 (add (sub (sub (mul (mul U.E (subBlock C 0 0 U.cols U.cols)) (ctrans U.E))
          (mul U.E (subBlock C 0 U.cols U.cols (U.rows - U.cols))))
          (mul (subBlock C U.cols 0 (U.rows - U.cols) U.cols) (ctrans U.E)))
        (subBlock C U.cols U.cols (U.rows - U.cols) (U.rows - U.cols))) ∧
      Same D12 (add (smul (-1) (mul U.E (subBlock C 0 0 U.cols U.cols)))
        (subBlock C U.cols 0 (U.rows - U.cols) U.cols)) ∧
      D21 = ctrans D12 ∧ D22 = subBlock C 0 0 U.cols U.cols ∧
      Same (fromBlocks D11 D12 D21 D22)
        (mul (mul (omegaMat U.E) C) (ctrans (omegaMat U.E))) ∧
      ∀ Dinv : DenseM K, Dinv.cols = U.rows - U.cols →
        Same (mul Dinv D11) (eye (U.rows - U.cols)) →
        Same (mul D11 ⟨D12.rows, D12.cols,
          L.sytrs_rook ⟨D11.rows, D11.cols, (L.sytrf_rook D11).1⟩ (L.sytrf_rook D11).2
            D12⟩) D12 →
        ∃ r S, nonRootStep L U Dt acc w = some (addCounts acc r, w.setS S) ∧
          r.np + r.nn + r.nz = U.rows - U.cols ∧
          Same S (sub D22 (mul D21 (mul Dinv D12))) := by
  obtain ⟨hU, hEr, hEc, hP⟩ := hB
  obtain ⟨C, ep, cr, cc, cv, clt, cm⟩ := permuteDt_matrix U Dt (hc.trans hr.symm)
    (by rw [hr]; exact hP) hstar
  obtain ⟨D11, D12, eb, r11, c11, r12, c12, v11, v12⟩ :=
    schurBlocks_formulas U C (cr.trans hr) (cc.trans hr) hU hEr hEc
  have hCsym : ∀ i j, i < U.E.cols + U.E.rows → j < U.E.cols + U.E.rows →
      C.val i j = C.val j i := by
    intro i j hi hj
    rw [cv i j, cv j i]
    exact hsym _ _ (by rw [← hr]; exact clt i (by omega)) (by rw [← hr]; exact clt j (by omega))
  have hom := omega_product U.E C D11 D12 hstar (by omega) hCsym (r11.trans hEr.symm)
    (c11.trans hEr.symm) (by rw [hEr, hEc]; exact v11) (by rw [hEr, hEc]; exact v12)
  rw [hEc] at hom
  refine ⟨C, D11, D12, D12.transpose, subBlock C 0 0 U.cols U.cols, ep, cm, eb,
    ⟨r11.trans hEr.symm, c11.trans hEr.symm, fun i j _ _ => ?_⟩,
    ⟨r12.trans hEr.symm, c12, fun i j _ _ => ?_⟩, rfl, rfl, hom, fun Dinv hDc hinv hsolve => ?_⟩
  · rw [v11 i j]
    rfl
  · rw [v12 i j]
    simp only [add_val, smul_val]
    ring
  · exact nonRootStep_remainder L U Dt acc w C D11 D12 (subBlock C 0 0 U.cols U.cols) Dinv
      (U.rows - U.cols) U.cols ep eb r11 r12 c12 rfl rfl (hPL D11) hDc hinv hsolve

theorem lapack1_pivlen : PivLen lapack1 := by
  intro D
  simp [lapack1]

/-- C22 witness: the basis data `exBasis` and the symmetric block `exDt`.  Here
`C = [[5, 2], [2, 1]]`, `D11 = [[34]]`, `D12 = [[-13]]`, `D22 = [[5]]`, and with the
kernels `lapack1` the stored remainder is `S = [[5 - 169/34]] = [[1/34]]`. -/
theorem nonRoot_schur_remainder_witness :
    (∃ C D11 D12 D21 D22,
      permuteDt exBasis exDt = some C ∧
      Same C (mul (mul (ctrans (permMat exDt.rows (pivPerm (exBasis.P.take exDt.rows) 0)))
        exDt) (permMat exDt.rows (pivPerm (exBasis.P.take exDt.rows) 0))) ∧
      schurBlocks exBasis C = some (D11, D12, D21, D22) ∧
      Same D11 (add (sub (sub (mul (mul exBasis.E (subBlock C 0 0 exBasis.cols exBasis.cols))
          (ctrans exBasis.E))
          (mul exBasis.E (subBlock C 0 exBasis.cols exBasis.cols
            (exBasis.rows - exBasis.cols))))
          (mul (subBlock C exBasis.cols 0 (exBasis.rows - exBasis.cols) exBasis.cols)
            (ctrans exBasis.E)))
        (subBlock C exBasis.cols exBasis.cols (exBasis.rows - exBasis.cols)
          (exBasis.rows - exBasis.cols))) ∧
      Same D12 (add (smul (-1) (mul exBasis.E (subBlock C 0 0 exBasis.cols exBasis.cols)))
        (subBlock C exBasis.cols 0 (exBasis.rows - exBasis.cols) exBasis.cols)) ∧
      D21 = ctrans D12 ∧ D22 = subBlock C 0 0 exBasis.cols exBasis.cols ∧
      Same (fromBlocks D11 D12 D21 D22)
        (mul (mul (omegaMat exBasis.E) C) (ctrans (omegaMat exBasis.E))) ∧
      ∀ Dinv : DenseM ℚ, Dinv.cols = exBasis.rows - exBasis.cols →
        Same (mul Dinv D11) (eye (exBasis.rows - exBasis.cols)) →
        Same (mul D11 ⟨D12.rows, D12.cols,
          lapack1.sytrs_rook ⟨D11.rows, D11.cols, (lapack1.sytrf_rook D11).1⟩
            (lapack1.sytrf_rook D11).2 D12⟩) D12 →
        ∃ r S, nonRootStep lapack1 exBasis exDt ⟨0, 0, 0⟩ (WorkInertia.bare DenseM.empty) =
            some (addCounts ⟨0, 0, 0⟩ r, (WorkInertia.bare DenseM.empty).setS S) ∧
          r.np + r.nn + r.nz = exBasis.rows - exBasis.cols ∧
          Same S (sub D22 (mul D21 (mul Dinv D12)))) ∧
    (nonRootStep lapack1 exBasis exDt ⟨0, 0, 0⟩ (WorkInertia.bare DenseM.empty)).map
      (fun p => (p.1, p.2.S.val 0 0)) = some (⟨1, 0, 0⟩, 1 / 34) :=
  ⟨nonRoot_schur_remainder lapack1 exBasis exDt ⟨0, 0, 0⟩ (WorkInertia.bare DenseM.empty)
    (fun _ => rfl) lapack1_pivlen rfl rfl
    ⟨by decide, rfl, rfl, by decide, fun p hp => by
      have hp' : p ∈ [(2 : Int), 2] := hp
      simp only [List.mem_cons, List.mem_singleton, List.not_mem_nil, or_false, or_self]
        at hp'
      subst hp'
      decide⟩
    (fun i j hi hj => by
      have hi' : i < 2 := hi
      have hj' : j < 2 := hj
      interval_cases i <;> interval_cases j <;> rfl),
    by decide!⟩

end HSSMatrix

namespace HBSMatrix

variable {R : Type} [CommRing R] [StarRing R]

open DenseM

theorem adjoint_rows (t : HBSMatrix R) : (adjoint t).rows = t.cols := by
  cases t <;> rfl

theorem adjoint_cols (t : HBSMatrix R) : (adjoint t).cols = t.rows := by
  cases t <;> rfl

theorem adjoint_U (t : HBSMatrix R) : (adjoint t).U_ = t.V_ := by
  cases t <;> rfl

theorem adjoint_V (t : HBSMatrix R) : (adjoint t).V_ = t.U_ := by
  cases t <;> rfl

theorem adjoint_isNode (t : HBSMatrix R) : (adjoint t).isNode = t.isNode := by
  cases t <;> rfl

/-- Exchanging the roles of the bases keeps a tree well formed. -/
theorem WF_adjoint : ∀ (t : HBSMatrix R) (l : Nat), WF l t → WF l (adjoint t)
  | leaf r c U V D, _, h => by
      obtain ⟨h1, h2, h3, h4, h5⟩ := h
      exact ⟨h1.symm, h3, h2, h5, h4⟩
  | node r c U V D c0 c1, l, h => by
      obtain ⟨h1, h2, h3, h4, h5, h6, h7, h8⟩ := h
      refine ⟨h1.symm, ?_, ?_, ?_, ?_, fun hl => ?_, WF_adjoint c0 _ h7, WF_adjoint c1 _ h8⟩
      · rw [adjoint_rows, adjoint_rows]; exact h3
      · rw [adjoint_cols, adjoint_cols]; exact h2
      · rw [adjoint_U, adjoint_U]; exact h5
      · rw [adjoint_V, adjoint_V]; exact h4
      · rw [adjoint_U, adjoint_U, adjoint_V, adjoint_V]
        exact ⟨(h6 hl).2, (h6 hl).1⟩

theorem Ubig_adjoint : ∀ t : HBSMatrix R, Ubig (adjoint t) = Vbig t
  | leaf _ _ _ _ _ => rfl
  | node _ _ _ V _ c0 c1 => by
      show mul (blockdiag (Ubig (adjoint c0)) (Ubig (adjoint c1))) V = _
      rw [Ubig_adjoint c0, Ubig_adjoint c1]
      rfl

theorem Vbig_adjoint : ∀ t : HBSMatrix R, Vbig (adjoint t) = Ubig t
  | leaf _ _ _ _ _ => rfl
  | node _ _ U _ _ c0 c1 => by
      show mul (blockdiag (Vbig (adjoint c0)) (Vbig (adjoint c1))) U = _
      rw [Vbig_adjoint c0, Vbig_adjoint c1]
      rfl

theorem ctrans_add (A B : DenseM R) : ctrans (add A B) = add (ctrans A) (ctrans B) := by
  simp only [ctrans, add, DenseM.mk.injEq, true_and]
  funext i j
  exact star_add _ _

theorem ctrans_blockdiag (A B : DenseM R) :
    ctrans (blockdiag A B) = blockdiag (ctrans A) (ctrans B) := by
  simp only [ctrans, blockdiag, DenseM.mk.injEq, true_and]
  funext i j
  by_cases hi : i < A.cols <;> by_cases hj : j < A.rows <;> simp [hi, hj]

theorem blockdiag_same {A A' B B' : DenseM R} (hA : Same A A') (hB : Same B B') :
    Same (blockdiag A B) (blockdiag A' B') := by
  refine ⟨by simp [hA.1, hB.1], by simp [hA.2.1, hB.2.1], fun i j hi hj => ?_⟩
  simp only [blockdiag_rows, blockdiag_cols] at hi hj
  simp only [blockdiag_val, ← hA.1, ← hA.2.1]
  by_cases h1 : i < A.rows <;> by_cases h2 : j < A.cols
  · simp only [h1, h2, if_true]; exact hA.2.2 i j h1 h2
  · simp only [h1, h2, if_true, if_false]
  · simp only [h1, h2, if_true, if_false]
  · simp only [h1, h2, if_false]; exact hB.2.2 _ _ (by omega) (by omega)

/-- The tree with the roles of the bases exchanged stands for the conjugate transpose
of the dense matrix. -/
theorem Dense_adjoint : ∀ (t : HBSMatrix R) (l : Nat), WF l t →
    Same (Dense (adjoint t)) (ctrans (Dense t))
  | leaf _ _ _ _ D, _, _ => Same.refl _
  | node r c U V D c0 c1, l, h => by
      obtain ⟨h1, h2, h3, h4, h5, h6, h7, h8⟩ := h
      have i0 := Dense_adjoint c0 _ h7
      have i1 := Dense_adjoint c1 _ h8
      show Same (add (blockdiag (Dense (adjoint c0)) (Dense (adjoint c1)))
        (mul (mul (blockdiag (Ubig (adjoint c0)) (Ubig (adjoint c1))) (ctrans D))
          (ctrans (blockdiag (Vbig (adjoint c0)) (Vbig (adjoint c1))))))
        (ctrans (add (blockdiag (Dense c0) (Dense c1))
          (mul (mul (blockdiag (Ubig c0) (Ubig c1)) D)
            (ctrans (blockdiag (Vbig c0) (Vbig c1))))))
      rw [Ubig_adjoint, Ubig_adjoint, Vbig_adjoint, Vbig_adjoint, ctrans_add,
        ctrans_blockdiag (Dense c0) (Dense c1),
        ctrans_mul (mul (blockdiag (Ubig c0) (Ubig c1)) D) _
          (by simp only [mul_cols, ctrans_rows, blockdiag_cols, Vbig_cols]; exact h5),
        ctrans_ctrans,
        ctrans_mul (blockdiag (Ubig c0) (Ubig c1)) D
          (by simp only [blockdiag_cols, Ubig_cols]; exact h4.symm),
        ← mul_assoc']
      refine add_congr (blockdiag_same i0 i1) (Same.refl _) ?_ ?_
      · simp only [blockdiag_rows, mul_rows, Vbig_rows c0 _ h7, Vbig_rows c1 _ h8,
          (i0.1), (i1.1), ctrans_rows, Dense_cols c0 _ h7, Dense_cols c1 _ h8]
      · simp only [blockdiag_cols, mul_cols, ctrans_cols, blockdiag_rows,
          Ubig_rows c0 _ h7, Ubig_rows c1 _ h8, (i0.2.1), (i1.2.1),
          Dense_rows c0 _ h7, Dense_rows c1 _ h8]

/-- C16 (dimension check of `apply` and `applyC`).  `apply(b)` faults when `b.rows()`
differs from `cols()`; whenever it returns, `cols() = b.rows()` held and the result has
`rows()` rows and `b.cols()` columns; on a well-formed tree rooted at an internal node
with `cols() = b.rows()` it does return, and the result is `Dense * b`.  Symmetrically
`applyC(b)` faults when `b.rows()` differs from `rows()`; whenever it returns,
`rows() = b.rows()` held and the result has `cols()` rows and `b.cols()` columns; on a
well-formed tree rooted at an internal node with `rows() = b.rows()` it does return, and
the result is `Dense^C * b`. -/
theorem apply_dimension_check (mem : Nat → Nat → R) (t : HBSMatrix R) (b : DenseM R) :
    (t.cols ≠ b.rows → apply mem t b = none) ∧
    (∀ c, apply mem t b = some c → t.cols = b.rows ∧ c.rows = t.rows ∧ c.cols = b.cols) ∧
    (t.isNode = true → WF 0 t → t.cols = b.rows →
      ∃ c, apply mem t b = some c ∧ c.rows = t.rows ∧ c.cols = b.cols ∧
        Same c (mul (Dense t) b)) ∧
    (t.rows ≠ b.rows → applyC mem t b = none) ∧
    (∀ c, applyC mem t b = some c → t.rows = b.rows ∧ c.rows = t.cols ∧ c.cols = b.cols) ∧
    (t.isNode = true → WF 0 t → t.rows = b.rows →
      ∃ c, applyC mem t b = some c ∧ c.rows = t.cols ∧ c.cols = b.cols ∧
        Same c (mul (ctrans (Dense t)) b)) := by
  refine ⟨fun h => by simp only [apply, if_neg h], fun c h => ?_, fun hn hwf hb => ?_,
    fun h => by simp only [applyC, if_neg h], fun c h => ?_, fun hn hwf hb => ?_⟩
  · by_cases hd : t.cols = b.rows
    · simp only [apply, if_pos hd, apply_HBS, Option.bind_eq_bind, Option.bind_eq_some,
        Option.pure_def, Option.some.injEq, Prod.exists] at h
      obtain ⟨w, _, c', w', e, rfl⟩ := h
      obtain ⟨hr, hc, _⟩ := apply_bwd_shape b 0 t _ w c' w' e
      exact ⟨hd, hr, hc⟩
    · simp only [apply, if_neg hd] at h
      exact absurd h (by simp)
  · obtain ⟨w1, c', w2, e1, e2, hs⟩ :=
      apply_fwd_bwd t b (uninit mem t.rows b.cols) 0 hn hwf hb.symm rfl rfl
    obtain ⟨hr, hc, _⟩ := apply_bwd_shape b 0 t _ w1 c' w2 e2
    refine ⟨c', ?_, hr, hc, hs.trans ⟨?_, ?_, fun i j _ _ => ?_⟩⟩
    · simp only [apply, if_pos hb, apply_HBS, e1, e2, Option.bind_eq_bind, Option.some_bind,
        Option.pure_def]
    · show t.rows = (Dense t).rows
      rw [Dense_rows t 0 hwf]
    · rfl
    · simp [add_val, smul_val]
  · by_cases hd : t.rows = b.rows
    · simp only [applyC, if_pos hd, apply_HBS, Option.bind_eq_bind, Option.bind_eq_some,
        Option.pure_def, Option.some.injEq, Prod.exists] at h
      obtain ⟨w, _, c', w', e, rfl⟩ := h
      obtain ⟨hr, hc, _⟩ := apply_bwd_shape b 0 (adjoint t) _ w c' w' e
      exact ⟨hd, hr, hc⟩
    · simp only [applyC, if_neg hd] at h
      exact absurd h (by simp)
  · have hwf' := WF_adjoint t 0 hwf
    obtain ⟨w1, c', w2, e1, e2, hs⟩ :=
      apply_fwd_bwd (adjoint t) b (uninit mem t.cols b.cols) 0
        ((adjoint_isNode t).trans hn) hwf' (hb.symm.trans (adjoint_cols t).symm)
        (adjoint_rows t).symm rfl
    obtain ⟨hr, hc, _⟩ := apply_bwd_shape b 0 (adjoint t) _ w1 c' w2 e2
    refine ⟨c', ?_, hr, hc, hs.trans (Same.trans (B := mul (Dense (adjoint t)) b)
      ⟨?_, ?_, fun i j _ _ => ?_⟩ (mul_congr_left (Dense_adjoint t 0 hwf)))⟩
    · simp only [applyC, if_pos hb, apply_HBS, e1, e2, Option.bind_eq_bind,
        Option.some_bind, Option.pure_def]
    · show t.cols = (Dense (adjoint t)).rows
      rw [Dense_rows _ 0 hwf', adjoint_rows]
    · rfl
    · simp [add_val, smul_val]

/-- C16 at concrete inputs: on the square tree `example2` an operand with two rows is
accepted by `apply` and by `applyC`, which give the 2 x 1 matrices `Dense * b` and
`Dense^C * b`; an operand with three rows faults in both.  On the 1 x 2 leaf
`exRectLeaf` an operand with one row gives `applyC` a result with two rows. -/
theorem apply_dimension_check_witness :
    (∃ c, apply (fun _ _ => 9) example2 (ofRows 2 1 [[1], [2]]) = some c ∧
      c.rows = 2 ∧ c.cols = 1 ∧ Same c (mul (Dense example2) (ofRows 2 1 [[1], [2]]))) ∧
    apply (fun _ _ => 9) example2 (ofRows 3 1 [[1], [2], [3]]) = none ∧
    (∃ c, applyC (fun _ _ => 9) example2 (ofRows 2 1 [[1], [2]]) = some c ∧
      c.rows = 2 ∧ c.cols = 1 ∧
      Same c (mul (ctrans (Dense example2)) (ofRows 2 1 [[1], [2]]))) ∧
    applyC (fun _ _ => 9) example2 (ofRows 3 1 [[1], [2], [3]]) = none ∧
    (applyC (fun _ _ => 9) exRectLeaf (ofRows 1 1 [[2]])).map (fun c => (c.rows, c.cols)) =
      some (2, 1) := by
  have h := apply_dimension_check (fun _ _ => 9) example2 (ofRows 2 1 [[1], [2]])
  have h3 := apply_dimension_check (fun _ _ => 9) example2 (ofRows 3 1 [[1], [2], [3]])
  have hwf : WF 0 example2 :=
    ⟨rfl, rfl, rfl, rfl, rfl, fun h => absurd rfl h, ⟨rfl, rfl, rfl, rfl, rfl⟩,
      ⟨rfl, rfl, rfl, rfl, rfl⟩⟩
  exact ⟨h.2.2.1 rfl hwf rfl, h3.1 (by decide), h.2.2.2.2.2 rfl hwf rfl,
    h3.2.2.2.1 (by decide), by decide⟩

end HBSMatrix

namespace HSSMatrix

variable {K : Type} [LinearOrderedField K] [StarRing K]

open DenseM

end HSSMatrix

end Strumpack
